import Mathlib

/-! # Lock-free LRU cache: an executable model

A shallow embedding of `harris_ptr.hpp` (counted cells, handles, atomic slots) and of
`lru_cache.hpp` (bucket cursor and cache facade).

* A pointer to a `shared_ptr_header<node>` is the index of the cell in the list
  `heap.nodes`; `none` is `nullptr`.
* The C++ type `long` is modelled by `Int`, `size_t` by `Nat`.
* Every operation runs to completion before the next one starts (one thread, no
  spurious failure of a weak compare-exchange). A loop of the source is a recursive
  function over a fuel argument; running out of fuel, or following a pointer that is
  not a cell of the heap, yields `none`. Only the last two sections of the definitions
  leave this: the section on threads takes the slot operations apart into their atomic
  steps and interleaves the steps of several threads, and the section on the traversal
  with a weak compare-exchange lets the compare-exchange at the end of `cursor::remove`
  fail spuriously.
* `KV` cells are kept with their address and content only; their reference counts are
  observed by nothing in the program (the debug counter `leaks` counts nodes).
* `cursor::get()` returns a copy of `current` that lives for one expression while
  `current` itself keeps the cell alive; these balanced temporaries are not modelled,
  except for the copy that `pop_first` returns.
-/

namespace frd

/-! ## harris_ptr.hpp -/

/-- The struct `shared_ptr_header<T>::counter`. -/
structure counter where
  external_counters : Int
  count : Int
deriving DecidableEq, Repr

/-- The class `shared_ptr<T>`: pointer to the header and the handle-local mark. -/
structure shared_ptr where
  header : Option Nat
  mark : Bool
deriving DecidableEq, Repr

/-- The struct `atomic_shared_ptr<T>::counted_ptr`, the content of a slot. -/
structure counted_ptr where
  access_count : Int
  mark : Bool
  ptr : Option Nat
deriving DecidableEq, Repr

/-- The struct `cache::node`: `data` points into the list of `KV` cells. -/
structure node where
  data : shared_ptr
  next : counted_ptr
  time_stamp : Int
deriving DecidableEq, Repr

/-- The struct `shared_ptr_header<node>`. The field `destroyed` is a ghost: it counts
how often `modify_count` ran the destructor and `delete this` on the cell. -/
structure shared_ptr_header where
  storage : node
  count : counter
  destroyed : Nat
deriving DecidableEq, Repr

/-- The memory the pointer operations act on: the node cells, the array
`cache::head_buckets`, and the global debug counter `leaks`. -/
structure heap where
  nodes : List shared_ptr_header
  head_buckets : List counted_ptr
  leaks : Int
deriving DecidableEq, Repr

/-- The address of an `atomic_shared_ptr<node>`: a bucket head or the `next` member
of a node cell. -/
inductive slot_ref where
  | head (b : Nat)
  | next (i : Nat)
deriving DecidableEq, Repr

/-- Read of the atomic member `p` of a slot (`p.load()`). -/
def heap.p (h : heap) : slot_ref → Option counted_ptr
  | .head b => h.head_buckets[b]?
  | .next i => match h.nodes[i]? with
    | none => none
    | some c => some c.storage.next

/-- Write of the atomic member `p` of a slot. -/
def heap.set_p (h : heap) : slot_ref → counted_ptr → Option heap
  | .head b, v => if b < h.head_buckets.length
      then some { h with head_buckets := h.head_buckets.set b v } else none
  | .next i, v => match h.nodes[i]? with
    | none => none
    | some c => some { h with nodes := h.nodes.set i { c with storage := { c.storage with next := v } } }

/-- The call `p.compare_exchange_weak(expected, desired)` on `std::atomic<counted_ptr>`:
the result, the new value of `expected`, the memory. -/
def atomic_compare_exchange (h : heap) (r : slot_ref) (expected desired : counted_ptr) :
    Option (Bool × counted_ptr × heap) :=
  match h.p r with
  | none => none
  | some cur =>
    if cur = expected then
      match h.set_p r desired with
      | none => none
      | some h1 => some (true, expected, h1)
    else some (false, cur, h)

/-- The loop of `shared_ptr_header::modify_count` succeeds on its first pass
(`old` was just read); when both counts are zero afterwards the node is destroyed:
`~node` decrements `leaks` and then destroys the member `next`, whose destructor
`~atomic_shared_ptr` calls `modify_count(-1,0)` on the cell it points to. -/
def modify_count_loop : Nat → heap → Nat → Int → Int → Option heap
  | 0, _, _, _, _ => none
  | fuel + 1, h, i, internal, external =>
    match h.nodes[i]? with
    | none => none
    | some c =>
      let new_count : counter :=
        { external_counters := c.count.external_counters + external,
          count := c.count.count + internal }
      if new_count.count = 0 ∧ new_count.external_counters = 0 then
        let h1 : heap :=
          { h with nodes := h.nodes.set i { c with count := new_count, destroyed := c.destroyed + 1 },
                   leaks := h.leaks - 1 }
        match c.storage.next.ptr with
        | none => some h1
        | some j => modify_count_loop fuel h1 j (-1) 0
      else
        some { h with nodes := h.nodes.set i { c with count := new_count } }

/-- The member `shared_ptr_header::modify_count(internal, external)` of cell `i`. -/
def modify_count (h : heap) (i : Nat) (internal external : Int) : Option heap :=
  modify_count_loop (h.nodes.length + 1) h i internal external

/-- The private constructor `shared_ptr(shared_ptr_header<T>* header_)`. -/
def shared_ptr.from_header (h : heap) (hd : Option Nat) : Option (shared_ptr × heap) :=
  match hd with
  | none => some ({ header := none, mark := false }, h)
  | some i =>
    match modify_count h i 1 0 with
    | none => none
    | some h1 => some ({ header := some i, mark := false }, h1)

/-- The copy constructor `shared_ptr(const shared_ptr& r)`. -/
def shared_ptr.copy (h : heap) (r : shared_ptr) : Option (shared_ptr × heap) :=
  match r.header with
  | none => some (r, h)
  | some i =>
    match modify_count h i 1 0 with
    | none => none
    | some h1 => some (r, h1)

/-- The destructor `~shared_ptr()` (also `reset()`). -/
def shared_ptr.drop (h : heap) (r : shared_ptr) : Option heap :=
  match r.header with
  | none => some h
  | some i => modify_count h i (-1) 0

/-- The null handle `shared_ptr()`. -/
def shared_ptr.null : shared_ptr := { header := none, mark := false }

/-- The conversion `explicit operator bool()`. -/
def shared_ptr.to_bool (r : shared_ptr) : Bool := r.header.isSome

/-- The friend `operator==`: same cell and same mark. -/
def shared_ptr.eq (lhs rhs : shared_ptr) : Bool :=
  decide (lhs.header = rhs.header) && decide (lhs.mark = rhs.mark)

/-- The struct `atomic_shared_ptr::local_access`: the slot and the value read from it. -/
structure local_access where
  p : slot_ref
  val : counted_ptr
deriving DecidableEq, Repr

/-- The `for(;;)` loop of `local_access::acquire`. -/
def local_access.acquire_loop : Nat → heap → slot_ref → counted_ptr → Option (counted_ptr × heap)
  | 0, _, _, _ => none
  | fuel + 1, h, p, val =>
    match atomic_compare_exchange h p val { val with access_count := val.access_count + 1 } with
    | none => none
    | some (true, val1, h1) => some (val1, h1)
    | some (false, val1, h1) => local_access.acquire_loop fuel h1 p val1

/-- The member `local_access::acquire`. -/
def local_access.acquire (h : heap) (g : local_access) : Option (local_access × heap) :=
  match g.val.ptr with
  | none => some (g, h)
  | some _ =>
    match local_access.acquire_loop 2 h g.p g.val with
    | none => none
    | some (val1, h1) =>
      some ({ g with val := { val1 with access_count := val1.access_count + 1 } }, h1)

/-- The constructor `local_access(p_)`. -/
def local_access.create (h : heap) (p : slot_ref) : Option (local_access × heap) :=
  match h.p p with
  | none => none
  | some v => local_access.acquire h { p := p, val := v }

/-- The `do ... while(target.ptr==val.ptr)` loop of `local_access::release`;
returns the final `target`. -/
def local_access.release_loop : Nat → heap → slot_ref → counted_ptr → counted_ptr →
    Option (counted_ptr × heap)
  | 0, _, _, _, _ => none
  | fuel + 1, h, p, val, target =>
    match atomic_compare_exchange h p target
        { target with access_count := target.access_count - 1 } with
    | none => none
    | some (true, target1, h1) => some (target1, h1)
    | some (false, target1, h1) =>
      if target1.ptr = val.ptr then local_access.release_loop fuel h1 p val target1
      else some (target1, h1)

/-- The member `local_access::release` (also the destructor). -/
def local_access.release (h : heap) (g : local_access) : Option heap :=
  match g.val.ptr with
  | none => some h
  | some i =>
    match local_access.release_loop 2 h g.p g.val g.val with
    | none => none
    | some (target, h1) =>
      if target.ptr ≠ g.val.ptr then modify_count h1 i 0 (-1) else some h1

/-- The member `local_access::refresh`. -/
def local_access.refresh (h : heap) (g : local_access) (newval : counted_ptr) :
    Option (local_access × heap) :=
  if newval.ptr = g.val.ptr then some (g, h)
  else
    match local_access.release h g with
    | none => none
    | some h1 => local_access.acquire h1 { g with val := newval }

/-- The member `local_access::get_shared_ptr`: `shared_ptr<T>(val.ptr)`. -/
def local_access.get_shared_ptr (h : heap) (g : local_access) : Option (shared_ptr × heap) :=
  shared_ptr.from_header h g.val.ptr

/-- The member `atomic_shared_ptr::mark`. -/
def atomic_shared_ptr.mark (h : heap) (r : slot_ref) (val : Bool) : Option heap :=
  match h.p r with
  | none => none
  | some loc =>
    match atomic_compare_exchange h r loc
        { access_count := loc.access_count, mark := val, ptr := loc.ptr } with
    | none => none
    | some (_, _, h1) => some h1

/-- The member `atomic_shared_ptr::store`; `newptr` is consumed. -/
def atomic_shared_ptr.store (h : heap) (r : slot_ref) (newptr : shared_ptr) : Option heap :=
  match h.p r with
  | none => none
  | some old =>
    match h.set_p r { access_count := 0, mark := newptr.mark, ptr := newptr.header } with
    | none => none
    | some h1 =>
      match old.ptr with
      | none => some h1
      | some i => modify_count h1 i (-1) old.access_count

/-- The member `atomic_shared_ptr::load`. -/
def atomic_shared_ptr.load (h : heap) (r : slot_ref) : Option (shared_ptr × heap) :=
  match local_access.create h r with
  | none => none
  | some (guard, h1) =>
    match local_access.get_shared_ptr h1 guard with
    | none => none
    | some (res, h2) =>
      match local_access.release h2 guard with
      | none => none
      | some h3 => some (res, h3)

/-- The member `atomic_shared_ptr::exchange`; `newptr` is consumed. -/
def atomic_shared_ptr.exchange (h : heap) (r : slot_ref) (newptr : shared_ptr) :
    Option (shared_ptr × heap) :=
  match h.p r with
  | none => none
  | some old =>
    match h.set_p r { access_count := 0, mark := newptr.mark, ptr := newptr.header } with
    | none => none
    | some h1 =>
      match shared_ptr.from_header h1 old.ptr with
      | none => none
      | some (res, h2) =>
        match old.ptr with
        | none => some (res, h2)
        | some i =>
          match modify_count h2 i (-1) old.access_count with
          | none => none
          | some h3 => some (res, h3)

/-- The assignment `expected = guard.get_shared_ptr()`: the new handle is made first,
then the old content of `expected` is released. -/
def assign_from_guard (h : heap) (guard : local_access) (expected : shared_ptr) :
    Option (shared_ptr × heap) :=
  match local_access.get_shared_ptr h guard with
  | none => none
  | some (e1, h1) =>
    match shared_ptr.drop h1 expected with
    | none => none
    | some h2 => some (e1, h2)

/-- The member `atomic_shared_ptr::compare_exchange_weak(expected, newptr)`: the result,
the new content of `expected`, the memory. The argument `newptr` is passed by value:
the function owns it and destroys it on return (after `clear()` on success). -/
def atomic_shared_ptr.compare_exchange_weak (h : heap) (r : slot_ref)
    (expected newptr : shared_ptr) : Option (Bool × shared_ptr × heap) :=
  match local_access.create h r with
  | none => none
  | some (guard, h1) =>
    if guard.val.ptr ≠ expected.header then
      match assign_from_guard h1 guard expected with
      | none => none
      | some (e1, h2) =>
        match local_access.release h2 guard with
        | none => none
        | some h3 =>
          match shared_ptr.drop h3 newptr with
          | none => none
          | some h4 => some (false, e1, h4)
    else
      match atomic_compare_exchange h1 r guard.val
          { access_count := 0, mark := newptr.mark, ptr := newptr.header } with
      | none => none
      | some (true, oldval, h2) =>
        match (match oldval.ptr with
               | none => some h2
               | some i => modify_count h2 i (-1) oldval.access_count) with
        | none => none
        | some h3 =>
          match local_access.release h3 guard with
          | none => none
          | some h4 => some (true, expected, h4)
      | some (false, oldval, h2) =>
        match local_access.refresh h2 guard oldval with
        | none => none
        | some (guard1, h3) =>
          match assign_from_guard h3 guard1 expected with
          | none => none
          | some (e1, h4) =>
            match local_access.release h4 guard1 with
            | none => none
            | some h5 =>
              match shared_ptr.drop h5 newptr with
              | none => none
              | some h6 => some (false, e1, h6)

/-- The `do ... while(expected==local_expected)` loop of `compare_exchange_strong`;
each pass hands a fresh copy of `newptr` to `compare_exchange_weak`. -/
def atomic_shared_ptr.compare_exchange_strong_loop : Nat → heap → slot_ref →
    shared_ptr → shared_ptr → shared_ptr → Option (Bool × shared_ptr × heap)
  | 0, _, _, _, _, _ => none
  | fuel + 1, h, r, local_expected, expected, newptr =>
    match shared_ptr.copy h newptr with
    | none => none
    | some (arg, h1) =>
      match atomic_shared_ptr.compare_exchange_weak h1 r expected arg with
      | none => none
      | some (true, e1, h2) => some (true, e1, h2)
      | some (false, e1, h2) =>
        if shared_ptr.eq e1 local_expected then
          atomic_shared_ptr.compare_exchange_strong_loop fuel h2 r local_expected e1 newptr
        else some (false, e1, h2)

/-- The member `atomic_shared_ptr::compare_exchange_strong(expected, newptr)`;
`newptr` is owned by the function and destroyed on return, as is `local_expected`. -/
def atomic_shared_ptr.compare_exchange_strong (h : heap) (r : slot_ref)
    (expected newptr : shared_ptr) : Option (Bool × shared_ptr × heap) :=
  match shared_ptr.copy h expected with
  | none => none
  | some (local_expected, h1) =>
    match atomic_shared_ptr.compare_exchange_strong_loop 2 h1 r local_expected expected newptr with
    | none => none
    | some (b, e1, h2) =>
      match shared_ptr.drop h2 local_expected with
      | none => none
      | some h3 =>
        match shared_ptr.drop h3 newptr with
        | none => none
        | some h4 => some (b, e1, h4)

/-- The destructor `~atomic_shared_ptr()`. -/
def atomic_shared_ptr.destroy (h : heap) (r : slot_ref) : Option heap :=
  match h.p r with
  | none => none
  | some old =>
    match old.ptr with
    | none => some h
    | some i => modify_count h i (-1) 0

/-! ## lru_cache.hpp -/

/-- The struct `cache::KV`. -/
structure KV (K V : Type) where
  k : K
  v : V

/-- The class `cache::cursor`. -/
structure cursor where
  owner_holder : shared_ptr
  owner : slot_ref
  current : shared_ptr
  local_time : Int
deriving DecidableEq, Repr

/-- The read `p->time_stamp` through a non-null handle. -/
def heap.time_stamp (h : heap) (i : Nat) : Option Int :=
  match h.nodes[i]? with
  | none => none
  | some c => some c.storage.time_stamp

/-- The read `p->data` through a non-null handle. -/
def heap.data (h : heap) (i : Nat) : Option shared_ptr :=
  match h.nodes[i]? with
  | none => none
  | some c => some c.storage.data

/-- The `while(next)` loop of `cursor::remove`: skips successors whose loaded `next`
handle carries a mark; returns the final `next`. -/
def cursor.remove_loop : Nat → heap → shared_ptr → Option (shared_ptr × heap)
  | 0, _, _ => none
  | fuel + 1, h, next =>
    match next.header with
    | none => some (next, h)
    | some j =>
      match atomic_shared_ptr.load h (.next j) with
      | none => none
      | some (next_next_ptr, h1) =>
        if next_next_ptr.mark then
          -- next = next_next_ptr; then next_next_ptr goes out of scope
          match shared_ptr.copy h1 next_next_ptr with
          | none => none
          | some (next1, h2) =>
            match shared_ptr.drop h2 next with
            | none => none
            | some h3 =>
              match shared_ptr.drop h3 next_next_ptr with
              | none => none
              | some h4 => cursor.remove_loop fuel h4 next1
        else
          match shared_ptr.drop h1 next_next_ptr with
          | none => none
          | some h2 => some (next, h2)

/-- The member `cursor::remove`; the cursor itself is not changed. -/
def cursor.remove (h : heap) (c : cursor) : Option (Bool × heap) :=
  match c.current.header with
  | none => some (false, h)
  | some i =>
    match atomic_shared_ptr.mark h (.next i) true with
    | none => none
    | some h1 =>
      match atomic_shared_ptr.load h1 c.owner with
      | none => none
      | some (curr, h2) =>
        if curr.mark || !(shared_ptr.eq curr c.current) then
          match shared_ptr.drop h2 curr with
          | none => none
          | some h3 => some (false, h3)
        else
          match curr.header with
          | none => none
          | some ci =>
            match atomic_shared_ptr.load h2 (.next ci) with
            | none => none
            | some (next0, h3) =>
              match cursor.remove_loop (h3.nodes.length + 1) h3 next0 with
              | none => none
              | some (next, h4) =>
                match shared_ptr.copy h4 next with
                | none => none
                | some (arg, h5) =>
                  match atomic_shared_ptr.compare_exchange_weak h5 c.owner curr arg with
                  | none => none
                  | some (b, curr1, h6) =>
                    match shared_ptr.drop h6 next with
                    | none => none
                    | some h7 =>
                      match shared_ptr.drop h7 curr1 with
                      | none => none
                      | some h8 => some (b, h8)

/-- The test `current.get_mark() or current ? (current->time_stamp+node_life < local_time) : false`
of `cursor::go_next`. -/
def cursor.stale (node_life : Int) (h : heap) (c : cursor) : Option Bool :=
  if c.current.mark then some true
  else
    match c.current.header with
    | none => some false
    | some i =>
      match h.time_stamp i with
      | none => none
      | some ts => some (decide (ts + node_life < c.local_time))

/-- The `while(current)` loop of `cursor::go_next`. -/
def cursor.go_next_loop (node_life : Int) : Nat → heap → cursor → Option (cursor × heap)
  | 0, _, _ => none
  | fuel + 1, h, c =>
    match c.current.header with
    | none => some (c, h)
    | some i =>
      -- owner_holder = current;
      match shared_ptr.copy h c.current with
      | none => none
      | some (holder, h1) =>
        match shared_ptr.drop h1 c.owner_holder with
        | none => none
        | some h2 =>
          -- owner = &owner_holder->next; current = owner->load();
          match atomic_shared_ptr.load h2 (.next i) with
          | none => none
          | some (cur, h3) =>
            match shared_ptr.drop h3 c.current with
            | none => none
            | some h4 =>
              let c1 : cursor :=
                { owner_holder := holder, owner := .next i, current := cur,
                  local_time := c.local_time }
              match cursor.stale node_life h4 c1 with
              | none => none
              | some true =>
                match cursor.remove h4 c1 with
                | none => none
                | some (_, h5) => cursor.go_next_loop node_life fuel h5 c1
              | some false => some (c1, h4)

/-- The member `cursor::go_next`: returns `!!current`. -/
def cursor.go_next (node_life : Int) (h : heap) (c : cursor) : Option (Bool × cursor × heap) :=
  match cursor.go_next_loop node_life (h.nodes.length + 1) h c with
  | none => none
  | some (c1, h1) => some (c1.current.to_bool, c1, h1)

/-- The constructor `cursor(head_, local)`. -/
def cursor.create (node_life : Int) (h : heap) (head_ : slot_ref) (local_time : Int) :
    Option (cursor × heap) :=
  match atomic_shared_ptr.load h head_ with
  | none => none
  | some (cur, h1) =>
    let c : cursor :=
      { owner_holder := shared_ptr.null, owner := head_, current := cur, local_time := local_time }
    if c.current.mark then
      match cursor.go_next node_life h1 c with
      | none => none
      | some (_, c1, h2) => some (c1, h2)
    else some (c, h1)

/-- The destructor of a cursor: `current`, then `owner_holder`. -/
def cursor.destroy (h : heap) (c : cursor) : Option heap :=
  match shared_ptr.drop h c.current with
  | none => none
  | some h1 => shared_ptr.drop h1 c.owner_holder

/-- The `for(;;)` loop of `cursor::push_end`. -/
def cursor.push_end_loop : Nat → heap → cursor → shared_ptr → Option (Bool × cursor × heap)
  | 0, _, _, _ => none
  | fuel + 1, h, c, val =>
    if c.current.mark then some (false, c, h)
    else
      match shared_ptr.copy h val with
      | none => none
      | some (arg, h1) =>
        match atomic_shared_ptr.compare_exchange_strong h1 c.owner c.current arg with
        | none => none
        | some (true, cur, h2) => some (true, { c with current := cur }, h2)
        | some (false, cur, h2) => cursor.push_end_loop fuel h2 { c with current := cur } val

/-- The member `cursor::push_end(val)`; `val` is owned by the function and destroyed on
return. -/
def cursor.push_end (h : heap) (c : cursor) (val : shared_ptr) : Option (Bool × cursor × heap) :=
  match cursor.push_end_loop 3 h c val with
  | none => none
  | some (b, c1, h1) =>
    match shared_ptr.drop h1 val with
    | none => none
    | some h2 => some (b, c1, h2)

/-- The expression `new shared_ptr_header<node>(sp, local_time)`: a new cell with zero
counts whose `node` constructor ran (`leaks++`); its address is the old `nodes.length`. -/
def heap.new_node (h : heap) (sp : shared_ptr) (local_time : Int) : heap :=
  { h with
    nodes := h.nodes ++ [{
      storage := { data := sp, next := { access_count := 0, mark := false, ptr := none },
                   time_stamp := local_time },
      count := { external_counters := 0, count := 0 },
      destroyed := 0 }],
    leaks := h.leaks + 1 }

/-- The call `frd::make_shared<node>(sp, local_time)`: the new cell, then the handle
constructor `modify_count(1,0)`. -/
def make_shared_node (h : heap) (sp : shared_ptr) (local_time : Int) : Option (shared_ptr × heap) :=
  shared_ptr.from_header (h.new_node sp local_time) (some h.nodes.length)

/-- The loop `while(c.go_next());`. -/
def cursor.go_end_loop (node_life : Int) : Nat → heap → cursor → Option (cursor × heap)
  | 0, _, _ => none
  | fuel + 1, h, c =>
    match cursor.go_next node_life h c with
    | none => none
    | some (true, c1, h1) => cursor.go_end_loop node_life fuel h1 c1
    | some (false, c1, h1) => some (c1, h1)

/-- The `for(;;)` loop of `cache::push_end`. -/
def cache.push_end_loop (node_life : Int) : Nat → heap → shared_ptr → Nat → Int → Option heap
  | 0, _, _, _, _ => none
  | fuel + 1, h, n, bucket, local_time =>
    match cursor.create node_life h (.head bucket) local_time with
    | none => none
    | some (c, h1) =>
      match cursor.go_end_loop node_life (h1.nodes.length + 1) h1 c with
      | none => none
      | some (c1, h2) =>
        match shared_ptr.copy h2 n with
        | none => none
        | some (val, h3) =>
          match cursor.push_end h3 c1 val with
          | none => none
          | some (b, c2, h4) =>
            match cursor.destroy h4 c2 with
            | none => none
            | some h5 =>
              if b then some h5
              else cache.push_end_loop node_life fuel h5 n bucket local_time

/-- The private member `cache::push_end(sp, bucket, local_time)`: returns the handle `n`. -/
def cache.push_end (node_life : Int) (h : heap) (sp : shared_ptr) (bucket : Nat)
    (local_time : Int) : Option (shared_ptr × heap) :=
  match make_shared_node h sp local_time with
  | none => none
  | some (n, h1) =>
    match cache.push_end_loop node_life 2 h1 n bucket local_time with
    | none => none
    | some h2 => some (n, h2)

/-- The loop `while(c.get() and c.get()->data != sp) {c.go_next();}` of `cache::pop_first`. -/
def cache.pop_first_loop (node_life : Int) : Nat → heap → cursor → shared_ptr →
    Option (cursor × heap)
  | 0, _, _, _ => none
  | fuel + 1, h, c, sp =>
    match c.current.header with
    | none => some (c, h)
    | some i =>
      match h.data i with
      | none => none
      | some d =>
        if !(shared_ptr.eq d sp) then
          match cursor.go_next node_life h c with
          | none => none
          | some (_, c1, h1) => cache.pop_first_loop node_life fuel h1 c1 sp
        else some (c, h)

/-- The private member `cache::pop_first(sp, bucket, local_time)`: returns `c.get()`. -/
def cache.pop_first (node_life : Int) (h : heap) (sp : shared_ptr) (bucket : Nat)
    (local_time : Int) : Option (shared_ptr × heap) :=
  match cursor.create node_life h (.head bucket) local_time with
  | none => none
  | some (c, h1) =>
    match cache.pop_first_loop node_life (h1.nodes.length + 1) h1 c sp with
    | none => none
    | some (c1, h2) =>
      match cursor.remove h2 c1 with
      | none => none
      | some (_, h3) =>
        match shared_ptr.copy h3 c1.current with
        | none => none
        | some (res, h4) =>
          match cursor.destroy h4 c1 with
          | none => none
          | some h5 => some (res, h5)

/-- The state of a `cache` object: the memory, the `KV` cells (address = index), the
atomic member `time`, and a ghost log `evals` of the arguments `fnc` was called with
(oldest first). -/
structure cache (K V : Type) where
  mem : heap
  kvs : List (KV K V)
  time : Int
  evals : List K

/-- The constructor `cache(func, hash)`: `time(0)` and every bucket head null. -/
def cache.create (K V : Type) (buckets : Nat) : cache K V :=
  { mem := { nodes := [],
             head_buckets := List.replicate buckets { access_count := 0, mark := false, ptr := none },
             leaks := 0 },
    kvs := [], time := 0, evals := [] }

/-- What the lookup loop of `operator()` ends with. -/
inductive lookup_result where
  | hit (c : cursor) (i : Nat) (d : shared_ptr)
  | miss (c : cursor)
deriving DecidableEq, Repr

/-- The loop `while(c.get())` of `cache::operator()`, up to the point where a node with
`c.get()->data->k == data` is found (`hit`) or `c.get()` is null (`miss`). -/
def cache.lookup_loop {K V : Type} [DecidableEq K] (node_life : Int) (kvs : List (KV K V))
    (data : K) : Nat → heap → cursor → Option (lookup_result × heap)
  | 0, _, _ => none
  | fuel + 1, h, c =>
    match c.current.header with
    | none => some (.miss c, h)
    | some i =>
      match h.data i with
      | none => none
      | some d =>
        match d.header with
        | none => none
        | some a =>
          match kvs[a]? with
          | none => none
          | some kv =>
            if kv.k = data then some (.hit c i d, h)
            else
              match cursor.go_next node_life h c with
              | none => none
              | some (_, c1, h1) => cache.lookup_loop node_life kvs data fuel h1 c1

/-- The member `V cache::operator()(K const& data)`. -/
def cache.call {K V : Type} [DecidableEq K] (fnc : K → V) (hsh : K → Nat) (buckets : Nat)
    (node_life : Int) (s : cache K V) (data : K) : Option (V × cache K V) :=
  let local_time := s.time
  let s0 : cache K V := { s with time := s.time + 1 }
  let bucket := hsh data % buckets
  match cursor.create node_life s0.mem (.head bucket) local_time with
  | none => none
  | some (c0, h1) =>
    match cache.lookup_loop node_life s0.kvs data (h1.nodes.length + 1) h1 c0 with
    | none => none
    | some (.hit c _ d, h2) =>
      -- auto node = push_end(c.get()->data, bucket, local_time);
      match cache.push_end node_life h2 d bucket local_time with
      | none => none
      | some (nd, h3) =>
        match nd.header with
        | none => none
        | some ni =>
          match h3.data ni with
          | none => none
          | some nd_data =>
            -- pop_first(node->data, bucket, local_time); the returned handle is dropped
            match cache.pop_first node_life h3 nd_data bucket local_time with
            | none => none
            | some (tmp, h4) =>
              match shared_ptr.drop h4 tmp with
              | none => none
              | some h5 =>
                -- return c.get()->data->v;
                match c.current.header with
                | none => none
                | some ci =>
                  match h5.data ci with
                  | none => none
                  | some cd =>
                    match cd.header with
                    | none => none
                    | some a =>
                      match s0.kvs[a]? with
                      | none => none
                      | some kv =>
                        match shared_ptr.drop h5 nd with
                        | none => none
                        | some h6 =>
                          match cursor.destroy h6 c with
                          | none => none
                          | some h7 => some (kv.v, { s0 with mem := h7 })
    | some (.miss c, h2) =>
      let out := fnc data
      let kvr : KV K V := { k := data, v := out }
      let sp : shared_ptr := { header := some s0.kvs.length, mark := false }
      match cache.push_end node_life h2 sp bucket local_time with
      | none => none
      | some (tmp, h3) =>
        match shared_ptr.drop h3 tmp with
        | none => none
        | some h4 =>
          match cursor.destroy h4 c with
          | none => none
          | some h5 =>
            some (out, { s0 with mem := h5, kvs := s0.kvs ++ [kvr], evals := s0.evals ++ [data] })

/-- A sequence of calls, one after the other: the values returned and the final state. -/
def cache.run {K V : Type} [DecidableEq K] (fnc : K → V) (hsh : K → Nat) (buckets : Nat)
    (node_life : Int) : cache K V → List K → Option (List V × cache K V)
  | s, [] => some ([], s)
  | s, k :: ks =>
    match cache.call fnc hsh buckets node_life s k with
    | none => none
    | some (v, s1) =>
      match cache.run fnc hsh buckets node_life s1 ks with
      | none => none
      | some (vs, s2) => some (v :: vs, s2)

/-- The destruction of the array `head_buckets`, last element first: the first `n`
heads are destroyed in the order `n-1, ..., 0`. -/
def destroy_heads : Nat → heap → Option heap
  | 0, h => some h
  | n + 1, h =>
    match atomic_shared_ptr.destroy h (.head n) with
    | none => none
    | some h1 => destroy_heads n h1

/-- The implicit destructor `~cache()`. -/
def cache.destroy {K V : Type} (s : cache K V) : Option heap :=
  destroy_heads s.mem.head_buckets.length s.mem

/-! ## The list structure of the memory, without the counters

The proofs below separate what the pointer operations do to the reference counts from
what they do to the linked lists. `heap.shape` forgets the counts (`count`,
`access_count`, `destroyed`, `leaks`); the functions on `shape` below say what each
operation of the source does to the lists, and the refinement theorems connect them to
the embedding above. -/

/-- The view of a node cell without counters: `data`, the pointer and the mark of the
slot `next`, and `time_stamp`. -/
structure snode where
  data : shared_ptr
  next : Option Nat
  mark : Bool
  time_stamp : Int
deriving DecidableEq, Repr

/-- The view of the memory without counters. -/
structure shape where
  nodes : List snode
  heads : List (Option Nat × Bool)
deriving DecidableEq, Repr

/-- Pointer and mark of a slot. -/
def counted_ptr.view (c : counted_ptr) : Option Nat × Bool := (c.ptr, c.mark)

/-- The cell without its counters. -/
def shared_ptr_header.view (c : shared_ptr_header) : snode :=
  { data := c.storage.data, next := c.storage.next.ptr, mark := c.storage.next.mark,
    time_stamp := c.storage.time_stamp }

/-- The memory without its counters. -/
def heap.shape (h : heap) : shape :=
  { nodes := h.nodes.map shared_ptr_header.view, heads := h.head_buckets.map counted_ptr.view }

/-- Pointer and mark held by a slot, `(none, false)` when the slot does not exist. -/
def shape.slot (sh : shape) : slot_ref → Option Nat × Bool
  | .head b => (sh.heads[b]?).getD (none, false)
  | .next i => match sh.nodes[i]? with
    | none => (none, false)
    | some n => (n.next, n.mark)

/-- The pointer held by a slot. -/
def shape.ptr (sh : shape) (r : slot_ref) : Option Nat := (sh.slot r).1

/-- Overwrites pointer and mark of a slot. -/
def shape.set_slot (sh : shape) : slot_ref → Option Nat × Bool → shape
  | .head b, v => { sh with heads := sh.heads.set b v }
  | .next i, v => match sh.nodes[i]? with
    | none => sh
    | some n => { sh with nodes := sh.nodes.set i { n with next := v.1, mark := v.2 } }

/-- A slot of the memory: an existing bucket head or the `next` member of a cell. -/
def shape.valid_slot (sh : shape) : slot_ref → Prop
  | .head b => b < sh.heads.length
  | .next i => i < sh.nodes.length

/-- A handle that is null or points to a cell of the memory. -/
def shape.valid_ptr (sh : shape) (p : Option Nat) : Prop :=
  ∀ i, p = some i → i < sh.nodes.length

/-- Every pointer stored in the memory is below `m`, and the `next` pointer of a cell
points to a cell allocated later (so the lists are acyclic). -/
structure shape.okb (sh : shape) (m : Nat) : Prop where
  next_lt : ∀ (i : Nat) (n : snode), sh.nodes[i]? = some n →
    ∀ j, n.next = some j → i < j ∧ j < m
  head_lt : ∀ (b : Nat) (v : Option Nat × Bool), sh.heads[b]? = some v →
    ∀ j, v.1 = some j → j < m

/-- Every pointer stored in the memory points to a cell, and the lists are acyclic. -/
abbrev shape.ok (sh : shape) : Prop := sh.okb sh.nodes.length

/-- The cursor refers to an existing slot and to cells below `m`. -/
structure cursor.validb (m : Nat) (sh : shape) (c : cursor) : Prop where
  owner_ok : match c.owner with
    | .head b => b < sh.heads.length
    | .next k => k < m
  current_lt : ∀ i, c.current.header = some i → i < m
  holder_lt : ∀ i, c.owner_holder.header = some i → i < m
  mark_false : c.current.mark = false

/-- What `atomic_shared_ptr::mark(val)` does to the lists. -/
def shape.set_mark (sh : shape) (r : slot_ref) (val : Bool) : shape :=
  sh.set_slot r (sh.ptr r, val)

/-- What `cursor::remove` does to the lists. -/
def shape.remove (sh : shape) (c : cursor) : Bool × shape :=
  match c.current.header with
  | none => (false, sh)
  | some i =>
    let sh1 := sh.set_mark (.next i) true
    if sh1.ptr c.owner = some i ∧ c.current.mark = false then
      (true, sh1.set_slot c.owner (sh1.ptr (.next i), false))
    else (false, sh1)

/-- The test of `cursor::go_next` on the lists. -/
def shape.stale (node_life : Int) (sh : shape) (c : cursor) : Bool :=
  c.current.mark ||
    match c.current.header with
    | none => false
    | some i => match sh.nodes[i]? with
      | none => false
      | some n => decide (n.time_stamp + node_life < c.local_time)

/-- The cursor after the statements `owner_holder = current; owner = &owner_holder->next;
current = owner->load();` of `cursor::go_next`, for `current` pointing to cell `i`. -/
def shape.advance (sh : shape) (c : cursor) (i : Nat) : cursor :=
  { owner_holder := c.current, owner := .next i,
    current := { header := sh.ptr (.next i), mark := false },
    local_time := c.local_time }

/-- What the loop of `cursor::go_next` does to the cursor and the lists. -/
def shape.go_next_loop (node_life : Int) : Nat → shape → cursor → cursor × shape
  | 0, sh, c => (c, sh)
  | fuel + 1, sh, c =>
    match c.current.header with
    | none => (c, sh)
    | some i =>
      if shape.stale node_life sh (sh.advance c i) then
        shape.go_next_loop node_life fuel (sh.remove (sh.advance c i)).2 (sh.advance c i)
      else (sh.advance c i, sh)

/-- What `cursor::go_next` does to the cursor and the lists. -/
def shape.go_next (node_life : Int) (sh : shape) (c : cursor) : cursor × shape :=
  shape.go_next_loop node_life (sh.nodes.length + 1) sh c

/-- The cursor built by `cursor(head_, local)`. -/
def shape.cursor_create (sh : shape) (head_ : slot_ref) (local_time : Int) : cursor :=
  { owner_holder := shared_ptr.null, owner := head_,
    current := { header := sh.ptr head_, mark := false }, local_time := local_time }

/-- What `cursor::push_end(val)` does for a cursor whose `current` carries no mark: the
slot `owner` ends up holding `val`, whatever it held before. -/
def shape.cursor_push_end (sh : shape) (c : cursor) (val : shared_ptr) : cursor × shape :=
  ({ c with current := if sh.ptr c.owner = c.current.header then c.current
                       else { header := sh.ptr c.owner, mark := false } },
   sh.set_slot c.owner (val.header, val.mark))

/-- What the loop `while(c.go_next());` does. -/
def shape.go_end_loop (node_life : Int) : Nat → shape → cursor → cursor × shape
  | 0, sh, c => (c, sh)
  | fuel + 1, sh, c =>
    let r := shape.go_next node_life sh c
    if r.1.current.to_bool then shape.go_end_loop node_life fuel r.2 r.1 else r

/-- What `make_shared<node>(sp, local_time)` does to the lists. -/
def shape.alloc (sh : shape) (sp : shared_ptr) (local_time : Int) : shape :=
  { sh with nodes := sh.nodes ++ [{ data := sp, next := none, mark := false, time_stamp := local_time }] }

/-- What `cache::push_end(sp, bucket, local_time)` does to the lists. -/
def shape.push_end (node_life : Int) (sh : shape) (sp : shared_ptr) (bucket : Nat)
    (local_time : Int) : shape :=
  let sh1 := sh.alloc sp local_time
  let c := sh1.cursor_create (.head bucket) local_time
  let r := shape.go_end_loop node_life (sh1.nodes.length + 1) sh1 c
  (r.2.cursor_push_end r.1 { header := some sh.nodes.length, mark := false }).2

/-- What the loop of `cache::pop_first` does. -/
def shape.pop_first_loop (node_life : Int) : Nat → shape → cursor → shared_ptr → cursor × shape
  | 0, sh, c, _ => (c, sh)
  | fuel + 1, sh, c, sp =>
    match c.current.header with
    | none => (c, sh)
    | some i =>
      match sh.nodes[i]? with
      | none => (c, sh)
      | some n =>
        if !(shared_ptr.eq n.data sp) then
          let r := shape.go_next node_life sh c
          shape.pop_first_loop node_life fuel r.2 r.1 sp
        else (c, sh)

/-- What `cache::pop_first(sp, bucket, local_time)` does to the lists. -/
def shape.pop_first (node_life : Int) (sh : shape) (sp : shared_ptr) (bucket : Nat)
    (local_time : Int) : shape :=
  let c := sh.cursor_create (.head bucket) local_time
  let r := shape.pop_first_loop node_life (sh.nodes.length + 1) sh c sp
  (r.2.remove r.1).2

/-- The key stored in the `KV` cell a handle points to. -/
def key_of {K V : Type} (kvs : List (KV K V)) (d : shared_ptr) : Option K :=
  match d.header with
  | none => none
  | some a => match kvs[a]? with
    | none => none
    | some kv => some kv.k

/-- What the lookup loop of `operator()` does: `some i` when it stops at cell `i` whose
key is `data`, `none` when it runs off the end. -/
def shape.lookup_loop {K V : Type} [DecidableEq K] (node_life : Int) (kvs : List (KV K V))
    (data : K) : Nat → shape → cursor → Option Nat × cursor × shape
  | 0, sh, c => (none, c, sh)
  | fuel + 1, sh, c =>
    match c.current.header with
    | none => (none, c, sh)
    | some i =>
      match sh.nodes[i]? with
      | none => (none, c, sh)
      | some n =>
        if key_of kvs n.data = some data then (some i, c, sh)
        else
          let r := shape.go_next node_life sh c
          shape.lookup_loop node_life kvs data fuel r.2 r.1

/-- What `operator()(data)` does to the lists: the cell the lookup stopped at (`none` for
a miss) and the lists after the call. -/
def shape.call {K V : Type} [DecidableEq K] (hsh : K → Nat) (buckets : Nat) (node_life : Int)
    (kvs : List (KV K V)) (time : Int) (sh : shape) (data : K) : Option Nat × shape :=
  let bucket := hsh data % buckets
  let c0 := sh.cursor_create (.head bucket) time
  let r := shape.lookup_loop node_life kvs data (sh.nodes.length + 1) sh c0
  match r.1 with
  | some i =>
    match r.2.2.nodes[i]? with
    | none => (some i, r.2.2)
    | some n =>
      let sh3 := shape.push_end node_life r.2.2 n.data bucket time
      (some i, shape.pop_first node_life sh3 n.data bucket time)
  | none =>
    (none, shape.push_end node_life r.2.2 { header := some kvs.length, mark := false } bucket time)

/-- The immutable part of the cells: `data` and `time_stamp` of every cell, by address. -/
def shape.payload (sh : shape) : List (shared_ptr × Int) :=
  sh.nodes.map (fun n => (n.data, n.time_stamp))

/-- The `data` handle of cell `i` (the null handle when there is no such cell). -/
def shape.data (sh : shape) (i : Nat) : shared_ptr :=
  match sh.nodes[i]? with
  | none => shared_ptr.null
  | some n => n.data

/-- The result of the lookup loop of the source that corresponds to the result of
`shape.lookup_loop`. -/
def shape.to_lookup_result (r : Option Nat × cursor × shape) : lookup_result :=
  match r.1 with
  | some i => .hit r.2.1 i (r.2.2.data i)
  | none => .miss r.2.1

/-- Every cell's `data` is an unmarked handle to a `KV` cell that holds a key together
with the value of `fnc` at that key. -/
def payload_ok {K V : Type} (fnc : K → V) (kvs : List (KV K V))
    (pl : List (shared_ptr × Int)) : Prop :=
  ∀ p ∈ pl, ∃ a kv, p.1 = { header := some a, mark := false } ∧ kvs[a]? = some kv ∧
    kv.v = fnc kv.k

/-- The invariant of a cache between calls: the lists are well formed, there are
`buckets` heads, and every cell's data is a `KV` cell that holds a value of `fnc`. -/
structure cache.inv {K V : Type} (fnc : K → V) (buckets : Nat) (s : cache K V) : Prop where
  ok : s.mem.shape.ok
  heads : s.mem.shape.heads.length = buckets
  pl : payload_ok fnc s.kvs s.mem.shape.payload

/-- The addresses of the cells met when following `next` pointers from `p`, at most
`fuel` of them. -/
def shape.chain : Nat → shape → Option Nat → List Nat
  | 0, _, _ => []
  | _ + 1, _, none => []
  | fuel + 1, sh, some i => i :: shape.chain fuel sh (sh.ptr (.next i))

/-- The cells reachable from the head of bucket `b`, in list order: address and content
(data handle, successor, mark of the `next` slot, time stamp). -/
def shape.bucket (sh : shape) (b : Nat) : List (Nat × snode) :=
  (shape.chain sh.nodes.length sh (sh.ptr (.head b))).filterMap
    (fun i => (sh.nodes[i]?).map (fun n => (i, n)))

/-- The bucket the key of a `KV` handle hashes to (`0` for a handle that points to no
`KV` cell). -/
def bucket_of {K V : Type} (hsh : K → Nat) (buckets : Nat) (kvs : List (KV K V))
    (d : shared_ptr) : Nat :=
  match key_of kvs d with
  | none => 0
  | some k => hsh k % buckets

/-- The colour of the cells a slot belongs to: `b` for the head of bucket `b`, the colour
of the cell for a `next` slot. -/
def shape.slot_col (col : shared_ptr → Nat) (sh : shape) : slot_ref → Nat
  | .head b => b
  | .next i => col (sh.data i)

/-- Every list holds cells of one colour only, where the colour of a cell is a function
`col` of its data handle, and the list of head `b` holds cells of colour `b`: the cell a
slot points to has the colour of the slot. -/
def shape.colored (col : shared_ptr → Nat) (sh : shape) : Prop :=
  ∀ (r : slot_ref) (j : Nat), sh.ptr r = some j → col (sh.data j) = sh.slot_col col r

/-- The cursor works in the list of colour `b`. -/
structure cursor.in_bucket (col : shared_ptr → Nat) (b : Nat) (sh : shape) (c : cursor) :
    Prop where
  owner_col : sh.slot_col col c.owner = b
  current_col : ∀ i, c.current.header = some i → col (sh.data i) = b

/-- The cells of another colour than `b` and the heads of the other buckets are the same
in `sh1` as in `sh`. -/
structure shape.frame (col : shared_ptr → Nat) (b : Nat) (sh sh1 : shape) : Prop where
  nodes_eq : ∀ (i : Nat) (n : snode), sh.nodes[i]? = some n → col n.data ≠ b →
    sh1.nodes[i]? = some n
  heads_eq : ∀ (b1 : Nat), b1 ≠ b → sh1.heads[b1]? = sh.heads[b1]?

/-! ## Scenarios on a memory with one slot -/

/-- A memory with one empty slot (bucket head 0) and no cell. -/
def one_slot : heap :=
  { nodes := [], head_buckets := [{ access_count := 0, mark := false, ptr := none }], leaks := 0 }

/-- The statements `h = make_shared<node>(...); slot.store(h); r = slot.load();` on a
memory with one slot (`store` takes its argument by value: a copy of `h` is made and
consumed): the handle `h`, the handle `r` that `load` returns, and `r == h`. -/
def store_then_load : Option (shared_ptr × shared_ptr × Bool) :=
  match make_shared_node one_slot shared_ptr.null 0 with
  | none => none
  | some (n, h1) =>
    match shared_ptr.copy h1 n with
    | none => none
    | some (n1, h2) =>
      match atomic_shared_ptr.store h2 (.head 0) n1 with
      | none => none
      | some h3 =>
        match atomic_shared_ptr.load h3 (.head 0) with
        | none => none
        | some (r, _) => some (n, r, shared_ptr.eq r n)

/-- The statements `h = make_shared<node>(...); slot.store(h); slot.mark(true);
r = slot.load();` on a memory with one slot: the slot after `mark`, and the handle `r`
that `load` returns. -/
def mark_then_load : Option (counted_ptr × shared_ptr) :=
  match make_shared_node one_slot shared_ptr.null 0 with
  | none => none
  | some (n, h1) =>
    match shared_ptr.copy h1 n with
    | none => none
    | some (n1, h2) =>
      match atomic_shared_ptr.store h2 (.head 0) n1 with
      | none => none
      | some h3 =>
        match atomic_shared_ptr.mark h3 (.head 0) true with
        | none => none
        | some h4 =>
          match atomic_shared_ptr.load h4 (.head 0) with
          | none => none
          | some (r, h5) =>
            match h5.p (.head 0) with
            | none => none
            | some v => some (v, r)

/-- The statements `h = make_shared<node>(...); slot.store(copy of h);
slot.compare_exchange_weak(h, copy of h); drop h; destroy slot` on a memory with one slot:
the result of the compare-exchange, the slot after it, and the cell at the end. -/
def same_cell_exchange : Option (Bool × counted_ptr × shared_ptr_header) :=
  match make_shared_node one_slot shared_ptr.null 0 with
  | none => none
  | some (n, h1) =>
    match shared_ptr.copy h1 n with
    | none => none
    | some (n1, h2) =>
      match atomic_shared_ptr.store h2 (.head 0) n1 with
      | none => none
      | some h3 =>
        match shared_ptr.copy h3 n with
        | none => none
        | some (n2, h4) =>
          match atomic_shared_ptr.compare_exchange_weak h4 (.head 0) n n2 with
          | none => none
          | some (b, e, h5) =>
            match shared_ptr.drop h5 e with
            | none => none
            | some h6 =>
              match atomic_shared_ptr.destroy h6 (.head 0) with
              | none => none
              | some h7 =>
                match h5.p (.head 0), h7.nodes[0]? with
                | some p, some c => some (b, p, c)
                | _, _ => none


/-- A traversal over a run of two expired cells. Two buckets, node life 1, hash `id`:
after the calls `cache(0), cache(2), cache(4), cache(1)` the next call reads tick 4; a
cursor is made on the head of bucket 0 with that time and `go_next` is called once.
The result: the list of bucket 0 before (address, time stamp), what `go_next` returns,
and the list of bucket 0 after. -/
def expired_run_go_next : Option (List (Nat × Int) × Bool × List (Nat × Int)) :=
  match cache.run (fun x : Nat => x * x) id 2 1 (cache.create Nat Nat 2) [0, 2, 4, 1] with
  | none => none
  | some (_, s) =>
    match cursor.create 1 s.mem (.head 0) s.time with
    | none => none
    | some (c, h1) =>
      match cursor.go_next 1 h1 c with
      | none => none
      | some (b, _, h2) =>
        some ((s.mem.shape.bucket 0).map (fun p => (p.1, p.2.time_stamp)), b,
              (h2.shape.bucket 0).map (fun p => (p.1, p.2.time_stamp)))

/-- Two appends to one bucket, interleaved. One bucket, node life 1. Thread A runs
`cache(2)`: it read tick 0, missed on the empty bucket, made its `KV` cell (address 0),
and is in `cache::push_end`: it made the node `n` and walked a cursor to the end of the
list (`current` null, `owner` the head). Thread B then runs `cache(1)` from start to end
(tick 1), which puts a node `X` into the head. Thread A goes on with `c.push_end(n)`.
The result: what `push_end` returns, the addresses in the list before and after it. -/
def stale_push_end : Option (Bool × List Nat × List Nat) :=
  let s0 := cache.create Nat Nat 1
  match make_shared_node s0.mem { header := some 0, mark := false } 0 with
  | none => none
  | some (n, h1) =>
    match cursor.create 1 h1 (.head 0) 0 with
    | none => none
    | some (c, h2) =>
      match cursor.go_end_loop 1 (h2.nodes.length + 1) h2 c with
      | none => none
      | some (c1, h3) =>
        match cache.call (fun x : Nat => x * x) id 1 1
            { mem := h3, kvs := [{ k := 2, v := 4 }], time := 1, evals := [2] } 1 with
        | none => none
        | some (_, s1) =>
          match shared_ptr.copy s1.mem n with
          | none => none
          | some (val, h4) =>
            match cursor.push_end h4 c1 val with
            | none => none
            | some (b, _, h5) =>
              some (b, (s1.mem.shape.bucket 0).map (fun p => p.1),
                (h5.shape.bucket 0).map (fun p => p.1))

/-- A memory with one slot and one cell, as the statements
`h = make_shared<node>(...); slot.store(h);` leave it: the slot points to the cell and
the pair of the cell is (1, 0). -/
def one_cell : heap :=
  { nodes := [{ storage := { data := shared_ptr.null,
                             next := { access_count := 0, mark := false, ptr := none },
                             time_stamp := 0 },
                count := { external_counters := 0, count := 1 },
                destroyed := 0 }],
    head_buckets := [{ access_count := 0, mark := false, ptr := some 0 }],
    leaks := 1 }


/-- A store into a slot for which a reader holds a reservation. On the memory `one_cell`
a `local_access` is made for the slot (the access count of the slot becomes 1), then
`store(shared_ptr())` runs. The result: the slot and the pair of the cell before the
store, the pair of the cell and the slot after it. -/
def store_under_reservation : Option (counted_ptr × counter × counter × counted_ptr) :=
  match local_access.create one_cell (.head 0) with
  | none => none
  | some (_, h1) =>
    match atomic_shared_ptr.store h1 (.head 0) shared_ptr.null with
    | none => none
    | some h2 =>
      match h1.p (.head 0), h1.nodes[0]?, h2.nodes[0]?, h2.p (.head 0) with
      | some p1, some c1, some c2, some p2 => some (p1, c1.count, c2.count, p2)
      | _, _, _, _ => none

/-- The memory `one_cell` while a reader holds a reservation on the slot: the access
count of the slot is 1. -/
def one_cell_reserved : heap :=
  { one_cell with head_buckets := [{ access_count := 1, mark := false, ptr := some 0 }] }


/-! ## Lists as paths -/

/-- Following the `next` pointers from `p` visits exactly the cells `l`, in this order, and
then reaches null. -/
def shape.is_path (sh : shape) : Option Nat → List Nat → Prop
  | p, [] => p = none
  | p, i :: l => p = some i ∧ shape.is_path sh (sh.ptr (.next i)) l

/-- The slot that points to the first cell after the cells `l1` of the list that starts
at the slot `r`: `r` itself for an empty `l1`, else the `next` slot of the last cell of
`l1`. -/
def link_slot (r : slot_ref) (l1 : List Nat) : slot_ref :=
  match l1.getLast? with
  | none => r
  | some a => .next a

/-- The number of `k < n` with `p k`. -/
def cnt (n : Nat) (p : Nat → Bool) : Nat := (List.range n).countP p

/-- The head of bucket `b` points to cell `j`. -/
def heap.head_to (h : heap) (j b : Nat) : Bool :=
  match h.head_buckets[b]? with
  | none => false
  | some c => decide (c.ptr = some j)

/-- The cell `k` exists and was not destroyed. -/
def heap.alive (h : heap) (k : Nat) : Bool :=
  match h.nodes[k]? with
  | none => false
  | some c => decide (c.destroyed = 0)

/-- The slot `next` of a cell that was not destroyed points to `j`. -/
def shared_ptr_header.next_to (c : shared_ptr_header) (j : Nat) : Bool :=
  decide (c.destroyed = 0) && decide (c.storage.next.ptr = some j)

/-- The cell `k` was not destroyed and its slot `next` points to `j`. -/
def heap.next_to (h : heap) (j k : Nat) : Bool :=
  match h.nodes[k]? with
  | none => false
  | some c => c.next_to j

/-- The number of slots that point to cell `j`, among the first `nh` heads and the cells
that were not destroyed. -/
def heap.indeg (h : heap) (nh j : Nat) : Nat :=
  cnt nh (h.head_to j) + cnt h.nodes.length (h.next_to j)

/-- A slot that exists: one of the first `nh` heads, or the member `next` of a cell that
was not destroyed. -/
def heap.live (h : heap) (nh : Nat) : slot_ref → Prop
  | .head b => b < nh
  | .next i => h.alive i = true

/-- The access count a slot has while `g` is the slot a `local_access` holds: one for
that slot, zero for the others. -/
def guard_count (g : Option slot_ref) (r : slot_ref) : Int := if g = some r then 1 else 0

/-- The counters agree with the lists. `nh` heads exist, `L` lists the cells the
handles outside the memory point to (with repetition), and `g` is the slot a
`local_access` holds, if there is one. -/
structure heap.balg (h : heap) (nh : Nat) (L : List Nat) (g : Option slot_ref) : Prop where
  ok : h.shape.ok
  nh_le : nh ≤ h.head_buckets.length
  sup : ∀ i ∈ L, i < h.nodes.length
  acc_head : ∀ b c, h.head_buckets[b]? = some c → c.access_count = guard_count g (.head b)
  cell : ∀ k c, h.nodes[k]? = some c →
    c.storage.next.access_count = guard_count g (.next k) ∧ c.count.external_counters = 0 ∧
    (c.destroyed = 0 ∧ c.count.count = ((h.indeg nh k + L.count k : Nat) : Int) ∧
        0 < c.count.count ∨
      c.destroyed = 1 ∧ c.count.count = 0 ∧ h.indeg nh k = 0 ∧ L.count k = 0)
  leaks : h.leaks = ((cnt h.nodes.length h.alive : Nat) : Int)

/-- The counters agree with the lists and no `local_access` is held. -/
abbrev heap.bal (h : heap) (nh : Nat) (L : List Nat) : Prop := h.balg nh L none

/-- The cells the two handles of a cursor point to. -/
def cursor.handles (c : cursor) : List Nat :=
  c.owner_holder.header.toList ++ c.current.header.toList

/-- The slot `owner` of the cursor exists as long as the cursor does: it is a head, or
the member `next` of the cell that `owner_holder` keeps alive; and `current` carries no
mark. -/
structure cursor.wf (nh : Nat) (c : cursor) : Prop where
  held : match c.owner with
    | .head b => b < nh
    | .next k => c.owner_holder.header = some k
  mark_false : c.current.mark = false

/-- A slot that is kept in existence: one of the first `nh` heads, or the member `next`
of a cell that one of the handles `L` points to. -/
def slot_held (nh : Nat) (L : List Nat) : slot_ref → Prop
  | .head b => b < nh
  | .next i => i ∈ L

/-! ## Traversal over expired cells -/

/-- The test `current->time_stamp + node_life < local_time` of `cursor::go_next` on
cell `x` at local time `t` (false when there is no such cell). -/
def shape.expired (node_life t : Int) (sh : shape) (x : Nat) : Bool :=
  match sh.nodes[x]? with
  | none => false
  | some n => decide (n.time_stamp + node_life < t)

/-- Every second element of a list: with `keep` the first, third, ... element, without
it the second, fourth, ... -/
def every_other : Bool → List Nat → List Nat
  | _, [] => []
  | true, x :: l => x :: every_other false l
  | false, _ :: l => every_other true l


/-- The memory after the calls `cache(0), cache(2), cache(4), cache(1)` on a fresh cache
with two buckets, node life 1 and hash `id`: bucket 0 holds the cells 0, 1, 2 with the
time stamps 0, 1, 2, bucket 1 the cell 3. -/
def expired_run_heap : heap :=
  { nodes := [{ storage := { data := { header := some 0, mark := false },
                             next := { access_count := 0, mark := false, ptr := some 1 },
                             time_stamp := 0 },
                count := { external_counters := 0, count := 1 },
                destroyed := 0 },
              { storage := { data := { header := some 1, mark := false },
                             next := { access_count := 0, mark := false, ptr := some 2 },
                             time_stamp := 1 },
                count := { external_counters := 0, count := 1 },
                destroyed := 0 },
              { storage := { data := { header := some 2, mark := false },
                             next := { access_count := 0, mark := false, ptr := none },
                             time_stamp := 2 },
                count := { external_counters := 0, count := 1 },
                destroyed := 0 },
              { storage := { data := { header := some 3, mark := false },
                             next := { access_count := 0, mark := false, ptr := none },
                             time_stamp := 3 },
                count := { external_counters := 0, count := 1 },
                destroyed := 0 }],
    head_buckets := [{ access_count := 0, mark := false, ptr := some 0 },
                     { access_count := 0, mark := false, ptr := some 3 }],
    leaks := 4 }

/-- The cursor that `cursor(&head_buckets[0], 4)` makes on `expired_run_heap`. -/
def expired_run_cursor : cursor :=
  { owner_holder := shared_ptr.null, owner := .head 0,
    current := { header := some 0, mark := false }, local_time := 4 }


/-! ## Time stamps -/

/-- The clock counts the cells, and the cell at address `j` carries time stamp `j`:
every call reads the clock once and makes one cell with what it read. -/
structure cache.stamped {K V : Type} (s : cache K V) : Prop where
  time_eq : s.time = (s.mem.shape.nodes.length : Int)
  stamp : ∀ (j : Nat) (n : snode), s.mem.shape.nodes[j]? = some n → n.time_stamp = (j : Int)


/-! ## Sessions: handles and slots -/

/-- The number of handles of the list `L` that point to cell `c`. -/
def handle_count (L : List shared_ptr) (c : Nat) : Int :=
  (L.map (fun s => if s.header = some c then (1 : Int) else 0)).sum

/-- The number of slots of the list `hs` that hold cell `c`. -/
def slot_count (hs : List counted_ptr) (c : Nat) : Int :=
  (hs.map (fun s => if s.ptr = some c then (1 : Int) else 0)).sum

/-- The sum of the access counts of the slots of the list `hs` that hold cell `c`. -/
def access_sum (hs : List counted_ptr) (c : Nat) : Int :=
  (hs.map (fun s => if s.ptr = some c then s.access_count else 0)).sum

/-- A single-threaded session with the pointer library: the memory, whose array
`head_buckets` holds the slots, and the handles that are alive, by position. A handle
that was moved from, reset or destroyed is null. -/
structure session where
  mem : heap
  handles : List shared_ptr

/-- The handle at position `k`; a position behind the list is a temporary `shared_ptr()`. -/
def session.handle (s : session) (k : Nat) : shared_ptr := s.handles.getD k shared_ptr.null

/-- Writes the handle at position `e`; a position behind the list makes a new handle. -/
def put_handle (L : List shared_ptr) (e : Nat) (x : shared_ptr) : List shared_ptr :=
  if e < L.length then L.set e x else L ++ [x]

/-- The operations of a session. A handle argument that a function takes by value is
moved in from the handle at position `k` (which is null afterwards); a copy is passed by
a `clone` before. -/
inductive ptr_op where
  | make (sp : shared_ptr) (t : Int)
  | clone (k : Nat)
  | move (k : Nat)
  | drop (k : Nat)
  | load (b : Nat)
  | store (b k : Nat)
  | exchange (b k : Nat)
  | compare_exchange_weak (b e k : Nat)
  | mark (b : Nat) (val : Bool)
deriving DecidableEq, Repr

/-- The slot an operation works on is one of the first `n` slots. -/
def ptr_op.slot_lt (n : Nat) : ptr_op → Bool
  | .load b => decide (b < n)
  | .store b _ => decide (b < n)
  | .exchange b _ => decide (b < n)
  | .compare_exchange_weak b _ _ => decide (b < n)
  | .mark b _ => decide (b < n)
  | _ => true

/-- One operation, run to completion.
`make`: `frd::make_shared<node>(sp, t)`, a new handle. `clone k`: the copy constructor, a
new handle. `move k`: the move constructor, a new handle, and handle `k` is cleared.
`drop k`: `reset()` (or the destructor) of handle `k`. `load b`: a new handle.
`store b k`: `slot.store(std::move(handle k))`. `exchange b k`: the same with
`exchange`, the result is a new handle. `compare_exchange_weak b e k`:
`slot.compare_exchange_weak(handle e, std::move(handle k))`. `mark b val`:
`slot.mark(val)`. -/
def session.step (s : session) : ptr_op → Option session
  | .make sp t =>
    match make_shared_node s.mem sp t with
    | none => none
    | some (n, h1) => some { mem := h1, handles := s.handles ++ [n] }
  | .clone k =>
    match shared_ptr.copy s.mem (s.handle k) with
    | none => none
    | some (n, h1) => some { mem := h1, handles := s.handles ++ [n] }
  | .move k =>
    some { mem := s.mem, handles := s.handles.set k shared_ptr.null ++ [s.handle k] }
  | .drop k =>
    match shared_ptr.drop s.mem (s.handle k) with
    | none => none
    | some h1 => some { mem := h1, handles := s.handles.set k shared_ptr.null }
  | .load b =>
    match atomic_shared_ptr.load s.mem (.head b) with
    | none => none
    | some (n, h1) => some { mem := h1, handles := s.handles ++ [n] }
  | .store b k =>
    match atomic_shared_ptr.store s.mem (.head b) (s.handle k) with
    | none => none
    | some h1 => some { mem := h1, handles := s.handles.set k shared_ptr.null }
  | .exchange b k =>
    match atomic_shared_ptr.exchange s.mem (.head b) (s.handle k) with
    | none => none
    | some (n, h1) => some { mem := h1, handles := s.handles.set k shared_ptr.null ++ [n] }
  | .compare_exchange_weak b e k =>
    let hs := s.handles.set k shared_ptr.null
    match atomic_shared_ptr.compare_exchange_weak s.mem (.head b)
        (hs.getD e shared_ptr.null) (s.handle k) with
    | none => none
    | some (_, e1, h1) => some { mem := h1, handles := put_handle hs e e1 }
  | .mark b val =>
    match atomic_shared_ptr.mark s.mem (.head b) val with
    | none => none
    | some h1 => some { mem := h1, handles := s.handles }

/-- A sequence of operations, one after the other. -/
def session.run : session → List ptr_op → Option session
  | s, [] => some s
  | s, o :: os =>
    match s.step o with
    | none => none
    | some s1 => session.run s1 os

/-- The start of a session: `n` slots that hold null, no cell, no handle. -/
def session.init (n : Nat) : session :=
  { mem := { nodes := [],
             head_buckets := List.replicate n { access_count := 0, mark := false, ptr := none },
             leaks := 0 },
    handles := [] }

/-- The ledger of the counters in a memory whose cells are held by the handles `L` and by
the slots in `head_buckets` only: the count of cell `k` is the number of handles and
slots that point to it plus `dC k`, its external count plus the access counts of the
slots that hold it is `dE k`, and a cell is destroyed exactly when both counts are zero. -/
structure heap.led (h : heap) (L : List shared_ptr) (dC dE : Nat → Int) : Prop where
  nxt : ∀ (k : Nat) (x : shared_ptr_header), h.nodes[k]? = some x → x.storage.next.ptr = none
  cnt : ∀ (k : Nat) (x : shared_ptr_header), h.nodes[k]? = some x →
    x.count.count = handle_count L k + slot_count h.head_buckets k + dC k
  ext : ∀ (k : Nat) (x : shared_ptr_header), h.nodes[k]? = some x →
    x.count.external_counters + access_sum h.head_buckets k = dE k
  dead : ∀ (k : Nat) (x : shared_ptr_header), h.nodes[k]? = some x →
    (x.destroyed = 0 ∧ ¬ (x.count.count = 0 ∧ x.count.external_counters = 0)) ∨
    (x.destroyed = 1 ∧ x.count.count = 0 ∧ x.count.external_counters = 0)
  closed_handles : ∀ s ∈ L, ∀ c, s.header = some c → c < h.nodes.length
  closed_slots : ∀ s ∈ h.head_buckets, ∀ c, s.ptr = some c → c < h.nodes.length


/-- A session on one slot: `h0 = make_shared<node>(...)`; `h1 = h0`; `slot.store(h1)`;
`h2 = h0`; `slot.compare_exchange_weak(h0, h2)`, which replaces the cell in the slot by
a handle to the same cell; `h3 = slot.load()`; `slot.mark(true)`; `h0.reset()`;
`h4 = make_shared<node>(...)`; `h5 = slot.exchange(h4)`; `h6 = std::move(h5)`. -/
def session_example : List ptr_op :=
  [.make shared_ptr.null 0, .clone 0, .store 0 1, .clone 0, .compare_exchange_weak 0 0 2,
   .load 0, .mark 0 true, .drop 0, .make shared_ptr.null 1, .exchange 0 4, .move 5]

/-- What is looked at in a session: the handles, the slots, and of every cell the count,
the external count and the number of runs of its destructor. -/
def session.summary (s : session) :
    List shared_ptr × List counted_ptr × List (Int × Int × Nat) :=
  (s.handles, s.mem.head_buckets,
   s.mem.nodes.map (fun (c : shared_ptr_header) =>
     (c.count.count, c.count.external_counters, c.destroyed)))

/-- The counters of a session agree with its handles and slots: for every cell the
count is the number of handles and slots that point to it, the external count and the
access counts of the slots that hold it add up to zero, and a cell is destroyed exactly
when both its counts are zero. -/
abbrev session.counted (s : session) : Prop :=
  s.mem.led s.handles (fun _ => 0) (fun _ => 0)


/-! ## Threads: the atomic steps of the slot operations, interleaved

One slot (the head of bucket 0) and any number of threads. A step of a thread is one
atomic operation on the slot (`p.load`, `p.exchange`, one `p.compare_exchange_weak`) or on
a cell (`modify_count`, whose loop changes the counters at its one successful
compare-exchange: the load and the failed attempts of the loop change nothing), together
with the thread-local work up to the next atomic operation. A weak compare-exchange may
fail although the slot holds the expected value. The program counter of a thread says
where in `load`, `store`, `exchange` or `compare_exchange_weak` the thread is and holds
the local variables. -/

/-- What follows the `acquire` loop of a `local_access`: `load` goes on with
`get_shared_ptr`; `compare_exchange_weak` with its test of `expected`; after
`guard.refresh` it goes on with `expected = guard.get_shared_ptr()`. The handle `n` is
the parameter `newptr`, `e` is the position of `expected` among the handles of the
thread. -/
inductive acq_kont where
  | load
  | cew (e : Nat) (n : shared_ptr)
  | cew_refreshed (e : Nat) (n : shared_ptr)
deriving DecidableEq, Repr

/-- Who called `guard.get_shared_ptr()`: `load`, or the failure path of
`compare_exchange_weak`. -/
inductive get_kont where
  | load
  | cew (e : Nat) (n : shared_ptr)
deriving DecidableEq, Repr

/-- What follows `local_access::release`: `load` returns `res`; `compare_exchange_weak`
returns false and destroys its parameter `newptr`, or returns true; `guard.refresh` goes
on with `val = newval; acquire()`. -/
inductive rel_kont where
  | done_load (res : shared_ptr)
  | cew_fail (n : shared_ptr)
  | cew_true
  | cew_reacquire (e : Nat) (n : shared_ptr) (newval : counted_ptr)
deriving DecidableEq, Repr

/-- The program counter of a thread with its local variables. `val` is the member `val`
of the `local_access`, `target` the local of `release`, `old` what `p.exchange` returned.
* `acquire`: in the loop of `local_access::acquire`, before its compare-exchange;
* `get`: the guard is made, before `guard.get_shared_ptr()`;
* `assign`: in `expected = guard.get_shared_ptr()`, the new handle `e1` is made, before
  the old content of `expected` is released;
* `release`: in the loop of `local_access::release`, before its compare-exchange;
* `unref`: in `release`, before `val.ptr->modify_count(0,-1)`;
* `dropnew`: `compare_exchange_weak` returned false, before its parameter is destroyed;
* `store_dec`: in `store`, after `p.exchange`, before `old.ptr->modify_count(-1, ...)`;
* `xchg_get`, `xchg_dec`: in `exchange`, before `shared_ptr<T> res(old.ptr)` and before
  `old.ptr->modify_count(-1, ...)`;
* `cew_test`: in `compare_exchange_weak`, the guard is made, before the test of
  `expected` and the compare-exchange of the slot;
* `cew_dec`: the compare-exchange of the slot succeeded, before
  `oldval.ptr->modify_count(-1, ...)`. -/
inductive pcs where
  | idle
  | acquire (val : counted_ptr) (k : acq_kont)
  | get (val : counted_ptr) (k : get_kont)
  | assign (e : Nat) (n : shared_ptr) (val : counted_ptr) (e1 : shared_ptr)
  | release (val target : counted_ptr) (k : rel_kont)
  | unref (val : counted_ptr) (k : rel_kont)
  | dropnew (n : shared_ptr)
  | store_dec (old : counted_ptr)
  | xchg_get (old : counted_ptr)
  | xchg_dec (old : counted_ptr) (res : shared_ptr)
  | cew_test (e : Nat) (n : shared_ptr) (val : counted_ptr)
  | cew_dec (val : counted_ptr)
deriving DecidableEq, Repr

/-- A thread: its handle variables, by position, and its program counter. -/
structure thread where
  handles : List shared_ptr
  pc : pcs
deriving DecidableEq, Repr

/-- The memory and the threads. -/
structure conc where
  mem : heap
  threads : List thread
deriving DecidableEq, Repr

/-- What a thread does next. An idle thread makes a cell, resets a handle, or calls
`load()`, `store(std::move(handle k))`, `exchange(std::move(handle k))` or
`compare_exchange_weak(handle e, std::move(handle k))`, which runs up to and including
the first atomic operation of the call. A thread inside a call takes its next step with
`go`; `spurious` makes a weak compare-exchange of this step fail. -/
inductive act where
  | make (sp : shared_ptr) (t : Int)
  | drop (k : Nat)
  | load
  | store (k : Nat)
  | exchange (k : Nat)
  | compare_exchange_weak (e k : Nat)
  | go (spurious : Bool)
deriving DecidableEq, Repr

/-- The call `p.compare_exchange_weak(expected, desired)` on the atomic member of a slot,
which may fail spuriously: then `expected` gets the value of the slot all the same. -/
def weak_compare_exchange (spurious : Bool) (h : heap) (r : slot_ref)
    (expected desired : counted_ptr) : Option (Bool × counted_ptr × heap) :=
  if spurious then
    match h.p r with
    | none => none
    | some cur => some (false, cur, h)
  else atomic_compare_exchange h r expected desired

/-- The thread after the `acquire` loop succeeded (`val` has its access count
incremented). -/
def acq_kont.next (val : counted_ptr) : acq_kont → pcs
  | .load => .get val .load
  | .cew e n => .cew_test e n val
  | .cew_refreshed e n => .get val (.cew e n)

/-- The thread after `local_access::release` is through. -/
def thread.finish (τ : thread) : rel_kont → thread
  | .done_load res => { handles := τ.handles ++ [res], pc := .idle }
  | .cew_fail n => { τ with pc := .dropnew n }
  | .cew_true => { τ with pc := .idle }
  | .cew_reacquire e n newval =>
    { τ with pc := if newval.ptr = none then .get newval (.cew e n)
                   else .acquire newval (.cew_refreshed e n) }

/-- The start of `local_access::release`: `if(!val.ptr) return;`, else into the loop with
`target = val`. -/
def thread.begin_release (τ : thread) (val : counted_ptr) (k : rel_kont) : thread :=
  if val.ptr = none then τ.finish k else { τ with pc := .release val val k }

/-- The start of a `local_access` for the value `v` read from the slot:
`if(!val.ptr) return;`, else into the loop of `acquire`. -/
def begin_acquire (v : counted_ptr) (k : acq_kont) : pcs :=
  if v.ptr = none then k.next v else .acquire v k

/-- One step of one thread: the memory and the thread afterwards. -/
def thread.step (h : heap) (τ : thread) : act → Option (heap × thread)
  | .make sp t =>
    match τ.pc with
    | .idle =>
      match make_shared_node h sp t with
      | none => none
      | some (n, h1) => some (h1, { τ with handles := τ.handles ++ [n] })
    | _ => none
  | .drop k =>
    match τ.pc with
    | .idle =>
      match shared_ptr.drop h (τ.handles.getD k shared_ptr.null) with
      | none => none
      | some h1 => some (h1, { τ with handles := τ.handles.set k shared_ptr.null })
    | _ => none
  | .load =>
    match τ.pc with
    | .idle =>
      -- local_access guard(p): val(p.load(order))
      match h.p (.head 0) with
      | none => none
      | some v => some (h, { τ with pc := begin_acquire v .load })
    | _ => none
  | .store k =>
    match τ.pc with
    | .idle =>
      -- counted_ptr old = p.exchange(counted_ptr(newptr.header, newptr.mark), order);
      let n := τ.handles.getD k shared_ptr.null
      match h.p (.head 0) with
      | none => none
      | some old =>
        match h.set_p (.head 0) { access_count := 0, mark := n.mark, ptr := n.header } with
        | none => none
        | some h1 =>
          some (h1, { handles := τ.handles.set k shared_ptr.null, pc := .store_dec old })
    | _ => none
  | .exchange k =>
    match τ.pc with
    | .idle =>
      let n := τ.handles.getD k shared_ptr.null
      match h.p (.head 0) with
      | none => none
      | some old =>
        match h.set_p (.head 0) { access_count := 0, mark := n.mark, ptr := n.header } with
        | none => none
        | some h1 =>
          some (h1, { handles := τ.handles.set k shared_ptr.null, pc := .xchg_get old })
    | _ => none
  | .compare_exchange_weak e k =>
    match τ.pc with
    | .idle =>
      -- local_access guard(p): val(p.load())
      let n := τ.handles.getD k shared_ptr.null
      match h.p (.head 0) with
      | none => none
      | some v =>
        some (h, { handles := τ.handles.set k shared_ptr.null,
                   pc := begin_acquire v (.cew e n) })
    | _ => none
  | .go spurious =>
    match τ.pc with
    | .idle => none
    | .acquire val k =>
      -- if(p.compare_exchange_weak(val,newval,order)) break;  then ++val.access_count;
      match weak_compare_exchange spurious h (.head 0) val
          { val with access_count := val.access_count + 1 } with
      | none => none
      | some (true, val1, h1) =>
        some (h1, { τ with pc := k.next { val1 with access_count := val1.access_count + 1 } })
      | some (false, val1, h1) => some (h1, { τ with pc := .acquire val1 k })
    | .get val k =>
      -- guard.get_shared_ptr(): shared_ptr<T>(val.ptr)
      match shared_ptr.from_header h val.ptr with
      | none => none
      | some (res, h1) =>
        match k with
        | .load => some (h1, τ.begin_release val (.done_load res))
        | .cew e n => some (h1, { τ with pc := .assign e n val res })
    | .assign e n val e1 =>
      -- expected = (the new handle): the old content of expected is released
      match shared_ptr.drop h (τ.handles.getD e shared_ptr.null) with
      | none => none
      | some h1 =>
        some (h1, ({ τ with handles := put_handle τ.handles e e1 } : thread).begin_release val
          (.cew_fail n))
    | .release val target k =>
      -- if(p.compare_exchange_weak(target,newval)) break;  while(target.ptr==val.ptr)
      match weak_compare_exchange spurious h (.head 0) target
          { target with access_count := target.access_count - 1 } with
      | none => none
      | some (true, _, h1) => some (h1, τ.finish k)
      | some (false, target1, h1) =>
        if target1.ptr = val.ptr then some (h1, { τ with pc := .release val target1 k })
        else some (h1, { τ with pc := .unref val k })
    | .unref val k =>
      -- val.ptr->modify_count(0,-1);
      match val.ptr with
      | none => none
      | some i =>
        match modify_count h i 0 (-1) with
        | none => none
        | some h1 => some (h1, τ.finish k)
    | .dropnew n =>
      match shared_ptr.drop h n with
      | none => none
      | some h1 => some (h1, { τ with pc := .idle })
    | .store_dec old =>
      -- if(old.ptr) old.ptr->modify_count(-1,old.access_count);
      match (match old.ptr with
             | none => some h
             | some i => modify_count h i (-1) old.access_count) with
      | none => none
      | some h1 => some (h1, { τ with pc := .idle })
    | .xchg_get old =>
      -- shared_ptr<T> res(old.ptr);
      match shared_ptr.from_header h old.ptr with
      | none => none
      | some (res, h1) => some (h1, { τ with pc := .xchg_dec old res })
    | .xchg_dec old res =>
      match (match old.ptr with
             | none => some h
             | some i => modify_count h i (-1) old.access_count) with
      | none => none
      | some h1 => some (h1, { handles := τ.handles ++ [res], pc := .idle })
    | .cew_test e n val =>
      if val.ptr ≠ (τ.handles.getD e shared_ptr.null).header then
        some (h, { τ with pc := .get val (.cew e n) })
      else
        -- if(p.compare_exchange_weak(oldval,newval,success_order,failure_order))
        match weak_compare_exchange spurious h (.head 0) val
            { access_count := 0, mark := n.mark, ptr := n.header } with
        | none => none
        | some (true, _, h1) => some (h1, { τ with pc := .cew_dec val })
        | some (false, oldval, h1) =>
          -- guard.refresh(oldval,failure_order);
          if oldval.ptr = val.ptr then some (h1, { τ with pc := .get val (.cew e n) })
          else some (h1, τ.begin_release val (.cew_reacquire e n oldval))
    | .cew_dec val =>
      -- if(oldval.ptr) oldval.ptr->modify_count(-1,oldval.access_count); newptr.clear();
      match (match val.ptr with
             | none => some h
             | some i => modify_count h i (-1) val.access_count) with
      | none => none
      | some h1 => some (h1, τ.begin_release val .cew_true)

/-- One step of thread `t`. -/
def conc.step (σ : conc) (t : Nat) (a : act) : Option conc :=
  match σ.threads[t]? with
  | none => none
  | some τ =>
    match τ.step σ.mem a with
    | none => none
    | some (h1, τ1) => some { mem := h1, threads := σ.threads.set t τ1 }

/-- A schedule: the steps of the threads in the order in which they happen. -/
def conc.run : conc → List (Nat × act) → Option conc
  | σ, [] => some σ
  | σ, (t, a) :: s =>
    match σ.step t a with
    | none => none
    | some σ1 => conc.run σ1 s

/-- The start: one slot that holds null, no cell, `n` idle threads without handles. -/
def conc.init (n : Nat) : conc :=
  { mem := one_slot, threads := List.replicate n { handles := [], pc := .idle } }


/-- The handles a thread holds in the local variables of the call it is in: the
parameter `newptr`, the new value of `expected`, the result. -/
def rel_kont.owned : rel_kont → List shared_ptr
  | .done_load res => [res]
  | .cew_fail n => [n]
  | .cew_true => []
  | .cew_reacquire _ n _ => [n]

/-- The handle `newptr` of a `compare_exchange_weak` in its guard. -/
def acq_kont.owned : acq_kont → List shared_ptr
  | .load => []
  | .cew _ n => [n]
  | .cew_refreshed _ n => [n]

/-- The handle `newptr` of a `compare_exchange_weak` on its failure path. -/
def get_kont.owned : get_kont → List shared_ptr
  | .load => []
  | .cew _ n => [n]

/-- The handles in the local variables of a call. -/
def pcs.owned : pcs → List shared_ptr
  | .idle => []
  | .acquire _ k => k.owned
  | .get _ k => k.owned
  | .assign _ n _ e1 => [n, e1]
  | .release _ _ k => k.owned
  | .unref _ k => k.owned
  | .dropnew n => [n]
  | .store_dec _ => []
  | .xchg_get _ => []
  | .xchg_dec _ res => [res]
  | .cew_test _ n _ => [n]
  | .cew_dec _ => []

/-- The value of a guard that holds a reservation: the `acquire` loop succeeded (or found
null) and `release` is not through. -/
def pcs.guard : pcs → Option counted_ptr
  | .get val _ => some val
  | .assign _ _ val _ => some val
  | .release val _ _ => some val
  | .unref val _ => some val
  | .cew_test _ _ val => some val
  | .cew_dec val => some val
  | _ => none

/-- The value a thread took out of the slot and whose counts it has not yet passed on to
the cell. -/
def pcs.pending : pcs → Option counted_ptr
  | .store_dec old => some old
  | .xchg_get old => some old
  | .xchg_dec old _ => some old
  | .cew_dec val => some val
  | _ => none

/-- One if the value points to cell `k`. -/
def ptr_ind (o : Option counted_ptr) (k : Nat) : Int :=
  match o with
  | none => 0
  | some v => if v.ptr = some k then 1 else 0

/-- The access count of the value if it points to cell `k`. -/
def ptr_acc (o : Option counted_ptr) (k : Nat) : Int :=
  match o with
  | none => 0
  | some v => if v.ptr = some k then v.access_count else 0

/-- What a thread adds to the count of cell `k`: its handles to `k`, and one while it
has taken `k` out of the slot and not yet called `modify_count(-1, ...)`. -/
def thread.stake (τ : thread) (k : Nat) : Int :=
  handle_count (τ.handles ++ τ.pc.owned) k + ptr_ind τ.pc.pending k

/-- What a thread adds to the external count of cell `k` plus the access count of the
slot, if the slot holds `k`: one for its reservation, less the access count it took out
of the slot and has not yet passed on. -/
def thread.credit (τ : thread) (k : Nat) : Int :=
  ptr_ind τ.pc.guard k - ptr_acc τ.pc.pending k

/-- The thread refers to cells below `m` only, and in the loop of `release` the local
`target` points to the cell the guard holds. -/
structure thread.closed (m : Nat) (τ : thread) : Prop where
  handles : ∀ s ∈ τ.handles ++ τ.pc.owned, ∀ c, s.header = some c → c < m
  guard : ∀ v, τ.pc.guard = some v → ∀ c, v.ptr = some c → c < m
  pending : ∀ v, τ.pc.pending = some v → ∀ c, v.ptr = some c → c < m
  loop : ∀ val target k, τ.pc = .release val target k → target.ptr = val.ptr

/-- The invariant of the interleaved steps: the count of every cell is what the threads
add to it, plus one if the slot holds the cell; the external count of the cell, plus the
access count of the slot if the slot holds the cell, is what the threads add; a cell is
destroyed exactly when both counts are zero; there is one slot. -/
structure conc.inv (σ : conc) : Prop where
  led : σ.mem.led [] (fun k => (σ.threads.map (fun τ => τ.stake k)).sum)
    (fun k => (σ.threads.map (fun τ => τ.credit k)).sum)
  slot : σ.mem.head_buckets.length = 1
  closed : ∀ τ ∈ σ.threads, τ.closed σ.mem.nodes.length


/-- A writer (thread 0) and a reader (thread 1) on the slot. The writer makes a cell and
stores it (`store` is two steps: `p.exchange`, then the `modify_count` for the old
value, which is null here). The reader starts `load()`: it reads the slot, and the
compare-exchange of `acquire` makes the access count of the slot 1. Then the writer
stores null over the cell: `p.exchange`, then `modify_count(-1, 1)` on the cell. -/
def reader_schedule : List (Nat × act) :=
  [(0, .make shared_ptr.null 7), (0, .store 0), (0, .go false), (1, .load), (1, .go false),
   (0, .store 0), (0, .go false)]

/-- The state after `reader_schedule`: the slot is null, the pair of the cell is (0, 1),
the reader is before `guard.get_shared_ptr()`. -/
def reader_reserved : conc :=
  { mem := { nodes := [{ storage := { data := shared_ptr.null,
                                      next := { access_count := 0, mark := false, ptr := none },
                                      time_stamp := 7 },
                         count := { external_counters := 1, count := 0 },
                         destroyed := 0 }],
             head_buckets := [{ access_count := 0, mark := false, ptr := none }],
             leaks := 1 },
    threads := [{ handles := [shared_ptr.null], pc := .idle },
                { handles := [],
                  pc := .get { access_count := 1, mark := false, ptr := some 0 } .load }] }

/-- The reader goes on after `reader_schedule`: `get_shared_ptr()`, the compare-exchange
of `release` (which fails: the slot is null now), `modify_count(0,-1)`; then it resets
the handle that `load()` returned. -/
def reader_rest : List (Nat × act) :=
  [(1, .go false), (1, .go false), (1, .go false), (1, .drop 0)]

/-- What is looked at in a state: the slot, and of every cell the count, the external
count and the number of runs of its destructor. -/
def conc.summary (σ : conc) : List counted_ptr × List (Int × Int × Nat) :=
  (σ.mem.head_buckets,
   σ.mem.nodes.map (fun x => (x.count.count, x.count.external_counters, x.destroyed)))


/-! ## Traversal with a weak compare-exchange that may fail -/

/-- The member `atomic_shared_ptr::compare_exchange_weak` where its compare-exchange of
the slot, `p.compare_exchange_weak(oldval,newval,...)`, may fail spuriously (the weak
compare-exchanges in the loops of `acquire` and `release` are tried again until they
succeed). -/
def atomic_shared_ptr.compare_exchange_weak_sp (spurious : Bool) (h : heap) (r : slot_ref)
    (expected newptr : shared_ptr) : Option (Bool × shared_ptr × heap) :=
  match local_access.create h r with
  | none => none
  | some (guard, h1) =>
    if guard.val.ptr ≠ expected.header then
      match assign_from_guard h1 guard expected with
      | none => none
      | some (e1, h2) =>
        match local_access.release h2 guard with
        | none => none
        | some h3 =>
          match shared_ptr.drop h3 newptr with
          | none => none
          | some h4 => some (false, e1, h4)
    else
      match weak_compare_exchange spurious h1 r guard.val
          { access_count := 0, mark := newptr.mark, ptr := newptr.header } with
      | none => none
      | some (true, oldval, h2) =>
        match (match oldval.ptr with
               | none => some h2
               | some i => modify_count h2 i (-1) oldval.access_count) with
        | none => none
        | some h3 =>
          match local_access.release h3 guard with
          | none => none
          | some h4 => some (true, expected, h4)
      | some (false, oldval, h2) =>
        match local_access.refresh h2 guard oldval with
        | none => none
        | some (guard1, h3) =>
          match assign_from_guard h3 guard1 expected with
          | none => none
          | some (e1, h4) =>
            match local_access.release h4 guard1 with
            | none => none
            | some h5 =>
              match shared_ptr.drop h5 newptr with
              | none => none
              | some h6 => some (false, e1, h6)

/-- The member `cursor::remove` where the compare-exchange at its end,
`owner->compare_exchange_weak(curr, next); // yes weak`, may fail spuriously. -/
def cursor.remove_sp (spurious : Bool) (h : heap) (c : cursor) : Option (Bool × heap) :=
  match c.current.header with
  | none => some (false, h)
  | some i =>
    match atomic_shared_ptr.mark h (.next i) true with
    | none => none
    | some h1 =>
      match atomic_shared_ptr.load h1 c.owner with
      | none => none
      | some (curr, h2) =>
        if curr.mark || !(shared_ptr.eq curr c.current) then
          match shared_ptr.drop h2 curr with
          | none => none
          | some h3 => some (false, h3)
        else
          match curr.header with
          | none => none
          | some ci =>
            match atomic_shared_ptr.load h2 (.next ci) with
            | none => none
            | some (next0, h3) =>
              match cursor.remove_loop (h3.nodes.length + 1) h3 next0 with
              | none => none
              | some (next, h4) =>
                match shared_ptr.copy h4 next with
                | none => none
                | some (arg, h5) =>
                  match atomic_shared_ptr.compare_exchange_weak_sp spurious h5 c.owner curr
                      arg with
                  | none => none
                  | some (b, curr1, h6) =>
                    match shared_ptr.drop h6 next with
                    | none => none
                    | some h7 =>
                      match shared_ptr.drop h7 curr1 with
                      | none => none
                      | some h8 => some (b, h8)

/-- The `while(current)` loop of `cursor::go_next` where the compare-exchange at the end
of each call of `remove` may fail spuriously: the list `sp` says for the calls of
`remove`, in their order, whether it does (a call behind the end of the list does not
fail). -/
def cursor.go_next_loop_sp (node_life : Int) :
    Nat → List Bool → heap → cursor → Option (cursor × heap)
  | 0, _, _, _ => none
  | fuel + 1, sp, h, c =>
    match c.current.header with
    | none => some (c, h)
    | some i =>
      -- owner_holder = current;
      match shared_ptr.copy h c.current with
      | none => none
      | some (holder, h1) =>
        match shared_ptr.drop h1 c.owner_holder with
        | none => none
        | some h2 =>
          -- owner = &owner_holder->next; current = owner->load();
          match atomic_shared_ptr.load h2 (.next i) with
          | none => none
          | some (cur, h3) =>
            match shared_ptr.drop h3 c.current with
            | none => none
            | some h4 =>
              let c1 : cursor :=
                { owner_holder := holder, owner := .next i, current := cur,
                  local_time := c.local_time }
              match cursor.stale node_life h4 c1 with
              | none => none
              | some true =>
                match cursor.remove_sp (sp.headD false) h4 c1 with
                | none => none
                | some (_, h5) => cursor.go_next_loop_sp node_life fuel sp.tail h5 c1
              | some false => some (c1, h4)

/-- The member `cursor::go_next` with compare-exchanges that may fail spuriously. -/
def cursor.go_next_sp (node_life : Int) (sp : List Bool) (h : heap) (c : cursor) :
    Option (Bool × cursor × heap) :=
  match cursor.go_next_loop_sp node_life (h.nodes.length + 1) sp h c with
  | none => none
  | some (c1, h1) => some (c1.current.to_bool, c1, h1)

/-- The traversal of `expired_run_go_next` where the compare-exchange of the first call
of `remove` fails spuriously: the list of bucket 0 before (address, time stamp), what
`go_next` returns, and the list of bucket 0 after. -/
def expired_run_go_next_sp (sp : List Bool) :
    Option (List (Nat × Int) × Bool × List (Nat × Int)) :=
  match cache.run (fun x : Nat => x * x) id 2 1 (cache.create Nat Nat 2) [0, 2, 4, 1] with
  | none => none
  | some (_, s) =>
    match cursor.create 1 s.mem (.head 0) s.time with
    | none => none
    | some (c, h1) =>
      match cursor.go_next_sp 1 sp h1 c with
      | none => none
      | some (b, _, h2) =>
        some ((s.mem.shape.bucket 0).map (fun p => (p.1, p.2.time_stamp)), b,
              (h2.shape.bucket 0).map (fun p => (p.1, p.2.time_stamp)))


theorem shape_nodes_length (h : heap) : h.shape.nodes.length = h.nodes.length := by
  simp [heap.shape]

theorem shape_heads_length (h : heap) : h.shape.heads.length = h.head_buckets.length := by
  simp [heap.shape]

theorem shape_nodes_get (h : heap) (i : Nat) :
    h.shape.nodes[i]? = (h.nodes[i]?).map shared_ptr_header.view := by
  simp [heap.shape]

theorem shape_heads_get (h : heap) (b : Nat) :
    h.shape.heads[b]? = (h.head_buckets[b]?).map counted_ptr.view := by
  simp [heap.shape]

/-- Reading a slot of the memory gives the slot of the shape. -/
theorem p_shape {h : heap} {r : slot_ref} {v : counted_ptr} (e : h.p r = some v) :
    h.shape.slot r = v.view := by
  cases r with
  | head b =>
    simp only [heap.p] at e
    simp [shape.slot, shape_heads_get, e]
  | next i =>
    simp only [heap.p] at e
    cases hn : h.nodes[i]? with
    | none => simp [hn] at e
    | some c =>
      simp [hn] at e
      simp [shape.slot, shape_nodes_get, hn, shared_ptr_header.view, counted_ptr.view, ← e]

theorem p_of_valid {h : heap} {r : slot_ref} (hv : h.shape.valid_slot r) :
    ∃ v, h.p r = some v := by
  cases r with
  | head b =>
    simp only [shape.valid_slot, shape_heads_length] at hv
    exact ⟨h.head_buckets[b], by simp [heap.p, hv]⟩
  | next i =>
    simp only [shape.valid_slot, shape_nodes_length] at hv
    exact ⟨h.nodes[i].storage.next, by simp [heap.p, List.getElem?_eq_getElem hv]⟩

theorem valid_of_p {h : heap} {r : slot_ref} {v : counted_ptr} (e : h.p r = some v) :
    h.shape.valid_slot r := by
  cases r with
  | head b =>
    simp only [heap.p] at e
    simp only [shape.valid_slot, shape_heads_length]
    exact (List.getElem?_eq_some_iff.mp e).1
  | next i =>
    simp only [heap.p] at e
    simp only [shape.valid_slot, shape_nodes_length]
    cases hn : h.nodes[i]? with
    | none => simp [hn] at e
    | some c => exact (List.getElem?_eq_some_iff.mp hn).1

theorem set_p_shape {h h1 : heap} {r : slot_ref} {v : counted_ptr} (e : h.set_p r v = some h1) :
    h1.shape = h.shape.set_slot r v.view := by
  cases r with
  | head b =>
    simp only [heap.set_p] at e
    split at e
    · simp at e; subst e
      simp [heap.shape, shape.set_slot, List.map_set]
    · simp at e
  | next i =>
    simp only [heap.set_p] at e
    cases hn : h.nodes[i]? with
    | none => simp [hn] at e
    | some c =>
      simp [hn] at e; subst e
      simp [heap.shape, shape.set_slot, hn, List.map_set, shared_ptr_header.view, counted_ptr.view]

theorem set_p_of_valid {h : heap} {r : slot_ref} (v : counted_ptr) (hv : h.shape.valid_slot r) :
    ∃ h1, h.set_p r v = some h1 := by
  cases r with
  | head b =>
    simp only [shape.valid_slot, shape_heads_length] at hv
    simp [heap.set_p, hv]
  | next i =>
    simp only [shape.valid_slot, shape_nodes_length] at hv
    simp [heap.set_p, List.getElem?_eq_getElem hv]

theorem shape_set_same_view {h : heap} {i : Nat} {c c1 : shared_ptr_header} (l : Int)
    (hn : h.nodes[i]? = some c) (hv : c1.view = c.view) :
    ({ h with nodes := h.nodes.set i c1, leaks := l } : heap).shape = h.shape := by
  simp only [heap.shape, List.map_set, hv]
  congr 1
  apply List.ext_getElem?
  intro k
  by_cases hk : i = k
  · subst hk
    obtain ⟨hlt, hget⟩ := List.getElem?_eq_some_iff.mp hn
    simp [List.getElem?_set, hlt, hget]
  · simp [List.getElem?_set, hk]

/-- Changing reference counts, even with a cascade of destructions, leaves the lists as
they are, and the cascade ends. -/
theorem modify_count_loop_shape : ∀ (fuel : Nat) (h : heap) (i : Nat) (a b : Int),
    h.shape.ok → i < h.nodes.length → h.nodes.length - i ≤ fuel →
    ∃ h1, modify_count_loop (fuel + 1) h i a b = some h1 ∧ h1.shape = h.shape := by
  intro fuel
  induction fuel with
  | zero =>
    intro h i a b _ hi hf
    omega
  | succ fuel ih =>
    intro h i a b hok hi hf
    have hn : h.nodes[i]? = some h.nodes[i] := List.getElem?_eq_getElem hi
    unfold modify_count_loop
    simp only [hn]
    split
    · -- destroyed
      generalize hh1 : ({ h with nodes := h.nodes.set i { h.nodes[i] with
          count := { external_counters := h.nodes[i].count.external_counters + b,
                     count := h.nodes[i].count.count + a },
          destroyed := h.nodes[i].destroyed + 1 }, leaks := h.leaks - 1 } : heap) = h1
      have hs : h1.shape = h.shape := by
        rw [← hh1]; exact shape_set_same_view _ hn rfl
      cases hp : h.nodes[i].storage.next.ptr with
      | none => exact ⟨h1, rfl, hs⟩
      | some j =>
        simp only
        have hnx := hok.next_lt i (h.nodes[i]).view (by simp [shape_nodes_get, hn]) j
          (by simp [shared_ptr_header.view, hp])
        rw [shape_nodes_length] at hnx
        have hl : h1.nodes.length = h.nodes.length := by rw [← hh1]; simp
        obtain ⟨h2, e2, s2⟩ := ih h1 j (-1) 0 (hs ▸ hok) (by omega) (by omega)
        exact ⟨h2, e2, s2.trans hs⟩
    · exact ⟨_, rfl, shape_set_same_view (l := h.leaks) hn rfl⟩


theorem modify_count_shape {h : heap} {i : Nat} (a b : Int) (hok : h.shape.ok)
    (hi : i < h.shape.nodes.length) :
    ∃ h1, modify_count h i a b = some h1 ∧ h1.shape = h.shape := by
  rw [shape_nodes_length] at hi
  exact modify_count_loop_shape h.nodes.length h i a b hok hi (by omega)

theorem from_header_shape {h : heap} {p : Option Nat} (hok : h.shape.ok)
    (hp : h.shape.valid_ptr p) :
    ∃ h1, shared_ptr.from_header h p = some ({ header := p, mark := false }, h1) ∧
      h1.shape = h.shape := by
  cases p with
  | none => exact ⟨h, rfl, rfl⟩
  | some i =>
    obtain ⟨h1, e1, s1⟩ := modify_count_shape 1 0 hok (hp i rfl)
    exact ⟨h1, by simp [shared_ptr.from_header, e1], s1⟩

theorem copy_shape {h : heap} {r : shared_ptr} (hok : h.shape.ok)
    (hp : h.shape.valid_ptr r.header) :
    ∃ h1, shared_ptr.copy h r = some (r, h1) ∧ h1.shape = h.shape := by
  cases hr : r.header with
  | none => exact ⟨h, by simp [shared_ptr.copy, hr], rfl⟩
  | some i =>
    obtain ⟨h1, e1, s1⟩ := modify_count_shape 1 0 hok (hp i hr)
    exact ⟨h1, by simp [shared_ptr.copy, hr, e1], s1⟩

theorem drop_shape {h : heap} {r : shared_ptr} (hok : h.shape.ok)
    (hp : h.shape.valid_ptr r.header) :
    ∃ h1, shared_ptr.drop h r = some h1 ∧ h1.shape = h.shape := by
  cases hr : r.header with
  | none => exact ⟨h, by simp [shared_ptr.drop, hr], rfl⟩
  | some i =>
    obtain ⟨h1, e1, s1⟩ := modify_count_shape (-1) 0 hok (hp i hr)
    exact ⟨h1, by simp [shared_ptr.drop, hr, e1], s1⟩

/-- Writing a slot and reading it back. -/
theorem p_set_p {h h1 : heap} {r : slot_ref} {v : counted_ptr} (e : h.set_p r v = some h1) :
    h1.p r = some v := by
  cases r with
  | head b =>
    simp only [heap.set_p] at e
    split at e
    · simp at e; subst e
      simp [heap.p, *]
    · simp at e
  | next i =>
    simp only [heap.set_p] at e
    cases hn : h.nodes[i]? with
    | none => simp [hn] at e
    | some c =>
      simp [hn] at e; subst e
      simp [heap.p, (List.getElem?_eq_some_iff.mp hn).1]

/-- A slot view whose access count alone is changed. -/
theorem view_access (v : counted_ptr) (a : Int) :
    ({ v with access_count := a } : counted_ptr).view = v.view := rfl

theorem list_set_self {α : Type} {l : List α} {i : Nat} {a : α} (e : l[i]? = some a) :
    l.set i a = l := by
  apply List.ext_getElem?
  intro k
  by_cases hk : i = k
  · subst hk; simp [List.getElem?_set', e]
  · simp [List.getElem?_set', hk]

theorem set_slot_self {sh : shape} {r : slot_ref} (hv : sh.valid_slot r) :
    sh.set_slot r (sh.slot r) = sh := by
  cases r with
  | head b =>
    simp only [shape.valid_slot] at hv
    simp only [shape.set_slot, shape.slot]
    rw [list_set_self (by simp [List.getElem?_eq_getElem hv])]
  | next i =>
    simp only [shape.valid_slot] at hv
    simp only [shape.set_slot, shape.slot, List.getElem?_eq_getElem hv]
    rw [list_set_self (by simp [List.getElem?_eq_getElem hv])]

/-- Rewriting a slot with a value that has the same pointer and mark keeps the lists. -/
theorem set_p_same_view {h h1 : heap} {r : slot_ref} {v w : counted_ptr} (hp : h.p r = some v)
    (hw : w.view = v.view) (e : h.set_p r w = some h1) : h1.shape = h.shape := by
  rw [set_p_shape e, hw, ← p_shape hp, set_slot_self (valid_of_p hp)]

/-- The constructor of `local_access` leaves the lists alone; afterwards the slot holds
exactly the value the guard remembers, whose pointer and mark are those of the slot. -/
theorem local_access_create_shape {h : heap} {r : slot_ref} (hv : h.shape.valid_slot r) :
    ∃ g h1, local_access.create h r = some (g, h1) ∧ h1.shape = h.shape ∧ g.p = r ∧
      h1.p r = some g.val ∧ g.val.view = h.shape.slot r := by
  obtain ⟨v, hp⟩ := p_of_valid hv
  simp only [local_access.create, hp, local_access.acquire]
  cases hptr : v.ptr with
  | none => exact ⟨_, h, rfl, rfl, rfl, hp, (p_shape hp).symm⟩
  | some i =>
    obtain ⟨h1, e1⟩ := set_p_of_valid { v with access_count := v.access_count + 1 } hv
    simp only [local_access.acquire_loop, atomic_compare_exchange, hp, e1, if_true]
    refine ⟨_, h1, rfl, set_p_same_view hp (view_access _ _) e1, rfl, ?_, ?_⟩
    · simpa using p_set_p e1
    · simpa [counted_ptr.view] using (p_shape hp).symm


theorem ace_success {h : heap} {r : slot_ref} {v : counted_ptr} (d : counted_ptr)
    (hp : h.p r = some v) :
    ∃ h1, atomic_compare_exchange h r v d = some (true, v, h1) ∧ h.set_p r d = some h1 := by
  obtain ⟨h1, e1⟩ := set_p_of_valid d (valid_of_p hp)
  exact ⟨h1, by simp [atomic_compare_exchange, hp, e1], e1⟩

theorem ace_fail {h : heap} {r : slot_ref} {cur e : counted_ptr} (d : counted_ptr)
    (hp : h.p r = some cur) (hne : cur ≠ e) :
    atomic_compare_exchange h r e d = some (false, cur, h) := by
  simp [atomic_compare_exchange, hp, hne]

/-- The destructor of `local_access` leaves the lists alone, whatever happened to the slot
since the guard was made. -/
theorem local_access_release_shape {h : heap} {g : local_access} (hok : h.shape.ok)
    (hv : h.shape.valid_slot g.p) (hp : h.shape.valid_ptr g.val.ptr) :
    ∃ h1, local_access.release h g = some h1 ∧ h1.shape = h.shape := by
  cases hptr : g.val.ptr with
  | none => exact ⟨h, by simp [local_access.release, hptr], rfl⟩
  | some i =>
    obtain ⟨cur, hcur⟩ := p_of_valid hv
    unfold local_access.release
    simp only [hptr]
    by_cases hc : cur = g.val
    · obtain ⟨h1, e1, e1s⟩ := ace_success
        { g.val with access_count := g.val.access_count - 1 } (hc ▸ hcur)
      refine ⟨h1, ?_, set_p_same_view (hc ▸ hcur) (view_access _ _) e1s⟩
      rw [local_access.release_loop, e1]
      simp [hptr]
    · have e0 := ace_fail { g.val with access_count := g.val.access_count - 1 } hcur hc
      rw [local_access.release_loop, e0]
      simp only []
      by_cases hq : cur.ptr = g.val.ptr
      · obtain ⟨h1, e1, e1s⟩ := ace_success
          { cur with access_count := cur.access_count - 1 } hcur
        refine ⟨h1, ?_, set_p_same_view hcur (view_access _ _) e1s⟩
        rw [if_pos hq, local_access.release_loop, e1]
        simp [hq, hptr]
      · obtain ⟨h1, e1, s1⟩ := modify_count_shape 0 (-1) hok (hp i hptr)
        refine ⟨h1, ?_, s1⟩
        rw [if_neg hq]
        simp only []
        rw [hptr] at hq
        simp [hq, e1]

theorem mark_shape {h : heap} {r : slot_ref} (val : Bool) (hv : h.shape.valid_slot r) :
    ∃ h1, atomic_shared_ptr.mark h r val = some h1 ∧ h1.shape = h.shape.set_mark r val := by
  obtain ⟨loc, hloc⟩ := p_of_valid hv
  obtain ⟨h1, e1⟩ := set_p_of_valid
    { access_count := loc.access_count, mark := val, ptr := loc.ptr } hv
  refine ⟨h1, by simp [atomic_shared_ptr.mark, hloc, atomic_compare_exchange, e1], ?_⟩
  rw [set_p_shape e1, shape.set_mark, shape.ptr, p_shape hloc]
  rfl

/-- The validity of a slot and of pointers depends on the sizes only. -/
theorem valid_slot_congr {sh sh1 : shape} (hn : sh1.nodes.length = sh.nodes.length)
    (hh : sh1.heads.length = sh.heads.length) (r : slot_ref) :
    sh1.valid_slot r ↔ sh.valid_slot r := by
  cases r <;> simp [shape.valid_slot, hn, hh]

theorem valid_ptr_congr {sh sh1 : shape} (hn : sh1.nodes.length = sh.nodes.length)
    (p : Option Nat) : sh1.valid_ptr p ↔ sh.valid_ptr p := by
  simp [shape.valid_ptr, hn]

/-- The pointer held by a valid slot of well-formed lists is a valid pointer. -/
theorem valid_ptr_slot {sh : shape} (hok : sh.ok) (r : slot_ref) : sh.valid_ptr (sh.ptr r) := by
  intro j hj
  cases r with
  | head b =>
    simp only [shape.ptr, shape.slot] at hj
    cases hb : sh.heads[b]? with
    | none => simp [hb] at hj
    | some v =>
      simp [hb] at hj
      exact hok.head_lt b v hb j hj
  | next i =>
    simp only [shape.ptr, shape.slot] at hj
    cases hn : sh.nodes[i]? with
    | none => simp [hn] at hj
    | some n =>
      simp [hn] at hj
      exact (hok.next_lt i n hn j hj).2

theorem load_shape {h : heap} {r : slot_ref} (hok : h.shape.ok) (hv : h.shape.valid_slot r) :
    ∃ h1, atomic_shared_ptr.load h r = some ({ header := h.shape.ptr r, mark := false }, h1) ∧
      h1.shape = h.shape := by
  obtain ⟨g, h1, e1, s1, hg, _, hgv⟩ := local_access_create_shape hv
  have hptr : g.val.ptr = h.shape.ptr r := by
    have := congrArg Prod.fst hgv
    simpa [counted_ptr.view, shape.ptr] using this
  obtain ⟨h2, e2, s2⟩ := from_header_shape (p := g.val.ptr) (s1 ▸ hok)
    (by rw [s1, hptr]; exact valid_ptr_slot hok r)
  obtain ⟨h3, e3, s3⟩ := local_access_release_shape (g := g) (s2 ▸ s1 ▸ hok)
    (by rw [s2, s1, hg]; exact hv) (by rw [s2, s1, hptr]; exact valid_ptr_slot hok r)
  refine ⟨h3, ?_, by rw [s3, s2, s1]⟩
  rw [hptr] at e2
  simp [atomic_shared_ptr.load, e1, local_access.get_shared_ptr, e2, e3, hptr]


theorem set_slot_nodes_length (sh : shape) (r : slot_ref) (v : Option Nat × Bool) :
    (sh.set_slot r v).nodes.length = sh.nodes.length := by
  cases r with
  | head b => rfl
  | next i =>
    simp only [shape.set_slot]
    cases sh.nodes[i]? <;> simp

theorem set_slot_heads_length (sh : shape) (r : slot_ref) (v : Option Nat × Bool) :
    (sh.set_slot r v).heads.length = sh.heads.length := by
  cases r with
  | head b => simp [shape.set_slot]
  | next i =>
    simp only [shape.set_slot]
    cases sh.nodes[i]? <;> simp

theorem valid_slot_set_slot {sh : shape} {r r1 : slot_ref} {v : Option Nat × Bool} :
    (sh.set_slot r v).valid_slot r1 ↔ sh.valid_slot r1 :=
  valid_slot_congr (set_slot_nodes_length sh r v) (set_slot_heads_length sh r v) r1

theorem valid_ptr_set_slot {sh : shape} {r : slot_ref} {v : Option Nat × Bool} {p : Option Nat} :
    (sh.set_slot r v).valid_ptr p ↔ sh.valid_ptr p :=
  valid_ptr_congr (set_slot_nodes_length sh r v) p

/-- The function `compare_exchange_weak` when the slot holds another cell than `expected`. -/
theorem cew_shape_fail {h : heap} {r : slot_ref} (expected newptr : shared_ptr)
    (hok : h.shape.ok) (hv : h.shape.valid_slot r) (he : h.shape.valid_ptr expected.header)
    (hn : h.shape.valid_ptr newptr.header) (hne : h.shape.ptr r ≠ expected.header) :
    ∃ h1, atomic_shared_ptr.compare_exchange_weak h r expected newptr =
        some (false, { header := h.shape.ptr r, mark := false }, h1) ∧ h1.shape = h.shape := by
  obtain ⟨g, h1, e1, s1, hg, _, hgv⟩ := local_access_create_shape hv
  have hptr : g.val.ptr = h.shape.ptr r := by
    have := congrArg Prod.fst hgv
    simpa [counted_ptr.view, shape.ptr] using this
  have hvp : h.shape.valid_ptr g.val.ptr := by rw [hptr]; exact valid_ptr_slot hok r
  obtain ⟨h2, e2, s2⟩ := from_header_shape (p := g.val.ptr) (s1 ▸ hok) (by rw [s1]; exact hvp)
  obtain ⟨h3, e3, s3⟩ := drop_shape (r := expected) (s2 ▸ s1 ▸ hok) (by rw [s2, s1]; exact he)
  obtain ⟨h4, e4, s4⟩ := local_access_release_shape (g := g) (s3 ▸ s2 ▸ s1 ▸ hok)
    (by rw [s3, s2, s1, hg]; exact hv) (by rw [s3, s2, s1]; exact hvp)
  obtain ⟨h5, e5, s5⟩ := drop_shape (r := newptr) (s4 ▸ s3 ▸ s2 ▸ s1 ▸ hok)
    (by rw [s4, s3, s2, s1]; exact hn)
  refine ⟨h5, ?_, by rw [s5, s4, s3, s2, s1]⟩
  rw [hptr] at e2
  unfold atomic_shared_ptr.compare_exchange_weak
  simp only [e1, hptr, hne, ne_eq, not_false_eq_true, if_true, assign_from_guard,
    local_access.get_shared_ptr, e2, e3, e4, e5]

/-- The function `compare_exchange_weak` when the slot holds the cell of `expected`: the slot is
overwritten with pointer and mark of `newptr`. -/
theorem cew_shape_success {h : heap} {r : slot_ref} (expected newptr : shared_ptr)
    (hok : h.shape.ok) (hv : h.shape.valid_slot r)
    (hok2 : (h.shape.set_slot r (newptr.header, newptr.mark)).ok)
    (heq : h.shape.ptr r = expected.header) :
    ∃ h1, atomic_shared_ptr.compare_exchange_weak h r expected newptr =
        some (true, expected, h1) ∧
      h1.shape = h.shape.set_slot r (newptr.header, newptr.mark) := by
  obtain ⟨g, h1, e1, s1, hg, hp1, hgv⟩ := local_access_create_shape hv
  have hptr : g.val.ptr = h.shape.ptr r := by
    have := congrArg Prod.fst hgv
    simpa [counted_ptr.view, shape.ptr] using this
  have hvp : h.shape.valid_ptr g.val.ptr := by rw [hptr]; exact valid_ptr_slot hok r
  obtain ⟨h2, e2, e2s⟩ := ace_success
    { access_count := 0, mark := newptr.mark, ptr := newptr.header } hp1
  have s2 : h2.shape = h.shape.set_slot r (newptr.header, newptr.mark) := by
    rw [set_p_shape e2s, s1]; rfl
  have heq1 : g.val.ptr = expected.header := by rw [hptr]; exact heq
  have hfin : ∀ h3, h3.shape = h2.shape → ∃ h4, (match local_access.release h3 g with
      | none => none
      | some h4 => some (true, expected, h4)) = some (true, expected, h4) ∧
      h4.shape = h.shape.set_slot r (newptr.header, newptr.mark) := by
    intro h3 s3
    obtain ⟨h4, e4, s4⟩ := local_access_release_shape (g := g) (s3 ▸ s2 ▸ hok2)
      (by rw [s3, s2, hg]; exact valid_slot_set_slot.mpr hv)
      (by rw [s3, s2]; exact valid_ptr_set_slot.mpr hvp)
    exact ⟨h4, by simp only [e4], by rw [s4, s3, s2]⟩
  unfold atomic_shared_ptr.compare_exchange_weak
  simp only [e1, heq1, ne_eq, not_true_eq_false, if_false]
  rw [e2]
  simp only []
  cases hq : g.val.ptr with
  | none => exact hfin h2 rfl
  | some i =>
    obtain ⟨h3, e3, s3⟩ := modify_count_shape (-1) g.val.access_count (s2 ▸ hok2)
        (by rw [s2, set_slot_nodes_length]; exact hvp i hq)
    simp only [e3]
    exact hfin h3 s3


theorem nodes_set_slot_head (sh : shape) (b : Nat) (v : Option Nat × Bool) :
    (sh.set_slot (.head b) v).nodes = sh.nodes := rfl

theorem heads_set_slot_next (sh : shape) (i : Nat) (v : Option Nat × Bool) :
    (sh.set_slot (.next i) v).heads = sh.heads := by
  simp only [shape.set_slot]
  cases sh.nodes[i]? <;> rfl

/-- The cells after a slot was overwritten. -/
theorem nodes_set_slot_next (sh : shape) (i k : Nat) (v : Option Nat × Bool) :
    (sh.set_slot (.next i) v).nodes[k]? =
      if i = k then (sh.nodes[k]?).map (fun n => { n with next := v.1, mark := v.2 })
      else sh.nodes[k]? := by
  simp only [shape.set_slot]
  cases hn : sh.nodes[i]? with
  | none =>
    by_cases hk : i = k
    · subst hk; simp [hn]
    · simp [hk]
  | some n =>
    by_cases hk : i = k
    · subst hk; simp [List.getElem?_set', hn]
    · simp [List.getElem?_set', hk]

theorem slot_set_slot_same {sh : shape} {r : slot_ref} (v : Option Nat × Bool)
    (hv : sh.valid_slot r) : (sh.set_slot r v).slot r = v := by
  cases r with
  | head b =>
    simp only [shape.valid_slot] at hv
    simp [shape.slot, shape.set_slot, hv]
  | next i =>
    simp only [shape.valid_slot] at hv
    simp [shape.slot, nodes_set_slot_next, List.getElem?_eq_getElem hv]

theorem slot_set_slot_other {sh : shape} {r r1 : slot_ref} (v : Option Nat × Bool)
    (hne : r1 ≠ r) : (sh.set_slot r v).slot r1 = sh.slot r1 := by
  cases r with
  | head b =>
    cases r1 with
    | head b1 =>
      have : b ≠ b1 := fun e => hne (by rw [e])
      simp [shape.slot, shape.set_slot, List.getElem?_set', this]
    | next i1 => rfl
  | next i =>
    cases r1 with
    | head b1 => simp [shape.slot, heads_set_slot_next]
    | next i1 =>
      have : i ≠ i1 := fun e => hne (by rw [e])
      simp [shape.slot, nodes_set_slot_next, this]

/-- Overwriting a slot keeps the lists well formed when the new pointer is below the
bound and, for the `next` slot of cell `k`, above `k`. -/
theorem okb_set_slot {sh : shape} {m : Nat} {r : slot_ref} {v : Option Nat × Bool}
    (hok : sh.okb m)
    (hv : ∀ j, v.1 = some j → j < m ∧ ∀ k, r = .next k → k < j) :
    (sh.set_slot r v).okb m := by
  cases r with
  | head b =>
    constructor
    · intro i n hn j hj
      exact hok.next_lt i n hn j hj
    · intro b1 w hw j hj
      simp only [shape.set_slot, List.getElem?_set'] at hw
      by_cases hb : b = b1
      · simp only [hb, if_true] at hw
        cases hb1 : sh.heads[b1]? with
        | none => simp [hb1] at hw
        | some w0 =>
          simp [hb1] at hw
          subst hw
          exact (hv j hj).1
      · simp only [hb, if_false] at hw
        exact hok.head_lt b1 w hw j hj
  | next i =>
    constructor
    · intro k n hn j hj
      rw [nodes_set_slot_next] at hn
      by_cases hk : i = k
      · simp only [hk, if_true] at hn
        cases hk1 : sh.nodes[k]? with
        | none => simp [hk1] at hn
        | some n0 =>
          simp [hk1] at hn
          subst hn
          simp only at hj
          exact ⟨(hv j hj).2 k (by rw [hk]), (hv j hj).1⟩
      · simp only [hk, if_false] at hn
        exact hok.next_lt k n hn j hj
    · intro b1 w hw j hj
      rw [heads_set_slot_next] at hw
      exact hok.head_lt b1 w hw j hj

theorem ptr_lt_of_okb {sh : shape} {m : Nat} (hok : sh.okb m) {r : slot_ref} {j : Nat}
    (hj : sh.ptr r = some j) : j < m ∧ ∀ k, r = .next k → k < j := by
  cases r with
  | head b =>
    simp only [shape.ptr, shape.slot] at hj
    cases hb : sh.heads[b]? with
    | none => simp [hb] at hj
    | some v =>
      simp [hb] at hj
      exact ⟨hok.head_lt b v hb j hj, fun k hk => by cases hk⟩
  | next i =>
    simp only [shape.ptr, shape.slot] at hj
    cases hn : sh.nodes[i]? with
    | none => simp [hn] at hj
    | some n =>
      simp [hn] at hj
      have := hok.next_lt i n hn j hj
      exact ⟨this.2, fun k hk => by cases hk; exact this.1⟩

theorem set_mark_nodes_length (sh : shape) (r : slot_ref) (b : Bool) :
    (sh.set_mark r b).nodes.length = sh.nodes.length := set_slot_nodes_length _ _ _

theorem set_mark_heads_length (sh : shape) (r : slot_ref) (b : Bool) :
    (sh.set_mark r b).heads.length = sh.heads.length := set_slot_heads_length _ _ _

theorem okb_set_mark {sh : shape} {m : Nat} (hok : sh.okb m) (r : slot_ref) (b : Bool) :
    (sh.set_mark r b).okb m :=
  okb_set_slot hok (fun _ hj => ptr_lt_of_okb hok hj)

/-- Setting a mark changes no pointer. -/
theorem ptr_set_mark (sh : shape) (r r1 : slot_ref) (b : Bool) :
    (sh.set_mark r b).ptr r1 = sh.ptr r1 := by
  by_cases hr : r1 = r
  · subst hr
    by_cases hv : sh.valid_slot r1
    · simp [shape.ptr, shape.set_mark, slot_set_slot_same _ hv]
    · cases r1 with
      | head b1 =>
        simp only [shape.valid_slot, not_lt] at hv
        simp [shape.ptr, shape.set_mark, shape.slot, shape.set_slot, List.getElem?_set',
          List.getElem?_eq_none hv]
      | next i =>
        simp only [shape.valid_slot, not_lt] at hv
        simp [shape.ptr, shape.set_mark, shape.slot, shape.set_slot, List.getElem?_eq_none hv]
  · simp [shape.ptr, shape.set_mark, slot_set_slot_other _ hr]

theorem remove_nodes_length (sh : shape) (c : cursor) :
    (sh.remove c).2.nodes.length = sh.nodes.length := by
  unfold shape.remove
  cases c.current.header with
  | none => rfl
  | some i =>
    simp only
    split <;> simp [set_slot_nodes_length, set_mark_nodes_length]

theorem remove_heads_length (sh : shape) (c : cursor) :
    (sh.remove c).2.heads.length = sh.heads.length := by
  unfold shape.remove
  cases c.current.header with
  | none => rfl
  | some i =>
    simp only
    split <;> simp [set_slot_heads_length, set_mark_heads_length]

/-- Unlinking keeps the lists well formed: the successor of the removed cell is younger
than the predecessor. -/
theorem okb_remove {sh : shape} {m : Nat} (hok : sh.okb m) (c : cursor) :
    (sh.remove c).2.okb m := by
  unfold shape.remove
  cases hc : c.current.header with
  | none => exact hok
  | some i =>
    simp only
    have hok1 := okb_set_mark hok (.next i) true
    split
    · rename_i hcond
      apply okb_set_slot hok1
      intro j hj
      simp only at hj
      have h1 := ptr_lt_of_okb hok1 hj
      have h2 := ptr_lt_of_okb hok1 hcond.1
      refine ⟨h1.1, fun k hk => ?_⟩
      have := h2.2 k hk
      have := h1.2 i rfl
      omega
    · exact hok1


theorem ces_shape_success {h : heap} {r : slot_ref} (expected newptr : shared_ptr)
    (hok : h.shape.ok) (hv : h.shape.valid_slot r) (he : h.shape.valid_ptr expected.header)
    (hn : h.shape.valid_ptr newptr.header)
    (hok2 : (h.shape.set_slot r (newptr.header, newptr.mark)).ok)
    (heq : h.shape.ptr r = expected.header) :
    ∃ h1, atomic_shared_ptr.compare_exchange_strong h r expected newptr =
        some (true, expected, h1) ∧
      h1.shape = h.shape.set_slot r (newptr.header, newptr.mark) := by
  obtain ⟨h1, e1, s1⟩ := copy_shape (r := expected) hok he
  obtain ⟨h2, e2, s2⟩ := copy_shape (r := newptr) (s1 ▸ hok) (by rw [s1]; exact hn)
  have s21 : h2.shape = h.shape := by rw [s2, s1]
  obtain ⟨h3, e3, s3⟩ := cew_shape_success (h := h2) (r := r) (expected) (newptr) (s21 ▸ hok) (by rw [s21]; exact hv) (by rw [s21]; exact hok2)
    (by rw [s21]; exact heq)
  rw [s21] at s3
  obtain ⟨h4, e4, s4⟩ := drop_shape (r := expected) (s3 ▸ hok2)
    (by rw [s3]; exact valid_ptr_set_slot.mpr he)
  obtain ⟨h5, e5, s5⟩ := drop_shape (r := newptr) (s4 ▸ s3 ▸ hok2)
    (by rw [s4, s3]; exact valid_ptr_set_slot.mpr hn)
  refine ⟨h5, ?_, by rw [s5, s4, s3]⟩
  simp only [atomic_shared_ptr.compare_exchange_strong, e1,
    atomic_shared_ptr.compare_exchange_strong_loop, e2, e3, e4, e5]

theorem ces_shape_fail {h : heap} {r : slot_ref} (expected newptr : shared_ptr)
    (hok : h.shape.ok) (hv : h.shape.valid_slot r) (he : h.shape.valid_ptr expected.header)
    (hn : h.shape.valid_ptr newptr.header) (hne : h.shape.ptr r ≠ expected.header) :
    ∃ h1, atomic_shared_ptr.compare_exchange_strong h r expected newptr =
        some (false, { header := h.shape.ptr r, mark := false }, h1) ∧
      h1.shape = h.shape := by
  obtain ⟨h1, e1, s1⟩ := copy_shape (r := expected) hok he
  obtain ⟨h2, e2, s2⟩ := copy_shape (r := newptr) (s1 ▸ hok) (by rw [s1]; exact hn)
  have s21 : h2.shape = h.shape := by rw [s2, s1]
  obtain ⟨h3, e3, s3⟩ := cew_shape_fail (h := h2) (r := r) (expected) (newptr) (s21 ▸ hok) (by rw [s21]; exact hv) (by rw [s21]; exact he)
    (by rw [s21]; exact hn) (by rw [s21]; exact hne)
  rw [s21] at s3 e3
  obtain ⟨h4, e4, s4⟩ := drop_shape (r := expected) (s3 ▸ hok) (by rw [s3]; exact he)
  obtain ⟨h5, e5, s5⟩ := drop_shape (r := newptr) (s4 ▸ s3 ▸ hok) (by rw [s4, s3]; exact hn)
  refine ⟨h5, ?_, by rw [s5, s4, s3]⟩
  have hneq : shared_ptr.eq { header := h.shape.ptr r, mark := false } expected = false := by
    simp [shared_ptr.eq, hne]
  simp only [atomic_shared_ptr.compare_exchange_strong, e1,
    atomic_shared_ptr.compare_exchange_strong_loop, e2, e3, hneq]
  simp [e4, e5]

theorem validb_slot {sh : shape} {c : cursor} (hc : c.validb sh.nodes.length sh) :
    sh.valid_slot c.owner := by
  have := hc.owner_ok
  cases ho : c.owner with
  | head b => simpa [ho, shape.valid_slot] using this
  | next k => simpa [ho, shape.valid_slot] using this

theorem validb_current {sh : shape} {c : cursor} (hc : c.validb sh.nodes.length sh) :
    sh.valid_ptr c.current.header := fun i hi => hc.current_lt i hi

theorem validb_holder {sh : shape} {c : cursor} (hc : c.validb sh.nodes.length sh) :
    sh.valid_ptr c.owner_holder.header := fun i hi => hc.holder_lt i hi

/-- The loop of `cursor::remove` never advances: the handle it loads carries no mark. -/
theorem remove_loop_shape {h : heap} (next : shared_ptr) (fuel : Nat) (hok : h.shape.ok)
    (hn : h.shape.valid_ptr next.header) :
    ∃ h1, cursor.remove_loop (fuel + 1) h next = some (next, h1) ∧ h1.shape = h.shape := by
  unfold cursor.remove_loop
  cases hh : next.header with
  | none => exact ⟨h, rfl, rfl⟩
  | some j =>
    have hj : j < h.shape.nodes.length := hn j hh
    obtain ⟨h1, e1, s1⟩ := load_shape (r := .next j) hok hj
    obtain ⟨h2, e2, s2⟩ := drop_shape (r := { header := h.shape.ptr (.next j), mark := false })
      (s1 ▸ hok) (by rw [s1]; exact valid_ptr_slot hok _)
    refine ⟨h2, ?_, by rw [s2, s1]⟩
    simp only [e1, e2]
    simp

/-- The function `cursor::remove` does to the lists what `shape.remove` says. -/
theorem remove_refines {h : heap} {c : cursor} (hok : h.shape.ok)
    (hc : c.validb h.shape.nodes.length h.shape) :
    ∃ h1, cursor.remove h c = some ((h.shape.remove c).1, h1) ∧
      h1.shape = (h.shape.remove c).2 := by
  unfold cursor.remove shape.remove
  cases hcur : c.current.header with
  | none => exact ⟨h, rfl, rfl⟩
  | some i =>
    have hi : i < h.shape.nodes.length := hc.current_lt i hcur
    simp only
    obtain ⟨h1, e1, s1⟩ := mark_shape (r := .next i) true hi
    generalize hsh1 : h.shape.set_mark (.next i) true = sh1 at s1
    have hok1 : sh1.ok := by
      rw [← hsh1]
      have := okb_set_mark hok (.next i) true
      rwa [shape.ok, set_mark_nodes_length]
    have hl1 : sh1.nodes.length = h.shape.nodes.length := by
      rw [← hsh1, set_mark_nodes_length]
    have hhl1 : sh1.heads.length = h.shape.heads.length := by
      rw [← hsh1, set_mark_heads_length]
    have hvo : sh1.valid_slot c.owner := (valid_slot_congr hl1 hhl1 _).mpr (validb_slot hc)
    obtain ⟨h2, e2, s2⟩ := load_shape (h := h1) (r := c.owner) (s1 ▸ hok1) (by rw [s1]; exact hvo)
    rw [s1] at e2 s2
    simp only [e1, e2]
    by_cases hcond : sh1.ptr c.owner = some i ∧ c.current.mark = false
    · -- the slot still holds `current`
      have heqb : shared_ptr.eq { header := sh1.ptr c.owner, mark := false } c.current = true := by
        simp [shared_ptr.eq, hcond.1, hcur, hcond.2]
      simp only [heqb, hcond, and_self, if_true, Bool.false_or, Bool.not_true]
      have hi1 : i < sh1.nodes.length := by rw [hl1]; exact hi
      obtain ⟨h3, e3, s3⟩ := load_shape (h := h2) (r := .next i) (s2 ▸ hok1)
        (by rw [s2]; exact hi1)
      rw [s2] at e3 s3
      have hvn : sh1.valid_ptr (sh1.ptr (.next i)) := valid_ptr_slot hok1 _
      obtain ⟨h4, e4, s4⟩ := remove_loop_shape (h := h3)
        { header := sh1.ptr (.next i), mark := false } h3.nodes.length
        (s3 ▸ hok1) (by rw [s3]; exact hvn)
      rw [s3] at s4
      obtain ⟨h5, e5, s5⟩ := copy_shape (h := h4)
        (r := { header := sh1.ptr (.next i), mark := false }) (s4 ▸ hok1) (by rw [s4]; exact hvn)
      rw [s4] at s5
      have hok2 : (sh1.set_slot c.owner (sh1.ptr (.next i), false)).ok := by
        have := okb_remove hok c
        simp only [shape.remove, hcur, hsh1, hcond, and_self, if_true] at this
        rwa [shape.ok, set_slot_nodes_length, hl1]
      obtain ⟨h6, e6, s6⟩ := cew_shape_success (h := h5) (r := c.owner)
        ({ header := sh1.ptr c.owner, mark := false }) ({ header := sh1.ptr (.next i), mark := false })
        (s5 ▸ hok1) (by rw [s5]; exact hvo) (by rw [s5]; exact hok2) (by rw [s5])
      rw [s5] at s6
      obtain ⟨h7, e7, s7⟩ := drop_shape (h := h6)
        (r := { header := sh1.ptr (.next i), mark := false }) (s6 ▸ hok2)
        (by rw [s6]; exact valid_ptr_set_slot.mpr hvn)
      obtain ⟨h8, e8, s8⟩ := drop_shape (h := h7)
        (r := { header := sh1.ptr c.owner, mark := false }) (s7 ▸ s6 ▸ hok2)
        (by rw [s7, s6]; exact valid_ptr_set_slot.mpr (valid_ptr_slot hok1 _))
      refine ⟨h8, ?_, by rw [s8, s7, s6]⟩
      simp only [hcond.1, e3, e4, e5] at e6 e8 heqb ⊢
      simp [heqb, e6, e7, e8]
    · have heqb : shared_ptr.eq { header := sh1.ptr c.owner, mark := false } c.current = false := by
        simp only [shared_ptr.eq, hcur]
        by_cases hp : sh1.ptr c.owner = some i
        · have : c.current.mark = true := by
            cases hm : c.current.mark with
            | true => rfl
            | false => exact absurd ⟨hp, hm⟩ hcond
          simp [hp, this]
        · simp [hp]
      obtain ⟨h3, e3, s3⟩ := drop_shape (h := h2)
        (r := { header := sh1.ptr c.owner, mark := false }) (s2 ▸ hok1)
        (by rw [s2]; exact valid_ptr_slot hok1 _)
      refine ⟨h3, ?_, by rw [s3, s2]; simp [hcond]⟩
      simp only [heqb, Bool.false_or, Bool.not_false, if_true, e3, hcond, if_false]


theorem validb_congr {m : Nat} {sh sh1 : shape} {c : cursor}
    (hh : sh1.heads.length = sh.heads.length) (hc : c.validb m sh) : c.validb m sh1 := by
  refine ⟨?_, hc.current_lt, hc.holder_lt, hc.mark_false⟩
  have := hc.owner_ok
  cases ho : c.owner with
  | head b => simpa [ho, hh] using this
  | next k => simpa [ho] using this

/-- What one pass of the loop of `cursor::go_next` makes of the cursor. -/
theorem validb_advance {m : Nat} {sh : shape} {c : cursor} {i : Nat} (hok : sh.okb m)
    (hc : c.validb m sh) (hi : c.current.header = some i) :
    (sh.advance c i).validb m sh := by
  refine ⟨?_, ?_, ?_, rfl⟩
  · exact hc.current_lt i hi
  · intro j hj
    exact (ptr_lt_of_okb hok hj).1
  · intro j hj
    exact hc.current_lt j hj

/-- A cell that the test of `go_next` finds stale exists. -/
theorem stale_some {node_life : Int} {sh : shape} {c : cursor} (hm : c.current.mark = false)
    (hs : shape.stale node_life sh c = true) : ∃ j, c.current.header = some j := by
  unfold shape.stale at hs
  cases hh : c.current.header with
  | none => simp [hm, hh] at hs
  | some j => exact ⟨j, rfl⟩

/-- The loop of `cursor::go_next` on the lists: well-formedness and sizes are kept, the
cursor stays valid, and `current` moves to a younger cell. -/
theorem go_next_loop_inv (node_life : Int) (m : Nat) : ∀ (fuel : Nat) (sh : shape) (c : cursor),
    sh.okb m → c.validb m sh →
    (shape.go_next_loop node_life fuel sh c).2.okb m ∧
    (shape.go_next_loop node_life fuel sh c).1.validb m
      (shape.go_next_loop node_life fuel sh c).2 ∧
    (shape.go_next_loop node_life fuel sh c).2.nodes.length = sh.nodes.length ∧
    (shape.go_next_loop node_life fuel sh c).2.heads.length = sh.heads.length ∧
    (shape.go_next_loop node_life fuel sh c).1.local_time = c.local_time := by
  intro fuel
  induction fuel with
  | zero => intro sh c hok hc; exact ⟨hok, hc, rfl, rfl, rfl⟩
  | succ fuel ih =>
    intro sh c hok hc
    unfold shape.go_next_loop
    cases hi : c.current.header with
    | none => exact ⟨hok, hc, rfl, rfl, rfl⟩
    | some i =>
      simp only
      have hc1 := validb_advance hok hc hi
      split
      · have hr := ih (sh.remove (sh.advance c i)).2 (sh.advance c i)
          (okb_remove hok (sh.advance c i))
          (validb_congr (remove_heads_length sh (sh.advance c i)) hc1)
        refine ⟨hr.1, hr.2.1, ?_, ?_, hr.2.2.2.2⟩
        · rw [hr.2.2.1, remove_nodes_length]
        · rw [hr.2.2.2.1, remove_heads_length]
      · exact ⟨hok, hc1, rfl, rfl, rfl⟩

theorem stale_refines {node_life : Int} {h : heap} {c : cursor}
    (hv : h.shape.valid_ptr c.current.header) :
    cursor.stale node_life h c = some (h.shape.stale node_life c) := by
  unfold cursor.stale shape.stale
  cases hm : c.current.mark with
  | true => simp
  | false =>
    cases hh : c.current.header with
    | none => simp
    | some i =>
      have hi : i < h.nodes.length := by
        have := hv i hh
        rwa [shape_nodes_length] at this
      simp [heap.time_stamp, shape_nodes_get, List.getElem?_eq_getElem hi,
        shared_ptr_header.view]

/-- The loop of `cursor::go_next` does to the cursor and the lists what
`shape.go_next_loop` says, and it ends. -/
theorem go_next_loop_refines (node_life : Int) : ∀ (fuel : Nat) (h : heap) (c : cursor),
    h.shape.ok → c.validb h.shape.nodes.length h.shape →
    (∀ i, c.current.header = some i → h.shape.nodes.length - i ≤ fuel) →
    ∃ h1, cursor.go_next_loop node_life (fuel + 1) h c =
        some ((shape.go_next_loop node_life (fuel + 1) h.shape c).1, h1) ∧
      h1.shape = (shape.go_next_loop node_life (fuel + 1) h.shape c).2 := by
  intro fuel
  induction fuel with
  | zero =>
    intro h c hok hc hf
    unfold cursor.go_next_loop shape.go_next_loop
    cases hi : c.current.header with
    | none => exact ⟨h, rfl, rfl⟩
    | some i =>
      have := hf i hi
      have := hc.current_lt i hi
      omega
  | succ fuel ih =>
    intro h c hok hc hf
    unfold cursor.go_next_loop shape.go_next_loop
    cases hi : c.current.header with
    | none => exact ⟨h, rfl, rfl⟩
    | some i =>
      simp only
      have hilt : i < h.shape.nodes.length := hc.current_lt i hi
      obtain ⟨h1, e1, s1⟩ := copy_shape (r := c.current) hok (validb_current hc)
      obtain ⟨h2, e2, s2⟩ := drop_shape (h := h1) (r := c.owner_holder) (s1 ▸ hok)
        (by rw [s1]; exact validb_holder hc)
      rw [s1] at s2
      obtain ⟨h3, e3, s3⟩ := load_shape (h := h2) (r := .next i) (s2 ▸ hok)
        (by rw [s2]; exact hilt)
      rw [s2] at s3 e3
      obtain ⟨h4, e4, s4⟩ := drop_shape (h := h3) (r := c.current) (s3 ▸ hok)
        (by rw [s3]; exact validb_current hc)
      rw [s3] at s4
      have hc1 := validb_advance hok hc hi
      have est : cursor.stale node_life h4 (h.shape.advance c i) =
          some (h.shape.stale node_life (h.shape.advance c i)) := by
        rw [← s4]; exact stale_refines (by rw [s4]; exact validb_current hc1)
      simp only [e1, e2, e3, e4]
      change ∃ h1, (match cursor.stale node_life h4 (h.shape.advance c i) with
        | none => none
        | some true =>
          match cursor.remove h4 (h.shape.advance c i) with
          | none => none
          | some (_, h5) => cursor.go_next_loop node_life (fuel + 1) h5 (h.shape.advance c i)
        | some false => some (h.shape.advance c i, h4)) = _ ∧ _
      rw [est]
      cases hst : shape.stale node_life h.shape (h.shape.advance c i) with
      | false => exact ⟨h4, by simp, by simp [s4]⟩
      | true =>
        simp only [if_true]
        obtain ⟨h5, e5, s5⟩ := remove_refines (h := h4) (c := h.shape.advance c i) (s4 ▸ hok)
          (by rw [s4]; exact hc1)
        rw [s4] at e5 s5
        simp only [e5]
        have hok5 : h5.shape.ok := by
          rw [s5]
          have := okb_remove hok (h.shape.advance c i)
          rwa [shape.ok, remove_nodes_length]
        have hl5 : h5.shape.nodes.length = h.shape.nodes.length := by
          rw [s5, remove_nodes_length]
        have hc5 : (h.shape.advance c i).validb h5.shape.nodes.length h5.shape := by
          rw [hl5]
          exact validb_congr (by rw [s5, remove_heads_length]) hc1
        obtain ⟨h6, e6, s6⟩ := ih h5 (h.shape.advance c i) hok5 hc5 (by
          intro j hj
          rw [hl5]
          have hj2 : h.shape.ptr (.next i) = some j := hj
          have := (ptr_lt_of_okb hok hj2).2 i rfl
          have := hf i hi
          omega)
        rw [s5] at e6 s6
        exact ⟨h6, e6, s6⟩


/-- The loop of `cursor::go_next` moves `current` to a younger cell. -/
theorem go_next_loop_adv (node_life : Int) (m : Nat) : ∀ (fuel : Nat) (sh : shape) (c : cursor)
    (i j : Nat), sh.okb m → c.current.header = some i →
    (shape.go_next_loop node_life fuel sh c).1.current.header = some j →
    i ≤ j ∧ (0 < fuel → i < j) := by
  intro fuel
  induction fuel with
  | zero =>
    intro sh c i j _ hi hj
    simp only [shape.go_next_loop, hi] at hj
    cases hj
    exact ⟨le_refl _, fun h => absurd h (lt_irrefl 0)⟩
  | succ fuel ih =>
    intro sh c i j hok hi hj
    unfold shape.go_next_loop at hj
    simp only [hi] at hj
    split at hj
    · rename_i hst
      obtain ⟨j1, hj1⟩ := stale_some rfl hst
      have h1 : sh.ptr (.next i) = some j1 := hj1
      have hlt := (ptr_lt_of_okb hok h1).2 i rfl
      have := (ih (sh.remove (sh.advance c i)).2 (sh.advance c i) j1 j
        (okb_remove hok _) hj1 hj).1
      exact ⟨by omega, fun _ => by omega⟩
    · have h1 : sh.ptr (.next i) = some j := hj
      have hlt := (ptr_lt_of_okb hok h1).2 i rfl
      exact ⟨by omega, fun _ => hlt⟩

theorem go_next_loop_none (node_life : Int) (fuel : Nat) (sh : shape) (c : cursor)
    (hc : c.current.header = none) : shape.go_next_loop node_life fuel sh c = (c, sh) := by
  cases fuel with
  | zero => rfl
  | succ fuel => simp [shape.go_next_loop, hc]

/-- The function `cursor::go_next` does to the cursor and the lists what `shape.go_next` says. -/
theorem go_next_refines (node_life : Int) {h : heap} {c : cursor} (hok : h.shape.ok)
    (hc : c.validb h.shape.nodes.length h.shape) :
    ∃ h1, cursor.go_next node_life h c =
        some ((shape.go_next node_life h.shape c).1.current.to_bool,
              (shape.go_next node_life h.shape c).1, h1) ∧
      h1.shape = (shape.go_next node_life h.shape c).2 := by
  obtain ⟨h1, e1, s1⟩ := go_next_loop_refines node_life h.shape.nodes.length h c hok hc
    (fun i _ => Nat.sub_le _ _)
  refine ⟨h1, ?_, s1⟩
  rw [shape_nodes_length] at e1
  simp only [cursor.go_next, e1, shape.go_next, shape_nodes_length]

theorem go_next_inv (node_life : Int) {m : Nat} {sh : shape} {c : cursor} (hok : sh.okb m)
    (hc : c.validb m sh) :
    (shape.go_next node_life sh c).2.okb m ∧
    (shape.go_next node_life sh c).1.validb m (shape.go_next node_life sh c).2 ∧
    (shape.go_next node_life sh c).2.nodes.length = sh.nodes.length ∧
    (shape.go_next node_life sh c).2.heads.length = sh.heads.length ∧
    (shape.go_next node_life sh c).1.local_time = c.local_time :=
  go_next_loop_inv node_life m _ sh c hok hc

theorem go_next_adv (node_life : Int) {m : Nat} {sh : shape} {c : cursor} {i j : Nat}
    (hok : sh.okb m) (hi : c.current.header = some i)
    (hj : (shape.go_next node_life sh c).1.current.header = some j) : i < j :=
  (go_next_loop_adv node_life m _ sh c i j hok hi hj).2 (Nat.succ_pos _)

theorem validb_create {m : Nat} (sh : shape) {b : Nat} (t : Int) (hok : sh.okb m)
    (hb : b < sh.heads.length) : (sh.cursor_create (.head b) t).validb m sh := by
  refine ⟨hb, ?_, ?_, rfl⟩
  · intro i hi
    exact (ptr_lt_of_okb hok hi).1
  · intro i hi
    cases hi

/-- The constructor of a cursor never advances: the handle it loads carries no mark. -/
theorem cursor_create_refines (node_life : Int) {h : heap} {r : slot_ref} (t : Int)
    (hok : h.shape.ok) (hv : h.shape.valid_slot r) :
    ∃ h1, cursor.create node_life h r t = some (h.shape.cursor_create r t, h1) ∧
      h1.shape = h.shape := by
  obtain ⟨h1, e1, s1⟩ := load_shape hok hv
  exact ⟨h1, by simp [cursor.create, e1, shape.cursor_create, shared_ptr.null], s1⟩

theorem cursor_destroy_shape {h : heap} {c : cursor} (hok : h.shape.ok)
    (hc : c.validb h.shape.nodes.length h.shape) :
    ∃ h1, cursor.destroy h c = some h1 ∧ h1.shape = h.shape := by
  obtain ⟨h1, e1, s1⟩ := drop_shape (r := c.current) hok (validb_current hc)
  obtain ⟨h2, e2, s2⟩ := drop_shape (h := h1) (r := c.owner_holder) (s1 ▸ hok)
    (by rw [s1]; exact validb_holder hc)
  exact ⟨h2, by simp [cursor.destroy, e1, e2], by rw [s2, s1]⟩

/-- The function `cursor::push_end(val)` installs `val` in the slot `owner`, at the latest on its second
attempt, and returns true. -/
theorem cursor_push_end_refines {h : heap} {c : cursor} (val : shared_ptr) (hok : h.shape.ok)
    (hc : c.validb h.shape.nodes.length h.shape) (hval : h.shape.valid_ptr val.header)
    (hok2 : (h.shape.set_slot c.owner (val.header, val.mark)).ok) :
    ∃ h1, cursor.push_end h c val = some (true, (h.shape.cursor_push_end c val).1, h1) ∧
      h1.shape = (h.shape.cursor_push_end c val).2 := by
  have hvo := validb_slot hc
  have hfin : ∀ (h2 : heap) (c1 : cursor),
      h2.shape = h.shape.set_slot c.owner (val.header, val.mark) →
      ∃ h3, (match shared_ptr.drop h2 val with
        | none => none
        | some h3 => some (true, c1, h3)) = some (true, c1, h3) ∧
        h3.shape = h.shape.set_slot c.owner (val.header, val.mark) := by
    intro h2 c1 s2
    obtain ⟨h3, e3, s3⟩ := drop_shape (h := h2) (r := val) (s2 ▸ hok2)
      (by rw [s2]; exact valid_ptr_set_slot.mpr hval)
    exact ⟨h3, by simp only [e3], by rw [s3, s2]⟩
  obtain ⟨h1, e1, s1⟩ := copy_shape (r := val) hok hval
  unfold cursor.push_end shape.cursor_push_end
  by_cases heq : h.shape.ptr c.owner = c.current.header
  · obtain ⟨h2, e2, s2⟩ := ces_shape_success (h := h1) (r := c.owner) (c.current) (val) (s1 ▸ hok) (by rw [s1]; exact hvo) (by rw [s1]; exact validb_current hc)
      (by rw [s1]; exact hval) (by rw [s1]; exact hok2) (by rw [s1]; exact heq)
    rw [s1] at s2
    simp only [cursor.push_end_loop, hc.mark_false, Bool.false_eq_true, if_false, e1, e2, heq,
      if_true]
    exact hfin h2 _ s2
  · obtain ⟨h2, e2, s2⟩ := ces_shape_fail (h := h1) (r := c.owner) (c.current) (val) (s1 ▸ hok) (by rw [s1]; exact hvo) (by rw [s1]; exact validb_current hc)
      (by rw [s1]; exact hval) (by rw [s1]; exact heq)
    rw [s1] at s2 e2
    obtain ⟨h3, e3, s3⟩ := copy_shape (h := h2) (r := val) (s2 ▸ hok) (by rw [s2]; exact hval)
    rw [s2] at s3
    obtain ⟨h4, e4, s4⟩ := ces_shape_success (h := h3) (r := c.owner)
      ({ header := h.shape.ptr c.owner, mark := false }) (val) (s3 ▸ hok) (by rw [s3]; exact hvo)
      (by rw [s3]; exact valid_ptr_slot hok _)
      (by rw [s3]; exact hval) (by rw [s3]; exact hok2) (by rw [s3])
    rw [s3] at s4
    simp only [cursor.push_end_loop, hc.mark_false, Bool.false_eq_true, if_false, e1, e2, heq,
      e3, e4]
    exact hfin h4 _ s4


theorem okb_mono {sh : shape} {m m1 : Nat} (hok : sh.okb m) (hm : m ≤ m1) : sh.okb m1 :=
  ⟨fun i n hn j hj => ⟨(hok.next_lt i n hn j hj).1, lt_of_lt_of_le (hok.next_lt i n hn j hj).2 hm⟩,
   fun b v hv j hj => lt_of_lt_of_le (hok.head_lt b v hv j hj) hm⟩

theorem validb_mono {sh : shape} {c : cursor} {m m1 : Nat} (hc : c.validb m sh) (hm : m ≤ m1) :
    c.validb m1 sh := by
  refine ⟨?_, fun i hi => lt_of_lt_of_le (hc.current_lt i hi) hm,
    fun i hi => lt_of_lt_of_le (hc.holder_lt i hi) hm, hc.mark_false⟩
  have := hc.owner_ok
  cases ho : c.owner with
  | head b => simpa [ho] using this
  | next k =>
    simp only [ho] at this ⊢
    omega

theorem alloc_nodes_length (sh : shape) (sp : shared_ptr) (t : Int) :
    (sh.alloc sp t).nodes.length = sh.nodes.length + 1 := by
  simp [shape.alloc]

theorem alloc_heads (sh : shape) (sp : shared_ptr) (t : Int) :
    (sh.alloc sp t).heads = sh.heads := rfl

/-- A fresh cell is not pointed to by anything, so the bound on the stored pointers stays. -/
theorem okb_alloc {sh : shape} {m : Nat} (hok : sh.okb m) (sp : shared_ptr) (t : Int) :
    (sh.alloc sp t).okb m := by
  constructor
  · intro i n hn j hj
    simp only [shape.alloc] at hn
    by_cases hi : i < sh.nodes.length
    · rw [List.getElem?_append_left hi] at hn
      exact hok.next_lt i n hn j hj
    · rw [List.getElem?_append_right (by omega)] at hn
      by_cases h0 : i - sh.nodes.length = 0
      · simp [h0] at hn
        subst hn
        simp at hj
      · obtain ⟨k, hk⟩ := Nat.exists_eq_succ_of_ne_zero h0
        simp [hk] at hn
  · intro b v hv j hj
    exact hok.head_lt b v hv j hj

theorem make_shared_node_refines {h : heap} (sp : shared_ptr) (t : Int) (hok : h.shape.ok) :
    ∃ h1, make_shared_node h sp t =
        some ({ header := some h.shape.nodes.length, mark := false }, h1) ∧
      h1.shape = h.shape.alloc sp t := by
  have s0 : (h.new_node sp t).shape = h.shape.alloc sp t := by
    simp [heap.new_node, heap.shape, shape.alloc, shared_ptr_header.view]
  have hok0 : (h.new_node sp t).shape.ok := by
    rw [s0]
    have := okb_mono (okb_alloc hok sp t) (Nat.le_succ _)
    rwa [shape.ok, alloc_nodes_length]
  obtain ⟨h1, e1, s1⟩ := from_header_shape (h := h.new_node sp t) (p := some h.nodes.length)
    hok0 (by
      intro i hi
      cases hi
      rw [s0, alloc_nodes_length, shape_nodes_length]
      omega)
  refine ⟨h1, ?_, by rw [s1, s0]⟩
  simp only [make_shared_node, e1, shape_nodes_length]

/-- The loop `while(c.go_next());` on the lists: well-formedness and sizes are kept and
the cursor stays valid. -/
theorem go_end_loop_inv (node_life : Int) (m : Nat) : ∀ (fuel : Nat) (sh : shape) (c : cursor),
    sh.okb m → c.validb m sh →
    (shape.go_end_loop node_life fuel sh c).2.okb m ∧
    (shape.go_end_loop node_life fuel sh c).1.validb m
      (shape.go_end_loop node_life fuel sh c).2 ∧
    (shape.go_end_loop node_life fuel sh c).2.nodes.length = sh.nodes.length ∧
    (shape.go_end_loop node_life fuel sh c).2.heads.length = sh.heads.length ∧
    (shape.go_end_loop node_life fuel sh c).1.local_time = c.local_time := by
  intro fuel
  induction fuel with
  | zero => intro sh c hok hc; exact ⟨hok, hc, rfl, rfl, rfl⟩
  | succ fuel ih =>
    intro sh c hok hc
    have hg := go_next_inv node_life hok hc
    unfold shape.go_end_loop
    simp only
    split
    · have hr := ih _ _ hg.1 hg.2.1
      exact ⟨hr.1, hr.2.1, by rw [hr.2.2.1, hg.2.2.1], by rw [hr.2.2.2.1, hg.2.2.2.1],
        by rw [hr.2.2.2.2, hg.2.2.2.2]⟩
    · exact hg

theorem to_bool_true {r : shared_ptr} (h : r.to_bool = true) : ∃ j, r.header = some j := by
  unfold shared_ptr.to_bool at h
  cases hh : r.header with
  | none => simp [hh] at h
  | some j => exact ⟨j, rfl⟩

/-- The loop `while(c.go_next());` does what `shape.go_end_loop` says, and it ends. -/
theorem go_end_loop_refines (node_life : Int) : ∀ (fuel : Nat) (h : heap) (c : cursor),
    h.shape.ok → c.validb h.shape.nodes.length h.shape →
    (∀ i, c.current.header = some i → h.shape.nodes.length - i ≤ fuel) →
    ∃ h1, cursor.go_end_loop node_life (fuel + 1) h c =
        some ((shape.go_end_loop node_life (fuel + 1) h.shape c).1, h1) ∧
      h1.shape = (shape.go_end_loop node_life (fuel + 1) h.shape c).2 := by
  intro fuel
  induction fuel with
  | zero =>
    intro h c hok hc hf
    obtain ⟨h1, e1, s1⟩ := go_next_refines node_life hok hc
    unfold cursor.go_end_loop shape.go_end_loop
    simp only [e1]
    cases hb : (shape.go_next node_life h.shape c).1.current.to_bool with
    | false => exact ⟨h1, by simp, by simp [s1]⟩
    | true =>
      exfalso
      obtain ⟨j, hj⟩ := to_bool_true hb
      cases hi : c.current.header with
      | none =>
        simp only [shape.go_next, go_next_loop_none _ _ _ _ hi] at hj
        rw [hi] at hj; cases hj
      | some i =>
        have := hf i hi
        have := hc.current_lt i hi
        omega
  | succ fuel ih =>
    intro h c hok hc hf
    obtain ⟨h1, e1, s1⟩ := go_next_refines node_life hok hc
    have hg := go_next_inv node_life hok hc
    unfold cursor.go_end_loop shape.go_end_loop
    simp only [e1]
    cases hb : (shape.go_next node_life h.shape c).1.current.to_bool with
    | false => exact ⟨h1, by simp, by simp [s1]⟩
    | true =>
      simp only [if_true]
      obtain ⟨j, hj⟩ := to_bool_true hb
      have hl1 : h1.shape.nodes.length = h.shape.nodes.length := by rw [s1, hg.2.2.1]
      obtain ⟨h2, e2, s2⟩ := ih h1 (shape.go_next node_life h.shape c).1
        (by rw [shape.ok, hl1, s1]; exact hg.1)
        (by rw [hl1, s1]; exact hg.2.1)
        (by
          intro j1 hj1
          rw [hl1]
          cases hi : c.current.header with
          | none =>
            simp only [shape.go_next, go_next_loop_none _ _ _ _ hi] at hj
            rw [hi] at hj; cases hj
          | some i =>
            have := go_next_adv node_life hok hi hj1
            have := hf i hi
            omega)
      rw [s1] at e2 s2
      exact ⟨h2, e2, s2⟩


theorem cursor_push_end_nodes_length (sh : shape) (c : cursor) (val : shared_ptr) :
    (sh.cursor_push_end c val).2.nodes.length = sh.nodes.length :=
  set_slot_nodes_length _ _ _

theorem cursor_push_end_heads_length (sh : shape) (c : cursor) (val : shared_ptr) :
    (sh.cursor_push_end c val).2.heads.length = sh.heads.length :=
  set_slot_heads_length _ _ _

/-- Installing the cell `m` in the slot of a cursor that refers to cells below `m`. -/
theorem okb_cursor_push_end {sh : shape} {m : Nat} {c : cursor} (hok : sh.okb m)
    (hc : c.validb m sh) (mk : Bool) :
    (sh.set_slot c.owner (some m, mk)).okb (m + 1) := by
  apply okb_set_slot (okb_mono hok (Nat.le_succ m))
  intro j hj
  simp only [Option.some.injEq] at hj
  subst hj
  refine ⟨Nat.lt_succ_self _, fun k hk => ?_⟩
  have := hc.owner_ok
  simpa [hk] using this

theorem validb_push_end {sh : shape} {m : Nat} {c : cursor} {val : shared_ptr}
    (hok : sh.okb m) (hc : c.validb m sh) :
    (sh.cursor_push_end c val).1.validb m (sh.cursor_push_end c val).2 := by
  unfold shape.cursor_push_end
  refine ⟨?_, ?_, hc.holder_lt, ?_⟩
  · have := hc.owner_ok
    simp only
    cases ho : c.owner with
    | head b => simpa [ho, set_slot_heads_length] using this
    | next k => simpa [ho] using this
  · intro i hi
    simp only at hi
    split at hi
    · exact hc.current_lt i hi
    · exact (ptr_lt_of_okb hok hi).1
  · simp only
    split
    · exact hc.mark_false
    · rfl

/-- The traversal of `cache::push_end`, up to the point where the new cell is installed. -/
theorem push_end_walk_inv (node_life : Int) {sh : shape} (sp : shared_ptr) {bucket : Nat}
    (t : Int) (hok : sh.ok) (hb : bucket < sh.heads.length) :
    (shape.go_end_loop node_life ((sh.alloc sp t).nodes.length + 1) (sh.alloc sp t)
        ((sh.alloc sp t).cursor_create (.head bucket) t)).2.okb sh.nodes.length ∧
    (shape.go_end_loop node_life ((sh.alloc sp t).nodes.length + 1) (sh.alloc sp t)
        ((sh.alloc sp t).cursor_create (.head bucket) t)).1.validb sh.nodes.length
      (shape.go_end_loop node_life ((sh.alloc sp t).nodes.length + 1) (sh.alloc sp t)
        ((sh.alloc sp t).cursor_create (.head bucket) t)).2 ∧
    (shape.go_end_loop node_life ((sh.alloc sp t).nodes.length + 1) (sh.alloc sp t)
        ((sh.alloc sp t).cursor_create (.head bucket) t)).2.nodes.length = sh.nodes.length + 1 ∧
    (shape.go_end_loop node_life ((sh.alloc sp t).nodes.length + 1) (sh.alloc sp t)
        ((sh.alloc sp t).cursor_create (.head bucket) t)).2.heads.length = sh.heads.length := by
  have hok1 := okb_alloc hok sp t
  have hc := validb_create (sh.alloc sp t) (b := bucket) t hok1 hb
  have := go_end_loop_inv node_life sh.nodes.length ((sh.alloc sp t).nodes.length + 1)
    (sh.alloc sp t) _ hok1 hc
  exact ⟨this.1, this.2.1, by rw [this.2.2.1, alloc_nodes_length], by rw [this.2.2.2.1]; rfl⟩

/-- The function `cache::push_end` keeps the lists well formed and adds one cell. -/
theorem push_end_inv (node_life : Int) {sh : shape} (sp : shared_ptr) {bucket : Nat}
    (t : Int) (hok : sh.ok) (hb : bucket < sh.heads.length) :
    (shape.push_end node_life sh sp bucket t).ok ∧
    (shape.push_end node_life sh sp bucket t).nodes.length = sh.nodes.length + 1 ∧
    (shape.push_end node_life sh sp bucket t).heads.length = sh.heads.length := by
  have hw := push_end_walk_inv node_life sp t hok hb
  have hl : (shape.push_end node_life sh sp bucket t).nodes.length = sh.nodes.length + 1 := by
    simp only [shape.push_end, cursor_push_end_nodes_length]
    exact hw.2.2.1
  refine ⟨?_, hl, ?_⟩
  · rw [shape.ok, hl]
    exact okb_cursor_push_end hw.1 hw.2.1 false
  · simp only [shape.push_end, cursor_push_end_heads_length]
    exact hw.2.2.2

/-- The function `cache::push_end` does to the lists what `shape.push_end` says: the first pass of its
loop succeeds. -/
theorem push_end_refines (node_life : Int) {h : heap} (sp : shared_ptr) {bucket : Nat}
    (t : Int) (hok : h.shape.ok) (hb : bucket < h.shape.heads.length) :
    ∃ h1, cache.push_end node_life h sp bucket t =
        some ({ header := some h.shape.nodes.length, mark := false }, h1) ∧
      h1.shape = shape.push_end node_life h.shape sp bucket t := by
  have hw := push_end_walk_inv node_life sp t hok hb
  obtain ⟨h1, e1, s1⟩ := make_shared_node_refines sp t hok
  generalize hsh1 : h.shape.alloc sp t = sh1 at s1 hw
  have hl1 : sh1.nodes.length = h.shape.nodes.length + 1 := by
    rw [← hsh1, alloc_nodes_length]
  have hok1 : sh1.ok := by
    rw [← hsh1]
    have := okb_mono (okb_alloc hok sp t) (Nat.le_succ _)
    rwa [shape.ok, alloc_nodes_length]
  have hb1 : bucket < sh1.heads.length := by rw [← hsh1]; exact hb
  obtain ⟨h2, e2, s2⟩ := cursor_create_refines node_life (h := h1) (r := .head bucket) t
    (s1 ▸ hok1) (by rw [s1]; exact hb1)
  rw [s1] at e2 s2
  have hc0 : (sh1.cursor_create (.head bucket) t).validb sh1.nodes.length sh1 :=
    validb_create sh1 t hok1 hb1
  obtain ⟨h3, e3, s3⟩ := go_end_loop_refines node_life h2.shape.nodes.length h2
    (sh1.cursor_create (.head bucket) t) (s2 ▸ hok1) (by rw [s2]; exact hc0)
    (fun i _ => Nat.sub_le _ _)
  rw [s2] at e3 s3
  generalize hr : shape.go_end_loop node_life (sh1.nodes.length + 1) sh1
    (sh1.cursor_create (.head bucket) t) = r at e3 s3 hw
  have hok3 : r.2.ok := by
    rw [shape.ok, hw.2.2.1]
    exact okb_mono hw.1 (Nat.le_succ _)
  have hc3 : r.1.validb r.2.nodes.length r.2 := by
    rw [hw.2.2.1]
    exact validb_mono hw.2.1 (Nat.le_succ _)
  have hvn : r.2.valid_ptr (some h.shape.nodes.length) := by
    intro i hi
    cases hi
    rw [hw.2.2.1]
    exact Nat.lt_succ_self _
  obtain ⟨h4, e4, s4⟩ := copy_shape (h := h3)
    (r := { header := some h.shape.nodes.length, mark := false }) (s3 ▸ hok3)
    (by rw [s3]; exact hvn)
  rw [s3] at s4
  have hok5 : (r.2.set_slot r.1.owner (some h.shape.nodes.length, false)).ok := by
    rw [shape.ok, set_slot_nodes_length, hw.2.2.1]
    exact okb_cursor_push_end hw.1 hw.2.1 false
  obtain ⟨h5, e5, s5⟩ := cursor_push_end_refines (h := h4) (c := r.1)
    { header := some h.shape.nodes.length, mark := false } (s4 ▸ hok3)
    (by rw [s4]; exact hc3) (by rw [s4]; exact hvn) (by rw [s4]; exact hok5)
  rw [s4] at e5 s5
  obtain ⟨h6, e6, s6⟩ := cursor_destroy_shape (h := h5)
    (c := (r.2.cursor_push_end r.1 { header := some h.shape.nodes.length, mark := false }).1)
    (by rw [s5]; exact hok5)
    (by
      rw [s5, cursor_push_end_nodes_length, hw.2.2.1]
      exact validb_mono (validb_push_end hw.1 hw.2.1) (Nat.le_succ _))
  refine ⟨h6, ?_, ?_⟩
  · have hlen2 : h2.nodes.length = sh1.nodes.length := by
      rw [← shape_nodes_length, s2]
    simp only [cache.push_end, e1, cache.push_end_loop, e2, hlen2, e3, e4, e5, e6, if_true]
  · rw [s6, s5]
    simp only [shape.push_end, hsh1, hr]


theorem payload_set_slot (sh : shape) (r : slot_ref) (v : Option Nat × Bool) :
    (sh.set_slot r v).payload = sh.payload := by
  cases r with
  | head b => rfl
  | next i =>
    apply List.ext_getElem?
    intro k
    simp only [shape.payload, List.getElem?_map, nodes_set_slot_next]
    by_cases hk : i = k
    · subst hk
      cases sh.nodes[i]? <;> simp
    · simp [hk]

theorem payload_set_mark (sh : shape) (r : slot_ref) (b : Bool) :
    (sh.set_mark r b).payload = sh.payload := payload_set_slot _ _ _

theorem payload_remove (sh : shape) (c : cursor) : (sh.remove c).2.payload = sh.payload := by
  unfold shape.remove
  cases c.current.header with
  | none => rfl
  | some i =>
    simp only
    split <;> simp [payload_set_slot, payload_set_mark]

theorem payload_go_next_loop (node_life : Int) : ∀ (fuel : Nat) (sh : shape) (c : cursor),
    (shape.go_next_loop node_life fuel sh c).2.payload = sh.payload := by
  intro fuel
  induction fuel with
  | zero => intro sh c; rfl
  | succ fuel ih =>
    intro sh c
    unfold shape.go_next_loop
    cases c.current.header with
    | none => rfl
    | some i =>
      simp only
      split
      · rw [ih, payload_remove]
      · rfl

theorem payload_go_next (node_life : Int) (sh : shape) (c : cursor) :
    (shape.go_next node_life sh c).2.payload = sh.payload :=
  payload_go_next_loop node_life _ sh c

theorem payload_go_end_loop (node_life : Int) : ∀ (fuel : Nat) (sh : shape) (c : cursor),
    (shape.go_end_loop node_life fuel sh c).2.payload = sh.payload := by
  intro fuel
  induction fuel with
  | zero => intro sh c; rfl
  | succ fuel ih =>
    intro sh c
    unfold shape.go_end_loop
    simp only
    split
    · rw [ih, payload_go_next]
    · exact payload_go_next node_life sh c

theorem payload_alloc (sh : shape) (sp : shared_ptr) (t : Int) :
    (sh.alloc sp t).payload = sh.payload ++ [(sp, t)] := by
  simp [shape.payload, shape.alloc]

theorem payload_push_end (node_life : Int) (sh : shape) (sp : shared_ptr) (bucket : Nat)
    (t : Int) : (shape.push_end node_life sh sp bucket t).payload = sh.payload ++ [(sp, t)] := by
  simp only [shape.push_end, shape.cursor_push_end, payload_set_slot, payload_go_end_loop,
    payload_alloc]

theorem payload_pop_first_loop (node_life : Int) : ∀ (fuel : Nat) (sh : shape) (c : cursor)
    (sp : shared_ptr), (shape.pop_first_loop node_life fuel sh c sp).2.payload = sh.payload := by
  intro fuel
  induction fuel with
  | zero => intro sh c sp; rfl
  | succ fuel ih =>
    intro sh c sp
    unfold shape.pop_first_loop
    cases c.current.header with
    | none => rfl
    | some i =>
      simp only
      cases sh.nodes[i]? with
      | none => rfl
      | some n =>
        simp only
        split
        · rw [ih, payload_go_next]
        · rfl

theorem payload_pop_first (node_life : Int) (sh : shape) (sp : shared_ptr) (bucket : Nat)
    (t : Int) : (shape.pop_first node_life sh sp bucket t).payload = sh.payload := by
  simp only [shape.pop_first, payload_remove, payload_pop_first_loop]

theorem payload_lookup_loop {K V : Type} [DecidableEq K] (node_life : Int)
    (kvs : List (KV K V)) (data : K) : ∀ (fuel : Nat) (sh : shape) (c : cursor),
    (shape.lookup_loop node_life kvs data fuel sh c).2.2.payload = sh.payload := by
  intro fuel
  induction fuel with
  | zero => intro sh c; rfl
  | succ fuel ih =>
    intro sh c
    unfold shape.lookup_loop
    cases c.current.header with
    | none => rfl
    | some i =>
      simp only
      cases sh.nodes[i]? with
      | none => rfl
      | some n =>
        simp only
        split
        · rfl
        · rw [ih, payload_go_next]

/-- The payload of a cell read through the list of payloads. -/
theorem payload_get (sh : shape) (i : Nat) :
    sh.payload[i]? = (sh.nodes[i]?).map (fun n => (n.data, n.time_stamp)) := by
  simp [shape.payload]

theorem payload_length (sh : shape) : sh.payload.length = sh.nodes.length := by
  simp [shape.payload]

/-- The loop of `cache::pop_first` on the lists. -/
theorem pop_first_loop_inv (node_life : Int) (m : Nat) : ∀ (fuel : Nat) (sh : shape)
    (c : cursor) (sp : shared_ptr), sh.okb m → c.validb m sh →
    (shape.pop_first_loop node_life fuel sh c sp).2.okb m ∧
    (shape.pop_first_loop node_life fuel sh c sp).1.validb m
      (shape.pop_first_loop node_life fuel sh c sp).2 ∧
    (shape.pop_first_loop node_life fuel sh c sp).2.nodes.length = sh.nodes.length ∧
    (shape.pop_first_loop node_life fuel sh c sp).2.heads.length = sh.heads.length := by
  intro fuel
  induction fuel with
  | zero => intro sh c sp hok hc; exact ⟨hok, hc, rfl, rfl⟩
  | succ fuel ih =>
    intro sh c sp hok hc
    unfold shape.pop_first_loop
    cases c.current.header with
    | none => exact ⟨hok, hc, rfl, rfl⟩
    | some i =>
      simp only
      cases sh.nodes[i]? with
      | none => exact ⟨hok, hc, rfl, rfl⟩
      | some n =>
        simp only
        have hg := go_next_inv node_life hok hc
        split
        · have hr := ih _ _ sp hg.1 hg.2.1
          exact ⟨hr.1, hr.2.1, by rw [hr.2.2.1, hg.2.2.1], by rw [hr.2.2.2, hg.2.2.2.1]⟩
        · exact ⟨hok, hc, rfl, rfl⟩

/-- The lookup loop of `operator()` on the lists. -/
theorem lookup_loop_inv {K V : Type} [DecidableEq K] (node_life : Int) (kvs : List (KV K V))
    (data : K) (m : Nat) : ∀ (fuel : Nat) (sh : shape) (c : cursor), sh.okb m → c.validb m sh →
    (shape.lookup_loop node_life kvs data fuel sh c).2.2.okb m ∧
    (shape.lookup_loop node_life kvs data fuel sh c).2.1.validb m
      (shape.lookup_loop node_life kvs data fuel sh c).2.2 ∧
    (shape.lookup_loop node_life kvs data fuel sh c).2.2.nodes.length = sh.nodes.length ∧
    (shape.lookup_loop node_life kvs data fuel sh c).2.2.heads.length = sh.heads.length ∧
    (∀ i, (shape.lookup_loop node_life kvs data fuel sh c).1 = some i →
      (shape.lookup_loop node_life kvs data fuel sh c).2.1.current.header = some i) := by
  intro fuel
  induction fuel with
  | zero => intro sh c hok hc; exact ⟨hok, hc, rfl, rfl, fun i hi => by cases hi⟩
  | succ fuel ih =>
    intro sh c hok hc
    unfold shape.lookup_loop
    cases hh : c.current.header with
    | none => exact ⟨hok, hc, rfl, rfl, fun i hi => by cases hi⟩
    | some i =>
      simp only
      cases sh.nodes[i]? with
      | none => exact ⟨hok, hc, rfl, rfl, fun i hi => by cases hi⟩
      | some n =>
        simp only
        have hg := go_next_inv node_life hok hc
        split
        · exact ⟨hok, hc, rfl, rfl, fun j hj => by cases hj; exact hh⟩
        · have hr := ih _ _ hg.1 hg.2.1
          exact ⟨hr.1, hr.2.1, by rw [hr.2.2.1, hg.2.2.1], by rw [hr.2.2.2.1, hg.2.2.2.1],
            hr.2.2.2.2⟩


theorem heap_data_shape {h : heap} {i : Nat} (hi : i < h.shape.nodes.length) :
    h.data i = some (h.shape.data i) := by
  rw [shape_nodes_length] at hi
  simp [heap.data, shape.data, shape_nodes_get, List.getElem?_eq_getElem hi,
    shared_ptr_header.view]

/-- The loop of `cache::pop_first` does what `shape.pop_first_loop` says, and it ends. -/
theorem pop_first_loop_refines (node_life : Int) (sp : shared_ptr) :
    ∀ (fuel : Nat) (h : heap) (c : cursor),
    h.shape.ok → c.validb h.shape.nodes.length h.shape →
    (∀ i, c.current.header = some i → h.shape.nodes.length - i ≤ fuel) →
    ∃ h1, cache.pop_first_loop node_life (fuel + 1) h c sp =
        some ((shape.pop_first_loop node_life (fuel + 1) h.shape c sp).1, h1) ∧
      h1.shape = (shape.pop_first_loop node_life (fuel + 1) h.shape c sp).2 := by
  intro fuel
  induction fuel with
  | zero =>
    intro h c hok hc hf
    unfold cache.pop_first_loop shape.pop_first_loop
    cases hi : c.current.header with
    | none => exact ⟨h, rfl, rfl⟩
    | some i =>
      have := hf i hi
      have := hc.current_lt i hi
      omega
  | succ fuel ih =>
    intro h c hok hc hf
    unfold cache.pop_first_loop shape.pop_first_loop
    cases hi : c.current.header with
    | none => exact ⟨h, rfl, rfl⟩
    | some i =>
      have hilt : i < h.shape.nodes.length := hc.current_lt i hi
      have hn : h.shape.nodes[i]? = some h.shape.nodes[i] := List.getElem?_eq_getElem hilt
      have hd : h.shape.data i = h.shape.nodes[i].data := by simp [shape.data, hn]
      simp only [heap_data_shape hilt, hn, hd]
      cases hb : (!shared_ptr.eq h.shape.nodes[i].data sp) with
      | false => exact ⟨h, by simp, by simp⟩
      | true =>
        simp only [if_true]
        obtain ⟨h1, e1, s1⟩ := go_next_refines node_life hok hc
        have hg := go_next_inv node_life hok hc
        have hl1 : h1.shape.nodes.length = h.shape.nodes.length := by rw [s1, hg.2.2.1]
        obtain ⟨h2, e2, s2⟩ := ih h1 (shape.go_next node_life h.shape c).1
          (by rw [shape.ok, hl1, s1]; exact hg.1)
          (by rw [hl1, s1]; exact hg.2.1)
          (by
            intro j hj
            rw [hl1]
            have := go_next_adv node_life hok hi hj
            have := hf i hi
            omega)
        rw [s1] at e2 s2
        simp only [e1]
        exact ⟨h2, e2, s2⟩

theorem pop_first_inv (node_life : Int) {sh : shape} (sp : shared_ptr) {bucket : Nat}
    (t : Int) (hok : sh.ok) (hb : bucket < sh.heads.length) :
    (shape.pop_first node_life sh sp bucket t).ok ∧
    (shape.pop_first node_life sh sp bucket t).nodes.length = sh.nodes.length ∧
    (shape.pop_first node_life sh sp bucket t).heads.length = sh.heads.length := by
  have hc := validb_create sh (b := bucket) t hok hb
  have hl := pop_first_loop_inv node_life sh.nodes.length (sh.nodes.length + 1) sh _ sp hok hc
  have hlen : (shape.pop_first node_life sh sp bucket t).nodes.length = sh.nodes.length := by
    simp only [shape.pop_first, remove_nodes_length]
    exact hl.2.2.1
  refine ⟨?_, hlen, ?_⟩
  · rw [shape.ok, hlen]
    exact okb_remove hl.1 _
  · simp only [shape.pop_first, remove_heads_length]
    exact hl.2.2.2

/-- The function `cache::pop_first` does to the lists what `shape.pop_first` says. -/
theorem pop_first_refines (node_life : Int) {h : heap} (sp : shared_ptr) {bucket : Nat}
    (t : Int) (hok : h.shape.ok) (hb : bucket < h.shape.heads.length) :
    ∃ res h1, cache.pop_first node_life h sp bucket t = some (res, h1) ∧
      h1.shape = shape.pop_first node_life h.shape sp bucket t ∧
      h1.shape.valid_ptr res.header := by
  obtain ⟨h1, e1, s1⟩ := cursor_create_refines node_life (h := h) (r := .head bucket) t hok hb
  have hc0 : (h.shape.cursor_create (.head bucket) t).validb h.shape.nodes.length h.shape :=
    validb_create _ t hok hb
  obtain ⟨h2, e2, s2⟩ := pop_first_loop_refines node_life sp h1.shape.nodes.length h1
    (h.shape.cursor_create (.head bucket) t) (s1 ▸ hok) (by rw [s1]; exact hc0)
    (fun i _ => Nat.sub_le _ _)
  rw [s1] at e2 s2
  have hl := pop_first_loop_inv node_life h.shape.nodes.length (h.shape.nodes.length + 1)
    h.shape (h.shape.cursor_create (.head bucket) t) sp hok hc0
  generalize hr : shape.pop_first_loop node_life (h.shape.nodes.length + 1) h.shape
    (h.shape.cursor_create (.head bucket) t) sp = r at e2 s2 hl
  have hok2 : r.2.ok := by rw [shape.ok, hl.2.2.1]; exact hl.1
  have hc2 : r.1.validb r.2.nodes.length r.2 := by rw [hl.2.2.1]; exact hl.2.1
  obtain ⟨h3, e3, s3⟩ := remove_refines (h := h2) (c := r.1) (s2 ▸ hok2) (by rw [s2]; exact hc2)
  rw [s2] at e3 s3
  have hok3 : (r.2.remove r.1).2.ok := by
    rw [shape.ok, remove_nodes_length, hl.2.2.1]
    exact okb_remove hl.1 _
  have hc3 : r.1.validb (r.2.remove r.1).2.nodes.length (r.2.remove r.1).2 := by
    rw [remove_nodes_length]
    exact validb_congr (remove_heads_length _ _) hc2
  obtain ⟨h4, e4, s4⟩ := copy_shape (h := h3) (r := r.1.current) (s3 ▸ hok3)
    (by rw [s3]; exact validb_current hc3)
  rw [s3] at s4
  obtain ⟨h5, e5, s5⟩ := cursor_destroy_shape (h := h4) (c := r.1) (s4 ▸ hok3)
    (by rw [s4]; exact hc3)
  rw [s4] at s5
  refine ⟨r.1.current, h5, ?_, ?_, ?_⟩
  · have hlen1 : h1.nodes.length = h.shape.nodes.length := by
      rw [← shape_nodes_length, s1]
    simp only [cache.pop_first, e1, hlen1, e2, e3, e4, e5]
  · rw [s5]; simp only [shape.pop_first, hr]
  · rw [s5]; exact validb_current hc3

theorem key_of_some {K V : Type} {kvs : List (KV K V)} {a : Nat} {kv : KV K V}
    (hkv : kvs[a]? = some kv) (mk : Bool) :
    key_of kvs { header := some a, mark := mk } = some kv.k := by
  simp [key_of, hkv]

/-- The lookup loop of `operator()` does what `shape.lookup_loop` says, and it ends. -/
theorem lookup_loop_refines {K V : Type} [DecidableEq K] (fnc : K → V) (node_life : Int)
    (kvs : List (KV K V)) (data : K) : ∀ (fuel : Nat) (h : heap) (c : cursor),
    h.shape.ok → c.validb h.shape.nodes.length h.shape →
    payload_ok fnc kvs h.shape.payload →
    (∀ i, c.current.header = some i → h.shape.nodes.length - i ≤ fuel) →
    ∃ h1, cache.lookup_loop node_life kvs data (fuel + 1) h c =
        some (shape.to_lookup_result
          (shape.lookup_loop node_life kvs data (fuel + 1) h.shape c), h1) ∧
      h1.shape = (shape.lookup_loop node_life kvs data (fuel + 1) h.shape c).2.2 := by
  intro fuel
  induction fuel with
  | zero =>
    intro h c hok hc _ hf
    unfold cache.lookup_loop shape.lookup_loop
    cases hi : c.current.header with
    | none => exact ⟨h, rfl, rfl⟩
    | some i =>
      have := hf i hi
      have := hc.current_lt i hi
      omega
  | succ fuel ih =>
    intro h c hok hc hpl hf
    unfold cache.lookup_loop shape.lookup_loop
    cases hi : c.current.header with
    | none => exact ⟨h, rfl, rfl⟩
    | some i =>
      have hilt : i < h.shape.nodes.length := hc.current_lt i hi
      have hn : h.shape.nodes[i]? = some h.shape.nodes[i] := List.getElem?_eq_getElem hilt
      have hd : h.shape.data i = h.shape.nodes[i].data := by simp [shape.data, hn]
      obtain ⟨a, kv, hda, hkv, _⟩ := hpl (h.shape.nodes[i].data, h.shape.nodes[i].time_stamp)
        (List.getElem?_mem (n := i) (by rw [payload_get, hn]; rfl))
      simp only at hda
      simp only [heap_data_shape hilt, hn, hd, hda, hkv, key_of_some hkv, Option.some.injEq]
      by_cases hk : kv.k = data
      · refine ⟨h, ?_, by simp [hk]⟩
        simp [hk, shape.to_lookup_result, hd, hda]
      · simp only [hk, if_false]
        obtain ⟨h1, e1, s1⟩ := go_next_refines node_life hok hc
        have hg := go_next_inv node_life hok hc
        have hl1 : h1.shape.nodes.length = h.shape.nodes.length := by rw [s1, hg.2.2.1]
        obtain ⟨h2, e2, s2⟩ := ih h1 (shape.go_next node_life h.shape c).1
          (by rw [shape.ok, hl1, s1]; exact hg.1)
          (by rw [hl1, s1]; exact hg.2.1)
          (by rw [s1, payload_go_next]; exact hpl)
          (by
            intro j hj
            rw [hl1]
            have := go_next_adv node_life hok hi hj
            have := hf i hi
            omega)
        rw [s1] at e2 s2
        simp only [e1]
        exact ⟨h2, e2, s2⟩


theorem data_of_payload {sh : shape} {i : Nat} {d : shared_ptr} {t : Int}
    (hp : sh.payload[i]? = some (d, t)) : sh.data i = d := by
  rw [payload_get] at hp
  cases hn : sh.nodes[i]? with
  | none => simp [hn] at hp
  | some n =>
    simp [hn] at hp
    simp [shape.data, hn, hp.1]

theorem payload_of_node {sh : shape} {i : Nat} {n : snode} (hn : sh.nodes[i]? = some n) :
    sh.payload[i]? = some (n.data, n.time_stamp) := by
  rw [payload_get, hn]; rfl

/-- A hit of the lookup loop stops at a cell whose key is the argument. -/
theorem lookup_loop_key {K V : Type} [DecidableEq K] (node_life : Int) (kvs : List (KV K V))
    (data : K) : ∀ (fuel : Nat) (sh : shape) (c : cursor) (i : Nat),
    (shape.lookup_loop node_life kvs data fuel sh c).1 = some i →
    key_of kvs ((shape.lookup_loop node_life kvs data fuel sh c).2.2.data i) = some data := by
  intro fuel
  induction fuel with
  | zero => intro sh c i hi; cases hi
  | succ fuel ih =>
    intro sh c i
    unfold shape.lookup_loop
    cases hh : c.current.header with
    | none => intro hi; cases hi
    | some j =>
      simp only
      cases hn : sh.nodes[j]? with
      | none => intro hi; cases hi
      | some n =>
        simp only
        split
        · rename_i hk
          intro hi
          cases hi
          simpa [shape.data, hn] using hk
        · exact ih _ _ i

theorem payload_ok_append {K V : Type} {fnc : K → V} {kvs : List (KV K V)}
    {pl : List (shared_ptr × Int)} (kv : KV K V) (h : payload_ok fnc kvs pl) :
    payload_ok fnc (kvs ++ [kv]) pl := by
  intro p hp
  obtain ⟨a, kv1, h1, h2, h3⟩ := h p hp
  refine ⟨a, kv1, h1, ?_, h3⟩
  rw [List.getElem?_append_left (List.getElem?_eq_some_iff.mp h2).1]
  exact h2

/-- The function `operator()` returns the value of `fnc` at its argument, does to the lists what
`shape.call` says, calls `fnc` on a miss only, and keeps the invariant of the cache. -/
theorem call_refines {K V : Type} [DecidableEq K] (fnc : K → V) (hsh : K → Nat)
    {buckets : Nat} (node_life : Int) {s : cache K V} (data : K) (hB : 0 < buckets)
    (hinv : cache.inv fnc buckets s) :
    ∃ s1, cache.call fnc hsh buckets node_life s data = some (fnc data, s1) ∧
      s1.mem.shape = (shape.call hsh buckets node_life s.kvs s.time s.mem.shape data).2 ∧
      s1.time = s.time + 1 ∧
      s1.kvs = (if (shape.call hsh buckets node_life s.kvs s.time s.mem.shape data).1.isSome
        then s.kvs else s.kvs ++ [{ k := data, v := fnc data }]) ∧
      s1.evals = (if (shape.call hsh buckets node_life s.kvs s.time s.mem.shape data).1.isSome
        then s.evals else s.evals ++ [data]) ∧
      cache.inv fnc buckets s1 := by
  obtain ⟨hok, hheads, hpl⟩ := hinv
  have hb : hsh data % buckets < s.mem.shape.heads.length := by
    rw [hheads]; exact Nat.mod_lt _ hB
  generalize hbk : hsh data % buckets = bucket at hb
  obtain ⟨h1, e1, s1⟩ := cursor_create_refines node_life (h := s.mem) (r := .head bucket)
    s.time hok hb
  have hc0 : (s.mem.shape.cursor_create (.head bucket) s.time).validb
      s.mem.shape.nodes.length s.mem.shape := validb_create _ s.time hok hb
  obtain ⟨h2, e2, s2⟩ := lookup_loop_refines fnc node_life s.kvs data h1.shape.nodes.length h1
    (s.mem.shape.cursor_create (.head bucket) s.time) (s1 ▸ hok) (by rw [s1]; exact hc0)
    (by rw [s1]; exact hpl) (fun i _ => Nat.sub_le _ _)
  rw [s1] at e2 s2
  have hl := lookup_loop_inv node_life s.kvs data s.mem.shape.nodes.length
    (s.mem.shape.nodes.length + 1) s.mem.shape
    (s.mem.shape.cursor_create (.head bucket) s.time) hok hc0
  have hkey := lookup_loop_key node_life s.kvs data (s.mem.shape.nodes.length + 1)
    s.mem.shape (s.mem.shape.cursor_create (.head bucket) s.time)
  have hpay := payload_lookup_loop node_life s.kvs data (s.mem.shape.nodes.length + 1)
    s.mem.shape (s.mem.shape.cursor_create (.head bucket) s.time)
  have hlen1 : h1.nodes.length = s.mem.shape.nodes.length := by
    rw [← shape_nodes_length, s1]
  unfold cache.call shape.call
  simp only [hbk, e1, hlen1, e2]
  generalize hr : shape.lookup_loop node_life s.kvs data (s.mem.shape.nodes.length + 1)
    s.mem.shape (s.mem.shape.cursor_create (.head bucket) s.time) = r at e2 s2 hl hkey hpay
  obtain ⟨ri, rc, rsh⟩ := r
  simp only at s2 hl hkey hpay
  have hok2 : rsh.ok := by rw [shape.ok, hl.2.2.1]; exact hl.1
  have hb2 : bucket < rsh.heads.length := by rw [hl.2.2.2.1]; exact hb
  have hpl2 : payload_ok fnc s.kvs rsh.payload := by rw [hpay]; exact hpl
  cases ri with
  | none =>
    -- a miss
    simp only [shape.to_lookup_result]
    obtain ⟨h3, e3, s3⟩ := push_end_refines node_life (h := h2)
      { header := some s.kvs.length, mark := false } s.time
      (s2 ▸ hok2) (by rw [s2]; exact hb2)
    rw [s2] at e3 s3
    have hpe := push_end_inv node_life
      { header := some s.kvs.length, mark := false } s.time hok2 hb2
    obtain ⟨h4, e4, s4⟩ := drop_shape (h := h3)
      (r := { header := some rsh.nodes.length, mark := false }) (s3 ▸ hpe.1)
      (by
        intro i hi
        cases hi
        rw [s3, hpe.2.1]
        exact Nat.lt_succ_self _)
    rw [s3] at s4
    obtain ⟨h5, e5, s5⟩ := cursor_destroy_shape (h := h4) (c := rc) (s4 ▸ hpe.1)
      (by
        rw [s4, hpe.2.1]
        refine validb_mono (validb_congr ?_ hl.2.1) (by rw [hl.2.2.1]; exact Nat.le_succ _)
        rw [hpe.2.2, hl.2.2.2.1])
    rw [s4] at s5
    simp only [e3, e4, e5]
    refine ⟨_, rfl, s5, rfl, by simp, by simp, ⟨?_, ?_, ?_⟩⟩
    · simp only; rw [s5]; exact hpe.1
    · simp only; rw [s5, hpe.2.2, hl.2.2.2.1]; exact hheads
    · simp only
      rw [s5, payload_push_end]
      intro p hp
      rcases List.mem_append.mp hp with hp1 | hp1
      · exact payload_ok_append _ hpl2 p hp1
      · simp only [List.mem_singleton] at hp1
        subst hp1
        exact ⟨s.kvs.length, { k := data, v := fnc data }, rfl, by simp, rfl⟩
  | some i =>
    -- a hit at cell `i`
    have hci : rc.current.header = some i := hl.2.2.2.2 i rfl
    have hilt : i < rsh.nodes.length := by rw [hl.2.2.1]; exact hl.2.1.current_lt i hci
    have hn : rsh.nodes[i]? = some rsh.nodes[i] := List.getElem?_eq_getElem hilt
    have hdi : rsh.data i = rsh.nodes[i].data := by simp [shape.data, hn]
    obtain ⟨a, kv, hda, hkv, hv⟩ := hpl2 (rsh.nodes[i].data, rsh.nodes[i].time_stamp)
      (List.getElem?_mem (n := i) (payload_of_node hn))
    simp only at hda
    have hk : kv.k = data := by
      have := hkey i rfl
      rw [hdi, hda, key_of_some hkv] at this
      exact Option.some.inj this
    simp only [shape.to_lookup_result, hn, hdi]
    generalize hd : rsh.nodes[i].data = d at hda
    obtain ⟨h3, e3, s3⟩ := push_end_refines node_life (h := h2) d s.time
      (s2 ▸ hok2) (by rw [s2]; exact hb2)
    rw [s2] at e3 s3
    have hpe := push_end_inv node_life d s.time hok2 hb2
    generalize hsh3 : shape.push_end node_life rsh d bucket s.time = sh3 at s3 hpe
    have hpay3 : sh3.payload = rsh.payload ++ [(d, s.time)] := by
      rw [← hsh3, payload_push_end]
    have hnew : h3.data rsh.nodes.length = some d := by
      rw [heap_data_shape (by rw [s3, hpe.2.1]; exact Nat.lt_succ_self _), s3]
      congr 1
      apply data_of_payload (t := s.time)
      rw [hpay3, ← payload_length, List.getElem?_concat_length]
    obtain ⟨tmp, h4, e4, s4, hv4⟩ := pop_first_refines node_life (h := h3) d
      s.time (s3 ▸ hpe.1) (by rw [s3, hpe.2.2]; exact hb2)
    rw [s3] at s4
    have hpf := pop_first_inv node_life d s.time hpe.1
      (by rw [hpe.2.2]; exact hb2)
    generalize hsh4 : shape.pop_first node_life sh3 d bucket s.time = sh4 at s4 hpf
    have hpay4 : sh4.payload = rsh.payload ++ [(d, s.time)] := by
      rw [← hsh4, payload_pop_first, hpay3]
    obtain ⟨h5, e5, s5⟩ := drop_shape (h := h4) (r := tmp) (s4 ▸ hpf.1) hv4
    rw [s4] at s5
    have hlen4 : sh4.nodes.length = rsh.nodes.length + 1 := by rw [hpf.2.1, hpe.2.1]
    have hcd : h5.data i = some d := by
      rw [heap_data_shape (by rw [s5, hlen4]; omega), s5]
      congr 1
      apply data_of_payload (t := rsh.nodes[i].time_stamp)
      rw [hpay4, List.getElem?_append_left (by rw [payload_length]; exact hilt),
        payload_of_node hn, hd]
    obtain ⟨h6, e6, s6⟩ := drop_shape (h := h5)
      (r := { header := some rsh.nodes.length, mark := false }) (s5 ▸ hpf.1)
      (by
        intro j hj
        cases hj
        rw [s5, hlen4]
        exact Nat.lt_succ_self _)
    rw [s5] at s6
    obtain ⟨h7, e7, s7⟩ := cursor_destroy_shape (h := h6) (c := rc) (s6 ▸ hpf.1)
      (by
        rw [s6, hlen4]
        refine validb_mono (validb_congr ?_ hl.2.1) (by rw [hl.2.2.1]; exact Nat.le_succ _)
        rw [hpf.2.2, hpe.2.2, hl.2.2.2.1])
    rw [s6] at s7
    subst hda
    simp only [e3, hnew, e4, e5, hci, hcd, hkv, e6, e7]
    rw [hv, hk]
    refine ⟨_, rfl, s7, rfl, by simp, by simp, ⟨?_, ?_, ?_⟩⟩
    · simp only; rw [s7]; exact hpf.1
    · simp only; rw [s7, hpf.2.2, hpe.2.2, hl.2.2.2.1]; exact hheads
    · simp only
      rw [s7, hpay4]
      intro p hp
      rcases List.mem_append.mp hp with hp1 | hp1
      · exact hpl2 p hp1
      · simp only [List.mem_singleton] at hp1
        subst hp1
        exact ⟨a, kv, rfl, hkv, hv⟩


theorem data_eq_of_payload {sh sh1 : shape} (hp : sh1.payload = sh.payload) (i : Nat) :
    sh1.data i = sh.data i := by
  have h1 := payload_get sh1 i
  rw [hp, payload_get] at h1
  unfold shape.data
  cases hn : sh.nodes[i]? with
  | none =>
    cases hn1 : sh1.nodes[i]? with
    | none => rfl
    | some n1 => simp [hn, hn1] at h1
  | some n =>
    cases hn1 : sh1.nodes[i]? with
    | none => simp [hn, hn1] at h1
    | some n1 =>
      simp [hn, hn1] at h1
      simp [h1.1]

theorem slot_col_congr {col : shared_ptr → Nat} {sh sh1 : shape}
    (hp : sh1.payload = sh.payload) (r : slot_ref) :
    sh1.slot_col col r = sh.slot_col col r := by
  cases r with
  | head b => rfl
  | next i => simp [shape.slot_col, data_eq_of_payload hp]

theorem in_bucket_congr {col : shared_ptr → Nat} {b : Nat} {sh sh1 : shape} {c : cursor}
    (hp : sh1.payload = sh.payload) (hc : c.in_bucket col b sh) : c.in_bucket col b sh1 :=
  ⟨by rw [slot_col_congr hp]; exact hc.owner_col,
   fun i hi => by rw [data_eq_of_payload hp]; exact hc.current_col i hi⟩

theorem frame_refl (col : shared_ptr → Nat) (b : Nat) (sh : shape) : sh.frame col b sh :=
  ⟨fun _ _ hn _ => hn, fun _ _ => rfl⟩

theorem frame_trans {col : shared_ptr → Nat} {b : Nat} {sh sh1 sh2 : shape}
    (h1 : sh.frame col b sh1) (h2 : sh1.frame col b sh2) : sh.frame col b sh2 :=
  ⟨fun i n hn hc => h2.nodes_eq i n (h1.nodes_eq i n hn hc) hc,
   fun b1 hb => by rw [h2.heads_eq b1 hb, h1.heads_eq b1 hb]⟩

/-- The pointer of a slot after some slot was overwritten is the new pointer or the old
one. -/
theorem ptr_set_slot_cases {sh : shape} {r r1 : slot_ref} {v : Option Nat × Bool} {j : Nat}
    (hj : (sh.set_slot r v).ptr r1 = some j) :
    (r1 = r ∧ v.1 = some j) ∨ sh.ptr r1 = some j := by
  by_cases hr : r1 = r
  · subst hr
    by_cases hv : sh.valid_slot r1
    · left
      simpa [shape.ptr, slot_set_slot_same _ hv] using hj
    · right
      cases r1 with
      | head b1 =>
        simp only [shape.valid_slot, not_lt] at hv
        simp [shape.ptr, shape.slot, shape.set_slot, List.getElem?_set',
          List.getElem?_eq_none hv] at hj
      | next i =>
        simp only [shape.valid_slot, not_lt] at hv
        simp [shape.ptr, shape.slot, shape.set_slot, List.getElem?_eq_none hv] at hj
  · right
    simpa [shape.ptr, slot_set_slot_other _ hr] using hj

/-- Overwriting a slot of colour `b` touches no cell of another colour and no other head. -/
theorem frame_set_slot {col : shared_ptr → Nat} {b : Nat} {sh : shape} {r : slot_ref}
    (v : Option Nat × Bool) (hr : sh.slot_col col r = b) :
    sh.frame col b (sh.set_slot r v) := by
  cases r with
  | head b0 =>
    simp only [shape.slot_col] at hr
    subst hr
    refine ⟨fun i n hn _ => hn, fun b1 hb => ?_⟩
    simp [shape.set_slot, List.getElem?_set', Ne.symm hb]
  | next i =>
    simp only [shape.slot_col] at hr
    refine ⟨fun k n hn hc => ?_, fun b1 _ => by rw [heads_set_slot_next]⟩
    rw [nodes_set_slot_next]
    by_cases hk : i = k
    · subst hk
      exfalso
      apply hc
      simpa [shape.data, hn] using hr
    · simp [hk, hn]

/-- Overwriting a slot with a pointer to a cell of the colour of the slot keeps the
colouring. -/
theorem colored_set_slot {col : shared_ptr → Nat} {sh : shape} {r : slot_ref}
    {v : Option Nat × Bool} (hcol : sh.colored col)
    (hv : ∀ j, v.1 = some j → col (sh.data j) = sh.slot_col col r) :
    (sh.set_slot r v).colored col := by
  intro r1 j hj
  have hp := payload_set_slot sh r v
  rw [data_eq_of_payload hp, slot_col_congr hp]
  rcases ptr_set_slot_cases hj with h1 | h1
  · rw [h1.1]
    exact hv j h1.2
  · exact hcol r1 j h1

theorem colored_set_mark {col : shared_ptr → Nat} {sh : shape} (hcol : sh.colored col)
    (r : slot_ref) (b : Bool) : (sh.set_mark r b).colored col :=
  colored_set_slot hcol (fun j hj => hcol r j hj)

/-- The function `cursor::remove` by a cursor of colour `b` keeps the colouring and touches the list of
colour `b` only. -/
theorem remove_frame {col : shared_ptr → Nat} {b : Nat} {sh : shape} {c : cursor}
    (hcol : sh.colored col) (hc : c.in_bucket col b sh) :
    (sh.remove c).2.colored col ∧ sh.frame col b (sh.remove c).2 := by
  unfold shape.remove
  cases hi : c.current.header with
  | none => exact ⟨hcol, frame_refl _ _ _⟩
  | some i =>
    simp only
    have hci : sh.slot_col col (.next i) = b := hc.current_col i hi
    have hcol1 := colored_set_mark hcol (.next i) true
    have hf1 : sh.frame col b (sh.set_mark (.next i) true) := frame_set_slot _ hci
    have hp1 := payload_set_mark sh (.next i) true
    split
    · rename_i hcond
      refine ⟨colored_set_slot hcol1 (fun j hj => ?_), frame_trans hf1 (frame_set_slot _ ?_)⟩
      · simp only at hj
        rw [hcol1 (.next i) j hj, slot_col_congr hp1, slot_col_congr hp1, hci, hc.owner_col]
      · rw [slot_col_congr hp1]; exact hc.owner_col
    · exact ⟨hcol1, hf1⟩

theorem in_bucket_advance {col : shared_ptr → Nat} {b : Nat} {sh : shape} {c : cursor}
    {i : Nat} (hcol : sh.colored col) (hc : c.in_bucket col b sh)
    (hi : c.current.header = some i) : (sh.advance c i).in_bucket col b sh := by
  have hci : sh.slot_col col (.next i) = b := hc.current_col i hi
  refine ⟨hci, fun j hj => ?_⟩
  have hj1 : sh.ptr (.next i) = some j := hj
  rw [hcol (.next i) j hj1, hci]

/-- The loop of `cursor::go_next` by a cursor of colour `b` keeps the colouring and
touches the list of colour `b` only. -/
theorem go_next_loop_frame (node_life : Int) {col : shared_ptr → Nat} {b : Nat} :
    ∀ (fuel : Nat) (sh : shape) (c : cursor), sh.colored col → c.in_bucket col b sh →
    (shape.go_next_loop node_life fuel sh c).2.colored col ∧
    (shape.go_next_loop node_life fuel sh c).1.in_bucket col b
      (shape.go_next_loop node_life fuel sh c).2 ∧
    sh.frame col b (shape.go_next_loop node_life fuel sh c).2 := by
  intro fuel
  induction fuel with
  | zero => intro sh c hcol hc; exact ⟨hcol, hc, frame_refl _ _ _⟩
  | succ fuel ih =>
    intro sh c hcol hc
    unfold shape.go_next_loop
    cases hi : c.current.header with
    | none => exact ⟨hcol, hc, frame_refl _ _ _⟩
    | some i =>
      simp only
      have hc1 := in_bucket_advance hcol hc hi
      split
      · have hr := remove_frame hcol hc1
        have h2 := ih (sh.remove (sh.advance c i)).2 (sh.advance c i) hr.1
          (in_bucket_congr (payload_remove _ _) hc1)
        exact ⟨h2.1, h2.2.1, frame_trans hr.2 h2.2.2⟩
      · exact ⟨hcol, hc1, frame_refl _ _ _⟩

theorem go_next_frame (node_life : Int) {col : shared_ptr → Nat} {b : Nat} {sh : shape}
    {c : cursor} (hcol : sh.colored col) (hc : c.in_bucket col b sh) :
    (shape.go_next node_life sh c).2.colored col ∧
    (shape.go_next node_life sh c).1.in_bucket col b (shape.go_next node_life sh c).2 ∧
    sh.frame col b (shape.go_next node_life sh c).2 :=
  go_next_loop_frame node_life _ sh c hcol hc

theorem go_end_loop_frame (node_life : Int) {col : shared_ptr → Nat} {b : Nat} :
    ∀ (fuel : Nat) (sh : shape) (c : cursor), sh.colored col → c.in_bucket col b sh →
    (shape.go_end_loop node_life fuel sh c).2.colored col ∧
    (shape.go_end_loop node_life fuel sh c).1.in_bucket col b
      (shape.go_end_loop node_life fuel sh c).2 ∧
    sh.frame col b (shape.go_end_loop node_life fuel sh c).2 := by
  intro fuel
  induction fuel with
  | zero => intro sh c hcol hc; exact ⟨hcol, hc, frame_refl _ _ _⟩
  | succ fuel ih =>
    intro sh c hcol hc
    have hg := go_next_frame node_life hcol hc
    unfold shape.go_end_loop
    simp only
    split
    · have h2 := ih _ _ hg.1 hg.2.1
      exact ⟨h2.1, h2.2.1, frame_trans hg.2.2 h2.2.2⟩
    · exact hg

theorem pop_first_loop_frame (node_life : Int) {col : shared_ptr → Nat} {b : Nat}
    (sp : shared_ptr) : ∀ (fuel : Nat) (sh : shape) (c : cursor), sh.colored col →
    c.in_bucket col b sh →
    (shape.pop_first_loop node_life fuel sh c sp).2.colored col ∧
    (shape.pop_first_loop node_life fuel sh c sp).1.in_bucket col b
      (shape.pop_first_loop node_life fuel sh c sp).2 ∧
    sh.frame col b (shape.pop_first_loop node_life fuel sh c sp).2 := by
  intro fuel
  induction fuel with
  | zero => intro sh c hcol hc; exact ⟨hcol, hc, frame_refl _ _ _⟩
  | succ fuel ih =>
    intro sh c hcol hc
    unfold shape.pop_first_loop
    cases c.current.header with
    | none => exact ⟨hcol, hc, frame_refl _ _ _⟩
    | some i =>
      simp only
      cases sh.nodes[i]? with
      | none => exact ⟨hcol, hc, frame_refl _ _ _⟩
      | some n =>
        simp only
        have hg := go_next_frame node_life hcol hc
        split
        · have h2 := ih _ _ hg.1 hg.2.1
          exact ⟨h2.1, h2.2.1, frame_trans hg.2.2 h2.2.2⟩
        · exact ⟨hcol, hc, frame_refl _ _ _⟩

theorem lookup_loop_frame {K V : Type} [DecidableEq K] (node_life : Int)
    (kvs : List (KV K V)) (data : K) {col : shared_ptr → Nat} {b : Nat} :
    ∀ (fuel : Nat) (sh : shape) (c : cursor), sh.colored col → c.in_bucket col b sh →
    (shape.lookup_loop node_life kvs data fuel sh c).2.2.colored col ∧
    (shape.lookup_loop node_life kvs data fuel sh c).2.1.in_bucket col b
      (shape.lookup_loop node_life kvs data fuel sh c).2.2 ∧
    sh.frame col b (shape.lookup_loop node_life kvs data fuel sh c).2.2 := by
  intro fuel
  induction fuel with
  | zero => intro sh c hcol hc; exact ⟨hcol, hc, frame_refl _ _ _⟩
  | succ fuel ih =>
    intro sh c hcol hc
    unfold shape.lookup_loop
    cases c.current.header with
    | none => exact ⟨hcol, hc, frame_refl _ _ _⟩
    | some i =>
      simp only
      cases sh.nodes[i]? with
      | none => exact ⟨hcol, hc, frame_refl _ _ _⟩
      | some n =>
        simp only
        have hg := go_next_frame node_life hcol hc
        split
        · exact ⟨hcol, hc, frame_refl _ _ _⟩
        · have h2 := ih _ _ hg.1 hg.2.1
          exact ⟨h2.1, h2.2.1, frame_trans hg.2.2 h2.2.2⟩

theorem in_bucket_create {col : shared_ptr → Nat} {sh : shape} (b : Nat) (t : Int)
    (hcol : sh.colored col) : (sh.cursor_create (.head b) t).in_bucket col b sh :=
  ⟨rfl, fun i hi => hcol (.head b) i hi⟩


theorem alloc_nodes_get_lt {sh : shape} {i : Nat} (sp : shared_ptr) (t : Int)
    (hi : i < sh.nodes.length) : (sh.alloc sp t).nodes[i]? = sh.nodes[i]? := by
  simp only [shape.alloc]
  exact List.getElem?_append_left hi

theorem alloc_data_lt {sh : shape} {i : Nat} (sp : shared_ptr) (t : Int)
    (hi : i < sh.nodes.length) : (sh.alloc sp t).data i = sh.data i := by
  simp only [shape.data, alloc_nodes_get_lt sp t hi]

/-- A pointer found in the memory after an allocation was there before. -/
theorem alloc_ptr {sh : shape} {r : slot_ref} {j : Nat} (sp : shared_ptr) (t : Int)
    (hj : (sh.alloc sp t).ptr r = some j) :
    sh.ptr r = some j ∧ ∀ i, r = .next i → i < sh.nodes.length := by
  cases r with
  | head b => exact ⟨hj, fun i hi => by cases hi⟩
  | next i =>
    by_cases hi : i < sh.nodes.length
    · refine ⟨?_, fun k hk => by cases hk; exact hi⟩
      simpa [shape.ptr, shape.slot, alloc_nodes_get_lt sp t hi] using hj
    · exfalso
      simp only [shape.ptr, shape.slot, shape.alloc] at hj
      rw [List.getElem?_append_right (by omega)] at hj
      by_cases h0 : i - sh.nodes.length = 0
      · simp [h0] at hj
      · obtain ⟨k, hk⟩ := Nat.exists_eq_succ_of_ne_zero h0
        simp [hk] at hj

theorem colored_alloc {col : shared_ptr → Nat} {sh : shape} (hok : sh.ok)
    (hcol : sh.colored col) (sp : shared_ptr) (t : Int) : (sh.alloc sp t).colored col := by
  intro r j hj
  obtain ⟨h1, h2⟩ := alloc_ptr sp t hj
  have hjlt := (ptr_lt_of_okb hok h1).1
  rw [alloc_data_lt sp t hjlt, hcol r j h1]
  cases r with
  | head b => rfl
  | next i => simp only [shape.slot_col, alloc_data_lt sp t (h2 i rfl)]

theorem frame_alloc (col : shared_ptr → Nat) (b : Nat) (sh : shape) (sp : shared_ptr)
    (t : Int) : sh.frame col b (sh.alloc sp t) :=
  ⟨fun i n hn _ => by
      rw [alloc_nodes_get_lt sp t (List.getElem?_eq_some_iff.mp hn).1]; exact hn,
   fun _ _ => rfl⟩

theorem alloc_data_new (sh : shape) (sp : shared_ptr) (t : Int) :
    (sh.alloc sp t).data sh.nodes.length = sp := by
  simp [shape.data, shape.alloc]

/-- The function `cache::push_end` of a cell of colour `b` into bucket `b` keeps the colouring and
touches the list of colour `b` only. -/
theorem push_end_frame (node_life : Int) {col : shared_ptr → Nat} {sh : shape}
    {sp : shared_ptr} (b : Nat) (t : Int) (hok : sh.ok) (hcol : sh.colored col)
    (hsp : col sp = b) :
    (shape.push_end node_life sh sp b t).colored col ∧
    sh.frame col b (shape.push_end node_life sh sp b t) := by
  have hcol1 := colored_alloc hok hcol sp t
  have hc := in_bucket_create b t hcol1
  have hw := go_end_loop_frame node_life ((sh.alloc sp t).nodes.length + 1) (sh.alloc sp t)
    ((sh.alloc sp t).cursor_create (.head b) t) hcol1 hc
  have hpay := payload_go_end_loop node_life ((sh.alloc sp t).nodes.length + 1) (sh.alloc sp t)
    ((sh.alloc sp t).cursor_create (.head b) t)
  simp only [shape.push_end, shape.cursor_push_end]
  generalize shape.go_end_loop node_life ((sh.alloc sp t).nodes.length + 1) (sh.alloc sp t)
    ((sh.alloc sp t).cursor_create (.head b) t) = r at hw hpay
  refine ⟨colored_set_slot hw.1 (fun j hj => ?_),
    frame_trans (frame_trans (frame_alloc col b sh sp t) hw.2.2)
      (frame_set_slot _ hw.2.1.owner_col)⟩
  simp only [Option.some.injEq] at hj
  subst hj
  rw [data_eq_of_payload hpay, alloc_data_new, hsp, hw.2.1.owner_col]

/-- The function `cache::pop_first` in bucket `b` keeps the colouring and touches the list of colour
`b` only. -/
theorem pop_first_frame (node_life : Int) {col : shared_ptr → Nat} {sh : shape}
    (sp : shared_ptr) (b : Nat) (t : Int) (hcol : sh.colored col) :
    (shape.pop_first node_life sh sp b t).colored col ∧
    sh.frame col b (shape.pop_first node_life sh sp b t) := by
  have hc := in_bucket_create b t hcol
  have hw := pop_first_loop_frame node_life sp (sh.nodes.length + 1) sh
    (sh.cursor_create (.head b) t) hcol hc
  simp only [shape.pop_first]
  generalize shape.pop_first_loop node_life (sh.nodes.length + 1) sh
    (sh.cursor_create (.head b) t) sp = r at hw
  have hr := remove_frame hw.1 hw.2.1
  exact ⟨hr.1, frame_trans hw.2.2 hr.2⟩

/-- The function `operator()(data)` keeps the colouring and touches the list of the bucket of `data`
only, for every colouring that gives the new `KV` handle the colour of that bucket. -/
theorem call_frame {K V : Type} [DecidableEq K] (hsh : K → Nat) (buckets : Nat)
    (node_life : Int) (kvs : List (KV K V)) (time : Int) {col : shared_ptr → Nat}
    {sh : shape} (data : K) (hok : sh.ok) (hb : hsh data % buckets < sh.heads.length)
    (hcol : sh.colored col)
    (hnew : col { header := some kvs.length, mark := false } = hsh data % buckets) :
    (shape.call hsh buckets node_life kvs time sh data).2.colored col ∧
    sh.frame col (hsh data % buckets)
      (shape.call hsh buckets node_life kvs time sh data).2 := by
  unfold shape.call
  simp only
  generalize hsh data % buckets = b at hb hnew ⊢
  have hc := in_bucket_create b time hcol
  have hc0 := validb_create sh time hok hb
  have hw := lookup_loop_frame node_life kvs data (sh.nodes.length + 1) sh
    (sh.cursor_create (.head b) time) hcol hc
  have hl := lookup_loop_inv node_life kvs data sh.nodes.length (sh.nodes.length + 1) sh
    (sh.cursor_create (.head b) time) hok hc0
  generalize shape.lookup_loop node_life kvs data (sh.nodes.length + 1) sh
    (sh.cursor_create (.head b) time) = r at hw hl ⊢
  obtain ⟨ri, rc, rsh⟩ := r
  simp only at hw hl
  have hok2 : rsh.ok := by rw [shape.ok, hl.2.2.1]; exact hl.1
  cases ri with
  | none =>
    have hp := push_end_frame node_life b time hok2 hw.1 hnew
    exact ⟨hp.1, frame_trans hw.2.2 hp.2⟩
  | some i =>
    dsimp only
    cases hn : rsh.nodes[i]? with
    | none => exact ⟨hw.1, hw.2.2⟩
    | some n =>
      dsimp only
      have hsp : col n.data = b := by
        have := hw.2.1.current_col i (hl.2.2.2.2 i rfl)
        simpa [shape.data, hn] using this
      have hp := push_end_frame node_life b time hok2 hw.1 hsp
      have hq := pop_first_frame node_life n.data b time hp.1
      exact ⟨hq.1, frame_trans hw.2.2 (frame_trans hp.2 hq.2)⟩


theorem chain_none (f : Nat) (sh : shape) : shape.chain f sh none = [] := by
  cases f <;> rfl

/-- With acyclic lists, more fuel than there are cells left changes nothing. -/
theorem chain_fuel {sh : shape} {m : Nat} (hok : sh.okb m) (k : Nat) :
    ∀ (f : Nat) (p : Option Nat), (∀ j, p = some j → j < m ∧ m - j ≤ f) →
    shape.chain (f + k) sh p = shape.chain f sh p := by
  intro f
  induction f with
  | zero =>
    intro p hp
    cases p with
    | none => simp [chain_none]
    | some j => have := hp j rfl; omega
  | succ f ih =>
    intro p hp
    cases p with
    | none => simp [chain_none]
    | some j =>
      have h1 : f + 1 + k = (f + k) + 1 := by omega
      rw [h1]
      simp only [shape.chain]
      congr 1
      apply ih
      intro j2 hj2
      have := ptr_lt_of_okb hok hj2
      have := this.2 j rfl
      have := hp j rfl
      omega

/-- The list of another colour than `b` is the same after a step that touches the list
of colour `b` only. -/
theorem chain_frame {col : shared_ptr → Nat} {b b1 : Nat} {sh sh1 : shape}
    (hf : sh.frame col b sh1) (hcol : sh.colored col) (hok : sh.ok) (hb : b1 ≠ b) :
    ∀ (f : Nat) (p : Option Nat), (∀ j, p = some j → col (sh.data j) = b1 ∧ j < sh.nodes.length) →
    shape.chain f sh1 p = shape.chain f sh p ∧
    ∀ j ∈ shape.chain f sh p, sh1.nodes[j]? = sh.nodes[j]? := by
  intro f
  induction f with
  | zero => intro p _; exact ⟨rfl, fun j hj => by simp [shape.chain] at hj⟩
  | succ f ih =>
    intro p hp
    cases p with
    | none => exact ⟨rfl, fun j hj => by simp [shape.chain] at hj⟩
    | some j =>
      obtain ⟨hc, hlt⟩ := hp j rfl
      have hn : sh.nodes[j]? = some sh.nodes[j] := List.getElem?_eq_getElem hlt
      have hcj : col sh.nodes[j].data ≠ b := by
        have : sh.data j = sh.nodes[j].data := by simp [shape.data, hn]
        rw [← this, hc]; exact hb
      have hn1 : sh1.nodes[j]? = some sh.nodes[j] := hf.nodes_eq j _ hn hcj
      have hptr : sh1.ptr (.next j) = sh.ptr (.next j) := by
        simp [shape.ptr, shape.slot, hn, hn1]
      have hnext : ∀ j2, sh.ptr (.next j) = some j2 →
          col (sh.data j2) = b1 ∧ j2 < sh.nodes.length := by
        intro j2 hj2
        refine ⟨?_, (ptr_lt_of_okb hok hj2).1⟩
        rw [hcol (.next j) j2 hj2]
        exact hc
      have := ih (sh.ptr (.next j)) hnext
      simp only [shape.chain, hptr]
      refine ⟨by rw [this.1], fun j2 hj2 => ?_⟩
      simp only [List.mem_cons] at hj2
      rcases hj2 with h | h
      · rw [h, hn, hn1]
      · exact this.2 j2 h

/-- The cells reachable from the head of another bucket than `b` are the same, in the
same order and with the same content, after a step that touches the list of colour `b`
only. -/
theorem bucket_frame {col : shared_ptr → Nat} {b b1 : Nat} {sh sh1 : shape}
    (hf : sh.frame col b sh1) (hcol : sh.colored col) (hok : sh.ok) (hb : b1 ≠ b)
    (hlen : sh.nodes.length ≤ sh1.nodes.length) :
    sh1.bucket b1 = sh.bucket b1 := by
  have hhead : sh1.ptr (.head b1) = sh.ptr (.head b1) := by
    simp [shape.ptr, shape.slot, hf.heads_eq b1 hb]
  have hp : ∀ j, sh.ptr (.head b1) = some j →
      col (sh.data j) = b1 ∧ j < sh.nodes.length := by
    intro j hj
    exact ⟨hcol (.head b1) j hj, (ptr_lt_of_okb hok hj).1⟩
  have hc := chain_frame hf hcol hok hb sh1.nodes.length (sh.ptr (.head b1)) hp
  obtain ⟨k, hk⟩ := Nat.exists_eq_add_of_le hlen
  have hfuel : shape.chain sh1.nodes.length sh (sh.ptr (.head b1)) =
      shape.chain sh.nodes.length sh (sh.ptr (.head b1)) := by
    rw [hk]
    apply chain_fuel hok k
    intro j hj
    exact ⟨(hp j hj).2, Nat.sub_le _ _⟩
  unfold shape.bucket
  rw [hhead, hc.1, hfuel]
  apply List.filterMap_congr
  intro j hj
  rw [← hfuel] at hj
  rw [hc.2 j hj]



/-- The data handle of every cell, and the null handle, keep their bucket when a `KV` cell
is added. -/
theorem bucket_of_append {K V : Type} {fnc : K → V} (hsh : K → Nat) (buckets : Nat)
    {kvs : List (KV K V)} {sh : shape} (kv : KV K V) (hpl : payload_ok fnc kvs sh.payload)
    (j : Nat) :
    bucket_of hsh buckets (kvs ++ [kv]) (sh.data j) = bucket_of hsh buckets kvs (sh.data j) := by
  unfold shape.data
  cases hn : sh.nodes[j]? with
  | none => simp [bucket_of, key_of, shared_ptr.null]
  | some n =>
    obtain ⟨a, kv1, h1, h2, _⟩ := hpl (n.data, n.time_stamp)
      (List.getElem?_mem (payload_of_node hn))
    simp only at h1
    have h3 : (kvs ++ [kv])[a]? = some kv1 := by
      rw [List.getElem?_append_left (List.getElem?_eq_some_iff.mp h2).1]; exact h2
    simp [bucket_of, key_of, h1, h2, h3]

theorem colored_congr {col col1 : shared_ptr → Nat} {sh : shape}
    (h : ∀ j, col1 (sh.data j) = col (sh.data j)) (hcol : sh.colored col) :
    sh.colored col1 := by
  intro r j hj
  rw [h j, hcol r j hj]
  cases r with
  | head b => rfl
  | next i => simp only [shape.slot_col, h i]

theorem colored_create {K V : Type} (col : shared_ptr → Nat) (buckets : Nat) :
    (cache.create K V buckets).mem.shape.colored col := by
  intro r j hj
  exfalso
  cases r with
  | head b =>
    simp only [shape.ptr, shape.slot, cache.create, heap.shape, List.map_replicate,
      counted_ptr.view] at hj
    cases hb : (List.replicate buckets ((none : Option Nat), false))[b]? with
    | none => simp [hb] at hj
    | some v =>
      have := List.getElem?_mem hb
      rw [List.mem_replicate] at this
      simp [hb, this.2] at hj
  | next i =>
    simp [shape.ptr, shape.slot, cache.create, heap.shape] at hj

/-- One call: the colouring is kept, and the lists of the other buckets are not
touched. -/
theorem call_locality {K V : Type} [DecidableEq K] (fnc : K → V) (hsh : K → Nat)
    {buckets : Nat} (node_life : Int) {s : cache K V} (data : K) (hB : 0 < buckets)
    (hinv : cache.inv fnc buckets s)
    (hcol : s.mem.shape.colored (bucket_of hsh buckets s.kvs)) :
    ∃ s1, cache.call fnc hsh buckets node_life s data = some (fnc data, s1) ∧
      cache.inv fnc buckets s1 ∧
      s1.mem.shape.colored (bucket_of hsh buckets s1.kvs) ∧
      ∀ b1, b1 ≠ hsh data % buckets →
        s1.mem.shape.bucket b1 = s.mem.shape.bucket b1 ∧
        s1.mem.shape.heads[b1]? = s.mem.shape.heads[b1]? := by
  obtain ⟨s1, e1, hs1, _, hkvs, _, hinv1⟩ := call_refines fnc hsh node_life data hB hinv
  have hb : hsh data % buckets < s.mem.shape.heads.length := by
    rw [hinv.heads]; exact Nat.mod_lt _ hB
  have hcol2 : s.mem.shape.colored
      (bucket_of hsh buckets (s.kvs ++ [{ k := data, v := fnc data }])) :=
    colored_congr (bucket_of_append hsh buckets _ hinv.pl) hcol
  have hfr := call_frame hsh buckets node_life s.kvs s.time data hinv.ok hb hcol2
    (by simp [bucket_of, key_of])
  rw [← hs1] at hfr
  refine ⟨s1, e1, hinv1, ?_, fun b1 hb1 => ⟨?_, hfr.2.heads_eq b1 hb1⟩⟩
  · split at hkvs
    · -- a hit: no `KV` cell was added
      have hpl1 := hinv1.pl
      rw [hkvs] at hpl1 ⊢
      exact colored_congr
        (fun j => (bucket_of_append hsh buckets { k := data, v := fnc data } hpl1 j).symm)
        hfr.1
    · rw [hkvs]; exact hfr.1
  · apply bucket_frame hfr.2 hcol2 hinv.ok hb1
    have h1 := payload_length s1.mem.shape
    have h2 := payload_length s.mem.shape
    have hpay : ∃ l, s1.mem.shape.payload = s.mem.shape.payload ++ l := by
      rw [hs1]
      unfold shape.call
      dsimp only
      have hpl := payload_lookup_loop node_life s.kvs data (s.mem.shape.nodes.length + 1)
        s.mem.shape (s.mem.shape.cursor_create (.head (hsh data % buckets)) s.time)
      generalize shape.lookup_loop node_life s.kvs data (s.mem.shape.nodes.length + 1)
        s.mem.shape (s.mem.shape.cursor_create (.head (hsh data % buckets)) s.time) = r at hpl
      obtain ⟨ri, rc, rsh⟩ := r
      dsimp only at hpl ⊢
      cases ri with
      | none => exact ⟨_, by dsimp only; rw [payload_push_end, hpl]⟩
      | some i =>
        dsimp only
        cases rsh.nodes[i]? with
        | none => exact ⟨[], by dsimp only; rw [hpl, List.append_nil]⟩
        | some n => exact ⟨_, by dsimp only; rw [payload_pop_first, payload_push_end, hpl]⟩
    obtain ⟨l, hl⟩ := hpay
    rw [← h1, ← h2, hl, List.length_append]
    exact Nat.le_add_right _ _


/-- A path depends on the `next` pointers of its own cells only. -/
theorem is_path_congr {sh sh1 : shape} : ∀ (l : List Nat) (p : Option Nat),
    (∀ i ∈ l, sh1.ptr (.next i) = sh.ptr (.next i)) → sh.is_path p l → sh1.is_path p l := by
  intro l
  induction l with
  | nil => intro p _ h; exact h
  | cons i l ih =>
    intro p hp h
    refine ⟨h.1, ?_⟩
    rw [hp i (List.mem_cons_self _ _)]
    exact ih _ (fun j hj => hp j (List.mem_cons_of_mem _ hj)) h.2

/-- The cells of a path are below the bound and come in increasing order of address. -/
theorem is_path_lt {sh : shape} {m : Nat} (hok : sh.okb m) : ∀ (l : List Nat) (p : Option Nat),
    (∀ j, p = some j → j < m) → sh.is_path p l →
    (∀ j ∈ l, j < m) ∧ l.Pairwise (· < ·) ∧ ∀ i, p = some i → ∀ j ∈ l, i ≤ j := by
  intro l
  induction l with
  | nil => intro p _ _; exact ⟨by simp, List.Pairwise.nil, by simp⟩
  | cons i l ih =>
    intro p hp h
    have hi : i < m := hp i h.1
    have hnext : ∀ j, sh.ptr (.next i) = some j → j < m := fun j hj => (ptr_lt_of_okb hok hj).1
    obtain ⟨h1, h2, h3⟩ := ih _ hnext h.2
    have hgt : ∀ j ∈ l, i < j := by
      intro j hj
      cases l with
      | nil => simp at hj
      | cons a l2 =>
        have ha : sh.ptr (.next i) = some a := h.2.1
        have := (ptr_lt_of_okb hok ha).2 i rfl
        have := h3 a ha j hj
        omega
    refine ⟨?_, List.Pairwise.cons hgt h2, ?_⟩
    · intro j hj
      rcases List.mem_cons.mp hj with h | h
      · rw [h]; exact hi
      · exact h1 j h
    · intro i2 hi2 j hj
      rw [h.1] at hi2
      cases hi2
      rcases List.mem_cons.mp hj with h | h
      · rw [h]
      · exact Nat.le_of_lt (hgt j h)

theorem is_path_unique {sh : shape} : ∀ (l l1 : List Nat) (p : Option Nat),
    sh.is_path p l → sh.is_path p l1 → l = l1 := by
  intro l
  induction l with
  | nil =>
    intro l1 p h h1
    cases l1 with
    | nil => rfl
    | cons a l2 =>
      have h2 : p = none := h
      rw [h2] at h1; cases h1.1
  | cons i l ih =>
    intro l1 p h h1
    cases l1 with
    | nil =>
      have h2 : p = none := h1
      rw [h2] at h; cases h.1
    | cons a l2 =>
      have : i = a := by
        have := h.1.symm.trans h1.1
        exact Option.some.inj this
      subst this
      rw [ih l2 _ h.2 h1.2]

theorem is_path_head {sh : shape} {p : Option Nat} {l : List Nat} (h : sh.is_path p l) :
    p = l.head? := by
  cases l with
  | nil => exact h
  | cons i l => exact h.1

theorem link_slot_cons (r : slot_ref) (i : Nat) (l : List Nat) :
    link_slot r (i :: l) = link_slot (.next i) l := by
  cases l with
  | nil => rfl
  | cons a l2 =>
    simp only [link_slot, List.getLast?_cons_cons]
    rw [List.getLast?_eq_getLast _ (List.cons_ne_nil a l2)]

theorem link_slot_concat (r : slot_ref) (l : List Nat) (i : Nat) :
    link_slot r (l ++ [i]) = .next i := by
  simp [link_slot]

/-- The rest of a path behind a prefix starts at the pointer of the link slot. -/
theorem is_path_suffix {sh : shape} : ∀ (l1 l2 : List Nat) (r : slot_ref),
    sh.is_path (sh.ptr r) (l1 ++ l2) → sh.is_path (sh.ptr (link_slot r l1)) l2 := by
  intro l1
  induction l1 with
  | nil => intro l2 r h; exact h
  | cons i l1 ih =>
    intro l2 r h
    rw [link_slot_cons]
    exact ih l2 (.next i) h.2


theorem ptr_set_slot_same {sh : shape} {r : slot_ref} (v : Option Nat × Bool)
    (hv : sh.valid_slot r) : (sh.set_slot r v).ptr r = v.1 := by
  simp [shape.ptr, slot_set_slot_same _ hv]

theorem ptr_set_slot_other {sh : shape} {r r1 : slot_ref} (v : Option Nat × Bool)
    (hne : r1 ≠ r) : (sh.set_slot r v).ptr r1 = sh.ptr r1 := by
  simp [shape.ptr, slot_set_slot_other _ hne]

theorem advance_local_time (sh : shape) (c : cursor) (i : Nat) :
    (sh.advance c i).local_time = c.local_time := rfl

/-- An increasing list of numbers between `lo` and `m` has at most `m - lo` elements. -/
theorem pairwise_lt_length : ∀ (l : List Nat) (lo m : Nat), l.Pairwise (· < ·) →
    (∀ j ∈ l, lo ≤ j ∧ j < m) → l.length ≤ m - lo := by
  intro l
  induction l with
  | nil => intro lo m _ _; simp
  | cons i l ih =>
    intro lo m hp hb
    have hi := hb i (List.mem_cons_self _ _)
    have hp2 := List.pairwise_cons.mp hp
    have := ih (i + 1) m hp2.2 (fun j hj => ⟨hp2.1 j hj, (hb j (List.mem_cons_of_mem _ hj)).2⟩)
    simp only [List.length_cons]
    omega

theorem path_length_le {sh : shape} {m : Nat} (hok : sh.okb m) {r : slot_ref} {l : List Nat}
    (h : sh.is_path (sh.ptr r) l) : l.length ≤ m := by
  have hl := is_path_lt hok l _ (fun _ hj => (ptr_lt_of_okb hok hj).1) h
  have := pairwise_lt_length l 0 m hl.2.1 (fun j hj => ⟨Nat.zero_le _, hl.1 j hj⟩)
  omega

/-- The invariant holds for the cache built by the constructor. -/
theorem inv_create {K V : Type} (fnc : K → V) (buckets : Nat) :
    cache.inv fnc buckets (cache.create K V buckets) := by
  refine ⟨⟨?_, ?_⟩, ?_, ?_⟩
  · intro i n hn
    simp [cache.create, heap.shape] at hn
  · intro b v hv j hj
    simp only [cache.create, heap.shape, List.map_replicate, counted_ptr.view] at hv
    have := List.getElem?_mem hv
    rw [List.mem_replicate] at this
    rw [this.2] at hj
    cases hj
  · simp [cache.create, heap.shape]
  · intro p hp
    simp [cache.create, heap.shape, shape.payload] at hp

/-- A sequence of calls on a cache that satisfies the invariant returns the values of
`fnc` and ends in a cache that satisfies the invariant. -/
theorem run_values {K V : Type} [DecidableEq K] (fnc : K → V) (hsh : K → Nat)
    {buckets : Nat} (node_life : Int) (hB : 0 < buckets) :
    ∀ (ks : List K) (s : cache K V), cache.inv fnc buckets s →
    ∃ s1, cache.run fnc hsh buckets node_life s ks = some (ks.map fnc, s1) ∧
      cache.inv fnc buckets s1 := by
  intro ks
  induction ks with
  | nil => intro s hs; exact ⟨s, rfl, hs⟩
  | cons k ks ih =>
    intro s hs
    obtain ⟨s1, e1, _, _, _, _, hs1⟩ := call_refines fnc hsh node_life k hB hs
    obtain ⟨s2, e2, hs2⟩ := ih s1 hs1
    exact ⟨s2, by simp [cache.run, e1, e2], hs2⟩

/-- C1: for every function `fnc`, hash `hsh`, bucket count `buckets ≥ 1`, node life and
finite sequence of calls on a fresh cache, the run ends and every call `cache(k)` returns
exactly `fnc k`, whether it was served as a hit or as a miss. -/
theorem memoization_correct {K V : Type} [DecidableEq K] (fnc : K → V) (hsh : K → Nat)
    (buckets : Nat) (node_life : Int) (ks : List K) (hB : 1 ≤ buckets) :
    ∃ s, cache.run fnc hsh buckets node_life (cache.create K V buckets) ks =
      some (ks.map fnc, s) := by
  obtain ⟨s, e, _⟩ := run_values fnc hsh node_life hB ks _ (inv_create fnc buckets)
  exact ⟨s, e⟩

theorem memoization_correct_witness :
    1 ≤ 1 ∧ ∃ s, cache.run (fun x : Nat => x * x) id 1 3 (cache.create Nat Nat 1)
      [1, 2, 1, 3, 4, 1] = some ([1, 4, 1, 9, 16, 1], s) :=
  ⟨by decide, memoization_correct (fun x : Nat => x * x) id 1 3 [1, 2, 1, 3, 4, 1] (by decide)⟩


/-- A sequence of calls on a fresh cache returns the values of `fnc` and ends in a cache
that satisfies the invariant and whose lists are coloured by bucket. -/
theorem run_colored {K V : Type} [DecidableEq K] (fnc : K → V) (hsh : K → Nat)
    {buckets : Nat} (node_life : Int) (hB : 0 < buckets) :
    ∀ (ks : List K) (s : cache K V), cache.inv fnc buckets s →
    s.mem.shape.colored (bucket_of hsh buckets s.kvs) →
    ∃ s1, cache.run fnc hsh buckets node_life s ks = some (ks.map fnc, s1) ∧
      cache.inv fnc buckets s1 ∧ s1.mem.shape.colored (bucket_of hsh buckets s1.kvs) := by
  intro ks
  induction ks with
  | nil => intro s hs hc; exact ⟨s, rfl, hs, hc⟩
  | cons k ks ih =>
    intro s hs hc
    obtain ⟨s1, e1, hs1, hc1, _⟩ := call_locality fnc hsh node_life k hB hs hc
    obtain ⟨s2, e2, hs2, hc2⟩ := ih s1 hs1 hc1
    exact ⟨s2, by simp [cache.run, e1, e2], hs2, hc2⟩

/-- C10: single-bucket locality. In every state `s` that a sequence of calls `ks` on a
fresh cache leads to, a call `cache(k)` leaves every bucket other than
`hsh k % buckets` unchanged: the same head, and the same cells reachable from it, in the
same order, with the same data, successor, mark and time stamp; and the index
`hsh k % buckets` lies in `[0, buckets)`. -/
theorem single_bucket_locality {K V : Type} [DecidableEq K] (fnc : K → V) (hsh : K → Nat)
    (buckets : Nat) (node_life : Int) (ks : List K) (k : K) (hB : 1 ≤ buckets) :
    hsh k % buckets < buckets ∧
    ∃ vs s v s1,
      cache.run fnc hsh buckets node_life (cache.create K V buckets) ks = some (vs, s) ∧
      cache.call fnc hsh buckets node_life s k = some (v, s1) ∧
      ∀ b1, b1 ≠ hsh k % buckets →
        s1.mem.shape.bucket b1 = s.mem.shape.bucket b1 ∧
        s1.mem.shape.heads[b1]? = s.mem.shape.heads[b1]? := by
  refine ⟨Nat.mod_lt _ hB, ?_⟩
  obtain ⟨s, e, hs, hc⟩ := run_colored fnc hsh node_life hB ks _ (inv_create fnc buckets)
    (colored_create _ buckets)
  obtain ⟨s1, e1, _, _, h1⟩ := call_locality fnc hsh node_life k hB hs hc
  exact ⟨_, s, _, s1, e, e1, h1⟩

theorem single_bucket_locality_witness :
    1 ≤ 2 ∧ (id 6 % 2 < 2 ∧
    ∃ vs s v s1,
      cache.run (fun x : Nat => x * x) id 2 1 (cache.create Nat Nat 2) [0, 2, 4, 1] =
        some (vs, s) ∧
      cache.call (fun x : Nat => x * x) id 2 1 s 6 = some (v, s1) ∧
      ∀ b1, b1 ≠ id 6 % 2 →
        s1.mem.shape.bucket b1 = s.mem.shape.bucket b1 ∧
        s1.mem.shape.heads[b1]? = s.mem.shape.heads[b1]?) :=
  ⟨by decide, single_bucket_locality (fun x : Nat => x * x) id 2 1 [0, 2, 4, 1] 6 (by decide)⟩


/-- C2 (failing input): two buckets, node life 1, hash `id`, `fnc x = x*x`, calls
`cache(0), cache(2), cache(4), cache(1), cache(6), cache(6)`. The two calls `cache(6)` read
the ticks 4 and 5, and 5 - 4 ≤ 1, but both are misses: `fnc` is evaluated at 6 twice.
The first `cache(6)` appended its cell behind a cell that had just been unlinked. -/
theorem refresh_within_life_misses :
    (cache.run (fun x : Nat => x * x) id 2 1 (cache.create Nat Nat 2) [0, 2, 4, 1, 6, 6]).map
      (fun r => (r.1, r.2.evals, r.2.time)) =
    some ([0, 4, 16, 1, 36, 36], [0, 2, 4, 1, 6, 6], 6) := by
  decide

/-- C3 (failing input): one bucket, node life 4, calls `cache(1), ..., cache(6), cache(1)`.
The last call reads tick 6 and the only earlier call for key 1 read tick 0, with
0 + 4 < 6, but the call is a hit: `fnc` is evaluated at 1 once only. The cell of key 1 is
the first of its bucket, and the constructor of the cursor does not test its age. -/
theorem expired_head_is_hit :
    (cache.run (fun x : Nat => x * x) id 1 4 (cache.create Nat Nat 1)
      [1, 2, 3, 4, 5, 6, 1]).map (fun r => (r.1, r.2.evals, r.2.time)) =
    some ([1, 4, 9, 16, 25, 36, 1], [1, 2, 3, 4, 5, 6], 7) := by
  decide

/-- C4 (failing input): one bucket, node life 0, calls `cache(1), cache(2), cache(1)`.
The third call reads tick 2 and is a hit (`fnc` was evaluated at 1 and 2 only), and after
it no cell at all is reachable from the head of the bucket. -/
theorem hit_leaves_bucket_empty :
    (cache.run (fun x : Nat => x * x) id 1 0 (cache.create Nat Nat 1) [1, 2, 1]).map
      (fun r => (r.2.evals, r.2.mem.shape.bucket 0)) =
    some ([1, 2], []) := by
  decide

/-- C5 (failing input): one bucket, node life 0, calls `cache(1), cache(2)`. The second
call reads tick 1 and misses; after it the first cell of the bucket (address 0) has time
stamp 0 with 0 + 0 < 1, is reachable, and its `next` link is not marked. -/
theorem expired_head_stays :
    (cache.run (fun x : Nat => x * x) id 1 0 (cache.create Nat Nat 1) [1, 2]).map
      (fun r => (r.2.evals, r.2.mem.shape.bucket 0)) =
    some ([1, 2],
      [(0, { data := { header := some 0, mark := false }, next := some 1, mark := false,
             time_stamp := 0 }),
       (1, { data := { header := some 1, mark := false }, next := none, mark := false,
             time_stamp := 1 })]) := by
  decide

/-- C9 (failing input): a compare-exchange that replaces a cell by a handle to the same
cell succeeds and leaves the slot with access count -1 and the cell with external count
1; once the handle is dropped and the slot destroyed the counts are (0, 1), not (0, 0),
and the cell was never destroyed. -/
theorem same_cell_exchange_leaks :
    same_cell_exchange = some (true, { access_count := -1, mark := false, ptr := some 0 },
      { storage := { data := shared_ptr.null,
                     next := { access_count := 0, mark := false, ptr := none },
                     time_stamp := 0 },
        count := { external_counters := 1, count := 0 },
        destroyed := 0 }) := by
  decide


/-- The run of the specification's example, evaluated: ten keys looked up twice with the
default parameters give the squares twice, and `fnc` is called ten times. -/
theorem ten_keys_twice :
    (cache.run (fun x : Nat => x * x) id 100 100 (cache.create Nat Nat 100)
      [0, 1, 2, 3, 4, 5, 6, 7, 8, 9, 0, 1, 2, 3, 4, 5, 6, 7, 8, 9]).map
      (fun r => (r.1, r.2.evals)) =
    some ([0, 1, 4, 9, 16, 25, 36, 49, 64, 81, 0, 1, 4, 9, 16, 25, 36, 49, 64, 81],
      [0, 1, 2, 3, 4, 5, 6, 7, 8, 9]) := by
  decide


theorem cnt_succ (n : Nat) (p : Nat → Bool) :
    cnt (n + 1) p = cnt n p + (if p n then 1 else 0) := by
  simp [cnt, List.range_succ, List.countP_append, List.countP_cons]

theorem cnt_congr {p q : Nat → Bool} : ∀ (n : Nat), (∀ k, k < n → p k = q k) →
    cnt n p = cnt n q := by
  intro n
  induction n with
  | zero => intro _; rfl
  | succ n ih =>
    intro h
    rw [cnt_succ, cnt_succ, ih (fun k hk => h k (Nat.lt_succ_of_lt hk)), h n (Nat.lt_succ_self n)]

/-- Changing the predicate at one place changes the count by that place. -/
theorem cnt_update {p q : Nat → Bool} {b : Nat} : ∀ (n : Nat), b < n →
    (∀ k, k < n → k ≠ b → p k = q k) →
    cnt n q + (if p b then 1 else 0) = cnt n p + (if q b then 1 else 0) := by
  intro n
  induction n with
  | zero => intro hb; omega
  | succ n ih =>
    intro hb h
    rw [cnt_succ, cnt_succ]
    by_cases hbn : b = n
    · subst hbn
      rw [cnt_congr b (fun k hk => h k (Nat.lt_succ_of_lt hk) (Nat.ne_of_lt hk))]
      omega
    · have := ih (by omega) (fun k hk hkb => h k (Nat.lt_succ_of_lt hk) hkb)
      rw [h n (Nat.lt_succ_self n) (fun e => hbn e.symm)]
      omega

theorem cnt_pos {p : Nat → Bool} {k : Nat} : ∀ (n : Nat), k < n → p k = true → 0 < cnt n p := by
  intro n
  induction n with
  | zero => intro hk; omega
  | succ n ih =>
    intro hk hp
    rw [cnt_succ]
    by_cases hkn : k = n
    · subst hkn; simp [hp]
    · have := ih (by omega) hp
      omega

theorem cnt_zero {p : Nat → Bool} : ∀ (n : Nat), cnt n p = 0 → ∀ k, k < n → p k = false := by
  intro n h k hk
  cases hp : p k with
  | false => rfl
  | true => have := cnt_pos n hk hp; omega

theorem cnt_false {p : Nat → Bool} : ∀ (n : Nat), (∀ k, k < n → p k = false) → cnt n p = 0 := by
  intro n
  induction n with
  | zero => intro _; rfl
  | succ n ih =>
    intro h
    rw [cnt_succ, ih (fun k hk => h k (Nat.lt_succ_of_lt hk)), h n (Nat.lt_succ_self n)]
    rfl

theorem next_to_set {h h1 : heap} {j : Nat} {c1 : shared_ptr_header}
    (hn : h1.nodes = h.nodes.set j c1) (k k1 : Nat) (hne : k1 ≠ j) :
    h.next_to k k1 = h1.next_to k k1 := by
  unfold heap.next_to
  rw [hn, List.getElem?_set_ne (fun e => hne e.symm)]

theorem next_to_at {h : heap} {j : Nat} {c : shared_ptr_header} (hc : h.nodes[j]? = some c)
    (k : Nat) : h.next_to k j = c.next_to k := by
  unfold heap.next_to
  rw [hc]

theorem nodes_set_at {h h1 : heap} {j : Nat} {c c1 : shared_ptr_header}
    (hc : h.nodes[j]? = some c) (hn : h1.nodes = h.nodes.set j c1) :
    h1.nodes[j]? = some c1 := by
  rw [hn, List.getElem?_set_self (List.getElem?_eq_some_iff.mp hc).1]

/-- Replacing one cell changes the number of slots that point to `k` by the slot `next`
of that cell. -/
theorem indeg_nodes_set {h h1 : heap} {j : Nat} {c c1 : shared_ptr_header}
    (hc : h.nodes[j]? = some c) (hn : h1.nodes = h.nodes.set j c1)
    (hh : h1.head_buckets = h.head_buckets) (nh k : Nat) :
    h1.indeg nh k + (if c.next_to k then 1 else 0) =
      h.indeg nh k + (if c1.next_to k then 1 else 0) := by
  have hj : j < h.nodes.length := (List.getElem?_eq_some_iff.mp hc).1
  have hlen : h1.nodes.length = h.nodes.length := by rw [hn, List.length_set]
  have hheads : cnt nh (h1.head_to k) = cnt nh (h.head_to k) :=
    cnt_congr nh (fun b _ => by unfold heap.head_to; rw [hh])
  have := cnt_update (p := h.next_to k) (q := h1.next_to k) h.nodes.length hj
    (fun k1 _ hne => next_to_set hn k k1 hne)
  rw [next_to_at hc, next_to_at (nodes_set_at hc hn)] at this
  unfold heap.indeg
  rw [hheads, hlen]
  omega

theorem alive_nodes_set {h h1 : heap} {j : Nat} {c c1 : shared_ptr_header}
    (hc : h.nodes[j]? = some c) (hn : h1.nodes = h.nodes.set j c1) :
    cnt h1.nodes.length h1.alive + (if c.destroyed = 0 then 1 else 0) =
      cnt h.nodes.length h.alive + (if c1.destroyed = 0 then 1 else 0) := by
  have hj : j < h.nodes.length := (List.getElem?_eq_some_iff.mp hc).1
  have hlen : h1.nodes.length = h.nodes.length := by rw [hn, List.length_set]
  have := cnt_update (p := h.alive) (q := h1.alive) h.nodes.length hj
    (fun k1 _ hne => by
      unfold heap.alive
      rw [hn, List.getElem?_set_ne (fun e => hne e.symm)])
  have e1 : h.alive j = decide (c.destroyed = 0) := by unfold heap.alive; rw [hc]
  have e2 : h1.alive j = decide (c1.destroyed = 0) := by
    unfold heap.alive; rw [nodes_set_at hc hn]
  rw [e1, e2] at this
  rw [hlen]
  simpa using this

/-- Replacing the content of a head that exists. -/
theorem indeg_heads_set {h h1 : heap} {b nh : Nat} {v w : counted_ptr}
    (hv : h.head_buckets[b]? = some v) (hh : h1.head_buckets = h.head_buckets.set b w)
    (hn : h1.nodes = h.nodes) (hb : b < nh) (k : Nat) :
    h1.indeg nh k + (if v.ptr = some k then 1 else 0) =
      h.indeg nh k + (if w.ptr = some k then 1 else 0) := by
  have hnodes : cnt h1.nodes.length (h1.next_to k) = cnt h.nodes.length (h.next_to k) := by
    rw [hn]
    exact cnt_congr _ (fun k1 _ => by unfold heap.next_to; rw [hn])
  have := cnt_update (p := h.head_to k) (q := h1.head_to k) nh hb
    (fun b1 _ hne => by
      unfold heap.head_to
      rw [hh, List.getElem?_set_ne (fun e => hne e.symm)])
  have e1 : h.head_to k b = decide (v.ptr = some k) := by unfold heap.head_to; rw [hv]
  have e2 : h1.head_to k b = decide (w.ptr = some k) := by
    unfold heap.head_to
    rw [hh, List.getElem?_set_self (List.getElem?_eq_some_iff.mp hv).1]
  rw [e1, e2] at this
  unfold heap.indeg
  rw [hnodes]
  simp only [decide_eq_true_eq] at this
  omega

/-- A new cell whose slot `next` is null is pointed to by nothing and points to nothing. -/
theorem indeg_append {h h1 : heap} {c1 : shared_ptr_header} (hn : h1.nodes = h.nodes ++ [c1])
    (hh : h1.head_buckets = h.head_buckets) (hc1 : c1.storage.next.ptr = none) (nh k : Nat) :
    h1.indeg nh k = h.indeg nh k := by
  have hheads : cnt nh (h1.head_to k) = cnt nh (h.head_to k) :=
    cnt_congr nh (fun b _ => by unfold heap.head_to; rw [hh])
  unfold heap.indeg
  rw [hheads, hn, List.length_append, List.length_singleton, cnt_succ]
  have e1 : cnt h.nodes.length (h1.next_to k) = cnt h.nodes.length (h.next_to k) :=
    cnt_congr _ (fun k1 hk1 => by
      unfold heap.next_to
      rw [hn, List.getElem?_append_left hk1])
  have e2 : h1.next_to k h.nodes.length = false := by
    unfold heap.next_to
    rw [hn, List.getElem?_append_right (le_refl _)]
    simp [shared_ptr_header.next_to, hc1]
  rw [e1, e2]
  rfl

theorem alive_append {h h1 : heap} {c1 : shared_ptr_header} (hn : h1.nodes = h.nodes ++ [c1])
    (hc1 : c1.destroyed = 0) :
    cnt h1.nodes.length h1.alive = cnt h.nodes.length h.alive + 1 := by
  rw [hn, List.length_append, List.length_singleton, cnt_succ]
  have e1 : cnt h.nodes.length h1.alive = cnt h.nodes.length h.alive :=
    cnt_congr _ (fun k1 hk1 => by
      unfold heap.alive
      rw [hn, List.getElem?_append_left hk1])
  have e2 : h1.alive h.nodes.length = true := by
    unfold heap.alive
    rw [hn, List.getElem?_append_right (le_refl _)]
    simp [hc1]
  rw [e1, e2]
  rfl

theorem indeg_succ (h : heap) (nh k : Nat) :
    h.indeg (nh + 1) k = h.indeg nh k + (if h.head_to k nh then 1 else 0) := by
  unfold heap.indeg
  rw [cnt_succ]
  omega


theorem shape_of_nodes_set {h h1 : heap} {j : Nat} {c c1 : shared_ptr_header}
    (hc : h.nodes[j]? = some c) (hn : h1.nodes = h.nodes.set j c1)
    (hh : h1.head_buckets = h.head_buckets) (hv : c1.view = c.view) : h1.shape = h.shape := by
  have := shape_set_same_view h1.leaks hc hv
  rw [← this]
  simp only [heap.shape, hn, hh]

theorem balg_alive_of_mem {h : heap} {nh : Nat} {L : List Nat} {g : Option slot_ref}
    (hb : h.balg nh L g) {i : Nat} (hi : i ∈ L) :
    ∃ c, h.nodes[i]? = some c ∧ c.destroyed = 0 := by
  have hlt := hb.sup i hi
  refine ⟨h.nodes[i], List.getElem?_eq_getElem hlt, ?_⟩
  rcases (hb.cell i _ (List.getElem?_eq_getElem hlt)).2.2 with h1 | h1
  · exact h1.1
  · have := List.count_pos_iff.mpr hi
    omega

theorem balg_alive_of_indeg {h : heap} {nh : Nat} {L : List Nat} {g : Option slot_ref}
    (hb : h.balg nh L g) {i : Nat} {c : shared_ptr_header} (hc : h.nodes[i]? = some c)
    (hi : 0 < h.indeg nh i) : c.destroyed = 0 := by
  rcases (hb.cell i c hc).2.2 with h1 | h1
  · exact h1.1
  · omega

/-- Only the number of handles per cell matters. -/
theorem balg_perm {h : heap} {nh : Nat} {L L1 : List Nat} {g : Option slot_ref}
    (hb : h.balg nh L g) (hc : ∀ k, L1.count k = L.count k) : h.balg nh L1 g := by
  refine ⟨hb.ok, hb.nh_le, ?_, hb.acc_head, ?_, hb.leaks⟩
  · intro i hi
    apply hb.sup
    have := List.count_pos_iff.mpr hi
    rw [hc] at this
    exact List.count_pos_iff.mp this
  · intro k c hk
    rw [hc]
    exact hb.cell k c hk

/-- The invariant after the counters of one cell were changed. -/
theorem balg_cell_update {h h1 : heap} {nh : Nat} {L L1 : List Nat} {g : Option slot_ref}
    {j : Nat} {c c1 : shared_ptr_header} (hb : h.balg nh L g) (hc : h.nodes[j]? = some c)
    (hn : h1.nodes = h.nodes.set j c1) (hh : h1.head_buckets = h.head_buckets)
    (hst : c1.storage = c.storage)
    (hl : h1.leaks + (if c.destroyed = 0 then 1 else 0) =
      h.leaks + (if c1.destroyed = 0 then 1 else 0))
    (hsup : ∀ i ∈ L1, i < h.nodes.length)
    (hsum : ∀ k, k ≠ j → h1.indeg nh k + L1.count k = h.indeg nh k + L.count k)
    (hj : c1.count.external_counters = 0 ∧
      (c1.destroyed = 0 ∧ c1.count.count = ((h1.indeg nh j + L1.count j : Nat) : Int) ∧
          0 < c1.count.count ∨
        c1.destroyed = 1 ∧ c1.count.count = 0 ∧ h1.indeg nh j = 0 ∧ L1.count j = 0)) :
    h1.balg nh L1 g := by
  have hlen : h1.nodes.length = h.nodes.length := by rw [hn, List.length_set]
  have hshape : h1.shape = h.shape :=
    shape_of_nodes_set hc hn hh (by simp [shared_ptr_header.view, hst])
  refine ⟨hshape ▸ hb.ok, hh ▸ hb.nh_le, fun i hi => hlen ▸ hsup i hi, ?_, ?_, ?_⟩
  · intro b v hv
    rw [hh] at hv
    exact hb.acc_head b v hv
  · intro k ck hk
    by_cases hkj : k = j
    · subst hkj
      rw [nodes_set_at hc hn] at hk
      cases hk
      refine ⟨?_, hj⟩
      rw [hst]
      exact (hb.cell k c hc).1
    · rw [hn, List.getElem?_set_ne (fun e => hkj e.symm)] at hk
      obtain ⟨a1, a2, a3⟩ := hb.cell k ck hk
      refine ⟨a1, a2, ?_⟩
      have := hsum k hkj
      rcases a3 with a3 | a3
      · exact Or.inl ⟨a3.1, by rw [this]; exact a3.2.1, a3.2.2⟩
      · exact Or.inr ⟨a3.1, a3.2.1, by omega, by omega⟩
  · have q1 := alive_nodes_set hc hn
    have q2 := hb.leaks
    by_cases d1 : c.destroyed = 0 <;> by_cases d2 : c1.destroyed = 0 <;>
      simp only [d1, d2, if_true, if_false] at q1 hl <;> omega


theorem count_cons_ne {j k : Nat} (L : List Nat) (h : k ≠ j) :
    (j :: L).count k = L.count k := List.count_cons_of_ne h L

theorem mem_cons_sup {n j : Nat} {L : List Nat} (hj : j < n) (h : ∀ i ∈ L, i < n) :
    ∀ i ∈ j :: L, i < n := by
  intro i hi
  rcases List.mem_cons.mp hi with h2 | h2
  · rw [h2]; exact hj
  · exact h i h2

/-- A new handle to a cell that was not destroyed: `modify_count(1,0)`. -/
theorem inc_balg {h h1 : heap} {nh : Nat} {L : List Nat} {g : Option slot_ref} {j : Nat}
    (hb : h.balg nh L g) (hj : h.alive j = true) (e : modify_count h j 1 0 = some h1) :
    h1.balg nh (j :: L) g ∧ h1.shape = h.shape := by
  unfold heap.alive at hj
  cases hc : h.nodes[j]? with
  | none => simp [hc] at hj
  | some c =>
    simp only [hc, decide_eq_true_eq] at hj
    have hlt : j < h.nodes.length := (List.getElem?_eq_some_iff.mp hc).1
    obtain ⟨a1, a2, a3⟩ := hb.cell j c hc
    rcases a3 with a3 | a3
    swap
    · omega
    obtain ⟨_, a4, a5⟩ := a3
    have hne : ¬ (c.count.count + 1 = 0 ∧ c.count.external_counters + 0 = 0) := by omega
    simp only [modify_count, modify_count_loop, hc, hne, if_false, Option.some.injEq] at e
    obtain ⟨c1, hc1⟩ : ∃ c1 : shared_ptr_header, c1 = { c with count :=
      { external_counters := c.count.external_counters + 0, count := c.count.count + 1 } } :=
      ⟨_, rfl⟩
    rw [← hc1] at e
    have hn : h1.nodes = h.nodes.set j c1 := by rw [← e]
    have hh : h1.head_buckets = h.head_buckets := by rw [← e]
    have hl : h1.leaks = h.leaks := by rw [← e]
    have hst : c1.storage = c.storage := by rw [hc1]
    have hd : c1.destroyed = c.destroyed := by rw [hc1]
    have hcc : c1.count.count = c.count.count + 1 := by rw [hc1]
    have hce : c1.count.external_counters = 0 := by rw [hc1]; simp [a2]
    have hnt : ∀ k, c1.next_to k = c.next_to k := by
      intro k; simp only [shared_ptr_header.next_to, hst, hd]
    have hin : ∀ k, h1.indeg nh k = h.indeg nh k := by
      intro k
      have := indeg_nodes_set hc hn hh nh k
      rw [hnt] at this
      omega
    refine ⟨?_, shape_of_nodes_set hc hn hh (by simp [shared_ptr_header.view, hst])⟩
    apply balg_cell_update hb hc hn hh hst (by rw [hl, hd]) (mem_cons_sup hlt hb.sup)
    · intro k hk
      rw [count_cons_ne L hk, hin]
    · refine ⟨hce, Or.inl ⟨by rw [hd]; exact hj, ?_, by omega⟩⟩
      rw [hin, List.count_cons_self, hcc, a4]
      push_cast
      omega


theorem count_toList (p : Option Nat) (L : List Nat) (k : Nat) :
    (p.toList ++ L).count k = (if p = some k then 1 else 0) + L.count k := by
  cases p with
  | none => simp
  | some a =>
    by_cases h : a = k
    · subst h; simp [Nat.add_comm]
    · have : k ≠ a := fun e => h e.symm
      simp [List.count_cons_of_ne this, h]

theorem next_lt_of_ok {h : heap} (hok : h.shape.ok) {j m : Nat} {c : shared_ptr_header}
    (hc : h.nodes[j]? = some c) (hm : c.storage.next.ptr = some m) :
    j < m ∧ m < h.nodes.length := by
  have := hok.next_lt j c.view (by rw [shape_nodes_get, hc]; rfl) m hm
  rwa [shape_nodes_length] at this

/-- The destructor of a handle, `modify_count(-1,0)`: the cell is destroyed when this was
the last reference, and then the same happens to the cell its slot `next` points to. -/
theorem dec_loop_balg {nh : Nat} {g : Option slot_ref} : ∀ (fuel : Nat) (h h1 : heap) (j : Nat)
    (L : List Nat), h.balg nh (j :: L) g → modify_count_loop fuel h j (-1) 0 = some h1 →
    h1.balg nh L g ∧ h1.shape = h.shape := by
  intro fuel
  induction fuel with
  | zero => intro h h1 j L _ e; simp [modify_count_loop] at e
  | succ fuel ih =>
    intro h h1 j L hb e
    obtain ⟨c, hc, hal⟩ := balg_alive_of_mem hb (List.mem_cons_self j L)
    have hlt : j < h.nodes.length := (List.getElem?_eq_some_iff.mp hc).1
    have hsupL : ∀ i ∈ L, i < h.nodes.length := fun i hi => hb.sup i (List.mem_cons_of_mem j hi)
    obtain ⟨a1, a2, a3⟩ := hb.cell j c hc
    rcases a3 with a3 | a3
    swap
    · omega
    obtain ⟨_, a4, a5⟩ := a3
    rw [List.count_cons_self] at a4
    simp only [modify_count_loop, hc] at e
    by_cases hz : c.count.count + -1 = 0 ∧ c.count.external_counters + 0 = 0
    · rw [if_pos hz] at e
      obtain ⟨c1, hc1⟩ : ∃ c1 : shared_ptr_header, c1 = { c with
        count := { external_counters := c.count.external_counters + 0,
                   count := c.count.count + -1 },
        destroyed := c.destroyed + 1 } := ⟨_, rfl⟩
      obtain ⟨h2, hh2⟩ : ∃ h2 : heap, h2 = { h with
        nodes := h.nodes.set j c1,
        leaks := h.leaks - 1 } := ⟨_, rfl⟩
      rw [← hc1, ← hh2] at e
      have hn : h2.nodes = h.nodes.set j c1 := by rw [hh2]
      have hh : h2.head_buckets = h.head_buckets := by rw [hh2]
      have hl : h2.leaks = h.leaks - 1 := by rw [hh2]
      have hst : c1.storage = c.storage := by rw [hc1]
      have hd : c1.destroyed = 1 := by rw [hc1]; simp [hal]
      have hcc : c1.count.count = 0 := by rw [hc1]; exact hz.1
      have hce : c1.count.external_counters = 0 := by rw [hc1]; exact hz.2
      have hnt1 : ∀ k, c1.next_to k = false := by
        intro k; simp [shared_ptr_header.next_to, hd]
      have hnt : ∀ k, c.next_to k = decide (c.storage.next.ptr = some k) := by
        intro k; simp [shared_ptr_header.next_to, hal]
      have hin : ∀ k, h2.indeg nh k + (if c.storage.next.ptr = some k then 1 else 0) =
          h.indeg nh k := by
        intro k
        have := indeg_nodes_set hc hn hh nh k
        rw [hnt1, hnt] at this
        simpa using this
      have hnj : c.storage.next.ptr ≠ some j := by
        intro hm
        have := (next_lt_of_ok hb.ok hc hm).1
        omega
      have hb2 : h2.balg nh (c.storage.next.ptr.toList ++ L) g := by
        apply balg_cell_update hb hc hn hh hst (by rw [hl, hd, hal]; simp)
        · intro i hi
          rcases List.mem_append.mp hi with h3 | h3
          · simp only [Option.mem_toList, Option.mem_def] at h3
            exact (next_lt_of_ok hb.ok hc h3).2
          · exact hsupL i h3
        · intro k hk
          rw [count_toList, count_cons_ne L hk]
          have := hin k
          omega
        · refine ⟨hce, Or.inr ⟨hd, hcc, ?_, ?_⟩⟩
          · have := hin j
            omega
          · rw [count_toList, if_neg hnj]
            omega
      have hs2 : h2.shape = h.shape :=
        shape_of_nodes_set hc hn hh (by simp [shared_ptr_header.view, hst])
      cases hm : c.storage.next.ptr with
      | none =>
        simp only [hm, Option.some.injEq] at e
        subst e
        rw [hm] at hb2
        exact ⟨hb2, hs2⟩
      | some m =>
        simp only [hm] at e
        rw [hm] at hb2
        obtain ⟨b3, s3⟩ := ih h2 h1 m L hb2 e
        exact ⟨b3, by rw [s3, hs2]⟩
    · rw [if_neg hz] at e
      simp only [Option.some.injEq] at e
      obtain ⟨c1, hc1⟩ : ∃ c1 : shared_ptr_header, c1 = { c with
        count := { external_counters := c.count.external_counters + 0,
                   count := c.count.count + -1 } } := ⟨_, rfl⟩
      rw [← hc1] at e
      have hn : h1.nodes = h.nodes.set j c1 := by rw [← e]
      have hh : h1.head_buckets = h.head_buckets := by rw [← e]
      have hl : h1.leaks = h.leaks := by rw [← e]
      have hst : c1.storage = c.storage := by rw [hc1]
      have hd : c1.destroyed = c.destroyed := by rw [hc1]
      have hcc : c1.count.count = c.count.count + -1 := by rw [hc1]
      have hce : c1.count.external_counters = 0 := by rw [hc1]; simp [a2]
      have hnt : ∀ k, c1.next_to k = c.next_to k := by
        intro k; simp only [shared_ptr_header.next_to, hst, hd]
      have hin : ∀ k, h1.indeg nh k = h.indeg nh k := by
        intro k
        have := indeg_nodes_set hc hn hh nh k
        rw [hnt] at this
        omega
      refine ⟨?_, shape_of_nodes_set hc hn hh (by simp [shared_ptr_header.view, hst])⟩
      apply balg_cell_update hb hc hn hh hst (by rw [hl, hd]) hsupL
      · intro k hk
        rw [count_cons_ne L hk, hin]
      · refine ⟨hce, Or.inl ⟨by rw [hd]; exact hal, ?_, ?_⟩⟩
        · rw [hin, hcc, a4]
          push_cast
          omega
        · rw [hcc]
          have : c.count.count + -1 ≠ 0 := fun h0 => hz ⟨h0, by omega⟩
          omega


theorem alive_of_mem {h : heap} {nh : Nat} {L : List Nat} {g : Option slot_ref}
    (hb : h.balg nh L g) {i : Nat} (hi : i ∈ L) : h.alive i = true := by
  obtain ⟨c, hc, hd⟩ := balg_alive_of_mem hb hi
  simp [heap.alive, hc, hd]

theorem live_of_held {h : heap} {nh : Nat} {L : List Nat} {g : Option slot_ref}
    (hb : h.balg nh L g) {r : slot_ref} (hr : slot_held nh L r) : h.live nh r := by
  cases r with
  | head b => exact hr
  | next i => exact alive_of_mem hb hr

theorem valid_of_held {h : heap} {nh : Nat} {L : List Nat} {g : Option slot_ref}
    (hb : h.balg nh L g) {r : slot_ref} (hr : slot_held nh L r) : h.shape.valid_slot r := by
  cases r with
  | head b =>
    have : b < nh := hr
    have := hb.nh_le
    simp only [shape.valid_slot, shape_heads_length]
    omega
  | next i =>
    simp only [shape.valid_slot, shape_nodes_length]
    exact hb.sup i hr

theorem held_mono {nh : Nat} {L L1 : List Nat} {r : slot_ref} (hr : slot_held nh L r)
    (hs : ∀ i ∈ L, i ∈ L1) : slot_held nh L1 r := by
  cases r with
  | head b => exact hr
  | next i => exact hs i hr

/-- The cell a slot that exists points to was not destroyed. -/
theorem alive_of_ptr {h : heap} {nh : Nat} {L : List Nat} {g : Option slot_ref}
    (hb : h.balg nh L g) {r : slot_ref} (hr : h.live nh r) {v : counted_ptr}
    (hv : h.p r = some v) {j : Nat} (hj : v.ptr = some j) : h.alive j = true := by
  have hin : 0 < h.indeg nh j := by
    unfold heap.indeg
    cases r with
    | head b =>
      have hb1 : b < nh := hr
      have : h.head_to j b = true := by
        simp only [heap.p] at hv
        simp [heap.head_to, hv, hj]
      have := cnt_pos nh hb1 this
      omega
    | next i =>
      have hal : h.alive i = true := hr
      simp only [heap.p] at hv
      cases hc : h.nodes[i]? with
      | none => simp [hc] at hv
      | some c =>
        simp only [hc, Option.some.injEq] at hv
        simp only [heap.alive, hc, decide_eq_true_eq] at hal
        have : h.next_to j i = true := by
          simp [heap.next_to, hc, shared_ptr_header.next_to, hal, hv, hj]
        have := cnt_pos h.nodes.length (List.getElem?_eq_some_iff.mp hc).1 this
        omega
  have hlt : j < h.nodes.length := by
    have := valid_ptr_slot hb.ok r j (by rw [shape.ptr, p_shape hv]; exact hj)
    rwa [shape_nodes_length] at this
  have := balg_alive_of_indeg hb (List.getElem?_eq_getElem hlt) hin
  simp [heap.alive, List.getElem?_eq_getElem hlt, this]

/-- The access count of a slot is the one the invariant prescribes. -/
theorem acc_of_balg {h : heap} {nh : Nat} {L : List Nat} {g : Option slot_ref}
    (hb : h.balg nh L g) {r : slot_ref} {v : counted_ptr} (hv : h.p r = some v) :
    v.access_count = guard_count g r := by
  cases r with
  | head b => exact hb.acc_head b v hv
  | next i =>
    simp only [heap.p] at hv
    cases hc : h.nodes[i]? with
    | none => simp [hc] at hv
    | some c =>
      simp only [hc, Option.some.injEq] at hv
      rw [← hv]
      exact (hb.cell i c hc).1


theorem cell_clause_transfer {c c1 : shared_ptr_header} {a a1 b b1 : Nat}
    (hcount : c1.count = c.count) (hd : c1.destroyed = c.destroyed) (hs : a1 + b1 = a + b)
    (hc : c.destroyed = 0 ∧ c.count.count = ((a + b : Nat) : Int) ∧ 0 < c.count.count ∨
      c.destroyed = 1 ∧ c.count.count = 0 ∧ a = 0 ∧ b = 0) :
    c1.destroyed = 0 ∧ c1.count.count = ((a1 + b1 : Nat) : Int) ∧ 0 < c1.count.count ∨
      c1.destroyed = 1 ∧ c1.count.count = 0 ∧ a1 = 0 ∧ b1 = 0 := by
  rw [hcount, hd, hs]
  rcases hc with hc | hc
  · exact Or.inl hc
  · exact Or.inr ⟨hc.1, hc.2.1, by omega, by omega⟩

/-- Writing a slot that exists: the reference the slot held becomes a handle, and one
handle to the new content is used up. -/
theorem balg_set_p {h h1 : heap} {nh : Nat} {L L1 : List Nat} {g g1 : Option slot_ref}
    {r : slot_ref} {v w : counted_ptr} (hb : h.balg nh L g) (hr : h.live nh r)
    (hv : h.p r = some v) (e : h.set_p r w = some h1) (hok2 : h1.shape.ok)
    (hw : w.access_count = guard_count g1 r)
    (hg : ∀ r1, r1 ≠ r → guard_count g1 r1 = guard_count g r1)
    (hsup : ∀ i ∈ L1, i < h.nodes.length)
    (hcount : ∀ k, L1.count k + (if w.ptr = some k then 1 else 0) =
      L.count k + (if v.ptr = some k then 1 else 0)) :
    h1.balg nh L1 g1 := by
  cases r with
  | head b =>
    have hb1 : b < nh := hr
    simp only [heap.p] at hv
    have hlt : b < h.head_buckets.length := (List.getElem?_eq_some_iff.mp hv).1
    simp only [heap.set_p, hlt, if_true, Option.some.injEq] at e
    have hn : h1.nodes = h.nodes := by rw [← e]
    have hh : h1.head_buckets = h.head_buckets.set b w := by rw [← e]
    have hl : h1.leaks = h.leaks := by rw [← e]
    have hin := indeg_heads_set hv hh hn hb1
    refine ⟨hok2, by rw [hh, List.length_set]; exact hb.nh_le, by rw [hn]; exact hsup, ?_, ?_, ?_⟩
    · intro b2 c2 hc2
      by_cases hbb : b2 = b
      · subst hbb
        rw [hh, List.getElem?_set_self hlt] at hc2
        cases hc2
        exact hw
      · rw [hh, List.getElem?_set_ne (fun e => hbb e.symm)] at hc2
        rw [hg (.head b2) (by simp [hbb])]
        exact hb.acc_head b2 c2 hc2
    · intro k c hk
      rw [hn] at hk
      obtain ⟨a1, a2, a3⟩ := hb.cell k c hk
      refine ⟨by rw [hg (.next k) (by simp)]; exact a1, a2, ?_⟩
      exact cell_clause_transfer rfl rfl (by have := hin k; have := hcount k; omega) a3
    · rw [hl, hb.leaks, hn]
      congr 1
      exact cnt_congr _ (fun k _ => by unfold heap.alive; rw [hn])
  | next i =>
    have hal : h.alive i = true := hr
    simp only [heap.p] at hv
    cases hc : h.nodes[i]? with
    | none => simp [hc] at hv
    | some c =>
      simp only [hc, Option.some.injEq] at hv
      simp only [heap.alive, hc, decide_eq_true_eq] at hal
      simp only [heap.set_p, hc, Option.some.injEq] at e
      obtain ⟨c1, hc1⟩ : ∃ c1 : shared_ptr_header, c1 =
        { c with storage := { c.storage with next := w } } := ⟨_, rfl⟩
      rw [← hc1] at e
      have hn : h1.nodes = h.nodes.set i c1 := by rw [← e]
      have hh : h1.head_buckets = h.head_buckets := by rw [← e]
      have hl : h1.leaks = h.leaks := by rw [← e]
      have hd : c1.destroyed = c.destroyed := by rw [hc1]
      have hcc : c1.count = c.count := by rw [hc1]
      have hnx : c1.storage.next = w := by rw [hc1]
      have hlen : h1.nodes.length = h.nodes.length := by rw [hn, List.length_set]
      have hin : ∀ k, h1.indeg nh k + (if v.ptr = some k then 1 else 0) =
          h.indeg nh k + (if w.ptr = some k then 1 else 0) := by
        intro k
        have := indeg_nodes_set hc hn hh nh k
        simp only [shared_ptr_header.next_to, hd, hal, hnx, hv, decide_True, Bool.true_and,
          decide_eq_true_eq] at this
        exact this
      refine ⟨hok2, by rw [hh]; exact hb.nh_le, by rw [hlen]; exact hsup, ?_, ?_, ?_⟩
      · intro b2 c2 hc2
        rw [hh] at hc2
        rw [hg (.head b2) (by simp)]
        exact hb.acc_head b2 c2 hc2
      · intro k ck hk
        by_cases hki : k = i
        · subst hki
          rw [nodes_set_at hc hn] at hk
          cases hk
          obtain ⟨a1, a2, a3⟩ := hb.cell k c hc
          refine ⟨by rw [hnx]; exact hw, by rw [hcc]; exact a2, ?_⟩
          exact cell_clause_transfer hcc hd (by have := hin k; have := hcount k; omega) a3
        · rw [hn, List.getElem?_set_ne (fun e => hki e.symm)] at hk
          obtain ⟨a1, a2, a3⟩ := hb.cell k ck hk
          refine ⟨by rw [hg (.next k) (by simp [hki])]; exact a1, a2, ?_⟩
          exact cell_clause_transfer rfl rfl (by have := hin k; have := hcount k; omega) a3
      · have := alive_nodes_set hc hn
        rw [hd] at this
        rw [hl, hb.leaks]
        congr 1
        omega


theorem alive_lt {h : heap} {j : Nat} (hj : h.alive j = true) : j < h.nodes.length := by
  unfold heap.alive at hj
  cases hc : h.nodes[j]? with
  | none => simp [hc] at hj
  | some c => exact (List.getElem?_eq_some_iff.mp hc).1

theorem inc_full {h : heap} {nh : Nat} {L : List Nat} {g : Option slot_ref} {j : Nat}
    (hb : h.balg nh L g) (hj : h.alive j = true) :
    ∃ h1, modify_count h j 1 0 = some h1 ∧ h1.balg nh (j :: L) g ∧ h1.shape = h.shape := by
  obtain ⟨h1, e, _⟩ := modify_count_shape 1 0 hb.ok
    (by rw [shape_nodes_length]; exact alive_lt hj)
  exact ⟨h1, e, inc_balg hb hj e⟩

theorem dec_full {h : heap} {nh : Nat} {L : List Nat} {g : Option slot_ref} {j : Nat}
    (hb : h.balg nh (j :: L) g) :
    ∃ h1, modify_count h j (-1) 0 = some h1 ∧ h1.balg nh L g ∧ h1.shape = h.shape := by
  obtain ⟨h1, e, _⟩ := modify_count_shape (-1) 0 hb.ok
    (by rw [shape_nodes_length]; exact hb.sup j (List.mem_cons_self j L))
  exact ⟨h1, e, dec_loop_balg _ h h1 j L hb e⟩

/-- The handle constructor from a pointer to a cell that was not destroyed. -/
theorem from_header_full {h : heap} {nh : Nat} {L : List Nat} {g : Option slot_ref}
    {p : Option Nat} (hb : h.balg nh L g) (hp : ∀ j, p = some j → h.alive j = true) :
    ∃ h1, shared_ptr.from_header h p = some ({ header := p, mark := false }, h1) ∧
      h1.balg nh (p.toList ++ L) g ∧ h1.shape = h.shape := by
  cases p with
  | none => exact ⟨h, rfl, hb, rfl⟩
  | some j =>
    obtain ⟨h1, e, b1, s1⟩ := inc_full hb (hp j rfl)
    exact ⟨h1, by simp [shared_ptr.from_header, e], b1, s1⟩

/-- The copy of a handle. -/
theorem copy_full {h : heap} {nh : Nat} {L : List Nat} {g : Option slot_ref}
    {r : shared_ptr} (hb : h.balg nh L g) (hp : ∀ j, r.header = some j → j ∈ L) :
    ∃ h1, shared_ptr.copy h r = some (r, h1) ∧
      h1.balg nh (r.header.toList ++ L) g ∧ h1.shape = h.shape := by
  cases hr : r.header with
  | none => exact ⟨h, by simp [shared_ptr.copy, hr], hb, rfl⟩
  | some j =>
    obtain ⟨h1, e, b1, s1⟩ := inc_full hb (alive_of_mem hb (hp j hr))
    exact ⟨h1, by simp [shared_ptr.copy, hr, e], b1, s1⟩

/-- The destructor of a handle. -/
theorem drop_full {h : heap} {nh : Nat} {L : List Nat} {g : Option slot_ref}
    {r : shared_ptr} (hb : h.balg nh (r.header.toList ++ L) g) :
    ∃ h1, shared_ptr.drop h r = some h1 ∧ h1.balg nh L g ∧ h1.shape = h.shape := by
  cases hr : r.header with
  | none =>
    rw [hr] at hb
    exact ⟨h, by simp [shared_ptr.drop, hr], hb, rfl⟩
  | some j =>
    rw [hr] at hb
    obtain ⟨h1, e, b1, s1⟩ := dec_full (j := j) (L := L) hb
    exact ⟨h1, by simp [shared_ptr.drop, hr, e], b1, s1⟩

theorem counted_ptr_ext {a b : counted_ptr} (h1 : a.access_count = b.access_count)
    (h2 : a.view = b.view) : a = b := by
  cases a; cases b
  simp only [counted_ptr.view, Prod.mk.injEq] at h2
  simp only at h1
  simp [h1, h2.1, h2.2]

/-- The content of a slot, from the lists and the invariant. -/
theorem p_of_balg {h : heap} {nh : Nat} {L : List Nat} {g : Option slot_ref}
    (hb : h.balg nh L g) {r : slot_ref} (hr : h.shape.valid_slot r) :
    h.p r = some { access_count := guard_count g r, mark := (h.shape.slot r).2,
                   ptr := (h.shape.slot r).1 } := by
  obtain ⟨v, hv⟩ := p_of_valid hr
  rw [hv]
  congr 1
  apply counted_ptr_ext (acc_of_balg hb hv)
  rw [p_shape hv]
  rfl


theorem guard_count_self (r : slot_ref) : guard_count (some r) r = 1 := by
  simp [guard_count]

theorem guard_count_none (r : slot_ref) : guard_count none r = 0 := by
  simp [guard_count]

theorem guard_count_ne {r r1 : slot_ref} (h : r1 ≠ r) :
    guard_count (some r) r1 = guard_count none r1 := by
  have : ¬ r = r1 := fun e => h e.symm
  simp [guard_count, this]

/-- The constructor of `local_access`: the access count of the slot is one while the guard
holds a cell. -/
theorem create_balg {h h1 : heap} {nh : Nat} {L : List Nat} {r : slot_ref} {g : local_access}
    (e : local_access.create h r = some (g, h1)) (hb : h.bal nh L) (hr : slot_held nh L r) :
    h1.balg nh L (g.val.ptr.map (fun _ => r)) ∧ g.p = r ∧ h1.p r = some g.val ∧
      h1.shape = h.shape ∧ g.val.view = h.shape.slot r := by
  have hval := valid_of_held hb hr
  obtain ⟨v, hp⟩ := p_of_valid hval
  simp only [local_access.create, hp, local_access.acquire] at e
  cases hptr : v.ptr with
  | none =>
    simp only [hptr, Option.some.injEq, Prod.mk.injEq] at e
    obtain ⟨e1, e2⟩ := e
    rw [← e1, ← e2]
    simp only [hptr, Option.map_none']
    exact ⟨hb, trivial, hp, trivial, (p_shape hp).symm⟩
  | some i =>
    obtain ⟨h2, e2, e2s⟩ := ace_success
      { access_count := v.access_count + 1, mark := v.mark, ptr := some i } hp
    simp only [hptr, local_access.acquire_loop, e2, Option.some.injEq, Prod.mk.injEq] at e
    obtain ⟨e3, e4⟩ := e
    rw [← e3, ← e4]
    simp only [Option.map_some']
    have hs : h2.shape = h.shape := set_p_same_view hp (by simp [counted_ptr.view, hptr]) e2s
    have hacc := acc_of_balg hb hp
    rw [guard_count_none] at hacc
    refine ⟨?_, trivial, ?_, hs, ?_⟩
    · apply balg_set_p hb (live_of_held hb hr) hp e2s (hs ▸ hb.ok)
      · simp [guard_count_self, hacc]
      · intro r1 hr1; exact guard_count_ne hr1
      · exact hb.sup
      · intro k; simp [hptr]
    · exact p_set_p e2s
    · simpa [counted_ptr.view, hptr] using (p_shape hp).symm

/-- The destructor of `local_access` when the slot still holds what the guard read. -/
theorem release_same {h h1 : heap} {nh : Nat} {L : List Nat} {g : local_access}
    (e : local_access.release h g = some h1)
    (hb : h.balg nh L (g.val.ptr.map (fun _ => g.p))) (hp : h.p g.p = some g.val)
    (hr : slot_held nh L g.p) : h1.bal nh L ∧ h1.shape = h.shape := by
  unfold local_access.release at e
  cases hptr : g.val.ptr with
  | none =>
    simp only [hptr, Option.some.injEq] at e
    subst e
    rw [hptr] at hb
    exact ⟨hb, rfl⟩
  | some i =>
    rw [hptr] at hb
    simp only [Option.map_some'] at hb
    obtain ⟨h2, e2, e2s⟩ := ace_success
      { access_count := g.val.access_count - 1, mark := g.val.mark, ptr := some i } hp
    simp only [hptr, local_access.release_loop, e2] at e
    simp only [ne_eq, not_true_eq_false, if_false, Option.some.injEq] at e
    rw [← e]
    have hs : h2.shape = h.shape := set_p_same_view hp (by simp [counted_ptr.view, hptr]) e2s
    have hacc := acc_of_balg hb hp
    rw [guard_count_self] at hacc
    refine ⟨?_, hs⟩
    apply balg_set_p hb (live_of_held hb hr) hp e2s (hs ▸ hb.ok)
    · simp [guard_count_none, hacc]
    · intro r1 hr1; exact (guard_count_ne hr1).symm
    · exact hb.sup
    · intro k; simp [hptr]

/-- The destructor of `local_access` when the slot holds another cell by now. -/
theorem release_changed {h h1 : heap} {g : local_access} {cur : counted_ptr} {i : Nat}
    (e : local_access.release h g = some h1) (hp : h.p g.p = some cur)
    (hi : g.val.ptr = some i) (hne : cur.ptr ≠ some i) :
    modify_count h i 0 (-1) = some h1 := by
  unfold local_access.release at e
  have hcg : cur ≠ g.val := fun e0 => hne (by rw [e0]; exact hi)
  have e0 := ace_fail
    { access_count := g.val.access_count - 1, mark := g.val.mark, ptr := some i } hp hcg
  simp only [hi, local_access.release_loop, e0, hne, if_false, ne_eq, not_false_eq_true,
    if_true] at e
  exact e


/-- The content of a slot is the same in two memories with the same lists. -/
theorem p_transport {h h1 : heap} {nh : Nat} {L L1 : List Nat} {g : Option slot_ref}
    (hb : h.balg nh L g) (hb1 : h1.balg nh L1 g) (hs : h1.shape = h.shape) {r : slot_ref}
    {v : counted_ptr} (hp : h.p r = some v) : h1.p r = some v := by
  obtain ⟨x, hx⟩ := p_of_valid (h := h1) (r := r) (by rw [hs]; exact valid_of_p hp)
  rw [hx]
  congr 1
  apply counted_ptr_ext
  · rw [acc_of_balg hb1 hx, acc_of_balg hb hp]
  · rw [← p_shape hx, ← p_shape hp, hs]

theorem ptr_of_view {v : counted_ptr} {sh : shape} {r : slot_ref} (h : v.view = sh.slot r) :
    v.ptr = sh.ptr r := by
  have := congrArg Prod.fst h
  exact this

/-- The member `load`: a new handle to the cell the slot points to. -/
theorem load_full {h : heap} {nh : Nat} {L : List Nat} {r : slot_ref} (hb : h.bal nh L)
    (hr : slot_held nh L r) :
    ∃ h1, atomic_shared_ptr.load h r = some ({ header := h.shape.ptr r, mark := false }, h1) ∧
      h1.bal nh ((h.shape.ptr r).toList ++ L) ∧ h1.shape = h.shape := by
  have hval := valid_of_held hb hr
  obtain ⟨h1, e, s⟩ := load_shape hb.ok hval
  refine ⟨h1, e, ?_, s⟩
  unfold atomic_shared_ptr.load at e
  obtain ⟨g, ha, ea, sa, gp, pa, gv⟩ := local_access_create_shape hval
  obtain ⟨ba, _, _, _, _⟩ := create_balg ea hb hr
  have hptr := ptr_of_view gv
  have hal : ∀ j, g.val.ptr = some j → ha.alive j = true :=
    fun j hj => alive_of_ptr ba (live_of_held ba hr) pa hj
  obtain ⟨hb2, eb, bb, sb⟩ := from_header_full ba hal
  have hr2 : slot_held nh (g.val.ptr.toList ++ L) g.p := by
    rw [gp]; exact held_mono hr (fun i hi => List.mem_append_right _ hi)
  obtain ⟨hc, ec, _⟩ := local_access_release_shape (h := hb2) (g := g) bb.ok
    (by rw [gp]; exact valid_of_held bb (gp ▸ hr2))
    (fun j hj => by
      rw [shape_nodes_length]
      exact bb.sup j (List.mem_append_left _ (by simp [hj])))
  have pb : hb2.p g.p = some g.val := by
    rw [gp]; exact p_transport ba bb sb pa
  have := release_same ec (gp ▸ bb) pb hr2
  rw [ea] at e
  simp only [local_access.get_shared_ptr, eb, ec, Option.some.injEq, Prod.mk.injEq] at e
  rw [← e.2, ← hptr]
  exact this.1

/-- The member `mark`. -/
theorem mark_full {h : heap} {nh : Nat} {L : List Nat} {r : slot_ref} (val : Bool)
    (hb : h.bal nh L) (hr : slot_held nh L r) :
    ∃ h1, atomic_shared_ptr.mark h r val = some h1 ∧ h1.bal nh L ∧
      h1.shape = h.shape.set_mark r val := by
  have hval := valid_of_held hb hr
  obtain ⟨h1, e, s⟩ := mark_shape val hval
  refine ⟨h1, e, ?_, s⟩
  obtain ⟨loc, hloc⟩ := p_of_valid hval
  obtain ⟨h2, e2, e2s⟩ := ace_success
    { access_count := loc.access_count, mark := val, ptr := loc.ptr } hloc
  simp only [atomic_shared_ptr.mark, hloc, e2, Option.some.injEq] at e
  subst e
  apply balg_set_p hb (live_of_held hb hr) hloc e2s
  · rw [s]
    have := okb_set_mark hb.ok r val
    rwa [shape.ok, set_mark_nodes_length]
  · exact acc_of_balg (v := loc) hb hloc
  · intro r1 _; rfl
  · exact hb.sup
  · intro k; rfl


/-- After a successful compare-exchange the old cell gets `modify_count(-1, 1)` for the
slot and `modify_count(0,-1)` from the guard; together they are `modify_count(-1,0)`. -/
theorem modify_count_fuse {h h2 : heap} {o : Nat} {c : shared_ptr_header}
    (hc : h.nodes[o]? = some c) (hext : c.count.external_counters = 0)
    (e : modify_count h o (-1) 1 = some h2) :
    modify_count h2 o 0 (-1) = modify_count h o (-1) 0 := by
  have hlt : o < h.nodes.length := (List.getElem?_eq_some_iff.mp hc).1
  unfold modify_count at e ⊢
  simp only [modify_count_loop, hc] at e
  have hne : ¬ (c.count.count + -1 = 0 ∧ c.count.external_counters + 1 = 0) := by omega
  rw [if_neg hne] at e
  simp only [Option.some.injEq] at e
  rw [← e]
  simp only [modify_count_loop, List.length_set, hc, List.getElem?_set_self hlt, List.set_set,
    add_zero, Int.add_neg_cancel_right, hext, zero_add]
  have h11 : (1 : Int) + -1 = 0 := by decide
  simp only [h11]


/-- A successful `compare_exchange_weak` that installs another cell than the one the slot
held: the handle `newptr` is used up by the slot, and the reference of the slot to the
old cell is released. -/
theorem cew_full {h : heap} {nh : Nat} {L : List Nat} {r : slot_ref}
    (expected newptr : shared_ptr) (hb : h.bal nh (newptr.header.toList ++ L))
    (hr : slot_held nh L r)
    (hok2 : (h.shape.set_slot r (newptr.header, newptr.mark)).ok)
    (heq : h.shape.ptr r = expected.header)
    (hne : ∀ j, newptr.header = some j → h.shape.ptr r ≠ some j) :
    ∃ h1, atomic_shared_ptr.compare_exchange_weak h r expected newptr =
        some (true, expected, h1) ∧ h1.bal nh L ∧
      h1.shape = h.shape.set_slot r (newptr.header, newptr.mark) := by
  have hr1 : slot_held nh (newptr.header.toList ++ L) r :=
    held_mono hr (fun i hi => List.mem_append_right _ hi)
  have hv := valid_of_held hb hr1
  have hsupL : ∀ i ∈ L, i < h.nodes.length := fun i hi => hb.sup i (List.mem_append_right _ hi)
  obtain ⟨g, h1, e1, s1, hg, hp1, hgv⟩ := local_access_create_shape hv
  obtain ⟨b1, _, _, _, _⟩ := create_balg e1 hb hr1
  have hptr : g.val.ptr = h.shape.ptr r := ptr_of_view hgv
  have hl1 : h1.nodes.length = h.nodes.length := by
    rw [← shape_nodes_length, s1, shape_nodes_length]
  obtain ⟨h2, e2, e2s⟩ := ace_success
    { access_count := 0, mark := newptr.mark, ptr := newptr.header } hp1
  have s2 : h2.shape = h.shape.set_slot r (newptr.header, newptr.mark) := by
    rw [set_p_shape e2s, s1]; rfl
  have hok2b : h2.shape.ok := by
    rw [s2]; exact hok2
  have heq1 : g.val.ptr = expected.header := by rw [hptr]; exact heq
  unfold atomic_shared_ptr.compare_exchange_weak
  simp only [e1, heq1, ne_eq, not_true_eq_false, if_false]
  rw [e2]
  simp only []
  cases hq : g.val.ptr with
  | none =>
    rw [hq] at b1
    simp only [Option.map_none'] at b1
    have b2 : h2.bal nh L := by
      apply balg_set_p b1 (live_of_held b1 hr1) hp1 e2s hok2b
      · simp [guard_count_none]
      · intro r1 _; rfl
      · rw [hl1]; exact hsupL
      · intro k
        rw [count_toList, hq]
        simp
        omega
    refine ⟨h2, ?_, b2, s2⟩
    simp [local_access.release, hq]
  | some o =>
    rw [hq] at b1
    simp only [Option.map_some'] at b1
    have hacc : g.val.access_count = 1 := by
      rw [acc_of_balg b1 hp1, guard_count_self]
    have ho : o < h.nodes.length := by
      have := valid_ptr_slot hb.ok r o (by rw [← hptr]; exact hq)
      rwa [shape_nodes_length] at this
    have b2 : h2.bal nh (o :: L) := by
      apply balg_set_p b1 (live_of_held b1 hr1) hp1 e2s hok2b
      · simp [guard_count_none]
      · intro r1 hr1; exact (guard_count_ne hr1).symm
      · rw [hl1]; exact mem_cons_sup ho hsupL
      · intro k
        rw [count_toList, hq]
        by_cases hk : o = k
        · subst hk; simp; omega
        · have : k ≠ o := fun e => hk e.symm
          simp [List.count_cons_of_ne this, hk]
          omega
    have hl2 : h2.shape.nodes.length = h.nodes.length := by
      rw [s2, set_slot_nodes_length, shape_nodes_length]
    obtain ⟨h3, e3, s3⟩ := modify_count_shape (-1) g.val.access_count hok2b
      (by rw [hl2]; exact ho)
    obtain ⟨h4, e4, s4⟩ := local_access_release_shape (h := h3) (g := g) (s3 ▸ hok2b)
      (by rw [s3, s2, hg]; exact valid_slot_set_slot.mpr hv)
      (by
        intro j hj
        rw [s3, hl2]
        rw [hq] at hj
        cases hj
        exact ho)
    simp only [e3, e4]
    refine ⟨h4, rfl, ?_, by rw [s4, s3, s2]⟩
    obtain ⟨cur, hcur⟩ := p_of_valid (h := h3) (r := g.p)
      (by rw [s3, s2, hg]; exact valid_slot_set_slot.mpr hv)
    have hcp : cur.ptr ≠ some o := by
      have h5 := p_shape hcur
      rw [s3, s2, hg, slot_set_slot_same _ hv] at h5
      have h6 : cur.ptr = newptr.header := (congrArg Prod.fst h5).symm
      rw [h6]
      intro h7
      exact hne o h7 (by rw [← hptr]; exact hq)
    have e5 := release_changed e4 hcur hq hcp
    obtain ⟨c, hc, _⟩ := balg_alive_of_mem b2 (List.mem_cons_self o L)
    rw [hacc] at e3
    rw [modify_count_fuse hc (b2.cell o c hc).2.1 e3] at e5
    exact (dec_loop_balg _ h2 h4 o L b2 e5).1


theorem mem_handles_current {c : cursor} {i : Nat} (h : c.current.header = some i)
    (L : List Nat) : i ∈ c.handles ++ L := by
  simp [cursor.handles, h]

theorem mem_handles_holder {c : cursor} {i : Nat} (h : c.owner_holder.header = some i)
    (L : List Nat) : i ∈ c.handles ++ L := by
  simp [cursor.handles, h]

/-- The slot of a cursor is kept in existence by the cursor. -/
theorem held_owner {nh : Nat} {c : cursor} (hw : c.wf nh) (L : List Nat) :
    slot_held nh (c.handles ++ L) c.owner := by
  have := hw.held
  cases ho : c.owner with
  | head b => rw [ho] at this; exact this
  | next k => rw [ho] at this; exact mem_handles_holder this L

theorem validb_of_wf {h : heap} {nh : Nat} {L : List Nat} {c : cursor}
    (hb : h.bal nh (c.handles ++ L)) (hw : c.wf nh) :
    c.validb h.shape.nodes.length h.shape := by
  refine ⟨?_, ?_, ?_, hw.mark_false⟩
  · have := valid_of_held hb (held_owner hw L)
    cases ho : c.owner with
    | head b => rw [ho] at this; exact this
    | next k => rw [ho] at this; exact this
  · intro i hi
    rw [shape_nodes_length]
    exact hb.sup i (mem_handles_current hi L)
  · intro i hi
    rw [shape_nodes_length]
    exact hb.sup i (mem_handles_holder hi L)

/-- The loop of `cursor::remove` with the counts. -/
theorem remove_loop_full {h : heap} {nh : Nat} {L : List Nat} (next : shared_ptr) (fuel : Nat)
    (hb : h.bal nh (next.header.toList ++ L)) :
    ∃ h1, cursor.remove_loop (fuel + 1) h next = some (next, h1) ∧
      h1.bal nh (next.header.toList ++ L) ∧ h1.shape = h.shape := by
  unfold cursor.remove_loop
  cases hn : next.header with
  | none =>
    rw [hn] at hb
    exact ⟨h, rfl, hb, rfl⟩
  | some j =>
    rw [hn] at hb
    obtain ⟨h1, e1, b1, s1⟩ := load_full (r := .next j) hb (by simp [slot_held])
    obtain ⟨h2, e2, b2, s2⟩ := drop_full (r := { header := h.shape.ptr (.next j), mark := false })
      b1
    refine ⟨h2, ?_, b2, by rw [s2, s1]⟩
    simp only [e1, e2]
    simp


theorem bal_shape_eq {h : heap} {nh : Nat} {L : List Nat} {sh : shape} (hb : h.bal nh L)
    (hs : h.shape = sh) : sh.ok := hs ▸ hb.ok

/-- The function `cursor::remove` with the counts: the handles of the cursor are the same afterwards. -/
theorem remove_full {h : heap} {nh : Nat} {L : List Nat} {c : cursor}
    (hb : h.bal nh (c.handles ++ L)) (hw : c.wf nh) :
    ∃ h1, cursor.remove h c = some ((h.shape.remove c).1, h1) ∧
      h1.shape = (h.shape.remove c).2 ∧ h1.bal nh (c.handles ++ L) := by
  have hc := validb_of_wf hb hw
  have hok := hb.ok
  unfold cursor.remove shape.remove
  cases hcur : c.current.header with
  | none => exact ⟨h, rfl, rfl, hb⟩
  | some i =>
    have hi : i < h.shape.nodes.length := hc.current_lt i hcur
    simp only
    obtain ⟨h1, e1, b1, s1⟩ := mark_full (r := .next i) true hb (mem_handles_current hcur L)
    generalize hsh1 : h.shape.set_mark (.next i) true = sh1 at s1
    have hok1 : sh1.ok := s1 ▸ b1.ok
    have hl1 : sh1.nodes.length = h.shape.nodes.length := by
      rw [← hsh1, set_mark_nodes_length]
    have hhl1 : sh1.heads.length = h.shape.heads.length := by
      rw [← hsh1, set_mark_heads_length]
    obtain ⟨h2, e2, b2, s2⟩ := load_full (r := c.owner) b1 (held_owner hw L)
    rw [s1] at e2 s2 b2
    simp only [e1, e2]
    by_cases hcond : sh1.ptr c.owner = some i ∧ c.current.mark = false
    · -- the slot still holds `current`
      have heqb : shared_ptr.eq { header := sh1.ptr c.owner, mark := false } c.current = true := by
        simp [shared_ptr.eq, hcond.1, hcur, hcond.2]
      simp only [heqb, hcond, and_self, if_true, Bool.false_or, Bool.not_true]
      rw [hcond.1] at b2
      have hi2 : i ∈ (some i).toList ++ (c.handles ++ L) := by simp
      obtain ⟨h3, e3, b3, s3⟩ := load_full (r := .next i) b2 hi2
      rw [s2] at e3 s3 b3
      obtain ⟨h4, e4, b4, s4⟩ := remove_loop_full
        { header := sh1.ptr (.next i), mark := false } h3.nodes.length b3
      rw [s3] at s4
      obtain ⟨h5, e5, b5, s5⟩ := copy_full (r := { header := sh1.ptr (.next i), mark := false })
        b4 (fun j hj => List.mem_append_left _ (by simpa using hj))
      rw [s4] at s5
      have hok2 : (sh1.set_slot c.owner (sh1.ptr (.next i), false)).ok := by
        have := okb_remove hok c
        simp only [shape.remove, hcur, hsh1, hcond, and_self, if_true] at this
        rwa [shape.ok, set_slot_nodes_length, hl1]
      obtain ⟨h6, e6, b6, s6⟩ := cew_full (h := h5) (r := c.owner)
        ({ header := some i, mark := false }) ({ header := sh1.ptr (.next i), mark := false })
        b5
        (held_mono (held_owner hw L) (fun k hk =>
          List.mem_append_right _ (List.mem_append_right _ hk)))
        (by rw [s5]; exact hok2) (by rw [s5]; exact hcond.1)
        (by
          intro j hj
          rw [s5, hcond.1]
          have := (ptr_lt_of_okb hok1 (r := .next i) hj).2 i rfl
          intro e
          cases e
          omega)
      rw [s5] at s6
      obtain ⟨h7, e7, b7, s7⟩ := drop_full (h := h6)
        (r := { header := sh1.ptr (.next i), mark := false }) b6
      obtain ⟨h8, e8, b8, s8⟩ := drop_full (h := h7)
        (r := { header := some i, mark := false }) b7
      refine ⟨h8, ?_, by rw [s8, s7, s6], b8⟩
      simp only [hcond.1, e3, e4, e5] at e6 e8 heqb ⊢
      simp [heqb, e6, e7, e8]
    · have heqb : shared_ptr.eq { header := sh1.ptr c.owner, mark := false } c.current = false := by
        simp only [shared_ptr.eq, hcur]
        by_cases hp : sh1.ptr c.owner = some i
        · have : c.current.mark = true := by
            cases hm : c.current.mark with
            | true => rfl
            | false => exact absurd ⟨hp, hm⟩ hcond
          simp [hp, this]
        · simp [hp]
      obtain ⟨h3, e3, b3, s3⟩ := drop_full (h := h2)
        (r := { header := sh1.ptr c.owner, mark := false }) b2
      refine ⟨h3, ?_, by rw [s3, s2]; simp [hcond], b3⟩
      simp only [heqb, Bool.false_or, Bool.not_false, if_true, e3, hcond, if_false]


theorem wf_advance {nh : Nat} (sh : shape) {c : cursor} {i : Nat}
    (hi : c.current.header = some i) : (sh.advance c i).wf nh :=
  ⟨hi, rfl⟩

/-- The loop of `cursor::go_next` with the counts. -/
theorem go_next_loop_full (node_life : Int) {nh : Nat} : ∀ (fuel : Nat) (h : heap) (c : cursor)
    (L : List Nat), h.bal nh (c.handles ++ L) → c.wf nh →
    (∀ i, c.current.header = some i → h.shape.nodes.length - i ≤ fuel) →
    ∃ h1, cursor.go_next_loop node_life (fuel + 1) h c =
        some ((shape.go_next_loop node_life (fuel + 1) h.shape c).1, h1) ∧
      h1.shape = (shape.go_next_loop node_life (fuel + 1) h.shape c).2 ∧
      h1.bal nh ((shape.go_next_loop node_life (fuel + 1) h.shape c).1.handles ++ L) ∧
      (shape.go_next_loop node_life (fuel + 1) h.shape c).1.wf nh := by
  intro fuel
  induction fuel with
  | zero =>
    intro h c L hb hw hf
    have hc := validb_of_wf hb hw
    unfold cursor.go_next_loop shape.go_next_loop
    cases hi : c.current.header with
    | none => exact ⟨h, rfl, rfl, hb, hw⟩
    | some i =>
      have := hf i hi
      have := hc.current_lt i hi
      omega
  | succ fuel ih =>
    intro h c L hb hw hf
    have hc := validb_of_wf hb hw
    have hok := hb.ok
    unfold cursor.go_next_loop shape.go_next_loop
    cases hi : c.current.header with
    | none => exact ⟨h, rfl, rfl, hb, hw⟩
    | some i =>
      simp only
      have hilt : i < h.shape.nodes.length := hc.current_lt i hi
      obtain ⟨h1, e1, b1, s1⟩ := copy_full (r := c.current) hb
        (fun j hj => mem_handles_current hj L)
      have b1p : h1.bal nh (c.owner_holder.header.toList ++
          (c.current.header.toList ++ (c.current.header.toList ++ L))) :=
        balg_perm b1 (by intro k; simp only [cursor.handles, List.count_append]; omega)
      obtain ⟨h2, e2, b2, s2⟩ := drop_full (h := h1) (r := c.owner_holder) b1p
      rw [s1] at s2
      obtain ⟨h3, e3, b3, s3⟩ := load_full (h := h2) (r := .next i) b2 (by simp [slot_held, hi])
      rw [s2] at s3 e3 b3
      have b3p : h3.bal nh (c.current.header.toList ++
          ((h.shape.advance c i).handles ++ L)) :=
        balg_perm b3 (by
          intro k
          simp only [cursor.handles, shape.advance, List.count_append]
          omega)
      obtain ⟨h4, e4, b4, s4⟩ := drop_full (h := h3) (r := c.current) b3p
      rw [s3] at s4
      have hc1 := validb_advance hok hc hi
      have hw1 : (h.shape.advance c i).wf nh := wf_advance h.shape hi
      have est : cursor.stale node_life h4 (h.shape.advance c i) =
          some (h.shape.stale node_life (h.shape.advance c i)) := by
        rw [← s4]; exact stale_refines (by rw [s4]; exact validb_current hc1)
      simp only [e1, e2, e3, e4]
      change ∃ h1, (match cursor.stale node_life h4 (h.shape.advance c i) with
        | none => none
        | some true =>
          match cursor.remove h4 (h.shape.advance c i) with
          | none => none
          | some (_, h5) => cursor.go_next_loop node_life (fuel + 1) h5 (h.shape.advance c i)
        | some false => some (h.shape.advance c i, h4)) = _ ∧ _
      rw [est]
      cases hst : shape.stale node_life h.shape (h.shape.advance c i) with
      | false => exact ⟨h4, by simp, by simp [s4], by simpa using b4, by simpa using hw1⟩
      | true =>
        simp only [if_true]
        obtain ⟨h5, e5, s5, b5⟩ := remove_full (h := h4) (c := h.shape.advance c i) b4 hw1
        rw [s4] at e5 s5
        simp only [e5]
        have hl5 : h5.shape.nodes.length = h.shape.nodes.length := by
          rw [s5, remove_nodes_length]
        obtain ⟨h6, e6, s6, b6, w6⟩ := ih h5 (h.shape.advance c i) L b5 hw1 (by
          intro j hj
          rw [hl5]
          have hj2 : h.shape.ptr (.next i) = some j := hj
          have := (ptr_lt_of_okb hok hj2).2 i rfl
          have := hf i hi
          omega)
        rw [s5] at e6 s6 b6 w6
        exact ⟨h6, e6, s6, b6, w6⟩


theorem go_next_full (node_life : Int) {nh : Nat} {h : heap} {c : cursor} {L : List Nat}
    (hb : h.bal nh (c.handles ++ L)) (hw : c.wf nh) :
    ∃ h1, cursor.go_next node_life h c =
        some ((shape.go_next node_life h.shape c).1.current.to_bool,
              (shape.go_next node_life h.shape c).1, h1) ∧
      h1.shape = (shape.go_next node_life h.shape c).2 ∧
      h1.bal nh ((shape.go_next node_life h.shape c).1.handles ++ L) ∧
      (shape.go_next node_life h.shape c).1.wf nh := by
  obtain ⟨h1, e1, s1, b1, w1⟩ := go_next_loop_full node_life h.shape.nodes.length h c L hb hw
    (fun i _ => Nat.sub_le _ _)
  refine ⟨h1, ?_, s1, b1, w1⟩
  rw [shape_nodes_length] at e1
  simp only [cursor.go_next, e1, shape.go_next, shape_nodes_length]

/-- The constructor of a cursor on a head that exists. -/
theorem cursor_create_full (node_life : Int) {nh : Nat} {h : heap} {L : List Nat} {b : Nat}
    (t : Int) (hb : h.bal nh L) (hbn : b < nh) :
    ∃ h1, cursor.create node_life h (.head b) t = some (h.shape.cursor_create (.head b) t, h1) ∧
      h1.shape = h.shape ∧ h1.bal nh ((h.shape.cursor_create (.head b) t).handles ++ L) ∧
      (h.shape.cursor_create (.head b) t).wf nh := by
  obtain ⟨h1, e1, b1, s1⟩ := load_full (r := .head b) hb hbn
  refine ⟨h1, by simp [cursor.create, e1, shape.cursor_create, shared_ptr.null], s1, ?_,
    ⟨hbn, rfl⟩⟩
  exact balg_perm b1 (by
    intro k
    simp [cursor.handles, shape.cursor_create, shared_ptr.null])

/-- The destructor of a cursor. -/
theorem cursor_destroy_full {nh : Nat} {h : heap} {c : cursor} {L : List Nat}
    (hb : h.bal nh (c.handles ++ L)) :
    ∃ h1, cursor.destroy h c = some h1 ∧ h1.shape = h.shape ∧ h1.bal nh L := by
  have b0 : h.bal nh (c.current.header.toList ++ (c.owner_holder.header.toList ++ L)) :=
    balg_perm hb (by intro k; simp only [cursor.handles, List.count_append]; omega)
  obtain ⟨h1, e1, b1, s1⟩ := drop_full (r := c.current) b0
  obtain ⟨h2, e2, b2, s2⟩ := drop_full (h := h1) (r := c.owner_holder) b1
  exact ⟨h2, by simp [cursor.destroy, e1, e2], by rw [s2, s1], b2⟩

/-- A successful `compare_exchange_strong`; the argument `newptr` is destroyed on return
and the slot keeps a copy of it. -/
theorem ces_full {h : heap} {nh : Nat} {L : List Nat} {r : slot_ref}
    (expected newptr : shared_ptr) (hb : h.bal nh (newptr.header.toList ++ L))
    (hr : slot_held nh L r) (he : ∀ j, expected.header = some j → j ∈ L)
    (hok2 : (h.shape.set_slot r (newptr.header, newptr.mark)).ok)
    (heq : h.shape.ptr r = expected.header)
    (hne : ∀ j, newptr.header = some j → h.shape.ptr r ≠ some j) :
    ∃ h1, atomic_shared_ptr.compare_exchange_strong h r expected newptr =
        some (true, expected, h1) ∧ h1.bal nh L ∧
      h1.shape = h.shape.set_slot r (newptr.header, newptr.mark) := by
  obtain ⟨h1, e1, b1, s1⟩ := copy_full (r := expected) hb
    (fun j hj => List.mem_append_right _ (he j hj))
  obtain ⟨h2, e2, b2, s2⟩ := copy_full (h := h1) (r := newptr) b1
    (fun j hj => List.mem_append_right _ (List.mem_append_left _ (by simp [hj])))
  have s21 : h2.shape = h.shape := by rw [s2, s1]
  obtain ⟨h3, e3, b3, s3⟩ := cew_full (h := h2) (r := r) expected newptr b2
    (held_mono hr (fun i hi => List.mem_append_right _ (List.mem_append_right _ hi)))
    (by rw [s21]; exact hok2) (by rw [s21]; exact heq) (by rw [s21]; exact hne)
  rw [s21] at s3
  obtain ⟨h4, e4, b4, s4⟩ := drop_full (h := h3) (r := expected) b3
  obtain ⟨h5, e5, b5, s5⟩ := drop_full (h := h4) (r := newptr) b4
  refine ⟨h5, ?_, b5, by rw [s5, s4, s3]⟩
  simp only [atomic_shared_ptr.compare_exchange_strong, e1,
    atomic_shared_ptr.compare_exchange_strong_loop, e2, e3, e4, e5]

/-- The function `cursor::push_end(val)` for a cursor whose `current` is what its slot holds: the first
attempt succeeds; `val` is destroyed on return and the slot keeps a copy. -/
theorem cursor_push_end_full {h : heap} {nh : Nat} {L : List Nat} {c : cursor}
    (val : shared_ptr) (hb : h.bal nh (val.header.toList ++ (c.handles ++ L))) (hw : c.wf nh)
    (hok2 : (h.shape.set_slot c.owner (val.header, val.mark)).ok)
    (heq : h.shape.ptr c.owner = c.current.header)
    (hne : ∀ j, val.header = some j → h.shape.ptr c.owner ≠ some j) :
    ∃ h1, cursor.push_end h c val = some (true, c, h1) ∧ h1.bal nh (c.handles ++ L) ∧
      h1.shape = h.shape.set_slot c.owner (val.header, val.mark) := by
  obtain ⟨h1, e1, b1, s1⟩ := copy_full (r := val) hb
    (fun j hj => List.mem_append_left _ (by simp [hj]))
  obtain ⟨h2, e2, b2, s2⟩ := ces_full (h := h1) (r := c.owner) c.current val b1
    (held_mono (held_owner hw L) (fun i hi => List.mem_append_right _ hi))
    (fun j hj => List.mem_append_right _ (mem_handles_current hj L))
    (by rw [s1]; exact hok2) (by rw [s1]; exact heq) (by rw [s1]; exact hne)
  rw [s1] at s2
  obtain ⟨h3, e3, b3, s3⟩ := drop_full (h := h2) (r := val) b2
  refine ⟨h3, ?_, b3, by rw [s3, s2]⟩
  simp only [cursor.push_end, cursor.push_end_loop, hw.mark_false, Bool.false_eq_true, if_false,
    e1, e2, e3]


/-- When the loop of `cursor::go_next` ends with a null `current`, the slot of the cursor
holds null. -/
theorem go_next_loop_slot_null (node_life : Int) (m : Nat) : ∀ (fuel : Nat) (sh : shape) (c : cursor),
    sh.okb m → c.current.mark = false →
    (∀ i, c.current.header = some i → m - i < fuel) →
    (c.current.header = none → sh.ptr c.owner = none) →
    (shape.go_next_loop node_life fuel sh c).1.current.header = none →
    (shape.go_next_loop node_life fuel sh c).2.ptr
      (shape.go_next_loop node_life fuel sh c).1.owner = none := by
  intro fuel
  induction fuel with
  | zero =>
    intro sh c _ _ _ hP hr
    exact hP hr
  | succ fuel ih =>
    intro sh c hok hm hf hP
    unfold shape.go_next_loop
    cases hi : c.current.header with
    | none => intro _; exact hP hi
    | some i =>
      simp only
      cases hst : shape.stale node_life sh (sh.advance c i) with
      | false =>
        simp only [Bool.false_eq_true, if_false]
        intro hr
        exact hr
      | true =>
        simp only [if_true]
        obtain ⟨j, hj⟩ := stale_some (c := sh.advance c i) rfl hst
        apply ih _ _ (okb_remove hok _) rfl
        · intro j1 hj1
          rw [hj] at hj1
          cases hj1
          have hj2 : sh.ptr (.next i) = some j := hj
          have := ptr_lt_of_okb hok hj2
          have := this.2 i rfl
          have := hf i hi
          omega
        · intro hn
          rw [hj] at hn
          cases hn

theorem go_next_slot_null (node_life : Int) {m : Nat} {sh : shape} {c : cursor} (hok : sh.okb m)
    (hle : m ≤ sh.nodes.length) (hm : c.current.mark = false)
    (hP : c.current.header = none → sh.ptr c.owner = none)
    (hr : (shape.go_next node_life sh c).1.current.header = none) :
    (shape.go_next node_life sh c).2.ptr (shape.go_next node_life sh c).1.owner = none :=
  go_next_loop_slot_null node_life m _ sh c hok hm (fun i _ => by omega) hP hr

theorem to_bool_false {r : shared_ptr} (h : r.to_bool = false) : r.header = none := by
  cases hh : r.header with
  | none => rfl
  | some j => simp [shared_ptr.to_bool, hh] at h

/-- With enough fuel the loop `while(c.go_next());` ends with a null `current`, and the
slot of the cursor holds null then. -/
theorem go_end_loop_slot_null (node_life : Int) (m : Nat) : ∀ (fuel : Nat) (sh : shape)
    (c : cursor), sh.okb m → m ≤ sh.nodes.length → c.validb m sh →
    (c.current.header = none → sh.ptr c.owner = none) →
    (∀ i, c.current.header = some i → m - i ≤ fuel) →
    (shape.go_end_loop node_life (fuel + 1) sh c).1.current.header = none ∧
    (shape.go_end_loop node_life (fuel + 1) sh c).2.ptr
      (shape.go_end_loop node_life (fuel + 1) sh c).1.owner = none := by
  intro fuel
  induction fuel with
  | zero =>
    intro sh c hok hle hc hP hf
    unfold shape.go_end_loop
    simp only
    cases hb : (shape.go_next node_life sh c).1.current.to_bool with
    | false =>
      simp only [Bool.false_eq_true, if_false]
      exact ⟨to_bool_false hb, go_next_slot_null node_life hok hle hc.mark_false hP
        (to_bool_false hb)⟩
    | true =>
      exfalso
      obtain ⟨j, hj⟩ := to_bool_true hb
      cases hi : c.current.header with
      | none =>
        simp only [shape.go_next, go_next_loop_none _ _ _ _ hi] at hj
        rw [hi] at hj; cases hj
      | some i =>
        have := hf i hi
        have := hc.current_lt i hi
        omega
  | succ fuel ih =>
    intro sh c hok hle hc hP hf
    have hg := go_next_inv node_life hok hc
    unfold shape.go_end_loop
    simp only
    cases hb : (shape.go_next node_life sh c).1.current.to_bool with
    | false =>
      simp only [Bool.false_eq_true, if_false]
      exact ⟨to_bool_false hb, go_next_slot_null node_life hok hle hc.mark_false hP
        (to_bool_false hb)⟩
    | true =>
      simp only [if_true]
      obtain ⟨j, hj⟩ := to_bool_true hb
      apply ih _ _ hg.1 (by rw [hg.2.2.1]; exact hle) hg.2.1
      · intro hn
        exact go_next_slot_null node_life hok hle hc.mark_false hP hn
      · intro j1 hj1
        cases hi : c.current.header with
        | none =>
          simp only [shape.go_next, go_next_loop_none _ _ _ _ hi] at hj
          rw [hi] at hj; cases hj
        | some i =>
          have := go_next_adv node_life hok hi hj1
          have := hf i hi
          omega


/-- The loop `while(c.go_next());` with the counts. -/
theorem go_end_loop_full (node_life : Int) {nh : Nat} : ∀ (fuel : Nat) (h : heap) (c : cursor)
    (L : List Nat), h.bal nh (c.handles ++ L) → c.wf nh →
    (∀ i, c.current.header = some i → h.shape.nodes.length - i ≤ fuel) →
    ∃ h1, cursor.go_end_loop node_life (fuel + 1) h c =
        some ((shape.go_end_loop node_life (fuel + 1) h.shape c).1, h1) ∧
      h1.shape = (shape.go_end_loop node_life (fuel + 1) h.shape c).2 ∧
      h1.bal nh ((shape.go_end_loop node_life (fuel + 1) h.shape c).1.handles ++ L) ∧
      (shape.go_end_loop node_life (fuel + 1) h.shape c).1.wf nh := by
  intro fuel
  induction fuel with
  | zero =>
    intro h c L hb hw hf
    have hc := validb_of_wf hb hw
    obtain ⟨h1, e1, s1, b1, w1⟩ := go_next_full node_life hb hw
    unfold cursor.go_end_loop shape.go_end_loop
    simp only [e1]
    cases hbo : (shape.go_next node_life h.shape c).1.current.to_bool with
    | false => exact ⟨h1, by simp, by simp [s1], by simpa using b1, by simpa using w1⟩
    | true =>
      exfalso
      obtain ⟨j, hj⟩ := to_bool_true hbo
      cases hi : c.current.header with
      | none =>
        simp only [shape.go_next, go_next_loop_none _ _ _ _ hi] at hj
        rw [hi] at hj; cases hj
      | some i =>
        have := hf i hi
        have := hc.current_lt i hi
        omega
  | succ fuel ih =>
    intro h c L hb hw hf
    have hc := validb_of_wf hb hw
    have hok := hb.ok
    obtain ⟨h1, e1, s1, b1, w1⟩ := go_next_full node_life hb hw
    have hg := go_next_inv node_life hok hc
    unfold cursor.go_end_loop shape.go_end_loop
    simp only [e1]
    cases hbo : (shape.go_next node_life h.shape c).1.current.to_bool with
    | false => exact ⟨h1, by simp, by simp [s1], by simpa using b1, by simpa using w1⟩
    | true =>
      simp only [if_true]
      obtain ⟨j, hj⟩ := to_bool_true hbo
      have hl1 : h1.shape.nodes.length = h.shape.nodes.length := by rw [s1, hg.2.2.1]
      obtain ⟨h2, e2, s2, b2, w2⟩ := ih h1 (shape.go_next node_life h.shape c).1 L b1 w1
        (by
          intro j1 hj1
          rw [hl1]
          cases hi : c.current.header with
          | none =>
            simp only [shape.go_next, go_next_loop_none _ _ _ _ hi] at hj
            rw [hi] at hj; cases hj
          | some i =>
            have := go_next_adv node_life hok hi hj1
            have := hf i hi
            omega)
      rw [s1] at e2 s2 b2 w2
      exact ⟨h2, e2, s2, b2, w2⟩

theorem indeg_zero_of_ok {h : heap} (hok : h.shape.ok) (nh : Nat) {j : Nat}
    (hj : h.nodes.length ≤ j) : h.indeg nh j = 0 := by
  unfold heap.indeg
  rw [cnt_false nh, cnt_false h.nodes.length]
  · intro k _
    unfold heap.next_to
    cases hc : h.nodes[k]? with
    | none => rfl
    | some c =>
      simp only [shared_ptr_header.next_to, Bool.and_eq_false_imp, decide_eq_true_eq,
        decide_eq_false_iff_not]
      intro _ hp
      have := (next_lt_of_ok hok hc hp).2
      omega
  · intro b _
    unfold heap.head_to
    cases hc : h.head_buckets[b]? with
    | none => rfl
    | some c =>
      simp only [decide_eq_false_iff_not]
      intro hp
      have := hok.head_lt b c.view (by rw [shape_heads_get, hc]; rfl) j hp
      rw [shape_nodes_length] at this
      omega

/-- The call `make_shared<node>(sp, local_time)` with the counts: one handle to the new
cell. -/
theorem make_shared_node_full {h : heap} {nh : Nat} {L : List Nat} (sp : shared_ptr) (t : Int)
    (hb : h.bal nh L) :
    ∃ h1, make_shared_node h sp t =
        some ({ header := some h.shape.nodes.length, mark := false }, h1) ∧
      h1.shape = h.shape.alloc sp t ∧ h1.bal nh (h.nodes.length :: L) := by
  obtain ⟨h1, e1, s1⟩ := make_shared_node_refines sp t hb.ok
  refine ⟨h1, e1, s1, ?_⟩
  have hget : (h.new_node sp t).nodes[h.nodes.length]? = some
      { storage := { data := sp, next := { access_count := 0, mark := false, ptr := none },
                     time_stamp := t },
        count := { external_counters := 0, count := 0 }, destroyed := 0 } := by
    simp [heap.new_node]
  simp only [make_shared_node, shared_ptr.from_header, modify_count, modify_count_loop, hget]
    at e1
  simp only [zero_add, one_ne_zero, false_and, if_false, Option.some.injEq, Prod.mk.injEq,
    add_zero] at e1
  obtain ⟨c1, hc1⟩ : ∃ c1 : shared_ptr_header, c1 =
    { storage := { data := sp, next := { access_count := 0, mark := false, ptr := none },
                   time_stamp := t },
      count := { external_counters := 0, count := 1 }, destroyed := 0 } := ⟨_, rfl⟩
  have hn : h1.nodes = h.nodes ++ [c1] := by
    rw [← e1.2, hc1]
    simp [heap.new_node]
  have hh : h1.head_buckets = h.head_buckets := by
    rw [← e1.2]; rfl
  have hl : h1.leaks = h.leaks + 1 := by
    rw [← e1.2]; rfl
  have hin := indeg_append hn hh (by rw [hc1]) nh
  have hlen : h1.nodes.length = h.nodes.length + 1 := by rw [hn]; simp
  have hnotin : h.nodes.length ∉ L := fun hm => by
    have := hb.sup _ hm
    omega
  refine ⟨s1 ▸ ?_, hh ▸ hb.nh_le, ?_, ?_, ?_, ?_⟩
  · have := okb_mono (okb_alloc hb.ok sp t) (Nat.le_succ _)
    rwa [shape.ok, alloc_nodes_length]
  · rw [hlen]
    exact mem_cons_sup (Nat.lt_succ_self _) (fun i hi => Nat.lt_succ_of_lt (hb.sup i hi))
  · intro b c hc
    rw [hh] at hc
    exact hb.acc_head b c hc
  · intro k c hk
    rw [hn] at hk
    by_cases hkl : k < h.nodes.length
    · rw [List.getElem?_append_left hkl] at hk
      obtain ⟨a1, a2, a3⟩ := hb.cell k c hk
      refine ⟨a1, a2, ?_⟩
      rw [hin, count_cons_ne L (Nat.ne_of_lt hkl)]
      exact a3
    · have hk2 : k = h.nodes.length := by
        have := (List.getElem?_eq_some_iff.mp hk).1
        simp at this
        omega
      subst hk2
      rw [List.getElem?_append_right (le_refl _)] at hk
      simp only [Nat.sub_self, List.getElem?_cons_zero, Option.some.injEq] at hk
      subst hk
      rw [hc1]
      refine ⟨rfl, rfl, Or.inl ⟨rfl, ?_, by simp⟩⟩
      rw [hin, indeg_zero_of_ok hb.ok nh (le_refl _), List.count_cons_self,
        List.count_eq_zero_of_not_mem hnotin]
      rfl
  · rw [hl, hb.leaks, alive_append hn (by rw [hc1])]
    push_cast
    rfl


/-- The private member `cache::push_end` with the counts: the caller gets one handle to
the new cell. -/
theorem push_end_full (node_life : Int) {h : heap} {nh : Nat} {L : List Nat} (sp : shared_ptr)
    {bucket : Nat} (t : Int) (hb : h.bal nh L) (hbk : bucket < nh) :
    ∃ h1, cache.push_end node_life h sp bucket t =
        some ({ header := some h.shape.nodes.length, mark := false }, h1) ∧
      h1.shape = shape.push_end node_life h.shape sp bucket t ∧
      h1.bal nh (h.nodes.length :: L) := by
  have hok := hb.ok
  have hbh : bucket < h.shape.heads.length := by
    have := hb.nh_le
    rw [shape_heads_length]
    omega
  have hw := push_end_walk_inv node_life sp t hok hbh
  obtain ⟨h1, e1, s1, b1⟩ := make_shared_node_full sp t hb
  have hnull := go_end_loop_slot_null node_life h.shape.nodes.length
    (h.shape.alloc sp t).nodes.length (h.shape.alloc sp t)
    ((h.shape.alloc sp t).cursor_create (.head bucket) t)
    (okb_alloc hok sp t) (by rw [alloc_nodes_length]; omega)
    (validb_create _ t (okb_alloc hok sp t) hbh)
    (fun hn => hn) (fun i _ => by rw [alloc_nodes_length]; omega)
  generalize hsh1 : h.shape.alloc sp t = sh1 at s1 hw hnull
  have hl1 : sh1.nodes.length = h.shape.nodes.length + 1 := by
    rw [← hsh1, alloc_nodes_length]
  obtain ⟨h2, e2, s2, b2, w2⟩ := cursor_create_full node_life (h := h1) (b := bucket) t b1 hbk
  rw [s1] at e2 s2 b2 w2
  obtain ⟨h3, e3, s3, b3, w3⟩ := go_end_loop_full node_life h2.shape.nodes.length h2
    (sh1.cursor_create (.head bucket) t) _ b2 w2 (fun i _ => Nat.sub_le _ _)
  rw [s2] at e3 s3 b3 w3
  generalize hr : shape.go_end_loop node_life (sh1.nodes.length + 1) sh1
    (sh1.cursor_create (.head bucket) t) = r at e3 s3 b3 w3 hw hnull
  have b3p : h3.bal nh (h.nodes.length :: (r.1.handles ++ L)) :=
    balg_perm b3 (by
      intro k
      simp only [List.count_append, List.count_cons]
      omega)
  obtain ⟨h4, e4, b4, s4⟩ := copy_full (h := h3)
    (r := { header := some h.shape.nodes.length, mark := false }) b3p
    (fun j hj => by
      simp only [Option.some.injEq] at hj
      rw [← hj, shape_nodes_length]
      exact List.mem_cons_self _ _)
  rw [s3] at s4
  have hok5 : (r.2.set_slot r.1.owner (some h.shape.nodes.length, false)).ok := by
    rw [shape.ok, set_slot_nodes_length, hw.2.2.1]
    exact okb_cursor_push_end hw.1 hw.2.1 false
  have b4p : h4.bal nh (({ header := some h.shape.nodes.length, mark := false } :
      shared_ptr).header.toList ++ (r.1.handles ++ (h.nodes.length :: L))) :=
    balg_perm b4 (by
      intro k
      simp only [List.count_append, List.count_cons]
      omega)
  obtain ⟨h5, e5, b5, s5⟩ := cursor_push_end_full (h := h4) (c := r.1)
    { header := some h.shape.nodes.length, mark := false } b4p w3
    (by rw [s4]; exact hok5) (by rw [s4, hnull.2, hnull.1])
    (by
      intro j _
      rw [s4, hnull.2]
      simp)
  rw [s4] at s5
  obtain ⟨h6, e6, s6, b6⟩ := cursor_destroy_full (h := h5) (c := r.1) b5
  refine ⟨h6, ?_, ?_, b6⟩
  · have hlen2 : h2.nodes.length = sh1.nodes.length := by
      rw [← shape_nodes_length, s2]
    simp only [cache.push_end, e1, cache.push_end_loop, e2, hlen2, e3, e4, e5, e6, if_true]
  · rw [s6, s5]
    simp only [shape.push_end, hsh1, hr]
    rfl


/-- The loop of `cache::pop_first` with the counts. -/
theorem pop_first_loop_full (node_life : Int) (sp : shared_ptr) {nh : Nat} :
    ∀ (fuel : Nat) (h : heap) (c : cursor) (L : List Nat),
    h.bal nh (c.handles ++ L) → c.wf nh →
    (∀ i, c.current.header = some i → h.shape.nodes.length - i ≤ fuel) →
    ∃ h1, cache.pop_first_loop node_life (fuel + 1) h c sp =
        some ((shape.pop_first_loop node_life (fuel + 1) h.shape c sp).1, h1) ∧
      h1.shape = (shape.pop_first_loop node_life (fuel + 1) h.shape c sp).2 ∧
      h1.bal nh ((shape.pop_first_loop node_life (fuel + 1) h.shape c sp).1.handles ++ L) ∧
      (shape.pop_first_loop node_life (fuel + 1) h.shape c sp).1.wf nh := by
  intro fuel
  induction fuel with
  | zero =>
    intro h c L hb hw hf
    have hc := validb_of_wf hb hw
    unfold cache.pop_first_loop shape.pop_first_loop
    cases hi : c.current.header with
    | none => exact ⟨h, rfl, rfl, hb, hw⟩
    | some i =>
      have := hf i hi
      have := hc.current_lt i hi
      omega
  | succ fuel ih =>
    intro h c L hb hw hf
    have hc := validb_of_wf hb hw
    have hok := hb.ok
    unfold cache.pop_first_loop shape.pop_first_loop
    cases hi : c.current.header with
    | none => exact ⟨h, rfl, rfl, hb, hw⟩
    | some i =>
      have hilt : i < h.shape.nodes.length := hc.current_lt i hi
      have hn : h.shape.nodes[i]? = some h.shape.nodes[i] := List.getElem?_eq_getElem hilt
      have hd : h.shape.data i = h.shape.nodes[i].data := by simp [shape.data, hn]
      simp only [heap_data_shape hilt, hn, hd]
      cases hbo : (!shared_ptr.eq h.shape.nodes[i].data sp) with
      | false => exact ⟨h, by simp, by simp, by simpa using hb, by simpa using hw⟩
      | true =>
        simp only [if_true]
        obtain ⟨h1, e1, s1, b1, w1⟩ := go_next_full node_life hb hw
        have hg := go_next_inv node_life hok hc
        have hl1 : h1.shape.nodes.length = h.shape.nodes.length := by rw [s1, hg.2.2.1]
        obtain ⟨h2, e2, s2, b2, w2⟩ := ih h1 (shape.go_next node_life h.shape c).1 L b1 w1
          (by
            intro j hj
            rw [hl1]
            have := go_next_adv node_life hok hi hj
            have := hf i hi
            omega)
        rw [s1] at e2 s2 b2 w2
        simp only [e1]
        exact ⟨h2, e2, s2, b2, w2⟩

/-- The private member `cache::pop_first` with the counts: the caller gets one handle. -/
theorem pop_first_full (node_life : Int) {h : heap} {nh : Nat} {L : List Nat} (sp : shared_ptr)
    {bucket : Nat} (t : Int) (hb : h.bal nh L) (hbk : bucket < nh) :
    ∃ res h1, cache.pop_first node_life h sp bucket t = some (res, h1) ∧
      h1.shape = shape.pop_first node_life h.shape sp bucket t ∧
      h1.bal nh (res.header.toList ++ L) := by
  obtain ⟨h1, e1, s1, b1, w1⟩ := cursor_create_full node_life (h := h) (b := bucket) t hb hbk
  obtain ⟨h2, e2, s2, b2, w2⟩ := pop_first_loop_full node_life sp h1.shape.nodes.length h1
    (h.shape.cursor_create (.head bucket) t) L b1 w1 (fun i _ => Nat.sub_le _ _)
  rw [s1] at e2 s2 b2 w2
  generalize hr : shape.pop_first_loop node_life (h.shape.nodes.length + 1) h.shape
    (h.shape.cursor_create (.head bucket) t) sp = r at e2 s2 b2 w2
  obtain ⟨h3, e3, s3, b3⟩ := remove_full (h := h2) (c := r.1) b2 w2
  rw [s2] at e3 s3
  obtain ⟨h4, e4, b4, s4⟩ := copy_full (h := h3) (r := r.1.current) b3
    (fun j hj => mem_handles_current hj L)
  rw [s3] at s4
  have b4p : h4.bal nh (r.1.handles ++ (r.1.current.header.toList ++ L)) :=
    balg_perm b4 (by intro k; simp only [List.count_append]; omega)
  obtain ⟨h5, e5, s5, b5⟩ := cursor_destroy_full (h := h4) (c := r.1) b4p
  rw [s4] at s5
  refine ⟨r.1.current, h5, ?_, ?_, b5⟩
  · have hlen1 : h1.nodes.length = h.shape.nodes.length := by
      rw [← shape_nodes_length, s1]
    simp only [cache.pop_first, e1, hlen1, e2, e3, e4, e5]
  · rw [s5]; simp only [shape.pop_first, hr]


/-- The lookup loop of `operator()` with the counts. -/
theorem lookup_loop_full {K V : Type} [DecidableEq K] (fnc : K → V) (node_life : Int)
    (kvs : List (KV K V)) (data : K) {nh : Nat} : ∀ (fuel : Nat) (h : heap) (c : cursor)
    (L : List Nat), h.bal nh (c.handles ++ L) → c.wf nh →
    payload_ok fnc kvs h.shape.payload →
    (∀ i, c.current.header = some i → h.shape.nodes.length - i ≤ fuel) →
    ∃ h1, cache.lookup_loop node_life kvs data (fuel + 1) h c =
        some (shape.to_lookup_result
          (shape.lookup_loop node_life kvs data (fuel + 1) h.shape c), h1) ∧
      h1.shape = (shape.lookup_loop node_life kvs data (fuel + 1) h.shape c).2.2 ∧
      h1.bal nh ((shape.lookup_loop node_life kvs data (fuel + 1) h.shape c).2.1.handles ++ L) ∧
      (shape.lookup_loop node_life kvs data (fuel + 1) h.shape c).2.1.wf nh := by
  intro fuel
  induction fuel with
  | zero =>
    intro h c L hb hw _ hf
    have hc := validb_of_wf hb hw
    unfold cache.lookup_loop shape.lookup_loop
    cases hi : c.current.header with
    | none => exact ⟨h, rfl, rfl, hb, hw⟩
    | some i =>
      have := hf i hi
      have := hc.current_lt i hi
      omega
  | succ fuel ih =>
    intro h c L hb hw hpl hf
    have hc := validb_of_wf hb hw
    have hok := hb.ok
    unfold cache.lookup_loop shape.lookup_loop
    cases hi : c.current.header with
    | none => exact ⟨h, rfl, rfl, hb, hw⟩
    | some i =>
      have hilt : i < h.shape.nodes.length := hc.current_lt i hi
      have hn : h.shape.nodes[i]? = some h.shape.nodes[i] := List.getElem?_eq_getElem hilt
      have hd : h.shape.data i = h.shape.nodes[i].data := by simp [shape.data, hn]
      obtain ⟨a, kv, hda, hkv, _⟩ := hpl (h.shape.nodes[i].data, h.shape.nodes[i].time_stamp)
        (List.getElem?_mem (n := i) (by rw [payload_get, hn]; rfl))
      simp only at hda
      simp only [heap_data_shape hilt, hn, hd, hda, hkv, key_of_some hkv, Option.some.injEq]
      by_cases hk : kv.k = data
      · refine ⟨h, ?_, by simp [hk], by simpa [hk] using hb, by simpa [hk] using hw⟩
        simp [hk, shape.to_lookup_result, hd, hda]
      · simp only [hk, if_false]
        obtain ⟨h1, e1, s1, b1, w1⟩ := go_next_full node_life hb hw
        have hg := go_next_inv node_life hok hc
        have hl1 : h1.shape.nodes.length = h.shape.nodes.length := by rw [s1, hg.2.2.1]
        obtain ⟨h2, e2, s2, b2, w2⟩ := ih h1 (shape.go_next node_life h.shape c).1 L b1 w1
          (by rw [s1, payload_go_next]; exact hpl)
          (by
            intro j hj
            rw [hl1]
            have := go_next_adv node_life hok hi hj
            have := hf i hi
            omega)
        rw [s1] at e2 s2 b2 w2
        simp only [e1]
        exact ⟨h2, e2, s2, b2, w2⟩


/-- One call of `operator()` with the counts: it ends, and when it returns no handle is
left. -/
theorem call_full {K V : Type} [DecidableEq K] (fnc : K → V) (hsh : K → Nat)
    {buckets : Nat} (node_life : Int) {s : cache K V} (data : K) (hB : 0 < buckets)
    (hinv : cache.inv fnc buckets s) (hbal : s.mem.bal buckets []) :
    ∃ s1, cache.call fnc hsh buckets node_life s data = some (fnc data, s1) ∧
      s1.mem.bal buckets [] := by
  obtain ⟨hok, hheads, hpl⟩ := hinv
  have hb : hsh data % buckets < s.mem.shape.heads.length := by
    rw [hheads]; exact Nat.mod_lt _ hB
  have hbn : hsh data % buckets < buckets := Nat.mod_lt _ hB
  generalize hbk : hsh data % buckets = bucket at hb hbn
  obtain ⟨h1, e1, s1, b1, w1⟩ := cursor_create_full node_life (h := s.mem) (b := bucket)
    s.time hbal hbn
  have hc0 : (s.mem.shape.cursor_create (.head bucket) s.time).validb
      s.mem.shape.nodes.length s.mem.shape := validb_create _ s.time hok hb
  obtain ⟨h2, e2, s2, b2, w2⟩ := lookup_loop_full fnc node_life s.kvs data
    h1.shape.nodes.length h1
    (s.mem.shape.cursor_create (.head bucket) s.time) [] b1 w1
    (by rw [s1]; exact hpl) (fun i _ => Nat.sub_le _ _)
  rw [s1] at e2 s2 b2 w2
  have hl := lookup_loop_inv node_life s.kvs data s.mem.shape.nodes.length
    (s.mem.shape.nodes.length + 1) s.mem.shape
    (s.mem.shape.cursor_create (.head bucket) s.time) hok hc0
  have hkey := lookup_loop_key node_life s.kvs data (s.mem.shape.nodes.length + 1)
    s.mem.shape (s.mem.shape.cursor_create (.head bucket) s.time)
  have hpay := payload_lookup_loop node_life s.kvs data (s.mem.shape.nodes.length + 1)
    s.mem.shape (s.mem.shape.cursor_create (.head bucket) s.time)
  have hlen1 : h1.nodes.length = s.mem.shape.nodes.length := by
    rw [← shape_nodes_length, s1]
  unfold cache.call
  simp only [hbk, e1, hlen1, e2]
  generalize hr : shape.lookup_loop node_life s.kvs data (s.mem.shape.nodes.length + 1)
    s.mem.shape (s.mem.shape.cursor_create (.head bucket) s.time) = r
    at e2 s2 b2 w2 hl hkey hpay
  obtain ⟨ri, rc, rsh⟩ := r
  simp only at s2 b2 w2 hl hkey hpay
  have hok2 : rsh.ok := by rw [shape.ok, hl.2.2.1]; exact hl.1
  have hb2 : bucket < rsh.heads.length := by rw [hl.2.2.2.1]; exact hb
  have hpl2 : payload_ok fnc s.kvs rsh.payload := by rw [hpay]; exact hpl
  have hlen2 : h2.nodes.length = rsh.nodes.length := by
    rw [← shape_nodes_length, s2]
  cases ri with
  | none =>
    -- a miss
    simp only [shape.to_lookup_result]
    obtain ⟨h3, e3, s3, b3⟩ := push_end_full node_life (h := h2)
      { header := some s.kvs.length, mark := false } s.time b2 hbn
    rw [s2] at e3 s3
    rw [hlen2] at b3
    obtain ⟨h4, e4, b4, s4⟩ := drop_full (h := h3)
      (r := { header := some rsh.nodes.length, mark := false }) b3
    obtain ⟨h5, e5, s5, b5⟩ := cursor_destroy_full (h := h4) (c := rc) b4
    simp only [e3, e4, e5]
    exact ⟨_, rfl, b5⟩
  | some i =>
    -- a hit at cell `i`
    have hci : rc.current.header = some i := hl.2.2.2.2 i rfl
    have hilt : i < rsh.nodes.length := by rw [hl.2.2.1]; exact hl.2.1.current_lt i hci
    have hn : rsh.nodes[i]? = some rsh.nodes[i] := List.getElem?_eq_getElem hilt
    have hdi : rsh.data i = rsh.nodes[i].data := by simp [shape.data, hn]
    obtain ⟨a, kv, hda, hkv, hv⟩ := hpl2 (rsh.nodes[i].data, rsh.nodes[i].time_stamp)
      (List.getElem?_mem (n := i) (payload_of_node hn))
    simp only at hda
    have hk : kv.k = data := by
      have := hkey i rfl
      rw [hdi, hda, key_of_some hkv] at this
      exact Option.some.inj this
    simp only [shape.to_lookup_result, hn, hdi]
    generalize hd : rsh.nodes[i].data = d at hda
    obtain ⟨h3, e3, s3, b3⟩ := push_end_full node_life (h := h2) d s.time b2 hbn
    rw [s2] at e3 s3
    rw [hlen2] at b3
    have hpe := push_end_inv node_life d s.time hok2 hb2
    generalize hsh3 : shape.push_end node_life rsh d bucket s.time = sh3 at s3 hpe
    have hpay3 : sh3.payload = rsh.payload ++ [(d, s.time)] := by
      rw [← hsh3, payload_push_end]
    have hnew : h3.data rsh.nodes.length = some d := by
      rw [heap_data_shape (by rw [s3, hpe.2.1]; exact Nat.lt_succ_self _), s3]
      congr 1
      apply data_of_payload (t := s.time)
      rw [hpay3, ← payload_length, List.getElem?_concat_length]
    obtain ⟨tmp, h4, e4, s4, b4⟩ := pop_first_full node_life (h := h3) d s.time b3 hbn
    rw [s3] at s4
    have hpf := pop_first_inv node_life d s.time hpe.1
      (by rw [hpe.2.2]; exact hb2)
    generalize hsh4 : shape.pop_first node_life sh3 d bucket s.time = sh4 at s4 hpf
    have hpay4 : sh4.payload = rsh.payload ++ [(d, s.time)] := by
      rw [← hsh4, payload_pop_first, hpay3]
    obtain ⟨h5, e5, b5, s5⟩ := drop_full (h := h4) (r := tmp) b4
    rw [s4] at s5
    have hlen4 : sh4.nodes.length = rsh.nodes.length + 1 := by rw [hpf.2.1, hpe.2.1]
    have hcd : h5.data i = some d := by
      rw [heap_data_shape (by rw [s5, hlen4]; omega), s5]
      congr 1
      apply data_of_payload (t := rsh.nodes[i].time_stamp)
      rw [hpay4, List.getElem?_append_left (by rw [payload_length]; exact hilt),
        payload_of_node hn, hd]
    obtain ⟨h6, e6, b6, s6⟩ := drop_full (h := h5)
      (r := { header := some rsh.nodes.length, mark := false }) b5
    obtain ⟨h7, e7, s7, b7⟩ := cursor_destroy_full (h := h6) (c := rc) b6
    subst hda
    simp only [e3, hnew, e4, e5, hci, hcd, hkv, e6, e7]
    rw [hv, hk]
    exact ⟨_, rfl, b7⟩


/-- A fresh cache: no cell, no handle, every head null. -/
theorem bal_create {K V : Type} (fnc : K → V) (buckets : Nat) :
    (cache.create K V buckets).mem.bal buckets [] := by
  refine ⟨(inv_create fnc buckets).ok, by simp [cache.create], by simp, ?_, ?_, ?_⟩
  · intro b c hc
    simp only [cache.create] at hc
    have := List.getElem?_mem hc
    rw [List.mem_replicate] at this
    rw [this.2]
    rfl
  · intro k c hk
    simp [cache.create] at hk
  · simp [cache.create, cnt]

/-- A sequence of calls with the counts: it ends, and no handle is left. -/
theorem run_full {K V : Type} [DecidableEq K] (fnc : K → V) (hsh : K → Nat)
    {buckets : Nat} (node_life : Int) (hB : 0 < buckets) :
    ∀ (ks : List K) (s : cache K V), cache.inv fnc buckets s → s.mem.bal buckets [] →
    ∃ s1, cache.run fnc hsh buckets node_life s ks = some (ks.map fnc, s1) ∧
      cache.inv fnc buckets s1 ∧ s1.mem.bal buckets [] := by
  intro ks
  induction ks with
  | nil => intro s hs hb; exact ⟨s, rfl, hs, hb⟩
  | cons k ks ih =>
    intro s hs hb
    obtain ⟨s1, e1, _, _, _, _, hs1⟩ := call_refines fnc hsh node_life k hB hs
    obtain ⟨s2, e2, hb2⟩ := call_full fnc hsh node_life k hB hs hb
    have h12 : s2 = s1 := by
      rw [e1] at e2
      simp only [Option.some.injEq, Prod.mk.injEq, true_and] at e2
      exact e2.symm
    rw [h12] at hb2
    obtain ⟨s3, e3, hs3, hb3⟩ := ih s1 hs1 hb2
    exact ⟨s3, by simp [cache.run, e1, e3], hs3, hb3⟩

/-- When the last head goes out of existence, its reference becomes a handle. -/
theorem bal_shrink {h : heap} {n : Nat} {L : List Nat} {v : counted_ptr}
    (hb : h.bal (n + 1) L) (hv : h.head_buckets[n]? = some v) :
    h.bal n (v.ptr.toList ++ L) := by
  have hin : ∀ k, h.indeg (n + 1) k = h.indeg n k + (if v.ptr = some k then 1 else 0) := by
    intro k
    rw [indeg_succ]
    simp [heap.head_to, hv]
  refine ⟨hb.ok, Nat.le_of_succ_le hb.nh_le, ?_, hb.acc_head, ?_, hb.leaks⟩
  · intro i hi
    rcases List.mem_append.mp hi with h1 | h1
    · simp only [Option.mem_toList, Option.mem_def] at h1
      have := hb.ok.head_lt n v.view (by rw [shape_heads_get, hv]; rfl) i h1
      rwa [shape_nodes_length] at this
    · exact hb.sup i h1
  · intro k c hk
    obtain ⟨a1, a2, a3⟩ := hb.cell k c hk
    refine ⟨a1, a2, ?_⟩
    exact cell_clause_transfer rfl rfl
      (by rw [count_toList]; have := hin k; omega) a3

/-- The destructor of the last head. -/
theorem head_destroy_full {h : heap} {n : Nat} {L : List Nat} (hb : h.bal (n + 1) L) :
    ∃ h1, atomic_shared_ptr.destroy h (.head n) = some h1 ∧ h1.bal n L ∧
      h1.shape = h.shape := by
  have hlt : n < h.head_buckets.length := hb.nh_le
  have hv : h.head_buckets[n]? = some h.head_buckets[n] := List.getElem?_eq_getElem hlt
  have b1 := bal_shrink hb hv
  unfold atomic_shared_ptr.destroy
  simp only [heap.p, hv]
  cases hp : h.head_buckets[n].ptr with
  | none =>
    rw [hp] at b1
    exact ⟨h, rfl, b1, rfl⟩
  | some o =>
    rw [hp] at b1
    obtain ⟨h1, e1, b2, s1⟩ := dec_full (j := o) (L := L) b1
    exact ⟨h1, e1, b2, s1⟩

/-- The destructor of the array of heads. -/
theorem destroy_heads_full : ∀ (n : Nat) (h : heap) (L : List Nat), h.bal n L →
    ∃ h1, destroy_heads n h = some h1 ∧ h1.bal 0 L ∧ h1.shape = h.shape := by
  intro n
  induction n with
  | zero => intro h L hb; exact ⟨h, rfl, hb, rfl⟩
  | succ n ih =>
    intro h L hb
    obtain ⟨h1, e1, b1, s1⟩ := head_destroy_full hb
    obtain ⟨h2, e2, b2, s2⟩ := ih h1 L b1
    exact ⟨h2, by simp [destroy_heads, e1, e2], b2, by rw [s2, s1]⟩

theorem cnt_exists {p : Nat → Bool} {n : Nat} (h : 0 < cnt n p) : ∃ k, k < n ∧ p k = true := by
  by_contra hne
  have : cnt n p = 0 := cnt_false n (fun k hk => by
    cases hp : p k with
    | false => rfl
    | true => exact absurd ⟨k, hk, hp⟩ hne)
  omega

/-- When no head exists and no handle is left, every cell was destroyed: a cell that was
not destroyed is pointed to by the slot `next` of an older cell that was not destroyed. -/
theorem all_destroyed {h : heap} (hb : h.bal 0 []) :
    ∀ (k : Nat) (c : shared_ptr_header), h.nodes[k]? = some c → c.destroyed = 1 := by
  intro k
  induction k using Nat.strong_induction_on with
  | _ k ih =>
    intro c hc
    obtain ⟨_, _, a3⟩ := hb.cell k c hc
    rcases a3 with a3 | a3
    swap
    · exact a3.1
    exfalso
    obtain ⟨_, a4, a5⟩ := a3
    have hin : 0 < h.indeg 0 k := by
      rw [a4] at a5
      simpa using a5
    unfold heap.indeg at hin
    have h0 : cnt 0 (h.head_to k) = 0 := rfl
    rw [h0, Nat.zero_add] at hin
    obtain ⟨m, hm, hpm⟩ := cnt_exists hin
    unfold heap.next_to at hpm
    cases hcm : h.nodes[m]? with
    | none => simp [hcm] at hpm
    | some cm =>
      simp only [hcm, shared_ptr_header.next_to, Bool.and_eq_true, decide_eq_true_eq] at hpm
      have hlt := (next_lt_of_ok hb.ok hcm hpm.2).1
      have := ih m hlt cm hcm
      omega



/-- C7: for every function, hash, number `buckets ≥ 1` of buckets, node life and sequence
of calls on a fresh cache, the run ends, the destructor of the cache ends, and afterwards
the node counter `leaks` (incremented by the node constructor, decremented by the node
destructor) is zero and every cell that was constructed was destroyed exactly once. -/
theorem no_leak_after_destroy {K V : Type} [DecidableEq K] (fnc : K → V) (hsh : K → Nat)
    (buckets : Nat) (node_life : Int) (ks : List K) (hB : 1 ≤ buckets) :
    ∃ s h, cache.run fnc hsh buckets node_life (cache.create K V buckets) ks =
        some (ks.map fnc, s) ∧
      cache.destroy s = some h ∧ h.leaks = 0 ∧ h.nodes.length = s.mem.nodes.length ∧
      ∀ c ∈ h.nodes, c.destroyed = 1 := by
  obtain ⟨s, e, hinv, hb⟩ := run_full fnc hsh node_life hB ks _ (inv_create fnc buckets)
    (bal_create fnc buckets)
  have hlen : s.mem.head_buckets.length = buckets := by
    rw [← shape_heads_length]; exact hinv.heads
  obtain ⟨h, e2, b2, s2⟩ := destroy_heads_full buckets s.mem [] hb
  have hall := all_destroyed b2
  refine ⟨s, h, e, by rw [cache.destroy, hlen]; exact e2, ?_, ?_, ?_⟩
  · rw [b2.leaks]
    have : cnt h.nodes.length h.alive = 0 := cnt_false _ (fun k hk => by
      have := hall k _ (List.getElem?_eq_getElem hk)
      simp [heap.alive, List.getElem?_eq_getElem hk, this])
    rw [this]
    rfl
  · rw [← shape_nodes_length, s2, shape_nodes_length]
  · intro c hc
    obtain ⟨k, hk, hkc⟩ := List.getElem_of_mem hc
    exact hall k c (by rw [List.getElem?_eq_getElem hk, hkc])

theorem no_leak_after_destroy_witness :
    1 ≤ 1 ∧ ∃ s h, cache.run (fun x : Nat => x * x) id 1 0 (cache.create Nat Nat 1)
        [1, 2, 1, 3] = some ([1, 2, 1, 3].map (fun x : Nat => x * x), s) ∧
      cache.destroy s = some h ∧ h.leaks = 0 ∧ h.nodes.length = s.mem.nodes.length ∧
      ∀ c ∈ h.nodes, c.destroyed = 1 :=
  ⟨by decide, no_leak_after_destroy (fun x : Nat => x * x) id 1 0 [1, 2, 1, 3] (by decide)⟩

/-- The run `cache(1), cache(2), cache(1), cache(3)` with one bucket and node life 0,
evaluated: four cells are constructed, one of them is left when the last call returns,
and none after the destructor of the cache; each was destroyed once. -/
theorem four_calls_then_destroy :
    (cache.run (fun x : Nat => x * x) id 1 0 (cache.create Nat Nat 1) [1, 2, 1, 3]).bind
      (fun r => (cache.destroy r.2).map
        (fun (h : heap) => (r.2.mem.leaks, h.leaks,
          h.nodes.map (fun (c : shared_ptr_header) => c.destroyed)))) =
    some (1, 0, [1, 1, 1, 1]) := by
  decide


/-- A cascade of destructions that starts at cell `i` changes no older cell and no
head. -/
theorem modify_count_loop_low : ∀ (fuel : Nat) (h h1 : heap) (i : Nat) (a b : Int),
    h.shape.ok → modify_count_loop fuel h i a b = some h1 →
    h1.head_buckets = h.head_buckets ∧ h1.nodes.length = h.nodes.length ∧
    ∀ k, k < i → h1.nodes[k]? = h.nodes[k]? := by
  intro fuel
  induction fuel with
  | zero => intro h h1 i a b _ e; simp [modify_count_loop] at e
  | succ fuel ih =>
    intro h h1 i a b hok e
    cases hc : h.nodes[i]? with
    | none => simp [modify_count_loop, hc] at e
    | some c =>
      simp only [modify_count_loop, hc] at e
      have hlt : i < h.nodes.length := (List.getElem?_eq_some_iff.mp hc).1
      split at e
      · obtain ⟨c1, hc1⟩ : ∃ c1 : shared_ptr_header, c1 = { c with
          count := { external_counters := c.count.external_counters + b,
                     count := c.count.count + a },
          destroyed := c.destroyed + 1 } := ⟨_, rfl⟩
        obtain ⟨h2, hh2⟩ : ∃ h2 : heap, h2 = { h with
          nodes := h.nodes.set i c1,
          leaks := h.leaks - 1 } := ⟨_, rfl⟩
        rw [← hc1, ← hh2] at e
        have hn : h2.nodes = h.nodes.set i c1 := by rw [hh2]
        have hh : h2.head_buckets = h.head_buckets := by rw [hh2]
        have hs2 : h2.shape = h.shape :=
          shape_of_nodes_set hc hn hh (by rw [hc1]; rfl)
        have hlow : ∀ k, k < i → h2.nodes[k]? = h.nodes[k]? := by
          intro k hk
          rw [hn, List.getElem?_set_ne (by omega)]
        have hlen : h2.nodes.length = h.nodes.length := by rw [hn, List.length_set]
        cases hm : c.storage.next.ptr with
        | none =>
          simp only [hm, Option.some.injEq] at e
          subst e
          exact ⟨hh, hlen, hlow⟩
        | some m =>
          simp only [hm] at e
          obtain ⟨q1, q2, q3⟩ := ih h2 h1 m (-1) 0 (hs2 ▸ hok) e
          have hm2 := (next_lt_of_ok hok hc hm).1
          exact ⟨q1.trans hh, q2.trans hlen, fun k hk => by rw [q3 k (by omega), hlow k hk]⟩
      · simp only [Option.some.injEq] at e
        subst e
        refine ⟨rfl, by simp, fun k hk => ?_⟩
        simp only
        rw [List.getElem?_set_ne (by omega)]

/-- What `modify_count(a, b)` does to the cell it is called on: the deltas are added to
the pair of counts, and the cell is destroyed exactly when both are zero then. -/
theorem modify_count_cell {h : heap} {i : Nat} {c : shared_ptr_header} (a b : Int)
    (hok : h.shape.ok) (hc : h.nodes[i]? = some c) :
    ∃ h1 c1, modify_count h i a b = some h1 ∧ h1.nodes[i]? = some c1 ∧
      c1.storage = c.storage ∧
      c1.count = { external_counters := c.count.external_counters + b,
                   count := c.count.count + a } ∧
      c1.destroyed = c.destroyed +
        (if c.count.count + a = 0 ∧ c.count.external_counters + b = 0 then 1 else 0) ∧
      h1.head_buckets = h.head_buckets ∧ h1.shape = h.shape := by
  have hlt : i < h.nodes.length := (List.getElem?_eq_some_iff.mp hc).1
  obtain ⟨h1, e, s⟩ := modify_count_shape a b hok (by rw [shape_nodes_length]; exact hlt)
  refine ⟨h1, ?_⟩
  have e0 := e
  simp only [modify_count, modify_count_loop, hc] at e
  by_cases hz : c.count.count + a = 0 ∧ c.count.external_counters + b = 0
  · rw [if_pos hz] at e
    obtain ⟨c1, hc1⟩ : ∃ c1 : shared_ptr_header, c1 = { c with
      count := { external_counters := c.count.external_counters + b,
                 count := c.count.count + a },
      destroyed := c.destroyed + 1 } := ⟨_, rfl⟩
    obtain ⟨h2, hh2⟩ : ∃ h2 : heap, h2 = { h with
      nodes := h.nodes.set i c1,
      leaks := h.leaks - 1 } := ⟨_, rfl⟩
    rw [← hc1, ← hh2] at e
    have hn : h2.nodes = h.nodes.set i c1 := by rw [hh2]
    have hh : h2.head_buckets = h.head_buckets := by rw [hh2]
    have hs2 : h2.shape = h.shape := shape_of_nodes_set hc hn hh (by rw [hc1]; rfl)
    have hget : h2.nodes[i]? = some c1 := nodes_set_at hc hn
    refine ⟨c1, e0, ?_, by rw [hc1], by rw [hc1], by rw [hc1, if_pos hz], ?_, s⟩
    · cases hm : c.storage.next.ptr with
      | none =>
        simp only [hm, Option.some.injEq] at e
        rw [← e]; exact hget
      | some m =>
        simp only [hm] at e
        obtain ⟨_, _, q3⟩ := modify_count_loop_low _ h2 h1 m (-1) 0 (hs2 ▸ hok) e
        rw [q3 i (next_lt_of_ok hok hc hm).1]
        exact hget
    · cases hm : c.storage.next.ptr with
      | none =>
        simp only [hm, Option.some.injEq] at e
        rw [← e]; exact hh
      | some m =>
        simp only [hm] at e
        obtain ⟨q1, _, _⟩ := modify_count_loop_low _ h2 h1 m (-1) 0 (hs2 ▸ hok) e
        rw [q1, hh]
  · rw [if_neg hz] at e
    simp only [Option.some.injEq] at e
    obtain ⟨c1, hc1⟩ : ∃ c1 : shared_ptr_header, c1 = { c with
      count := { external_counters := c.count.external_counters + b,
                 count := c.count.count + a } } := ⟨_, rfl⟩
    rw [← hc1] at e
    refine ⟨c1, e0, ?_, by rw [hc1], by rw [hc1], by rw [hc1, if_neg hz]; rfl, by rw [← e], s⟩
    rw [← e]
    simp only
    rw [List.getElem?_set_self hlt]


/-- What `make_shared<node>(sp, t)` yields on any memory: a new cell at the next free
address with counts (1, 0), not destroyed, and a handle to it without mark. -/
theorem make_shared_node_cell (h : heap) (sp : shared_ptr) (t : Int) :
    ∃ h2 c2, make_shared_node h sp t =
        some ({ header := some h.nodes.length, mark := false }, h2) ∧
      h2.nodes = h.nodes ++ [c2] ∧ h2.head_buckets = h.head_buckets ∧
      c2.count = { external_counters := 0, count := 1 } ∧ c2.destroyed = 0 ∧
      c2.storage = { data := sp, next := { access_count := 0, mark := false, ptr := none },
                     time_stamp := t } := by
  have hget : (h.new_node sp t).nodes[h.nodes.length]? = some
      { storage := { data := sp, next := { access_count := 0, mark := false, ptr := none },
                     time_stamp := t },
        count := { external_counters := 0, count := 0 }, destroyed := 0 } := by
    simp [heap.new_node]
  obtain ⟨c2, hc2⟩ : ∃ c2 : shared_ptr_header, c2 =
    { storage := { data := sp, next := { access_count := 0, mark := false, ptr := none },
                   time_stamp := t },
      count := { external_counters := 0, count := 1 }, destroyed := 0 } := ⟨_, rfl⟩
  refine ⟨{ h with nodes := h.nodes ++ [c2], leaks := h.leaks + 1 }, c2, ?_, rfl, rfl,
    by rw [hc2], by rw [hc2], by rw [hc2]⟩
  simp only [make_shared_node, shared_ptr.from_header, modify_count, modify_count_loop, hget]
  simp only [zero_add, one_ne_zero, false_and, if_false, add_zero, Option.some.injEq,
    Prod.mk.injEq, true_and]
  rw [hc2]
  simp [heap.new_node]


theorem one_cell_ok : one_cell.shape.ok := by
  constructor
  · intro i n hn j hj
    match i with
    | 0 =>
      simp [one_cell, heap.shape, shared_ptr_header.view] at hn
      subst hn
      simp at hj
    | k + 1 => simp [one_cell, heap.shape] at hn
  · intro b v hv j hj
    match b with
    | 0 =>
      simp [one_cell, heap.shape, counted_ptr.view] at hv
      subst hv
      simp at hj
      subst hj
      simp [one_cell, heap.shape]
    | k + 1 => simp [one_cell, heap.shape] at hv

/-- C18: in a memory whose lists are well formed, `modify_count(di, de)` on a cell with
pair `(i, e)` ends, sets the pair to `(i + di, e + de)`, leaves the stored node as it is,
and runs the destructor of the cell, once, exactly when the new pair is `(0, 0)`;
`make_shared` ends and yields a new cell with pair `(1, 0)` that was not destroyed and one
handle to it, which is not null and whose mark is false. -/
theorem modify_and_make_cell (h : heap) (i : Nat) (c : shared_ptr_header) (di de : Int)
    (sp : shared_ptr) (t : Int) (hok : h.shape.ok) (hc : h.nodes[i]? = some c) :
    (∃ h1 c1, modify_count h i di de = some h1 ∧ h1.nodes[i]? = some c1 ∧
      c1.count = { external_counters := c.count.external_counters + de,
                   count := c.count.count + di } ∧
      c1.storage = c.storage ∧
      (c1.destroyed = c.destroyed + 1 ∨ c1.destroyed = c.destroyed) ∧
      (c1.destroyed = c.destroyed + 1 ↔ c1.count = { external_counters := 0, count := 0 })) ∧
    (∃ n h2 c2, make_shared_node h sp t = some (n, h2) ∧
      n.header = some h.nodes.length ∧ n.mark = false ∧ h2.nodes = h.nodes ++ [c2] ∧
      c2.count = { external_counters := 0, count := 1 } ∧ c2.destroyed = 0) := by
  constructor
  · obtain ⟨h1, c1, e1, hn, hs, hcnt, hd, _, _⟩ := modify_count_cell di de hok hc
    refine ⟨h1, c1, e1, hn, hcnt, hs, ?_, ?_⟩
    · rw [hd]; split <;> simp
    · rw [hd, hcnt]
      by_cases hz : c.count.count + di = 0 ∧ c.count.external_counters + de = 0
      · rw [if_pos hz]; simp [hz.1, hz.2]
      · rw [if_neg hz]
        simp only [add_zero, self_eq_add_right, one_ne_zero, false_iff]
        intro hh
        injection hh with h1 h2
        exact hz ⟨h2, h1⟩
  · obtain ⟨h2, c2, e2, hn, _, hcnt, hd, _⟩ := make_shared_node_cell h sp t
    exact ⟨_, h2, c2, e2, rfl, rfl, hn, hcnt, hd⟩

theorem modify_and_make_cell_witness :
    one_cell.shape.ok ∧ one_cell.nodes[0]? = some
      { storage := { data := shared_ptr.null,
                     next := { access_count := 0, mark := false, ptr := none },
                     time_stamp := 0 },
        count := { external_counters := 0, count := 1 },
        destroyed := 0 } ∧
    (∃ h1 c1, modify_count one_cell 0 (-1) 0 = some h1 ∧ h1.nodes[0]? = some c1 ∧
      c1.count = { external_counters := 0 + 0, count := 1 + -1 } ∧
      c1.storage = { data := shared_ptr.null,
                     next := { access_count := 0, mark := false, ptr := none },
                     time_stamp := 0 } ∧
      (c1.destroyed = 0 + 1 ∨ c1.destroyed = 0) ∧
      (c1.destroyed = 0 + 1 ↔ c1.count = { external_counters := 0, count := 0 })) ∧
    (∃ n h2 c2, make_shared_node one_cell shared_ptr.null 5 = some (n, h2) ∧
      n.header = some 1 ∧ n.mark = false ∧ h2.nodes = one_cell.nodes ++ [c2] ∧
      c2.count = { external_counters := 0, count := 1 } ∧ c2.destroyed = 0) :=
  ⟨one_cell_ok, rfl, modify_and_make_cell one_cell 0 _ (-1) 0 shared_ptr.null 5 one_cell_ok rfl⟩

/-- The last handle of a cell is dropped and a new cell is made, evaluated: the pair of
the old cell goes from (1, 0) to (0, 0) and its destructor runs; the new cell has the
pair (1, 0). -/
theorem modify_then_make_evaluated :
    ((modify_count one_cell 0 (-1) 0).bind
      (fun (h : heap) => (make_shared_node h shared_ptr.null 5).map
        (fun r => (r.1, r.2.nodes.map
          (fun (c : shared_ptr_header) => (c.count.count, c.count.external_counters, c.destroyed)))))) =
    some ({ header := some 1, mark := false }, [(0, 0, 1), (1, 0, 0)]) := by
  decide


theorem one_cell_reserved_ok : one_cell_reserved.shape.ok := by
  have : one_cell_reserved.shape = one_cell.shape := rfl
  rw [this]
  exact one_cell_ok


/-- A change of counts at cell `i` leaves every head and every `next` slot of a cell
below `i` as it is. -/
theorem modify_count_p_low {h h1 : heap} {i : Nat} {a b : Int} (hok : h.shape.ok)
    (e : modify_count h i a b = some h1) (r : slot_ref) (hr : ∀ k, r = .next k → k < i) :
    h1.p r = h.p r := by
  obtain ⟨hh, _, hlow⟩ := modify_count_loop_low _ h h1 i a b hok e
  cases r with
  | head b => simp only [heap.p, hh]
  | next k => simp only [heap.p, hlow k (hr k rfl)]

/-- Writing a slot leaves every cell but the one the slot belongs to as it is. -/
theorem set_p_nodes_other {h h1 : heap} {r : slot_ref} {v : counted_ptr} {c : Nat}
    (e : h.set_p r v = some h1) (hne : r ≠ .next c) : h1.nodes[c]? = h.nodes[c]? := by
  cases r with
  | head b =>
    simp only [heap.set_p] at e
    split at e
    · simp at e; subst e; rfl
    · simp at e
  | next k =>
    simp only [heap.set_p] at e
    cases hn : h.nodes[k]? with
    | none => simp [hn] at e
    | some c0 =>
      simp [hn] at e; subst e
      have hk : k ≠ c := fun hk => hne (by rw [hk])
      simp [List.getElem?_set, hk]

/-- The function `store` on a slot that holds cell `c` with access count `a`: the pair of
`c` changes by `(-1, +a)` and the slot holds pointer and mark of the new handle with
access count 0. -/
theorem store_cell {h : heap} {r : slot_ref} (new : shared_ptr) {a : Int} {m : Bool}
    {c : Nat} {c0 : shared_ptr_header} (hok : h.shape.ok)
    (hnew : ∀ j, new.header = some j → j < h.nodes.length ∧ ∀ k, r = .next k → k < j)
    (hp : h.p r = some { access_count := a, mark := m, ptr := some c })
    (hc : h.nodes[c]? = some c0) :
    ∃ h1 c1, atomic_shared_ptr.store h r new = some h1 ∧ h1.nodes[c]? = some c1 ∧
      c1.count = { external_counters := c0.count.external_counters + a,
                   count := c0.count.count + -1 } ∧
      h1.p r = some { access_count := 0, mark := new.mark, ptr := new.header } := by
  have hv := valid_of_p hp
  obtain ⟨h1, e1⟩ := set_p_of_valid
    { access_count := 0, mark := new.mark, ptr := new.header } hv
  have hlt := ptr_lt_of_okb hok (r := r) (j := c) (by
    have := p_shape hp
    simp [shape.ptr, this, counted_ptr.view])
  have hne : r ≠ .next c := fun hr => by
    have := hlt.2 c hr
    omega
  have s1 : h1.shape = h.shape.set_slot r (new.header, new.mark) := by
    rw [set_p_shape e1]; rfl
  have hok1 : h1.shape.ok := by
    rw [s1]
    have := okb_set_slot (r := r) (v := (new.header, new.mark)) hok (by
      intro j hj
      rw [shape_nodes_length]
      exact hnew j hj)
    simpa [shape.ok, set_slot_nodes_length] using this
  have hc1 : h1.nodes[c]? = some c0 := by rw [set_p_nodes_other e1 hne]; exact hc
  obtain ⟨h2, c1, e2, hn2, _, hcnt, _, _, _⟩ := modify_count_cell (-1) a hok1 hc1
  refine ⟨h2, c1, ?_, hn2, hcnt, ?_⟩
  · simp only [atomic_shared_ptr.store, hp, e1, e2]
  · rw [modify_count_p_low hok1 e2 r hlt.2]
    exact p_set_p e1

/-- C14 (counterexample): a store into a slot with access count 1 takes the pair of the
old cell from (internal 1, external 0) to (internal 0, external 1), not to
(1 - 1, 0 - 1): the change of the external count is `+a`, not `-a`. -/
theorem store_under_reservation_adds :
    store_under_reservation.map (fun r => (r, decide (r.2.2.1.count = r.2.1.count - 1 ∧
      r.2.2.1.external_counters = r.2.1.external_counters - r.1.access_count))) =
    some (({ access_count := 1, mark := false, ptr := some 0 },
           { external_counters := 0, count := 1 },
           { external_counters := 1, count := 0 },
           { access_count := 0, mark := false, ptr := none }), false) := by
  decide

/-- C14 (amended): for a slot of a well-formed memory that holds the cell `c` with access
count `a`, and a handle `new` that is null or points to a cell of the memory (a newer
cell than `k` when the slot is the member `next` of cell `k`), `store(new)` ends, changes
the pair of `c` by (internal -1, external +a), and leaves the slot holding the cell of
`new`, the mark of `new`, and access count 0. -/
theorem store_transfers_access_count (h : heap) (r : slot_ref) (new : shared_ptr) (a : Int)
    (m : Bool) (c : Nat) (c0 : shared_ptr_header) (hok : h.shape.ok)
    (hnew : ∀ j, new.header = some j → j < h.nodes.length ∧ ∀ k, r = .next k → k < j)
    (hp : h.p r = some { access_count := a, mark := m, ptr := some c })
    (hc : h.nodes[c]? = some c0) :
    ∃ h1 c1, atomic_shared_ptr.store h r new = some h1 ∧ h1.nodes[c]? = some c1 ∧
      c1.count.count = c0.count.count - 1 ∧
      c1.count.external_counters = c0.count.external_counters + a ∧
      h1.p r = some { access_count := 0, mark := new.mark, ptr := new.header } := by
  obtain ⟨h1, c1, e, hn, hcnt, hp1⟩ := store_cell new hok hnew hp hc
  exact ⟨h1, c1, e, hn, by rw [hcnt]; rfl, by rw [hcnt], hp1⟩

theorem store_transfers_access_count_witness :
    one_cell_reserved.shape.ok ∧
    (∀ j, shared_ptr.null.header = some j →
      j < one_cell_reserved.nodes.length ∧ ∀ k, slot_ref.head 0 = .next k → k < j) ∧
    one_cell_reserved.p (.head 0) = some { access_count := 1, mark := false, ptr := some 0 } ∧
    one_cell_reserved.nodes[0]? = some
      { storage := { data := shared_ptr.null,
                     next := { access_count := 0, mark := false, ptr := none },
                     time_stamp := 0 },
        count := { external_counters := 0, count := 1 },
        destroyed := 0 } ∧
    ∃ h1 c1, atomic_shared_ptr.store one_cell_reserved (.head 0) shared_ptr.null = some h1 ∧
      h1.nodes[0]? = some c1 ∧
      c1.count.count = 1 - 1 ∧
      c1.count.external_counters = 0 + 1 ∧
      h1.p (.head 0) = some { access_count := 0, mark := shared_ptr.null.mark,
                              ptr := shared_ptr.null.header } :=
  ⟨one_cell_reserved_ok, (by intro j hj; cases hj), rfl, rfl,
    store_transfers_access_count one_cell_reserved (.head 0) shared_ptr.null 1 false 0 _
      one_cell_reserved_ok (by intro j hj; cases hj) rfl rfl⟩

/-- The reserved load on `one_cell` gives the memory `one_cell_reserved`. -/
theorem create_gives_reserved :
    (local_access.create one_cell (.head 0)).map (fun r => r.2) = some one_cell_reserved := by
  decide


/-- C15: on a slot of a well-formed memory, with `expected` null or a handle to a cell
of the memory and `newptr` null or a handle to a cell of the memory (a newer cell than
`k` when the slot is the member `next` of cell `k`), `compare_exchange_weak(expected,
newptr)` ends; it returns true exactly when the pointer in the slot is the pointer of
`expected`, whatever the two marks are; when it returns true the slot holds pointer and
mark of `newptr` and `expected` is as before; when it returns false pointer and mark of
the slot (and of every other slot) are as before and `expected` is a handle to the cell
in the slot. -/
theorem cew_compares_pointers (h : heap) (r : slot_ref) (expected newptr : shared_ptr)
    (hok : h.shape.ok) (hv : h.shape.valid_slot r) (he : h.shape.valid_ptr expected.header)
    (hnew : ∀ j, newptr.header = some j → j < h.nodes.length ∧ ∀ k, r = .next k → k < j) :
    ∃ b e1 h1, atomic_shared_ptr.compare_exchange_weak h r expected newptr = some (b, e1, h1) ∧
      (b = true ↔ h.shape.ptr r = expected.header) ∧
      (b = true → h1.shape.slot r = (newptr.header, newptr.mark) ∧ e1 = expected) ∧
      (b = false → h1.shape.slot r = h.shape.slot r ∧ h1.shape = h.shape ∧
        e1.header = h.shape.ptr r) := by
  by_cases heq : h.shape.ptr r = expected.header
  · have hok2 : (h.shape.set_slot r (newptr.header, newptr.mark)).ok := by
      have := okb_set_slot (r := r) (v := (newptr.header, newptr.mark)) hok (by
        intro j hj
        rw [shape_nodes_length]
        exact hnew j hj)
      simpa [shape.ok, set_slot_nodes_length] using this
    obtain ⟨h1, e1, s1⟩ := cew_shape_success expected newptr hok hv hok2 heq
    refine ⟨true, expected, h1, e1, by simp [heq], ?_, by simp⟩
    intro _
    exact ⟨by rw [s1, slot_set_slot_same _ hv], rfl⟩
  · have hn : h.shape.valid_ptr newptr.header := by
      intro j hj
      rw [shape_nodes_length]
      exact (hnew j hj).1
    obtain ⟨h1, e1, s1⟩ := cew_shape_fail expected newptr hok hv he hn heq
    refine ⟨false, _, h1, e1, by simp [heq], by simp, ?_⟩
    intro _
    exact ⟨by rw [s1], s1, rfl⟩

theorem cew_compares_pointers_witness :
    one_cell.shape.ok ∧ one_cell.shape.valid_slot (.head 0) ∧
    one_cell.shape.valid_ptr (some 0) ∧
    (∀ j, shared_ptr.null.header = some j →
      j < one_cell.nodes.length ∧ ∀ k, slot_ref.head 0 = .next k → k < j) ∧
    ∃ b e1 h1, atomic_shared_ptr.compare_exchange_weak one_cell (.head 0)
        { header := some 0, mark := true } shared_ptr.null = some (b, e1, h1) ∧
      (b = true ↔ one_cell.shape.ptr (.head 0) = some 0) ∧
      (b = true → h1.shape.slot (.head 0) = (shared_ptr.null.header, shared_ptr.null.mark) ∧
        e1 = { header := some 0, mark := true }) ∧
      (b = false → h1.shape.slot (.head 0) = one_cell.shape.slot (.head 0) ∧
        h1.shape = one_cell.shape ∧ e1.header = one_cell.shape.ptr (.head 0)) :=
  ⟨one_cell_ok, (by show 0 < 1; decide), (by intro i hi; cases hi; decide), (by intro j hj; cases hj),
    cew_compares_pointers one_cell (.head 0) { header := some 0, mark := true } shared_ptr.null
      one_cell_ok (by show 0 < 1; decide) (by intro i hi; cases hi; decide) (by intro j hj; cases hj)⟩

/-- Two compare-exchanges on the slot of `one_cell`, whose mark is false, evaluated.
With `expected` a handle to the cell in the slot that carries the mark true the result is
true and the slot holds the new handle (null); with `expected` null the result is false,
the slot is as before and `expected` is a handle to the cell in the slot. -/
theorem cew_on_one_cell :
    (atomic_shared_ptr.compare_exchange_weak one_cell (.head 0)
        { header := some 0, mark := true } shared_ptr.null).map
      (fun r => (r.1, r.2.1, r.2.2.shape.slot (.head 0))) =
      some (true, { header := some 0, mark := true }, (none, false)) ∧
    (atomic_shared_ptr.compare_exchange_weak one_cell (.head 0)
        shared_ptr.null shared_ptr.null).map
      (fun r => (r.1, r.2.1, r.2.2.shape.slot (.head 0))) =
      some (false, { header := some 0, mark := false }, (some 0, false)) := by
  decide


theorem expired_congr {sh sh1 : shape} (hp : sh1.payload = sh.payload) (node_life t : Int)
    (x : Nat) : sh1.expired node_life t x = sh.expired node_life t x := by
  have h1 := payload_get sh1 x
  rw [hp, payload_get] at h1
  unfold shape.expired
  cases hn : sh.nodes[x]? with
  | none =>
    cases hn1 : sh1.nodes[x]? with
    | none => rfl
    | some n1 => simp [hn, hn1] at h1
  | some n =>
    cases hn1 : sh1.nodes[x]? with
    | none => simp [hn, hn1] at h1
    | some n1 =>
      simp [hn, hn1] at h1
      simp [h1.2]

theorem expired_lt {sh : shape} {node_life t : Int} {x : Nat}
    (h : sh.expired node_life t x = true) : x < sh.nodes.length := by
  unfold shape.expired at h
  cases hn : sh.nodes[x]? with
  | none => simp [hn] at h
  | some n => exact (List.getElem?_eq_some_iff.mp hn).1

/-- The test of `go_next` after the cursor moved on from cell `i`. -/
theorem stale_advance (node_life : Int) (sh : shape) (c : cursor) (i : Nat) :
    shape.stale node_life sh (sh.advance c i) =
      match sh.ptr (.next i) with
      | none => false
      | some j => sh.expired node_life c.local_time j := by
  simp only [shape.stale, shape.advance, Bool.false_or, shape.expired]

/-- The cells of the list behind cell `i` are younger than `i`. -/
theorem path_gt {sh : shape} {m : Nat} (hok : sh.okb m) {i : Nat} {l : List Nat}
    (h : sh.is_path (sh.ptr (.next i)) l) : ∀ a ∈ l, i < a := by
  intro a ha
  have hpl := is_path_lt hok l (sh.ptr (.next i)) (fun j hj => (ptr_lt_of_okb hok hj).1) h
  cases l with
  | nil => simp at ha
  | cons a0 l2 =>
    have ha0 : sh.ptr (.next i) = some a0 := h.1
    have := (ptr_lt_of_okb hok ha0).2 i rfl
    have := hpl.2.2 a0 ha0 a ha
    omega

/-- What `remove` does when the cursor has just moved from cell `i` to its successor `x`:
the slot `next` of `x` is marked and the slot `next` of `i` gets the successor of `x`. -/
theorem remove_advance {sh : shape} {c : cursor} {i x : Nat} (hx : sh.ptr (.next i) = some x) :
    (sh.remove (sh.advance c i)).2 =
      (sh.set_mark (.next x) true).set_slot (.next i) (sh.ptr (.next x), false) := by
  have h1 : (sh.advance c i).current.header = some x := hx
  unfold shape.remove
  simp only [h1]
  have h2 : (sh.set_mark (.next x) true).ptr (sh.advance c i).owner = some x := by
    rw [ptr_set_mark]; exact hx
  have h3 : (sh.advance c i).current.mark = false := rfl
  simp only [h2, h3, and_self, if_true, ptr_set_mark]
  rfl

/-- The loop of `cursor::go_next` from cell `i`, when the list behind `i` starts with the
cells `run`, all of them expired, and goes on with `rest`, whose first cell is not
expired: the loop unlinks each cell of the run from the cell before it. The cells of
the run that the list behind `i` keeps are every second one. Slots of older cells and
heads are not written. -/
theorem go_next_loop_run (node_life : Int) (m : Nat) (rest : List Nat) :
    ∀ (run : List Nat) (keep : Bool) (fuel : Nat) (sh : shape) (c : cursor) (i : Nat),
    sh.okb m → i < sh.nodes.length → c.current.header = some i →
    sh.is_path (sh.ptr (.next i)) (run ++ rest) →
    (∀ x ∈ run, sh.expired node_life c.local_time x = true) →
    (∀ y, rest.head? = some y → sh.expired node_life c.local_time y = false) →
    run.length < fuel →
    (shape.go_next_loop node_life fuel sh c).2.is_path
      (if keep then sh.ptr (.next i)
        else (shape.go_next_loop node_life fuel sh c).2.ptr (.next i))
      (every_other keep run ++ rest) ∧
    (∀ r0, (∀ k, r0 = .next k → k < i) →
      (shape.go_next_loop node_life fuel sh c).2.ptr r0 = sh.ptr r0) ∧
    (shape.go_next_loop node_life fuel sh c).1.current.header = rest.head? := by
  intro run
  induction run with
  | nil =>
    intro keep fuel sh c i hok hi hc hpath _ hrest hfuel
    obtain ⟨f, rfl⟩ := Nat.exists_eq_succ_of_ne_zero (Nat.pos_iff_ne_zero.mp hfuel)
    simp only [List.nil_append] at hpath
    have hhd := is_path_head hpath
    have hst : shape.stale node_life sh (sh.advance c i) = false := by
      rw [stale_advance, hhd]
      cases hr : rest.head? with
      | none => rfl
      | some y => exact hrest y hr
    unfold shape.go_next_loop
    simp only [hc, hst, Bool.false_eq_true, if_false]
    refine ⟨?_, fun _ _ => trivial, hhd⟩
    cases keep <;> exact hpath
  | cons x run ih =>
    intro keep fuel sh c i hok hi hc hpath hrun hrest hfuel
    obtain ⟨f, rfl⟩ := Nat.exists_eq_succ_of_ne_zero
      (Nat.pos_iff_ne_zero.mp (Nat.lt_of_le_of_lt (Nat.zero_le _) hfuel))
    simp only [List.cons_append] at hpath
    have hx : sh.ptr (.next i) = some x := hpath.1
    have hex := hrun x (List.mem_cons_self _ _)
    have hxl := expired_lt hex
    have hix : i < x := (ptr_lt_of_okb hok hx).2 i rfl
    have hst : shape.stale node_life sh (sh.advance c i) = true := by
      rw [stale_advance, hx]; exact hex
    have hne : slot_ref.next x ≠ slot_ref.next i := fun e => by cases e; omega
    have hvi : (sh.set_mark (.next x) true).valid_slot (.next i) := by
      show i < (sh.set_mark (.next x) true).nodes.length
      rw [set_mark_nodes_length]; exact hi
    obtain ⟨sh2, hsh2⟩ : ∃ sh2, sh2 = (sh.remove (sh.advance c i)).2 := ⟨_, rfl⟩
    have hsh2b := hsh2
    rw [remove_advance hx] at hsh2b
    have hpl : sh2.payload = sh.payload := by rw [hsh2]; exact payload_remove _ _
    have hp_i : sh2.ptr (.next i) = sh.ptr (.next x) := by
      rw [hsh2b, ptr_set_slot_same _ hvi]
    have hp_o : ∀ r0, r0 ≠ .next i → sh2.ptr r0 = sh.ptr r0 := by
      intro r0 hr0
      rw [hsh2b, ptr_set_slot_other _ hr0, ptr_set_mark]
    have hgt := path_gt hok hpath.2
    have hpath2 : sh2.is_path (sh2.ptr (.next x)) (run ++ rest) := by
      rw [hp_o _ hne]
      apply is_path_congr _ _ _ hpath.2
      intro a ha
      apply hp_o
      intro e
      cases e
      have := hgt i ha
      omega
    unfold shape.go_next_loop
    simp only [hc, hst, if_true]
    rw [← hsh2]
    have hIH := ih (!keep) f sh2 (sh.advance c i) x (by rw [hsh2]; exact okb_remove hok _)
      (by rw [hsh2, remove_nodes_length]; exact hxl) hx hpath2
      (fun y hy => by
        rw [expired_congr hpl]; exact hrun y (List.mem_cons_of_mem _ hy))
      (fun y hy => by
        rw [expired_congr hpl]; exact hrest y hy)
      (by simp only [List.length_cons] at hfuel; omega)
    obtain ⟨hA, hB, hC⟩ := hIH
    refine ⟨?_, ?_, hC⟩
    · cases keep with
      | true =>
        simp only [Bool.not_true, Bool.false_eq_true, if_false] at hA
        simp only [if_true, every_other, List.cons_append]
        exact ⟨hx, hA⟩
      | false =>
        simp only [Bool.not_false, if_true] at hA
        simp only [Bool.false_eq_true, if_false, every_other]
        rw [hB (.next i) (fun k hk => by cases hk; exact hix), hp_i, ← hp_o _ hne]
        exact hA
    · intro r0 hr0
      rw [hB r0 (fun k hk => by have := hr0 k hk; omega)]
      apply hp_o
      intro e
      have := hr0 i e
      omega


theorem every_other_mem : ∀ (l : List Nat) (keep : Bool) (a : Nat),
    a ∈ every_other keep l → a ∈ l := by
  intro l
  induction l with
  | nil => intro keep a h; cases keep <;> simp [every_other] at h
  | cons x l ih =>
    intro keep a h
    cases keep with
    | true =>
      simp only [every_other, List.mem_cons] at h
      rcases h with h | h
      · rw [h]; exact List.mem_cons_self _ _
      · exact List.mem_cons_of_mem _ (ih false a h)
    | false =>
      simp only [every_other] at h
      exact List.mem_cons_of_mem _ (ih true a h)

/-- A list keeps its cells in front of cell `i` when their `next` pointers are kept, and
goes on behind `i` with the list that starts at the `next` pointer of `i`. -/
theorem path_replace_tail {sh sh1 : shape} {i : Nat} {l l2 : List Nat} :
    ∀ (l1 : List Nat) (p : Option Nat), sh.is_path p (l1 ++ i :: l) →
    (∀ a ∈ l1, sh1.ptr (.next a) = sh.ptr (.next a)) →
    sh1.is_path (sh1.ptr (.next i)) l2 → sh1.is_path p (l1 ++ i :: l2) := by
  intro l1
  induction l1 with
  | nil =>
    intro p h _ h2
    exact ⟨h.1, h2⟩
  | cons a l1 ih =>
    intro p h ha h2
    refine ⟨h.1, ?_⟩
    rw [ha a (List.mem_cons_self _ _)]
    exact ih _ h.2 (fun a2 ha2 => ha a2 (List.mem_cons_of_mem _ ha2)) h2

theorem expired_run_heap_ok : expired_run_heap.shape.ok := by
  constructor
  · intro i n hn j hj
    match i with
    | 0 =>
      simp [expired_run_heap, heap.shape, shared_ptr_header.view] at hn
      subst hn
      simp at hj
      subst hj
      simp [expired_run_heap, heap.shape]
    | 1 =>
      simp [expired_run_heap, heap.shape, shared_ptr_header.view] at hn
      subst hn
      simp at hj
      subst hj
      simp [expired_run_heap, heap.shape]
    | 2 =>
      simp [expired_run_heap, heap.shape, shared_ptr_header.view] at hn
      subst hn
      simp at hj
    | 3 =>
      simp [expired_run_heap, heap.shape, shared_ptr_header.view] at hn
      subst hn
      simp at hj
    | k + 4 => simp [expired_run_heap, heap.shape] at hn
  · intro b v hv j hj
    match b with
    | 0 =>
      simp [expired_run_heap, heap.shape, counted_ptr.view] at hv
      subst hv
      simp at hj
      subst hj
      simp [expired_run_heap, heap.shape]
    | 1 =>
      simp [expired_run_heap, heap.shape, counted_ptr.view] at hv
      subst hv
      simp at hj
      subst hj
      simp [expired_run_heap, heap.shape]
    | k + 2 => simp [expired_run_heap, heap.shape] at hv

theorem expired_run_cursor_valid :
    expired_run_cursor.validb expired_run_heap.shape.nodes.length expired_run_heap.shape := by
  refine ⟨?_, ?_, ?_, rfl⟩
  · show 0 < 2
    decide
  · intro i hi
    cases hi
    show 0 < 4
    decide
  · intro i hi
    cases hi

/-- The memory `expired_run_heap` is what the four calls leave, with the clock at 4, and
the cursor `expired_run_cursor` is what the constructor makes on it. -/
theorem expired_run_heap_reached :
    (cache.run (fun x : Nat => x * x) id 2 1 (cache.create Nat Nat 2) [0, 2, 4, 1]).map
      (fun r => (r.2.mem, r.2.time)) = some (expired_run_heap, 4) := by
  decide

theorem expired_run_cursor_reached :
    (cursor.create 1 expired_run_heap (.head 0) 4).map (fun r => (r.1, r.2.shape)) =
      some (expired_run_cursor, expired_run_heap.shape) := by
  decide

/-- C12 (counterexample): bucket 0 holds the cells with time stamps 0, 1, 2; at local
time 4 with node life 1 the cells 1 and 2 are a run of two expired cells behind cell 0.
After `go_next` from cell 0 returns (with false), cell 2 is still reachable from the
head of the bucket. -/
theorem expired_run_second_stays :
    expired_run_go_next = some ([(0, 0), (1, 1), (2, 2)], false, [(0, 0), (2, 2)]) ∧
    (1 : Int) + 1 < 4 ∧ (2 : Int) + 1 < 4 := by
  decide

/-- The function `go_next` over a run of expired cells. The cursor stands on the cell
`i` of the list of bucket `b`; the list goes on behind `i` with the cells `run`, each with
`time_stamp + node_life < local_time`, and then with `rest`, whose first cell (if any)
does not satisfy this. Then `go_next` ends and returns whether `rest` is not empty, and
afterwards the list of bucket `b` is the old one without the first, third, fifth, ...
cell of the run. -/
theorem go_next_run_list (node_life : Int) (h : heap) (c : cursor) (b i : Nat)
    (l1 run rest : List Nat) (hok : h.shape.ok)
    (hc : c.validb h.shape.nodes.length h.shape) (hcur : c.current.header = some i)
    (hpath : h.shape.is_path (h.shape.ptr (.head b)) (l1 ++ i :: (run ++ rest)))
    (hrun : ∀ x ∈ run, h.shape.expired node_life c.local_time x = true)
    (hrest : ∀ y, rest.head? = some y → h.shape.expired node_life c.local_time y = false) :
    ∃ c1 h1, cursor.go_next node_life h c = some (decide (rest ≠ []), c1, h1) ∧
      c1.current.header = rest.head? ∧
      h1.shape.is_path (h1.shape.ptr (.head b))
        (l1 ++ i :: (every_other false run ++ rest)) ∧
      ∀ x, run.head? = some x → x ∉ l1 ++ i :: (every_other false run ++ rest) := by
  obtain ⟨h1, e1, s1⟩ := go_next_refines node_life hok hc
  have hsuf : h.shape.is_path (h.shape.ptr (.next i)) (run ++ rest) := by
    have h2 := is_path_suffix (l1 ++ [i]) (run ++ rest) (.head b)
      (by rw [List.append_assoc]; exact hpath)
    rwa [link_slot_concat] at h2
  have hlen := path_length_le hok hsuf
  have hrun_len : run.length < h.shape.nodes.length + 1 := by
    simp only [List.length_append] at hlen
    omega
  obtain ⟨hA, hB, hC⟩ := go_next_loop_run node_life h.shape.nodes.length rest run false
    (h.shape.nodes.length + 1) h.shape c i hok (hc.current_lt i hcur) hcur hsuf hrun hrest
    hrun_len
  simp only [Bool.false_eq_true, if_false] at hA
  have hpl := is_path_lt hok _ _ (fun _ hj => (ptr_lt_of_okb hok hj).1) hpath
  have hpw := List.pairwise_append.mp hpl.2.1
  refine ⟨(shape.go_next node_life h.shape c).1, h1, ?_, hC, ?_, ?_⟩
  · rw [e1]
    have : (shape.go_next node_life h.shape c).1.current.to_bool = decide (rest ≠ []) := by
      have hC2 : (shape.go_next node_life h.shape c).1.current.header = rest.head? := hC
      simp only [shared_ptr.to_bool, hC2]
      cases rest <;> simp
    rw [this]
  · rw [s1]
    unfold shape.go_next
    rw [hB (.head b) (fun k hk => by cases hk)]
    apply path_replace_tail l1 _ hpath _ hA
    intro a ha
    apply hB
    intro k hk
    cases hk
    exact hpw.2.2 a ha i (List.mem_cons_self _ _)
  · intro x hx hmem
    cases run with
    | nil => cases hx
    | cons x0 run1 =>
      simp only [List.head?_cons, Option.some.injEq] at hx
      subst hx
      have hpw2 := List.pairwise_cons.mp hpw.2.1
      have hpw3 := List.pairwise_cons.mp hpw2.2
      simp only [every_other] at hmem
      rcases List.mem_append.mp hmem with hm | hm
      · have := hpw.2.2 x0 hm x0
          (List.mem_cons_of_mem _ (List.mem_cons_self _ _))
        omega
      · rcases List.mem_cons.mp hm with hm | hm
        · have := hpw2.1 x0 (List.mem_cons_self _ _)
          omega
        · have hin : x0 ∈ run1 ++ rest := by
            rcases List.mem_append.mp hm with hm | hm
            · exact List.mem_append_left _ (every_other_mem _ _ _ hm)
            · exact List.mem_append_right _ hm
          have := hpw3.1 x0 hin
          omega


/-- A memory with well-formed lists and a cursor whose `current` is the cell `i` of the
list of bucket `b`, where the cell `x` behind `i` in the list has
`time_stamp + node_life < local_time` (it starts a run of expired cells of any length).
Then `go_next` (whose compare-exchanges fail only when the values differ) ends, and
afterwards `x`, the first cell of the run, is not reachable from the head of the
bucket. -/
theorem go_next_first_unlinked (node_life : Int) (h : heap) (c : cursor) (b i x : Nat)
    (l1 l2 : List Nat) (hok : h.shape.ok)
    (hc : c.validb h.shape.nodes.length h.shape) (hcur : c.current.header = some i)
    (hpath : h.shape.is_path (h.shape.ptr (.head b)) (l1 ++ i :: x :: l2))
    (hx : h.shape.expired node_life c.local_time x = true) :
    ∃ r c1 h1, cursor.go_next node_life h c = some (r, c1, h1) ∧
      ∀ l, h1.shape.is_path (h1.shape.ptr (.head b)) l → x ∉ l := by
  obtain ⟨run, hrun⟩ : ∃ run, run =
    (x :: l2).takeWhile (fun y => h.shape.expired node_life c.local_time y) := ⟨_, rfl⟩
  obtain ⟨rest, hrest⟩ : ∃ rest, rest =
    (x :: l2).dropWhile (fun y => h.shape.expired node_life c.local_time y) := ⟨_, rfl⟩
  have happ : run ++ rest = x :: l2 := by
    rw [hrun, hrest]; exact List.takeWhile_append_dropWhile _ _
  have hhead : run.head? = some x := by
    rw [hrun, List.takeWhile_cons, if_pos hx]; rfl
  obtain ⟨c1, h1, e1, _, hp1, hnot⟩ := go_next_run_list node_life h c b i l1 run rest hok hc
    hcur (by rw [happ]; exact hpath)
    (fun y hy => by
      rw [hrun] at hy
      exact List.mem_takeWhile_imp hy)
    (fun y hy => by
      have := List.head?_dropWhile_not (fun y => h.shape.expired node_life c.local_time y)
        (x :: l2)
      rw [← hrest, hy] at this
      simpa using this)
  refine ⟨_, c1, h1, e1, ?_⟩
  intro l hl
  rw [is_path_unique _ _ _ hl hp1]
  exact hnot x hhead


/-- With enough fuel the chain from a pointer is the list that starts there. -/
theorem chain_is_path {sh : shape} {m : Nat} (hok : sh.okb m) :
    ∀ (f : Nat) (p : Option Nat), (∀ j, p = some j → j < m ∧ m - j ≤ f) →
    sh.is_path p (shape.chain f sh p) := by
  intro f
  induction f with
  | zero =>
    intro p hp
    cases p with
    | none => rfl
    | some j => have := hp j rfl; omega
  | succ f ih =>
    intro p hp
    cases p with
    | none => rfl
    | some j =>
      refine ⟨rfl, ih _ ?_⟩
      intro j2 hj2
      have := ptr_lt_of_okb hok hj2
      have := this.2 j rfl
      have := hp j rfl
      omega

/-- Every call makes exactly one cell, stamped with the tick the call read. -/
theorem payload_call {K V : Type} [DecidableEq K] (hsh : K → Nat) (buckets : Nat)
    (node_life : Int) (kvs : List (KV K V)) (t : Int) {sh : shape} (data : K) (hok : sh.ok)
    (hb : hsh data % buckets < sh.heads.length) :
    ∃ d, (shape.call hsh buckets node_life kvs t sh data).2.payload = sh.payload ++ [(d, t)] := by
  have hc0 := validb_create sh (b := hsh data % buckets) t hok hb
  have hl := lookup_loop_inv node_life kvs data sh.nodes.length (sh.nodes.length + 1) sh
    (sh.cursor_create (.head (hsh data % buckets)) t) hok hc0
  have hpl := payload_lookup_loop node_life kvs data (sh.nodes.length + 1) sh
    (sh.cursor_create (.head (hsh data % buckets)) t)
  unfold shape.call
  simp only
  generalize shape.lookup_loop node_life kvs data (sh.nodes.length + 1) sh
    (sh.cursor_create (.head (hsh data % buckets)) t) = r at hl hpl
  obtain ⟨ri, rc, rsh⟩ := r
  simp only at hl hpl ⊢
  cases ri with
  | none => exact ⟨_, by rw [payload_push_end, hpl]⟩
  | some i =>
    simp only
    have hi := hl.2.1.current_lt i (hl.2.2.2.2 i rfl)
    rw [← hl.2.2.1] at hi
    simp only [List.getElem?_eq_getElem hi]
    exact ⟨_, by rw [payload_pop_first, payload_push_end, hpl]⟩

theorem stamped_create (K V : Type) (buckets : Nat) : (cache.create K V buckets).stamped := by
  refine ⟨rfl, ?_⟩
  intro j n hn
  simp [cache.create, heap.shape] at hn

/-- A call keeps the clock equal to the number of cells and stamps its cell with the
address of the cell. -/
theorem call_stamped {K V : Type} [DecidableEq K] (fnc : K → V) (hsh : K → Nat)
    {buckets : Nat} (node_life : Int) {s : cache K V} (data : K) (hB : 0 < buckets)
    (hinv : cache.inv fnc buckets s) (hst : s.stamped) :
    ∃ s1, cache.call fnc hsh buckets node_life s data = some (fnc data, s1) ∧
      cache.inv fnc buckets s1 ∧ s1.stamped ∧ s1.time = s.time + 1 := by
  obtain ⟨s1, e1, hs1, ht1, _, _, hinv1⟩ := call_refines fnc hsh node_life data hB hinv
  have hb : hsh data % buckets < s.mem.shape.heads.length := by
    rw [hinv.heads]; exact Nat.mod_lt _ hB
  obtain ⟨d, hd⟩ := payload_call hsh buckets node_life s.kvs s.time data hinv.ok hb
  rw [← hs1] at hd
  have hlen : s1.mem.shape.nodes.length = s.mem.shape.nodes.length + 1 := by
    have := congrArg List.length hd
    simpa [payload_length] using this
  refine ⟨s1, e1, hinv1, ⟨?_, ?_⟩, ht1⟩
  · rw [ht1, hlen, hst.time_eq]
    push_cast
    rfl
  · intro j n hn
    have h1 := payload_of_node hn
    rw [hd] at h1
    by_cases hj : j < s.mem.shape.nodes.length
    · rw [List.getElem?_append_left (by rw [payload_length]; exact hj), payload_get,
        List.getElem?_eq_getElem hj] at h1
      simp only [Option.map_some', Option.some.injEq, Prod.mk.injEq] at h1
      rw [← h1.2]
      exact hst.stamp j _ (List.getElem?_eq_getElem hj)
    · have hjl : j < s1.mem.shape.nodes.length := (List.getElem?_eq_some_iff.mp hn).1
      have hje : j = s.mem.shape.nodes.length := by omega
      rw [List.getElem?_append_right (by rw [payload_length]; omega), payload_length, hje] at h1
      simp only [Nat.sub_self, List.getElem?_cons_zero, Option.some.injEq, Prod.mk.injEq] at h1
      rw [← h1.2, hst.time_eq, hje]

theorem run_stamped {K V : Type} [DecidableEq K] (fnc : K → V) (hsh : K → Nat)
    {buckets : Nat} (node_life : Int) (hB : 0 < buckets) :
    ∀ (ks : List K) (s : cache K V), cache.inv fnc buckets s → s.stamped →
    ∃ s1, cache.run fnc hsh buckets node_life s ks = some (ks.map fnc, s1) ∧
      cache.inv fnc buckets s1 ∧ s1.stamped ∧ s1.time = s.time + (ks.length : Int) := by
  intro ks
  induction ks with
  | nil => intro s hs hst; exact ⟨s, rfl, hs, hst, by simp⟩
  | cons k ks ih =>
    intro s hs hst
    obtain ⟨s1, e1, hs1, hst1, ht1⟩ := call_stamped fnc hsh node_life k hB hs hst
    obtain ⟨s2, e2, hs2, hst2, ht2⟩ := ih s1 hs1 hst1
    refine ⟨s2, by simp [cache.run, e1, e2], hs2, hst2, ?_⟩
    rw [ht2, ht1]
    simp only [List.length_cons]
    push_cast
    omega

/-- The cells of a bucket list come in increasing order of address, and each is listed
with its content. -/
theorem bucket_sorted {sh : shape} (hok : sh.ok) (b : Nat) :
    (sh.bucket b).Pairwise (fun p q => p.1 < q.1) ∧
    ∀ p ∈ sh.bucket b, sh.nodes[p.1]? = some p.2 := by
  have hp := chain_is_path hok sh.nodes.length (sh.ptr (.head b))
    (fun j hj => ⟨(ptr_lt_of_okb hok hj).1, Nat.sub_le _ _⟩)
  have hl := is_path_lt hok _ _ (fun _ hj => (ptr_lt_of_okb hok hj).1) hp
  constructor
  · unfold shape.bucket
    rw [List.pairwise_filterMap]
    apply hl.2.1.imp
    intro i j hij p hp q hq
    simp only [Option.mem_def, Option.map_eq_some'] at hp hq
    obtain ⟨_, _, rfl⟩ := hp
    obtain ⟨_, _, rfl⟩ := hq
    exact hij
  · intro p hp
    unfold shape.bucket at hp
    rw [List.mem_filterMap] at hp
    obtain ⟨i, _, hi⟩ := hp
    simp only [Option.map_eq_some'] at hi
    obtain ⟨n, hn, rfl⟩ := hi
    exact hn

/-- C17: for every function, hash, number `buckets ≥ 1` of buckets, node life and
sequence `ks` of calls on a fresh cache, the run ends; afterwards the clock is the
number of calls made (so the n-th call, n = 0, 1, 2, ..., reads tick n), the cell at
address `j` is the one the j-th call made and carries time stamp `j`, and along the
list of every bucket, from the head to the tail, the time stamps are strictly
increasing and each is smaller than the clock. -/
theorem timestamps_increase {K V : Type} [DecidableEq K] (fnc : K → V) (hsh : K → Nat)
    (buckets : Nat) (node_life : Int) (ks : List K) (hB : 1 ≤ buckets) :
    ∃ s, cache.run fnc hsh buckets node_life (cache.create K V buckets) ks =
        some (ks.map fnc, s) ∧
      s.time = (ks.length : Int) ∧
      s.mem.shape.payload.map (fun p => p.2) = (List.range ks.length).map (fun (j : Nat) => (j : Int)) ∧
      ∀ b, ((s.mem.shape.bucket b).map (fun p => p.2.time_stamp)).Pairwise (· < ·) ∧
        ∀ p ∈ s.mem.shape.bucket b, p.2.time_stamp < s.time := by
  obtain ⟨s, e, hinv, hst, ht⟩ := run_stamped fnc hsh node_life hB ks _
    (inv_create fnc buckets) (stamped_create K V buckets)
  have ht2 : s.time = (ks.length : Int) := by
    rw [ht]; simp [cache.create]
  have hlen : s.mem.shape.nodes.length = ks.length := by
    have := hst.time_eq
    rw [ht2] at this
    exact_mod_cast this.symm
  refine ⟨s, e, ht2, ?_, ?_⟩
  · apply List.ext_getElem?
    intro j
    simp only [List.getElem?_map, payload_get]
    by_cases hj : j < ks.length
    · have hj2 : j < s.mem.shape.nodes.length := by rw [hlen]; exact hj
      rw [List.getElem?_eq_getElem hj2, List.getElem?_range hj]
      simp only [Option.map_some']
      rw [hst.stamp j _ (List.getElem?_eq_getElem hj2)]
    · have hj2 : s.mem.shape.nodes.length ≤ j := by rw [hlen]; omega
      rw [List.getElem?_eq_none hj2, List.getElem?_eq_none (by simpa using hj)]
      rfl
  · intro b
    obtain ⟨hs1, hs2⟩ := bucket_sorted hinv.ok b
    constructor
    · rw [List.pairwise_map]
      apply (List.Pairwise.and_mem.mp hs1).imp
      intro p q hpq
      rw [hst.stamp _ _ (hs2 p hpq.1), hst.stamp _ _ (hs2 q hpq.2.1)]
      exact_mod_cast hpq.2.2
    · intro p hp
      have hn := hs2 p hp
      rw [hst.stamp _ _ hn, hst.time_eq]
      exact_mod_cast (List.getElem?_eq_some_iff.mp hn).1

theorem timestamps_increase_witness :
    1 ≤ 2 ∧ ∃ s, cache.run (fun x : Nat => x * x) id 2 1 (cache.create Nat Nat 2)
        [0, 2, 4, 1] = some ([0, 2, 4, 1].map (fun x : Nat => x * x), s) ∧
      s.time = ([0, 2, 4, 1].length : Int) ∧
      s.mem.shape.payload.map (fun p => p.2) =
        (List.range [0, 2, 4, 1].length).map (fun (j : Nat) => (j : Int)) ∧
      ∀ b, ((s.mem.shape.bucket b).map (fun p => p.2.time_stamp)).Pairwise (· < ·) ∧
        ∀ p ∈ s.mem.shape.bucket b, p.2.time_stamp < s.time :=
  ⟨by decide, timestamps_increase (fun x : Nat => x * x) id 2 1 [0, 2, 4, 1] (by decide)⟩

/-- The run `cache(0), cache(2), cache(4), cache(1)` with two buckets, evaluated: the
clock ends at 4 and the two bucket lists carry the time stamps 0, 1, 2 and 3. -/
theorem four_calls_stamps :
    (cache.run (fun x : Nat => x * x) id 2 1 (cache.create Nat Nat 2) [0, 2, 4, 1]).map
      (fun r => (r.2.time, (r.2.mem.shape.bucket 0).map (fun p => p.2.time_stamp),
        (r.2.mem.shape.bucket 1).map (fun p => p.2.time_stamp))) =
    some (4, [0, 1, 2], [3]) := by
  decide


/-- C13 (failing input): thread A, in `cache::push_end`, has walked its cursor to the end
of the empty list (`current` null, `owner` the head); thread B then appends its cell `X`
(address 1) to the head; thread A calls `c.push_end(n)`. The call returns true and the
head holds `n` (address 0): `X` is no longer reachable from the head. -/
theorem stale_push_end_displaces : stale_push_end = some (true, [1], [0]) := by
  decide

/-- C16 (failing input): after a compare-exchange that replaces a cell by a handle to the
same cell (it returns true) the access count of the slot is -1, which is negative. -/
theorem same_cell_exchange_negative :
    same_cell_exchange.map (fun r => (r.1, r.2.1.access_count,
      decide (0 ≤ r.2.1.access_count))) = some (true, -1, false) := by
  decide

theorem compare_exchange_weak_sp_false (h : heap) (r : slot_ref) (expected newptr : shared_ptr) :
    atomic_shared_ptr.compare_exchange_weak_sp false h r expected newptr =
      atomic_shared_ptr.compare_exchange_weak h r expected newptr := rfl

theorem remove_sp_false (h : heap) (c : cursor) :
    cursor.remove_sp false h c = cursor.remove h c := rfl

theorem go_next_loop_sp_false (node_life : Int) : ∀ (fuel : Nat) (sp : List Bool) (h : heap)
    (c : cursor), (∀ b ∈ sp, b = false) →
    cursor.go_next_loop_sp node_life fuel sp h c = cursor.go_next_loop node_life fuel h c
  | 0, _, _, _, _ => rfl
  | fuel + 1, sp, h, c, hsp => by
    have h0 : sp.headD false = false := by
      cases sp with
      | nil => rfl
      | cons b l => exact hsp b (List.mem_cons_self _ _)
    have ht : ∀ b ∈ sp.tail, b = false := fun b hb => hsp b (List.mem_of_mem_tail hb)
    simp only [cursor.go_next_loop_sp, cursor.go_next_loop, h0, remove_sp_false,
      go_next_loop_sp_false node_life fuel sp.tail _ _ ht]

theorem go_next_sp_false (node_life : Int) (sp : List Bool) (h : heap) (c : cursor)
    (hsp : ∀ b ∈ sp, b = false) :
    cursor.go_next_sp node_life sp h c = cursor.go_next node_life h c := by
  simp only [cursor.go_next_sp, cursor.go_next,
    go_next_loop_sp_false node_life _ sp h c hsp]

/-- C12 (amended): a memory with well-formed lists and a cursor whose `current` is the
cell `i` of the list of bucket `b`, where the cell `x` behind `i` in the list has
`time_stamp + node_life < local_time` (it starts a run of expired cells of any length).
If no compare-exchange at the end of `remove` fails spuriously (`sp` holds `false` only;
the other weak compare-exchanges never do in this model), then `go_next` ends, and
afterwards `x`, the first cell of the run, is not reachable from the head of the
bucket. -/
theorem go_next_unlinks_first (node_life : Int) (sp : List Bool) (h : heap) (c : cursor)
    (b i x : Nat) (l1 l2 : List Nat) (hsp : ∀ s ∈ sp, s = false) (hok : h.shape.ok)
    (hc : c.validb h.shape.nodes.length h.shape) (hcur : c.current.header = some i)
    (hpath : h.shape.is_path (h.shape.ptr (.head b)) (l1 ++ i :: x :: l2))
    (hx : h.shape.expired node_life c.local_time x = true) :
    ∃ r c1 h1, cursor.go_next_sp node_life sp h c = some (r, c1, h1) ∧
      ∀ l, h1.shape.is_path (h1.shape.ptr (.head b)) l → x ∉ l := by
  rw [go_next_sp_false node_life sp h c hsp]
  exact go_next_first_unlinked node_life h c b i x l1 l2 hok hc hcur hpath hx

theorem go_next_unlinks_first_witness :
    (∀ s ∈ [false, false], s = false) ∧
    expired_run_heap.shape.ok ∧
    expired_run_cursor.validb expired_run_heap.shape.nodes.length expired_run_heap.shape ∧
    expired_run_cursor.current.header = some 0 ∧
    expired_run_heap.shape.is_path (expired_run_heap.shape.ptr (.head 0))
      ([] ++ 0 :: 1 :: [2]) ∧
    expired_run_heap.shape.expired 1 expired_run_cursor.local_time 1 = true ∧
    ∃ r c1 h1, cursor.go_next_sp 1 [false, false] expired_run_heap expired_run_cursor =
        some (r, c1, h1) ∧
      ∀ l, h1.shape.is_path (h1.shape.ptr (.head 0)) l → 1 ∉ l :=
  ⟨(by decide), expired_run_heap_ok, expired_run_cursor_valid, rfl, ⟨rfl, rfl, rfl, rfl⟩,
    (by decide),
    go_next_unlinks_first 1 [false, false] expired_run_heap expired_run_cursor 0 0 1 [] [2]
      (by decide) expired_run_heap_ok expired_run_cursor_valid rfl ⟨rfl, rfl, rfl, rfl⟩
      (by decide)⟩

/-- With a spurious failure of the compare-exchange in the first call of `remove`, the
first cell of the run of expired cells (address 1) stays in the list; the second one is
unlinked by the next call of `remove`. -/
theorem spurious_failure_keeps_first :
    expired_run_go_next_sp [true] = some ([(0, 0), (1, 1), (2, 2)], false, [(0, 0), (1, 1)]) ∧
    expired_run_go_next_sp [] = expired_run_go_next := by
  constructor
  · decide
  · decide


theorem sum_map_set {α : Type} (f : α → Int) : ∀ (l : List α) (b : Nat) (v w : α),
    l[b]? = some v → ((l.set b w).map f).sum = (l.map f).sum - f v + f w := by
  intro l
  induction l with
  | nil => intro b v w h; simp at h
  | cons a l ih =>
    intro b v w h
    cases b with
    | zero =>
      simp only [List.getElem?_cons_zero, Option.some.injEq] at h
      subst h
      simp only [List.set_cons_zero, List.map_cons, List.sum_cons]
      omega
    | succ b =>
      simp only [List.getElem?_cons_succ] at h
      simp only [List.set_cons_succ, List.map_cons, List.sum_cons, ih b v w h]
      omega

theorem sum_map_nonneg {α : Type} (f : α → Int) (hf : ∀ a, 0 ≤ f a) : ∀ (l : List α),
    0 ≤ (l.map f).sum := by
  intro l
  induction l with
  | nil => simp
  | cons a l ih =>
    simp only [List.map_cons, List.sum_cons]
    have := hf a
    omega

theorem sum_map_ge {α : Type} (f : α → Int) (hf : ∀ a, 0 ≤ f a) : ∀ (l : List α) (a : α),
    a ∈ l → f a ≤ (l.map f).sum := by
  intro l
  induction l with
  | nil => intro a h; simp at h
  | cons x l ih =>
    intro a h
    simp only [List.map_cons, List.sum_cons]
    rcases List.mem_cons.mp h with h | h
    · subst h
      have := sum_map_nonneg f hf l
      omega
    · have := ih a h
      have := hf x
      omega

theorem sum_map_zero {α : Type} (f : α → Int) : ∀ (l : List α), (∀ a ∈ l, f a = 0) →
    (l.map f).sum = 0 := by
  intro l
  induction l with
  | nil => intro _; simp
  | cons a l ih =>
    intro h
    simp only [List.map_cons, List.sum_cons, h a (List.mem_cons_self _ _),
      ih (fun x hx => h x (List.mem_cons_of_mem _ hx))]
    rfl

theorem ind_nonneg (p : Prop) [Decidable p] : (0 : Int) ≤ if p then 1 else 0 := by
  split <;> decide

theorem handle_count_append (L : List shared_ptr) (x : shared_ptr) (c : Nat) :
    handle_count (L ++ [x]) c = handle_count L c + if x.header = some c then 1 else 0 := by
  simp [handle_count]

/-- Clearing the handle at position `k` (a null temporary behind the list). -/
theorem handle_count_clear (L : List shared_ptr) (k c : Nat) :
    handle_count (L.set k shared_ptr.null) c =
      handle_count L c - if (L.getD k shared_ptr.null).header = some c then 1 else 0 := by
  by_cases hk : k < L.length
  · have h1 := sum_map_set (fun s : shared_ptr => if s.header = some c then (1 : Int) else 0)
      L k L[k] shared_ptr.null (List.getElem?_eq_getElem hk)
    unfold handle_count
    rw [h1]
    simp [List.getD_eq_getElem?_getD, List.getElem?_eq_getElem hk, shared_ptr.null]
  · have h2 : L.length ≤ k := Nat.le_of_not_lt hk
    simp [handle_count, List.set_eq_of_length_le h2, List.getD_eq_getElem?_getD,
      List.getElem?_eq_none h2, shared_ptr.null]

theorem handle_count_put (L : List shared_ptr) (e c : Nat) (x : shared_ptr) :
    handle_count (put_handle L e x) c =
      handle_count L c - (if (L.getD e shared_ptr.null).header = some c then 1 else 0) +
        if x.header = some c then 1 else 0 := by
  unfold put_handle
  by_cases he : e < L.length
  · have h1 := sum_map_set (fun s : shared_ptr => if s.header = some c then (1 : Int) else 0)
      L e L[e] x (List.getElem?_eq_getElem he)
    simp only [he, if_true]
    unfold handle_count
    rw [h1]
    simp [List.getD_eq_getElem?_getD, List.getElem?_eq_getElem he]
  · have h2 : L.length ≤ e := Nat.le_of_not_lt he
    simp [he, handle_count, List.getD_eq_getElem?_getD, List.getElem?_eq_none h2,
      shared_ptr.null]

theorem handle_count_nonneg (L : List shared_ptr) (c : Nat) : 0 ≤ handle_count L c :=
  sum_map_nonneg _ (fun _ => ind_nonneg _) L

theorem slot_count_nonneg (hs : List counted_ptr) (c : Nat) : 0 ≤ slot_count hs c :=
  sum_map_nonneg _ (fun _ => ind_nonneg _) hs

/-- A handle of the list (or the null temporary) that points to `c` is counted. -/
theorem handle_count_getD {L : List shared_ptr} {k c : Nat}
    (h : (L.getD k shared_ptr.null).header = some c) : 1 ≤ handle_count L c := by
  by_cases hk : k < L.length
  · have hm : L[k] ∈ L := List.getElem_mem hk
    have := sum_map_ge (fun s : shared_ptr => if s.header = some c then (1 : Int) else 0)
      (fun _ => ind_nonneg _) L L[k] hm
    simp only [List.getD_eq_getElem?_getD, List.getElem?_eq_getElem hk, Option.getD_some] at h
    simpa [handle_count, h] using this
  · have h2 : L.length ≤ k := Nat.le_of_not_lt hk
    simp [List.getD_eq_getElem?_getD, List.getElem?_eq_none h2, shared_ptr.null] at h

theorem getD_mem_or_null (L : List shared_ptr) (k : Nat) :
    L.getD k shared_ptr.null ∈ L ∨ L.getD k shared_ptr.null = shared_ptr.null := by
  by_cases hk : k < L.length
  · left
    simp only [List.getD_eq_getElem?_getD, List.getElem?_eq_getElem hk, Option.getD_some]
    exact List.getElem_mem hk
  · right
    simp [List.getD_eq_getElem?_getD, List.getElem?_eq_none (Nat.le_of_not_lt hk)]

theorem slot_count_pos {hs : List counted_ptr} {b c : Nat} {v : counted_ptr}
    (hv : hs[b]? = some v) (hc : v.ptr = some c) : 1 ≤ slot_count hs c := by
  have hm : v ∈ hs := List.getElem?_mem hv
  have := sum_map_ge (fun s : counted_ptr => if s.ptr = some c then (1 : Int) else 0)
    (fun _ => ind_nonneg _) hs v hm
  simpa [slot_count, hc] using this

theorem slot_count_set {hs : List counted_ptr} {b : Nat} {v : counted_ptr} (w : counted_ptr)
    (hv : hs[b]? = some v) (c : Nat) :
    slot_count (hs.set b w) c = slot_count hs c - (if v.ptr = some c then 1 else 0) +
      if w.ptr = some c then 1 else 0 :=
  sum_map_set _ hs b v w hv

theorem access_sum_set {hs : List counted_ptr} {b : Nat} {v : counted_ptr} (w : counted_ptr)
    (hv : hs[b]? = some v) (c : Nat) :
    access_sum (hs.set b w) c = access_sum hs c -
      (if v.ptr = some c then v.access_count else 0) +
      if w.ptr = some c then w.access_count else 0 :=
  sum_map_set _ hs b v w hv


/-- The ledger after the counters of one cell were changed. -/
theorem led_cell_update {h h1 : heap} {L : List shared_ptr} {dC dE : Nat → Int} {i : Nat}
    {x x1 : shared_ptr_header} {a b : Int} (hJ : h.led L dC dE) (hx : h.nodes[i]? = some x)
    (hn : h1.nodes = h.nodes.set i x1) (hh : h1.head_buckets = h.head_buckets)
    (hs : x1.storage = x.storage) (hc : x1.count.count = x.count.count + a)
    (he : x1.count.external_counters = x.count.external_counters + b)
    (hd : (x1.destroyed = 0 ∧ ¬ (x1.count.count = 0 ∧ x1.count.external_counters = 0)) ∨
      (x1.destroyed = 1 ∧ x1.count.count = 0 ∧ x1.count.external_counters = 0)) :
    h1.led L (fun k => dC k + if k = i then a else 0)
      (fun k => dE k + if k = i then b else 0) := by
  have hi : i < h.nodes.length := (List.getElem?_eq_some_iff.mp hx).1
  have hlen : h1.nodes.length = h.nodes.length := by rw [hn, List.length_set]
  have hget : ∀ k y, h1.nodes[k]? = some y →
      (k = i ∧ y = x1) ∨ (k ≠ i ∧ h.nodes[k]? = some y) := by
    intro k y hy
    rw [hn, List.getElem?_set] at hy
    by_cases hk : i = k
    · left
      subst hk
      simp only [if_true, hi] at hy
      exact ⟨rfl, (Option.some.inj hy).symm⟩
    · right
      simp only [hk, if_false] at hy
      exact ⟨fun e => hk e.symm, hy⟩
  constructor
  · intro k y hy
    rcases hget k y hy with ⟨_, h2⟩ | ⟨_, h2⟩
    · rw [h2, hs]; exact hJ.nxt i x hx
    · exact hJ.nxt k y h2
  · intro k y hy
    rw [hh]
    rcases hget k y hy with ⟨h1k, h2⟩ | ⟨h1k, h2⟩
    · subst h1k
      rw [h2, hc, hJ.cnt k x hx]
      simp only [if_true]
      omega
    · rw [hJ.cnt k y h2]
      simp only [h1k, if_false]
      omega
  · intro k y hy
    rw [hh]
    rcases hget k y hy with ⟨h1k, h2⟩ | ⟨h1k, h2⟩
    · subst h1k
      have := hJ.ext k x hx
      rw [h2, he]
      simp only [if_true]
      omega
    · have := hJ.ext k y h2
      simp only [h1k, if_false]
      omega
  · intro k y hy
    rcases hget k y hy with ⟨_, h2⟩ | ⟨_, h2⟩
    · rw [h2]; exact hd
    · exact hJ.dead k y h2
  · intro s hs c hc
    rw [hlen]; exact hJ.closed_handles s hs c hc
  · intro s hs c hc
    rw [hlen]
    rw [hh] at hs
    exact hJ.closed_slots s hs c hc

/-- The function `modify_count` on a cell that was not destroyed. -/
theorem led_modify {h : heap} {L : List shared_ptr} {dC dE : Nat → Int} {i : Nat}
    {x : shared_ptr_header} (a b : Int) (hJ : h.led L dC dE) (hx : h.nodes[i]? = some x)
    (hl : x.destroyed = 0) :
    ∃ h1, modify_count h i a b = some h1 ∧
      h1.led L (fun k => dC k + if k = i then a else 0)
        (fun k => dE k + if k = i then b else 0) ∧
      h1.head_buckets = h.head_buckets ∧ h1.nodes.length = h.nodes.length := by
  have hnx := hJ.nxt i x hx
  unfold modify_count modify_count_loop
  simp only [hx, hnx]
  by_cases hz : x.count.count + a = 0 ∧ x.count.external_counters + b = 0
  · rw [if_pos hz]
    refine ⟨_, rfl, ?_, rfl, by simp⟩
    exact led_cell_update hJ hx rfl rfl rfl rfl rfl (Or.inr ⟨by simp [hl], hz.1, hz.2⟩)
  · rw [if_neg hz]
    refine ⟨_, rfl, ?_, rfl, by simp⟩
    exact led_cell_update hJ hx rfl rfl rfl rfl rfl (Or.inl ⟨hl, hz⟩)

/-- Writing a slot. -/
theorem led_set_head {h : heap} {L : List shared_ptr} {dC dE : Nat → Int} {b : Nat}
    {v : counted_ptr} (w : counted_ptr) (hJ : h.led L dC dE)
    (hv : h.head_buckets[b]? = some v) (hw : ∀ c, w.ptr = some c → c < h.nodes.length) :
    ∃ h1, h.set_p (.head b) w = some h1 ∧
      h1.led L
        (fun k => dC k + (if v.ptr = some k then 1 else 0) - (if w.ptr = some k then 1 else 0))
        (fun k => dE k - (if v.ptr = some k then v.access_count else 0) +
          (if w.ptr = some k then w.access_count else 0)) ∧
      h1.head_buckets[b]? = some w ∧ h1.head_buckets.length = h.head_buckets.length ∧
      h1.nodes = h.nodes := by
  have hb : b < h.head_buckets.length := (List.getElem?_eq_some_iff.mp hv).1
  refine ⟨{ h with head_buckets := h.head_buckets.set b w }, by simp [heap.set_p, hb], ?_,
    by simp [hb], by simp, rfl⟩
  constructor
  · exact hJ.nxt
  · intro k y hy
    have := hJ.cnt k y hy
    simp only [slot_count_set w hv]
    omega
  · intro k y hy
    have := hJ.ext k y hy
    simp only [access_sum_set w hv]
    omega
  · exact hJ.dead
  · exact hJ.closed_handles
  · intro s hs c hc
    rcases List.mem_or_eq_of_mem_set hs with h1 | h1
    · exact hJ.closed_slots s h1 c hc
    · subst h1; exact hw c hc

/-- Another list of handles. -/
theorem led_handles {h : heap} {L : List shared_ptr} {dC dE : Nat → Int} (L1 : List shared_ptr)
    (hJ : h.led L dC dE) (hc : ∀ s ∈ L1, ∀ c, s.header = some c → c < h.nodes.length) :
    h.led L1 (fun k => dC k + handle_count L k - handle_count L1 k) dE := by
  refine ⟨hJ.nxt, ?_, hJ.ext, hJ.dead, hc, hJ.closed_slots⟩
  intro k y hy
  have := hJ.cnt k y hy
  omega

theorem led_congr {h : heap} {L : List shared_ptr} {dC dE dC1 dE1 : Nat → Int}
    (hJ : h.led L dC dE)
    (hk : ∀ k, k < h.nodes.length → dC1 k = dC k ∧ dE1 k = dE k) : h.led L dC1 dE1 := by
  refine ⟨hJ.nxt, ?_, ?_, hJ.dead, hJ.closed_handles, hJ.closed_slots⟩
  · intro k y hy
    rw [(hk k (List.getElem?_eq_some_iff.mp hy).1).1]
    exact hJ.cnt k y hy
  · intro k y hy
    rw [(hk k (List.getElem?_eq_some_iff.mp hy).1).2]
    exact hJ.ext k y hy

/-- A cell with a positive count was not destroyed. -/
theorem led_live {h : heap} {L : List shared_ptr} {dC dE : Nat → Int} {i : Nat}
    (hJ : h.led L dC dE) (hi : i < h.nodes.length)
    (hp : 0 < handle_count L i + slot_count h.head_buckets i + dC i) :
    ∃ x, h.nodes[i]? = some x ∧ x.destroyed = 0 := by
  refine ⟨h.nodes[i], List.getElem?_eq_getElem hi, ?_⟩
  have hx := List.getElem?_eq_getElem hi
  have hc := hJ.cnt i _ hx
  rcases hJ.dead i _ hx with h1 | h1
  · exact h1.1
  · omega


theorem p_head (h : heap) (b : Nat) : h.p (.head b) = h.head_buckets[b]? := rfl

/-- The constructor of `local_access` on a slot: the access count of the slot goes up by
one when the slot holds a cell. -/
theorem led_create {h : heap} {L : List shared_ptr} {dC dE : Nat → Int} {b : Nat}
    {v : counted_ptr} (hJ : h.led L dC dE) (hv : h.head_buckets[b]? = some v) :
    ∃ g h1, local_access.create h (.head b) = some (g, h1) ∧ g.p = .head b ∧
      g.val.ptr = v.ptr ∧ g.val.mark = v.mark ∧
      g.val.access_count = v.access_count + (if v.ptr = none then 0 else 1) ∧
      h1.led L dC (fun k => dE k + if v.ptr = some k then 1 else 0) ∧
      h1.head_buckets[b]? = some g.val ∧
      h1.head_buckets.length = h.head_buckets.length ∧ h1.nodes = h.nodes := by
  have hp : h.p (.head b) = some v := hv
  simp only [local_access.create, hp, local_access.acquire]
  cases hptr : v.ptr with
  | none =>
    refine ⟨_, h, rfl, rfl, hptr, rfl, by simp, ?_, hv, rfl, rfl⟩
    exact led_congr hJ (fun k _ => ⟨rfl, by simp⟩)
  | some c =>
    obtain ⟨h1, e1, hJ1, hv1, hl1, hn1⟩ := led_set_head
      { access_count := v.access_count + 1, mark := v.mark, ptr := some c } hJ hv
      (fun c1 hc1 => hJ.closed_slots v (List.getElem?_mem hv) c1 (by rw [hptr]; exact hc1))
    have e2 : atomic_compare_exchange h (.head b) v
        { access_count := v.access_count + 1, mark := v.mark, ptr := some c } =
        some (true, v, h1) := by
      simp [atomic_compare_exchange, hp, e1]
    simp only [local_access.acquire_loop, e2, hptr]
    refine ⟨_, h1, rfl, rfl, rfl, rfl, by simp, ?_, hv1, hl1, hn1⟩
    apply led_congr hJ1
    intro k _
    simp only [hptr]
    constructor
    · omega
    · split <;> omega

/-- The destructor of `local_access` when the slot holds the cell the guard holds (with
whatever access count and mark): the access count of the slot goes down by one. -/
theorem led_release_same {h : heap} {L : List shared_ptr} {dC dE : Nat → Int} {b : Nat}
    {g : local_access} {cur : counted_ptr} (hJ : h.led L dC dE) (hg : g.p = .head b)
    (hv : h.head_buckets[b]? = some cur) (hc : cur.ptr = g.val.ptr) :
    ∃ h1, local_access.release h g = some h1 ∧
      h1.led L dC (fun k => dE k - if cur.ptr = some k then 1 else 0) ∧
      (∃ w, h1.head_buckets[b]? = some w ∧ w.ptr = cur.ptr ∧ w.mark = cur.mark ∧
        w.access_count = cur.access_count - (if cur.ptr = none then 0 else 1)) ∧
      h1.head_buckets.length = h.head_buckets.length ∧ h1.nodes = h.nodes := by
  have hp : h.p g.p = some cur := by rw [hg]; exact hv
  unfold local_access.release
  cases hptr : g.val.ptr with
  | none =>
    rw [hptr] at hc
    refine ⟨h, rfl, ?_, ?_, rfl, rfl⟩
    · exact led_congr hJ (fun k _ => ⟨rfl, by simp [hc]⟩)
    · exact ⟨cur, hv, rfl, rfl, by simp [hc]⟩
  | some c =>
    rw [hptr] at hc
    obtain ⟨h1, e1, hJ1, hv1, hl1, hn1⟩ := led_set_head
      { access_count := cur.access_count - 1, mark := cur.mark, ptr := some c } hJ hv
      (fun c1 hc1 => hJ.closed_slots cur (List.getElem?_mem hv) c1 (by rw [hc]; exact hc1))
    rw [← hg] at e1
    have hJ2 : h1.led L dC (fun k => dE k - if cur.ptr = some k then 1 else 0) := by
      apply led_congr hJ1
      intro k _
      simp only [hc]
      constructor
      · omega
      · split <;> omega
    refine ⟨h1, ?_, hJ2, ⟨_, hv1, hc.symm, rfl, by simp [hc]⟩, hl1, hn1⟩
    simp only
    by_cases hcv : cur = g.val
    · have e2 : atomic_compare_exchange h g.p g.val
          { access_count := g.val.access_count - 1, mark := g.val.mark, ptr := g.val.ptr } =
          some (true, g.val, h1) := by
        rw [← hcv]
        simp [atomic_compare_exchange, hp, e1, hc]
      simp only [local_access.release_loop, e2]
      simp [hptr]
    · have e2 : atomic_compare_exchange h g.p g.val
          { access_count := g.val.access_count - 1, mark := g.val.mark, ptr := g.val.ptr } =
          some (false, cur, h) := by
        simp [atomic_compare_exchange, hp, hcv]
      have e3 : atomic_compare_exchange h g.p cur
          { access_count := cur.access_count - 1, mark := cur.mark, ptr := cur.ptr } =
          some (true, cur, h1) := by
        simp [atomic_compare_exchange, hp, e1, hc]
      have hcg : cur.ptr = g.val.ptr := hc.trans hptr.symm
      rw [hcg] at e3
      simp only [local_access.release_loop, e2, hcg, if_true, e3]
      simp [hc, hptr]

/-- The destructor of `local_access` when the slot holds another cell (or null) by now:
the external count of the cell the guard holds goes down by one. -/
theorem release_moved {h : heap} {b : Nat} {g : local_access} {cur : counted_ptr} {c : Nat}
    (hg : g.p = .head b) (hv : h.head_buckets[b]? = some cur) (hi : g.val.ptr = some c)
    (hne : cur.ptr ≠ some c) :
    local_access.release h g = modify_count h c 0 (-1) := by
  have hp : h.p g.p = some cur := by rw [hg]; exact hv
  have hcg : cur ≠ g.val := fun e0 => hne (by rw [e0]; exact hi)
  have e0 : atomic_compare_exchange h g.p g.val
      { access_count := g.val.access_count - 1, mark := g.val.mark, ptr := g.val.ptr } =
      some (false, cur, h) := by
    simp [atomic_compare_exchange, hp, hcg]
  unfold local_access.release
  simp only [hi, local_access.release_loop]
  rw [hi] at e0
  simp only [e0, hne, if_false, ne_eq, not_false_eq_true, if_true]


/-- A change of the counters of the cell a pointer points to, if any. -/
theorem led_modify_opt {h : heap} {L : List shared_ptr} {dC dE : Nat → Int} (p : Option Nat)
    (a b : Int) (hJ : h.led L dC dE)
    (hp : ∀ c, p = some c → ∃ x, h.nodes[c]? = some x ∧ x.destroyed = 0) :
    ∃ h1, (∀ i, p = some i → modify_count h i a b = some h1) ∧ (p = none → h1 = h) ∧
      h1.led L (fun k => dC k + if p = some k then a else 0)
        (fun k => dE k + if p = some k then b else 0) ∧
      h1.head_buckets = h.head_buckets ∧ h1.nodes.length = h.nodes.length := by
  cases p with
  | none =>
    refine ⟨h, fun i hi => (by cases hi), fun _ => rfl, ?_, rfl, rfl⟩
    exact led_congr hJ (fun k _ => ⟨by simp, by simp⟩)
  | some c =>
    obtain ⟨x, hx, hl⟩ := hp c rfl
    obtain ⟨h1, e1, hJ1, hh1, hn1⟩ := led_modify a b hJ hx hl
    refine ⟨h1, fun i hi => (by cases hi; exact e1), fun e => (by cases e), ?_, hh1, hn1⟩
    apply led_congr hJ1
    intro k _
    have : (some c = some k) ↔ k = c := by
      constructor
      · intro e; cases e; rfl
      · intro e; rw [e]
    simp only [this]
    exact ⟨trivial, trivial⟩

theorem from_header_eval {h h1 : heap} {p : Option Nat}
    (hm : ∀ i, p = some i → modify_count h i 1 0 = some h1) (hn : p = none → h1 = h) :
    shared_ptr.from_header h p = some ({ header := p, mark := false }, h1) := by
  cases p with
  | none => rw [hn rfl]; rfl
  | some i => simp [shared_ptr.from_header, hm i rfl]

theorem copy_eval {h h1 : heap} {r : shared_ptr}
    (hm : ∀ i, r.header = some i → modify_count h i 1 0 = some h1)
    (hn : r.header = none → h1 = h) : shared_ptr.copy h r = some (r, h1) := by
  unfold shared_ptr.copy
  cases hr : r.header with
  | none => rw [hn hr]
  | some i => simp [hm i hr]

theorem drop_eval {h h1 : heap} {r : shared_ptr}
    (hm : ∀ i, r.header = some i → modify_count h i (-1) 0 = some h1)
    (hn : r.header = none → h1 = h) : shared_ptr.drop h r = some h1 := by
  unfold shared_ptr.drop
  cases hr : r.header with
  | none => rw [hn hr]
  | some i => simp [hm i hr]

/-- The ledger of a memory with one more cell, whose count is one, and one more handle,
which points to that cell. -/
theorem led_append {h h2 : heap} {L : List shared_ptr} {c2 : shared_ptr_header}
    (hJ : h.led L (fun _ => 0) (fun _ => 0)) (hn : h2.nodes = h.nodes ++ [c2])
    (hh : h2.head_buckets = h.head_buckets) (hc : c2.count = { external_counters := 0, count := 1 })
    (hd : c2.destroyed = 0) (hx : c2.storage.next.ptr = none) :
    h2.led (L ++ [{ header := some h.nodes.length, mark := false }]) (fun _ => 0)
      (fun _ => 0) := by
  have hH : handle_count L h.nodes.length = 0 := by
    apply sum_map_zero
    intro s hs
    have := hJ.closed_handles s hs h.nodes.length
    by_cases hc : s.header = some h.nodes.length
    · have := this hc; omega
    · simp [hc]
  have hS : slot_count h.head_buckets h.nodes.length = 0 := by
    apply sum_map_zero
    intro s hs
    have := hJ.closed_slots s hs h.nodes.length
    by_cases hc : s.ptr = some h.nodes.length
    · have := this hc; omega
    · simp [hc]
  have hA : access_sum h.head_buckets h.nodes.length = 0 := by
    apply sum_map_zero
    intro s hs
    have := hJ.closed_slots s hs h.nodes.length
    by_cases hc : s.ptr = some h.nodes.length
    · have := this hc; omega
    · simp [hc]
  have hlen : h2.nodes.length = h.nodes.length + 1 := by rw [hn]; simp
  have hget : ∀ k y, h2.nodes[k]? = some y →
      (k < h.nodes.length ∧ h.nodes[k]? = some y) ∨ (k = h.nodes.length ∧ y = c2) := by
    intro k y hy
    rw [hn] at hy
    by_cases hk : k < h.nodes.length
    · left
      rw [List.getElem?_append_left hk] at hy
      exact ⟨hk, hy⟩
    · right
      have hk2 : k < h2.nodes.length := by
        rw [← hn] at hy
        exact (List.getElem?_eq_some_iff.mp hy).1
      have hke : k = h.nodes.length := by omega
      subst hke
      rw [List.getElem?_append_right (Nat.le_refl _)] at hy
      simp only [Nat.sub_self, List.getElem?_cons_zero, Option.some.injEq] at hy
      exact ⟨rfl, hy.symm⟩
  constructor
  · intro k y hy
    rcases hget k y hy with ⟨_, h1⟩ | ⟨_, h1⟩
    · exact hJ.nxt k y h1
    · rw [h1]; exact hx
  · intro k y hy
    rw [hh, handle_count_append]
    rcases hget k y hy with ⟨hk, h1⟩ | ⟨hk, h1⟩
    · have := hJ.cnt k y h1
      have hne : ¬ (some h.nodes.length = some k) := fun e => by cases e; omega
      simp only [hne, if_false]
      omega
    · subst hk
      rw [h1, hc, hH, hS]
      simp
  · intro k y hy
    rw [hh]
    rcases hget k y hy with ⟨hk, h1⟩ | ⟨hk, h1⟩
    · exact hJ.ext k y h1
    · subst hk
      rw [h1, hc, hA]
      rfl
  · intro k y hy
    rcases hget k y hy with ⟨_, h1⟩ | ⟨_, h1⟩
    · exact hJ.dead k y h1
    · rw [h1, hc]
      exact Or.inl ⟨hd, by simp⟩
  · intro s hs c hc
    rw [hlen]
    rcases List.mem_append.mp hs with h1 | h1
    · have := hJ.closed_handles s h1 c hc; omega
    · simp only [List.mem_singleton] at h1
      rw [h1] at hc
      cases hc
      omega
  · intro s hs c hc
    rw [hlen]
    rw [hh] at hs
    have := hJ.closed_slots s hs c hc
    omega

/-- A handle of the list, or the null temporary, points to a cell of the memory that
has a positive count. -/
theorem led_handle_live {h : heap} {L : List shared_ptr} {dC dE : Nat → Int} {k c : Nat}
    (hJ : h.led L dC dE) (hk : (L.getD k shared_ptr.null).header = some c) :
    c < h.nodes.length ∧ 1 ≤ handle_count L c := by
  refine ⟨?_, handle_count_getD hk⟩
  rcases getD_mem_or_null L k with h1 | h1
  · exact hJ.closed_handles _ h1 c hk
  · rw [h1] at hk; cases hk

theorem closed_clear {L : List shared_ptr} {n k : Nat}
    (h : ∀ s ∈ L, ∀ c, s.header = some c → c < n) :
    ∀ s ∈ L.set k shared_ptr.null, ∀ c, s.header = some c → c < n := by
  intro s hs c hc
  rcases List.mem_or_eq_of_mem_set hs with h1 | h1
  · exact h s h1 c hc
  · rw [h1] at hc; cases hc

theorem closed_append {L : List shared_ptr} {n : Nat} {x : shared_ptr}
    (h : ∀ s ∈ L, ∀ c, s.header = some c → c < n) (hx : ∀ c, x.header = some c → c < n) :
    ∀ s ∈ L ++ [x], ∀ c, s.header = some c → c < n := by
  intro s hs c hc
  rcases List.mem_append.mp hs with h1 | h1
  · exact h s h1 c hc
  · simp only [List.mem_singleton] at h1
    rw [h1] at hc
    exact hx c hc

theorem closed_put {L : List shared_ptr} {n e : Nat} {x : shared_ptr}
    (h : ∀ s ∈ L, ∀ c, s.header = some c → c < n) (hx : ∀ c, x.header = some c → c < n) :
    ∀ s ∈ put_handle L e x, ∀ c, s.header = some c → c < n := by
  unfold put_handle
  split
  · intro s hs c hc
    rcases List.mem_or_eq_of_mem_set hs with h1 | h1
    · exact h s h1 c hc
    · rw [h1] at hc; exact hx c hc
  · exact closed_append h hx


theorem counted_init (n : Nat) : (session.init n).counted := by
  constructor
  · intro k x hx; simp [session.init] at hx
  · intro k x hx; simp [session.init] at hx
  · intro k x hx; simp [session.init] at hx
  · intro k x hx; simp [session.init] at hx
  · intro s hs; simp [session.init] at hs
  · intro s hs c hc
    simp only [session.init, List.mem_replicate] at hs
    rw [hs.2] at hc
    cases hc

theorem step_make {s : session} (sp : shared_ptr) (t : Int) (hJ : s.counted) :
    ∃ s1, s.step (.make sp t) = some s1 ∧ s1.counted ∧
      s1.mem.head_buckets.length = s.mem.head_buckets.length := by
  obtain ⟨h2, c2, e2, hn, hh, hcnt, hd, hst⟩ := make_shared_node_cell s.mem sp t
  refine ⟨{ mem := h2, handles := s.handles ++ [⟨some s.mem.nodes.length, false⟩] },
    by simp [session.step, e2], ?_, by rw [hh]⟩
  exact led_append hJ hn hh hcnt hd (by rw [hst])

theorem step_clone {s : session} (k : Nat) (hJ : s.counted) :
    ∃ s1, s.step (.clone k) = some s1 ∧ s1.counted ∧
      s1.mem.head_buckets.length = s.mem.head_buckets.length := by
  have hlive : ∀ c, (s.handle k).header = some c →
      ∃ x, s.mem.nodes[c]? = some x ∧ x.destroyed = 0 := by
    intro c hc
    have h1 := led_handle_live hJ hc
    have := slot_count_nonneg s.mem.head_buckets c
    exact led_live hJ h1.1 (by omega)
  obtain ⟨h1, hm, hn, hJ1, hh1, hl1⟩ := led_modify_opt (s.handle k).header 1 0 hJ hlive
  refine ⟨{ mem := h1, handles := s.handles ++ [s.handle k] },
    by simp [session.step, copy_eval hm hn], ?_, by rw [hh1]⟩
  have hcl := closed_append hJ1.closed_handles (x := s.handle k) (fun c hc => by
    rw [hl1]; exact (led_handle_live hJ hc).1)
  apply led_congr (led_handles _ hJ1 hcl)
  intro j _
  simp only [handle_count_append]
  constructor
  · split <;> omega
  · simp

theorem step_move {s : session} (k : Nat) (hJ : s.counted) :
    ∃ s1, s.step (.move k) = some s1 ∧ s1.counted ∧
      s1.mem.head_buckets.length = s.mem.head_buckets.length := by
  refine ⟨_, rfl, ?_, rfl⟩
  have hcl := closed_append (closed_clear (k := k) hJ.closed_handles) (x := s.handle k)
    (fun c hc => (led_handle_live hJ hc).1)
  apply led_congr (led_handles _ hJ hcl)
  intro j _
  simp only [handle_count_append, handle_count_clear, session.handle]
  constructor
  · split <;> omega
  · trivial

theorem step_drop {s : session} (k : Nat) (hJ : s.counted) :
    ∃ s1, s.step (.drop k) = some s1 ∧ s1.counted ∧
      s1.mem.head_buckets.length = s.mem.head_buckets.length := by
  have hlive : ∀ c, (s.handle k).header = some c →
      ∃ x, s.mem.nodes[c]? = some x ∧ x.destroyed = 0 := by
    intro c hc
    have h1 := led_handle_live hJ hc
    have := slot_count_nonneg s.mem.head_buckets c
    exact led_live hJ h1.1 (by omega)
  obtain ⟨h1, hm, hn, hJ1, hh1, hl1⟩ := led_modify_opt (s.handle k).header (-1) 0 hJ hlive
  refine ⟨{ mem := h1, handles := s.handles.set k shared_ptr.null },
    by simp [session.step, drop_eval hm hn], ?_, by rw [hh1]⟩
  have hcl := closed_clear (k := k) hJ1.closed_handles
  apply led_congr (led_handles _ hJ1 hcl)
  intro j _
  simp only [handle_count_clear, session.handle]
  constructor
  · split <;> omega
  · simp

theorem step_mark {s : session} (b : Nat) (val : Bool) (hJ : s.counted)
    (hb : b < s.mem.head_buckets.length) :
    ∃ s1, s.step (.mark b val) = some s1 ∧ s1.counted ∧
      s1.mem.head_buckets.length = s.mem.head_buckets.length := by
  have hv := List.getElem?_eq_getElem hb
  obtain ⟨h1, e1, hJ1, _, hl1, _⟩ := led_set_head
    { access_count := s.mem.head_buckets[b].access_count, mark := val,
      ptr := s.mem.head_buckets[b].ptr } hJ hv
    (fun c hc => hJ.closed_slots _ (List.getElem_mem hb) c hc)
  have hp : s.mem.p (.head b) = some s.mem.head_buckets[b] := hv
  refine ⟨{ mem := h1, handles := s.handles },
    by simp [session.step, atomic_shared_ptr.mark, atomic_compare_exchange, hp, e1], ?_, hl1⟩
  apply led_congr hJ1
  intro j _
  constructor
  · simp only; omega
  · simp only; omega


theorem step_load {s : session} (b : Nat) (hJ : s.counted)
    (hb : b < s.mem.head_buckets.length) :
    ∃ s1, s.step (.load b) = some s1 ∧ s1.counted ∧
      s1.mem.head_buckets.length = s.mem.head_buckets.length := by
  have hv := List.getElem?_eq_getElem hb
  obtain ⟨v, hve⟩ : ∃ v, v = s.mem.head_buckets[b] := ⟨_, rfl⟩
  rw [← hve] at hv
  obtain ⟨g, h1, e1, hg, hgp, _, _, hJ1, hv1, hl1, hn1⟩ := led_create hJ hv
  have hlive : ∀ c, g.val.ptr = some c →
      ∃ x, h1.nodes[c]? = some x ∧ x.destroyed = 0 := by
    intro c hc
    have hc1 : c < h1.nodes.length :=
      hJ1.closed_slots _ (List.getElem?_mem hv1) c hc
    have := slot_count_pos hv1 hc
    have := handle_count_nonneg s.handles c
    exact led_live hJ1 hc1 (by omega)
  obtain ⟨h2, hm, hn, hJ2, hh2, hl2⟩ := led_modify_opt g.val.ptr 1 0 hJ1 hlive
  obtain ⟨h3, e3, hJ3, _, hl3, hn3⟩ := @led_release_same _ _ _ _ _ g g.val hJ2 hg
    (by rw [hh2]; exact hv1) rfl
  refine ⟨{ mem := h3, handles := s.handles ++ [{ header := g.val.ptr, mark := false }] },
    ?_, ?_, by rw [hl3, hh2, hl1]⟩
  · simp [session.step, atomic_shared_ptr.load, e1, local_access.get_shared_ptr,
      from_header_eval hm hn, e3]
  · have hcl := closed_append hJ3.closed_handles
      (x := { header := g.val.ptr, mark := false }) (fun c hc => by
        rw [hn3, hl2]
        exact hJ1.closed_slots _ (List.getElem?_mem hv1) c hc)
    apply led_congr (led_handles _ hJ3 hcl)
    intro j _
    simp only [handle_count_append, hgp]
    constructor
    · split <;> omega
    · split <;> omega

theorem step_store {s : session} (b k : Nat) (hJ : s.counted)
    (hb : b < s.mem.head_buckets.length) :
    ∃ s1, s.step (.store b k) = some s1 ∧ s1.counted ∧
      s1.mem.head_buckets.length = s.mem.head_buckets.length := by
  have hv := List.getElem?_eq_getElem hb
  obtain ⟨v, hve⟩ : ∃ v, v = s.mem.head_buckets[b] := ⟨_, rfl⟩
  rw [← hve] at hv
  have hp : s.mem.p (.head b) = some v := hv
  obtain ⟨h1, e1, hJ1, hv1, hl1, hn1⟩ := led_set_head
    { access_count := 0, mark := (s.handle k).mark, ptr := (s.handle k).header } hJ hv
    (fun c hc => (led_handle_live hJ hc).1)
  have hlive : ∀ c, v.ptr = some c → ∃ x, h1.nodes[c]? = some x ∧ x.destroyed = 0 := by
    intro c hc
    rw [hn1]
    have hc1 : c < s.mem.nodes.length := hJ.closed_slots _ (List.getElem?_mem hv) c hc
    have := slot_count_pos hv hc
    have := handle_count_nonneg s.handles c
    exact led_live hJ hc1 (by omega)
  obtain ⟨h2, hm, hn, hJ2, hh2, hl2⟩ := led_modify_opt v.ptr (-1) v.access_count hJ1 hlive
  refine ⟨{ mem := h2, handles := s.handles.set k shared_ptr.null }, ?_, ?_,
    by rw [hh2, hl1]⟩
  · simp only [session.step, atomic_shared_ptr.store, hp, e1]
    cases hptr : v.ptr with
    | none => rw [hn hptr]
    | some i => simp [hm i hptr]
  · have hcl := closed_clear (k := k) hJ2.closed_handles
    apply led_congr (led_handles _ hJ2 hcl)
    intro j _
    simp only [handle_count_clear, session.handle]
    constructor
    · split_ifs <;> omega
    · split_ifs <;> omega

theorem step_exchange {s : session} (b k : Nat) (hJ : s.counted)
    (hb : b < s.mem.head_buckets.length) :
    ∃ s1, s.step (.exchange b k) = some s1 ∧ s1.counted ∧
      s1.mem.head_buckets.length = s.mem.head_buckets.length := by
  have hv := List.getElem?_eq_getElem hb
  obtain ⟨v, hve⟩ : ∃ v, v = s.mem.head_buckets[b] := ⟨_, rfl⟩
  rw [← hve] at hv
  have hp : s.mem.p (.head b) = some v := hv
  obtain ⟨h1, e1, hJ1, hv1, hl1, hn1⟩ := led_set_head
    { access_count := 0, mark := (s.handle k).mark, ptr := (s.handle k).header } hJ hv
    (fun c hc => (led_handle_live hJ hc).1)
  have hlive : ∀ c, v.ptr = some c → ∃ x, h1.nodes[c]? = some x ∧ x.destroyed = 0 := by
    intro c hc
    rw [hn1]
    have hc1 : c < s.mem.nodes.length := hJ.closed_slots _ (List.getElem?_mem hv) c hc
    have := slot_count_pos hv hc
    have := handle_count_nonneg s.handles c
    exact led_live hJ hc1 (by omega)
  obtain ⟨h2, hm, hn, hJ2, hh2, hl2⟩ := led_modify_opt v.ptr 1 0 hJ1 hlive
  have hlive2 : ∀ c, v.ptr = some c → ∃ x, h2.nodes[c]? = some x ∧ x.destroyed = 0 := by
    intro c hc
    have hc1 : c < s.mem.nodes.length := hJ.closed_slots _ (List.getElem?_mem hv) c hc
    have h3 := slot_count_nonneg h2.head_buckets c
    have h4 := handle_count_nonneg s.handles c
    have h5 : (if (s.handle k).header = some c then (1 : Int) else 0) ≤
        slot_count h2.head_buckets c := by
      split
      · rename_i hk
        rw [hh2]
        exact slot_count_pos hv1 hk
      · exact h3
    apply led_live hJ2 (by rw [hl2, hn1]; exact hc1)
    simp only [hc, if_true]
    omega
  obtain ⟨h3, hm3, hn3, hJ3, hh3, hl3⟩ := led_modify_opt v.ptr (-1) v.access_count hJ2 hlive2
  refine ⟨{ mem := h3, handles := s.handles.set k shared_ptr.null ++
    [{ header := v.ptr, mark := false }] }, ?_, ?_, by rw [hh3, hh2, hl1]⟩
  · simp only [session.step, atomic_shared_ptr.exchange, hp, e1, from_header_eval hm hn]
    cases hptr : v.ptr with
    | none => rw [hn3 hptr]
    | some i => simp [hm3 i hptr]
  · have hcl := closed_append (closed_clear (k := k) hJ3.closed_handles)
      (x := { header := v.ptr, mark := false }) (fun c hc => by
        rw [hl3, hl2, hn1]
        exact hJ.closed_slots _ (List.getElem?_mem hv) c hc)
    apply led_congr (led_handles _ hJ3 hcl)
    intro j _
    simp only [handle_count_append, handle_count_clear, session.handle]
    constructor
    · split_ifs <;> omega
    · split_ifs <;> omega


theorem release_null {h : heap} {g : local_access} (hg : g.val.ptr = none) :
    local_access.release h g = some h := by
  simp [local_access.release, hg]

/-- The function `compare_exchange_weak` when the slot holds another cell than
`expected`: `expected` becomes a handle to the cell in the slot, the old `expected` and
`newptr` are released. -/
theorem cew_fail_led {h : heap} {L : List shared_ptr} {b : Nat} {v : counted_ptr}
    (ex n : shared_ptr) (hJ : h.led L (fun _ => 0) (fun _ => 0))
    (hv : h.head_buckets[b]? = some v)
    (hn : ∀ c, n.header = some c → c < h.nodes.length ∧ 1 ≤ handle_count L c)
    (hex : ∀ c, ex.header = some c → c < h.nodes.length ∧
      (if n.header = some c then 2 else 1) ≤ handle_count L c)
    (hne : v.ptr ≠ ex.header) :
    ∃ h1, atomic_shared_ptr.compare_exchange_weak h (.head b) ex n =
        some (false, { header := v.ptr, mark := false }, h1) ∧
      h1.led L (fun j => (if v.ptr = some j then 1 else 0) -
        (if ex.header = some j then 1 else 0) - (if n.header = some j then 1 else 0))
        (fun _ => 0) ∧
      h1.head_buckets.length = h.head_buckets.length ∧ h1.nodes.length = h.nodes.length := by
  obtain ⟨g, h1, e1, hg, hgp, _, _, hJ1, hv1, hl1, hn1⟩ := led_create hJ hv
  have hlive1 : ∀ c, g.val.ptr = some c →
      ∃ x, h1.nodes[c]? = some x ∧ x.destroyed = 0 := by
    intro c hc
    have hc1 : c < h1.nodes.length := hJ1.closed_slots _ (List.getElem?_mem hv1) c hc
    have := slot_count_pos hv1 hc
    have := handle_count_nonneg L c
    exact led_live hJ1 hc1 (by omega)
  obtain ⟨h2, hm2, hn2, hJ2, hh2, hl2⟩ := led_modify_opt g.val.ptr 1 0 hJ1 hlive1
  have hlive2 : ∀ c, ex.header = some c →
      ∃ x, h2.nodes[c]? = some x ∧ x.destroyed = 0 := by
    intro c hc
    have h3 := hex c hc
    have h4 := slot_count_nonneg h2.head_buckets c
    apply led_live hJ2 (by rw [hl2, hn1]; exact h3.1)
    split_ifs at h3 ⊢ <;> omega
  obtain ⟨h3, hm3, hn3, hJ3, hh3, hl3⟩ := led_modify_opt ex.header (-1) 0 hJ2 hlive2
  obtain ⟨h4, e4, hJ4, _, hl4, hn4⟩ := @led_release_same _ _ _ _ _ g g.val hJ3 hg
    (by rw [hh3, hh2]; exact hv1) rfl
  have hlive4 : ∀ c, n.header = some c →
      ∃ x, h4.nodes[c]? = some x ∧ x.destroyed = 0 := by
    intro c hc
    have h5 := hn c hc
    have h6 := slot_count_nonneg h4.head_buckets c
    have h7 : ∀ c1, ex.header = some c1 → c1 = c → 2 ≤ handle_count L c := by
      intro c1 hc1 hcc
      subst hcc
      have := (hex c1 hc1).2
      simpa [hc] using this
    apply led_live hJ4 (by rw [hn4, hl3, hl2, hn1]; exact h5.1)
    by_cases hxc : ex.header = some c
    · have := h7 c hxc rfl
      simp only [hxc, if_true]
      split_ifs <;> omega
    · simp only [hxc, if_false]
      split_ifs <;> omega
  obtain ⟨h5, hm5, hn5, hJ5, hh5, hl5⟩ := led_modify_opt n.header (-1) 0 hJ4 hlive4
  refine ⟨h5, ?_, ?_, by rw [hh5, hl4, hh3, hh2, hl1], by rw [hl5, hn4, hl3, hl2, hn1]⟩
  · have hne2 : g.val.ptr ≠ ex.header := by rw [hgp]; exact hne
    unfold atomic_shared_ptr.compare_exchange_weak
    simp only [e1, hne2, ne_eq, not_false_eq_true, if_true, assign_from_guard,
      local_access.get_shared_ptr, from_header_eval hm2 hn2, drop_eval hm3 hn3, e4,
      drop_eval hm5 hn5]
    rw [hgp]
  · apply led_congr hJ5
    intro j _
    simp only [hgp]
    constructor
    · split_ifs <;> omega
    · split_ifs <;> omega

/-- The function `compare_exchange_weak` when the slot holds the cell of `expected`: the
slot takes `newptr` over. -/
theorem cew_success_led {h : heap} {L : List shared_ptr} {b : Nat} {v : counted_ptr}
    (ex n : shared_ptr) (hJ : h.led L (fun _ => 0) (fun _ => 0))
    (hv : h.head_buckets[b]? = some v)
    (hn : ∀ c, n.header = some c → c < h.nodes.length ∧ 1 ≤ handle_count L c)
    (hex : ∀ c, ex.header = some c → c < h.nodes.length ∧
      (if n.header = some c then 2 else 1) ≤ handle_count L c)
    (heq : v.ptr = ex.header) :
    ∃ h1, atomic_shared_ptr.compare_exchange_weak h (.head b) ex n = some (true, ex, h1) ∧
      h1.led L (fun j => 0 - (if n.header = some j then 1 else 0)) (fun _ => 0) ∧
      h1.head_buckets.length = h.head_buckets.length ∧ h1.nodes.length = h.nodes.length := by
  obtain ⟨g, h1, e1, hg, hgp, _, _, hJ1, hv1, hl1, hn1⟩ := led_create hJ hv
  have hp1 : h1.p (.head b) = some g.val := hv1
  obtain ⟨h2, e2, hJ2, hv2, hl2, hn2⟩ := led_set_head
    { access_count := 0, mark := n.mark, ptr := n.header } hJ1 hv1
    (fun c hc => by rw [hn1]; exact (hn c hc).1)
  have ea : atomic_compare_exchange h1 (.head b) g.val
      { access_count := 0, mark := n.mark, ptr := n.header } = some (true, g.val, h2) := by
    simp [atomic_compare_exchange, hp1, e2]
  have hlive2 : ∀ c, g.val.ptr = some c →
      ∃ x, h2.nodes[c]? = some x ∧ x.destroyed = 0 := by
    intro c hc
    rw [hn2, hn1]
    rw [hgp] at hc
    have hc1 : c < h.nodes.length := hJ.closed_slots _ (List.getElem?_mem hv) c hc
    have := slot_count_pos hv hc
    have := handle_count_nonneg L c
    exact led_live hJ hc1 (by omega)
  obtain ⟨h3, hm3, hn3, hJ3, hh3, hl3⟩ :=
    led_modify_opt g.val.ptr (-1) g.val.access_count hJ2 hlive2
  have hv3 : h3.head_buckets[b]? =
      some { access_count := 0, mark := n.mark, ptr := n.header } := by
    rw [hh3]; exact hv2
  have hfin : ∃ h4, local_access.release h3 g = some h4 ∧
      h4.led L (fun j => 0 - (if n.header = some j then 1 else 0)) (fun _ => 0) ∧
      h4.head_buckets.length = h3.head_buckets.length ∧
      h4.nodes.length = h3.nodes.length := by
    cases hgn : g.val.ptr with
    | none =>
      refine ⟨h3, release_null hgn, ?_, rfl, rfl⟩
      apply led_congr hJ3
      intro j _
      rw [hgp] at hgn
      simp only [hgn, hgp]
      constructor
      · split_ifs <;> omega
      · split_ifs <;> first | omega | simp_all
    | some c =>
      by_cases hnc : n.header = some c
      · obtain ⟨h4, e4, hJ4, _, hl4, hn4⟩ := @led_release_same _ _ _ _ _ g
          ⟨0, n.mark, n.header⟩ hJ3 hg hv3
          (by rw [hgn]; exact hnc)
        refine ⟨h4, e4, ?_, hl4, by rw [hn4]⟩
        apply led_congr hJ4
        intro j _
        rw [hgp] at hgn
        simp only [hgn, hgp, hnc]
        constructor
        · split_ifs <;> omega
        · split_ifs <;> omega
      · have hmv := release_moved (h := h3) (g := g) hg hv3 hgn hnc
        have hc3 : c < h3.nodes.length := by
          rw [hl3, hn2]
          exact hJ1.closed_slots _ (List.getElem?_mem hv1) c hgn
        have hxc : ex.header = some c := by rw [← heq, ← hgp]; exact hgn
        have h5 := (hex c hxc).2
        have h6 := slot_count_nonneg h3.head_buckets c
        obtain ⟨x, hx, hxl⟩ := led_live hJ3 hc3 (by
          simp only [hgn, hnc, if_true, if_false]
          split_ifs at h5; omega)
        obtain ⟨h4, e4, hJ4, hh4, hl4⟩ := led_modify 0 (-1) hJ3 hx hxl
        refine ⟨h4, by rw [hmv]; exact e4, ?_, by rw [hh4], hl4⟩
        apply led_congr hJ4
        intro j _
        rw [hgp] at hgn
        have hiff : (some c = some j) ↔ j = c := by
          constructor
          · intro e; cases e; rfl
          · intro e; rw [e]
        simp only [hgn, hgp, hiff]
        constructor
        · split_ifs <;> omega
        · split_ifs <;> omega
  obtain ⟨h4, e4, hJ4, hl4, hnl4⟩ := hfin
  refine ⟨h4, ?_, hJ4, by rw [hl4, hh3, hl2, hl1], by rw [hnl4, hl3, hn2, hn1]⟩
  have heq2 : g.val.ptr = ex.header := by rw [hgp]; exact heq
  unfold atomic_shared_ptr.compare_exchange_weak
  simp only [e1]
  rw [if_neg (by simp [heq2]), ea]
  simp only
  cases hgn : g.val.ptr with
  | none =>
    simp only
    rw [← hn3 hgn, e4]
  | some i => simp only [hm3 i hgn, e4]


theorem step_cew {s : session} (b e k : Nat) (hJ : s.counted)
    (hb : b < s.mem.head_buckets.length) :
    ∃ s1, s.step (.compare_exchange_weak b e k) = some s1 ∧ s1.counted ∧
      s1.mem.head_buckets.length = s.mem.head_buckets.length := by
  have hv := List.getElem?_eq_getElem hb
  obtain ⟨v, hve⟩ : ∃ v, v = s.mem.head_buckets[b] := ⟨_, rfl⟩
  rw [← hve] at hv
  obtain ⟨n, hne⟩ : ∃ n, n = s.handle k := ⟨_, rfl⟩
  obtain ⟨hs, hhs⟩ : ∃ hs, hs = s.handles.set k shared_ptr.null := ⟨_, rfl⟩
  obtain ⟨ex, hexe⟩ : ∃ ex, ex = hs.getD e shared_ptr.null := ⟨_, rfl⟩
  have hcount : ∀ c, handle_count s.handles c =
      handle_count hs c + if n.header = some c then 1 else 0 := by
    intro c
    have := handle_count_clear s.handles k c
    rw [hhs, this, hne, session.handle]
    omega
  have hcl : ∀ x ∈ hs, ∀ c, x.header = some c → c < s.mem.nodes.length := by
    rw [hhs]; exact closed_clear hJ.closed_handles
  have hn : ∀ c, n.header = some c →
      c < s.mem.nodes.length ∧ 1 ≤ handle_count s.handles c := by
    intro c hc
    rw [hne] at hc
    exact led_handle_live hJ hc
  have hex : ∀ c, ex.header = some c → c < s.mem.nodes.length ∧
      (if n.header = some c then 2 else 1) ≤ handle_count s.handles c := by
    intro c hc
    rw [hexe] at hc
    have h1 := handle_count_getD hc
    constructor
    · rcases getD_mem_or_null hs e with h2 | h2
      · exact hcl _ h2 c hc
      · rw [h2] at hc; cases hc
    · rw [hcount c]
      split_ifs <;> omega
  have hfin : ∀ (r : Bool) (e1 : shared_ptr) (h1 : heap),
      atomic_shared_ptr.compare_exchange_weak s.mem (.head b) ex n = some (r, e1, h1) →
      h1.led s.handles (fun j => (if e1.header = some j then 1 else 0) -
        (if ex.header = some j then 1 else 0) - (if n.header = some j then 1 else 0))
        (fun _ => 0) →
      (∀ c, e1.header = some c → c < s.mem.nodes.length) →
      h1.head_buckets.length = s.mem.head_buckets.length →
      h1.nodes.length = s.mem.nodes.length →
      ∃ s1, s.step (.compare_exchange_weak b e k) = some s1 ∧ s1.counted ∧
        s1.mem.head_buckets.length = s.mem.head_buckets.length := by
    intro r e1 h1 hc hJ1 he1 hl1 hnl1
    refine ⟨{ mem := h1, handles := put_handle hs e e1 }, ?_, ?_, hl1⟩
    · simp only [session.step]
      rw [← hhs, ← hexe, ← hne, hc]
    · have hcl2 := closed_put (e := e) (x := e1) (n := h1.nodes.length)
        (by rw [hnl1]; exact hcl) (by rw [hnl1]; exact he1)
      apply led_congr (led_handles _ hJ1 hcl2)
      intro j _
      simp only [handle_count_put, hcount j, ← hexe]
      constructor
      · split_ifs <;> omega
      · trivial
  by_cases heq : v.ptr = ex.header
  · obtain ⟨h1, e1, hJ1, hl1, hnl1⟩ := cew_success_led ex n hJ hv hn hex heq
    apply hfin true ex h1 e1 _ (fun c hc => (hex c hc).1) hl1 hnl1
    apply led_congr hJ1
    intro j _
    constructor
    · split_ifs <;> omega
    · trivial
  · obtain ⟨h1, e1, hJ1, hl1, hnl1⟩ := cew_fail_led ex n hJ hv hn hex heq
    exact hfin false _ h1 e1 hJ1
      (fun c hc => hJ.closed_slots _ (List.getElem?_mem hv) c hc) hl1 hnl1

/-- Every operation on an existing slot runs to completion and keeps the counters in
agreement with the handles and the slots. -/
theorem step_counted {s : session} (o : ptr_op) (hJ : s.counted)
    (ho : o.slot_lt s.mem.head_buckets.length = true) :
    ∃ s1, s.step o = some s1 ∧ s1.counted ∧
      s1.mem.head_buckets.length = s.mem.head_buckets.length := by
  cases o with
  | make sp t => exact step_make sp t hJ
  | clone k => exact step_clone k hJ
  | move k => exact step_move k hJ
  | drop k => exact step_drop k hJ
  | load b => exact step_load b hJ (by simpa [ptr_op.slot_lt] using ho)
  | store b k => exact step_store b k hJ (by simpa [ptr_op.slot_lt] using ho)
  | exchange b k => exact step_exchange b k hJ (by simpa [ptr_op.slot_lt] using ho)
  | compare_exchange_weak b e k => exact step_cew b e k hJ (by simpa [ptr_op.slot_lt] using ho)
  | mark b val => exact step_mark b val hJ (by simpa [ptr_op.slot_lt] using ho)

theorem run_counted : ∀ (ops : List ptr_op) (s : session), s.counted →
    (∀ o ∈ ops, o.slot_lt s.mem.head_buckets.length = true) →
    ∃ s1, s.run ops = some s1 ∧ s1.counted ∧
      s1.mem.head_buckets.length = s.mem.head_buckets.length := by
  intro ops
  induction ops with
  | nil => intro s hJ _; exact ⟨s, rfl, hJ, rfl⟩
  | cons o ops ih =>
    intro s hJ ho
    obtain ⟨s1, e1, hJ1, hl1⟩ := step_counted o hJ (ho o (List.mem_cons_self _ _))
    obtain ⟨s2, e2, hJ2, hl2⟩ := ih s1 hJ1 (fun o1 ho1 => by
      rw [hl1]; exact ho o1 (List.mem_cons_of_mem _ ho1))
    exact ⟨s2, by simp [session.run, e1, e2], hJ2, by rw [hl2, hl1]⟩

/-- C19: a session starts with `n` slots that hold null, no cell and no handle, and runs
any sequence of the operations make, clone, move, drop, load, store, exchange,
compare_exchange_weak and mark on these slots, each to completion (the slots are the
array `head_buckets`, which is never destroyed). Then every operation ends, and
afterwards for every cell that was not destroyed the count is the number of handles that
point to it plus the number of slots that hold it, and the external count plus the sum of
the access counts of the slots that hold it is zero. -/
theorem count_invariant (n : Nat) (ops : List ptr_op) (hops : ∀ o ∈ ops, o.slot_lt n = true) :
    ∃ s, (session.init n).run ops = some s ∧ s.mem.head_buckets.length = n ∧
      ∀ (c : Nat) (x : shared_ptr_header), s.mem.nodes[c]? = some x → x.destroyed = 0 →
        x.count.count = handle_count s.handles c + slot_count s.mem.head_buckets c ∧
        x.count.external_counters + access_sum s.mem.head_buckets c = 0 := by
  have hlen : (session.init n).mem.head_buckets.length = n := by simp [session.init]
  obtain ⟨s, e, hJ, hl⟩ := run_counted ops (session.init n) (counted_init n)
    (by rw [hlen]; exact hops)
  refine ⟨s, e, by rw [hl, hlen], ?_⟩
  intro c x hx _
  have h1 := hJ.cnt c x hx
  have h2 := hJ.ext c x hx
  exact ⟨by omega, h2⟩

theorem count_invariant_witness :
    (∀ o ∈ session_example, o.slot_lt 1 = true) ∧
    ∃ s, (session.init 1).run session_example = some s ∧ s.mem.head_buckets.length = 1 ∧
      ∀ (c : Nat) (x : shared_ptr_header), s.mem.nodes[c]? = some x → x.destroyed = 0 →
        x.count.count = handle_count s.handles c + slot_count s.mem.head_buckets c ∧
        x.count.external_counters + access_sum s.mem.head_buckets c = 0 :=
  ⟨by decide, count_invariant 1 session_example (by decide)⟩

/-- The session `session_example`, evaluated after its first five operations (the slot
holds cell 0 with access count -1 and the external count of the cell is 1: they add up
to zero; the count 2 is one handle and the slot) and at its end. -/
theorem session_example_evaluated :
    ((session.init 1).run (session_example.take 5)).map session.summary =
      some ([{ header := some 0, mark := false }, shared_ptr.null, shared_ptr.null],
            [{ access_count := -1, mark := false, ptr := some 0 }],
            [(2, 1, 0)]) ∧
    ((session.init 1).run session_example).map session.summary =
      some ([shared_ptr.null, shared_ptr.null, shared_ptr.null,
             { header := some 0, mark := false }, shared_ptr.null, shared_ptr.null,
             { header := some 0, mark := false }],
            [{ access_count := 0, mark := false, ptr := some 1 }],
            [(2, 0, 0), (1, 0, 0)]) := by
  constructor
  · decide
  · decide


/-- The function `store` on the memory without its counters: it ends and writes pointer
and mark of the handle into the slot. -/
theorem store_shape {h : heap} {r : slot_ref} (new : shared_ptr) (hok : h.shape.ok)
    (hv : h.shape.valid_slot r)
    (hnew : ∀ j, new.header = some j → j < h.nodes.length ∧ ∀ k, r = .next k → k < j) :
    ∃ h1, atomic_shared_ptr.store h r new = some h1 ∧
      h1.shape = h.shape.set_slot r (new.header, new.mark) := by
  obtain ⟨v, hp⟩ := p_of_valid hv
  obtain ⟨h1, e1⟩ := set_p_of_valid
    { access_count := 0, mark := new.mark, ptr := new.header } hv
  have s1 : h1.shape = h.shape.set_slot r (new.header, new.mark) := by
    rw [set_p_shape e1]; rfl
  have hok1 : h1.shape.ok := by
    rw [s1]
    have := okb_set_slot (r := r) (v := (new.header, new.mark)) hok (by
      intro j hj
      rw [shape_nodes_length]
      exact hnew j hj)
    simpa [shape.ok, set_slot_nodes_length] using this
  cases hptr : v.ptr with
  | none =>
    exact ⟨h1, by simp only [atomic_shared_ptr.store, hp, e1, hptr], s1⟩
  | some c =>
    have hlt := ptr_lt_of_okb hok (r := r) (j := c) (by
      have := p_shape hp
      simp [shape.ptr, this, counted_ptr.view, hptr])
    obtain ⟨h2, e2, s2⟩ := modify_count_shape (-1) v.access_count hok1 (i := c) (by
      rw [s1, set_slot_nodes_length]
      exact hlt.1)
    exact ⟨h2, by simp only [atomic_shared_ptr.store, hp, e1, hptr, e2], by rw [s2, s1]⟩

/-- The functions `store` and `load` one after the other: for every well-formed memory,
every slot `r` of it (a bucket head or the member `next` of a cell) and every handle
`new` with mark false that is null or points to a cell of the memory (a newer cell than
`k` when the slot is the member `next` of cell `k`), `store(new)` ends, the `load()`
that follows ends, and the handle it returns is equal to `new`, in pointer and mark. -/
theorem store_load_shape (h : heap) (r : slot_ref) (new : shared_ptr) (hok : h.shape.ok)
    (hv : h.shape.valid_slot r)
    (hnew : ∀ j, new.header = some j → j < h.nodes.length ∧ ∀ k, r = .next k → k < j)
    (hm : new.mark = false) :
    ∃ h1 res h2, atomic_shared_ptr.store h r new = some h1 ∧
      atomic_shared_ptr.load h1 r = some (res, h2) ∧
      res.header = new.header ∧ res.mark = new.mark ∧ shared_ptr.eq res new = true := by
  obtain ⟨h1, e1, s1⟩ := store_shape new hok hv hnew
  have hok1 : h1.shape.ok := by
    rw [s1]
    have := okb_set_slot (r := r) (v := (new.header, new.mark)) hok (by
      intro j hj
      rw [shape_nodes_length]
      exact hnew j hj)
    simpa [shape.ok, set_slot_nodes_length] using this
  have hv1 : h1.shape.valid_slot r := by rw [s1]; exact valid_slot_set_slot.mpr hv
  obtain ⟨h2, e2, _⟩ := load_shape hok1 hv1
  have hp : h1.shape.ptr r = new.header := by rw [s1, ptr_set_slot_same _ hv]
  rw [hp] at e2
  exact ⟨h1, _, h2, e1, e2, rfl, hm.symm, by simp [shared_ptr.eq, hm]⟩

/-- The statements `h = make_shared<node>(...); slot.store(h); r = slot.load();`,
evaluated: `r` is a handle to the cell of `h` with mark false, and `r == h`. -/
theorem store_then_load_evaluated :
    store_then_load =
      some ({ header := some 0, mark := false }, { header := some 0, mark := false }, true) := by
  decide

/-- The mark of a slot, which `atomic_shared_ptr::mark` sets, is not the mark of a handle:
after `slot.mark(true)` the slot holds the mark, and `load()` returns a handle whose mark
is false (`get_shared_ptr()` makes it with `shared_ptr<T>(val.ptr)`). -/
theorem load_after_mark :
    mark_then_load = some ({ access_count := 0, mark := true, ptr := some 0 },
      { header := some 0, mark := false }) := by
  decide


theorem from_header_unmarked {h h1 : heap} {p : Option Nat} {x : shared_ptr}
    (e : shared_ptr.from_header h p = some (x, h1)) : x.mark = false := by
  unfold shared_ptr.from_header at e
  split at e
  · simp only [Option.some.injEq, Prod.mk.injEq] at e
    rw [← e.1]
  · split at e
    · cases e
    · simp only [Option.some.injEq, Prod.mk.injEq] at e
      rw [← e.1]

theorem copy_same {h h1 : heap} {r x : shared_ptr}
    (e : shared_ptr.copy h r = some (x, h1)) : x = r := by
  unfold shared_ptr.copy at e
  split at e
  · simp only [Option.some.injEq, Prod.mk.injEq] at e
    exact e.1.symm
  · split at e
    · cases e
    · simp only [Option.some.injEq, Prod.mk.injEq] at e
      exact e.1.symm

theorem load_unmarked {h h1 : heap} {r : slot_ref} {x : shared_ptr}
    (e : atomic_shared_ptr.load h r = some (x, h1)) : x.mark = false := by
  unfold atomic_shared_ptr.load at e
  split at e
  · cases e
  · split at e
    · cases e
    · rename_i e2
      split at e
      · cases e
      · simp only [Option.some.injEq, Prod.mk.injEq] at e
        rw [← e.1]
        exact from_header_unmarked e2

theorem exchange_unmarked {h h1 : heap} {r : slot_ref} {n x : shared_ptr}
    (e : atomic_shared_ptr.exchange h r n = some (x, h1)) : x.mark = false := by
  unfold atomic_shared_ptr.exchange at e
  split at e
  · cases e
  · split at e
    · cases e
    · split at e
      · cases e
      · rename_i e2
        split at e
        · simp only [Option.some.injEq, Prod.mk.injEq] at e
          rw [← e.1]
          exact from_header_unmarked e2
        · split at e
          · cases e
          · simp only [Option.some.injEq, Prod.mk.injEq] at e
            rw [← e.1]
            exact from_header_unmarked e2

theorem assign_unmarked {h h1 : heap} {g : local_access} {ex x : shared_ptr}
    (e : assign_from_guard h g ex = some (x, h1)) : x.mark = false := by
  unfold assign_from_guard at e
  split at e
  · cases e
  · rename_i e2
    split at e
    · cases e
    · simp only [Option.some.injEq, Prod.mk.injEq] at e
      rw [← e.1]
      exact from_header_unmarked e2

theorem cew_unmarked {h h1 : heap} {r : slot_ref} {ex n x : shared_ptr} {b : Bool}
    (hex : ex.mark = false)
    (e : atomic_shared_ptr.compare_exchange_weak h r ex n = some (b, x, h1)) :
    x.mark = false := by
  unfold atomic_shared_ptr.compare_exchange_weak at e
  split at e
  · cases e
  · split at e
    · split at e
      · cases e
      · rename_i e2
        split at e
        · cases e
        · split at e
          · cases e
          · simp only [Option.some.injEq, Prod.mk.injEq] at e
            rw [← e.2.1]
            exact assign_unmarked e2
    · split at e
      · cases e
      · split at e
        · cases e
        · split at e
          · cases e
          · simp only [Option.some.injEq, Prod.mk.injEq] at e
            rw [← e.2.1]
            exact hex
      · split at e
        · cases e
        · split at e
          · cases e
          · rename_i e2
            split at e
            · cases e
            · split at e
              · cases e
              · simp only [Option.some.injEq, Prod.mk.injEq] at e
                rw [← e.2.1]
                exact assign_unmarked e2

theorem unmarked_getD {L : List shared_ptr} (hL : ∀ x ∈ L, x.mark = false) (k : Nat) :
    (L.getD k shared_ptr.null).mark = false := by
  rcases getD_mem_or_null L k with h | h
  · exact hL _ h
  · rw [h]; rfl

theorem unmarked_clear {L : List shared_ptr} (hL : ∀ x ∈ L, x.mark = false) (k : Nat) :
    ∀ x ∈ L.set k shared_ptr.null, x.mark = false := by
  intro x hx
  rcases List.mem_or_eq_of_mem_set hx with h | h
  · exact hL x h
  · rw [h]; rfl

theorem unmarked_append {L : List shared_ptr} {y : shared_ptr}
    (hL : ∀ x ∈ L, x.mark = false) (hy : y.mark = false) :
    ∀ x ∈ L ++ [y], x.mark = false := by
  intro x hx
  rcases List.mem_append.mp hx with h | h
  · exact hL x h
  · rw [List.mem_singleton.mp h]; exact hy

theorem unmarked_put {L : List shared_ptr} {y : shared_ptr} (e : Nat)
    (hL : ∀ x ∈ L, x.mark = false) (hy : y.mark = false) :
    ∀ x ∈ put_handle L e y, x.mark = false := by
  unfold put_handle
  split
  · intro x hx
    rcases List.mem_or_eq_of_mem_set hx with h | h
    · exact hL x h
    · rw [h]; exact hy
  · exact unmarked_append hL hy

/-- One operation of a session makes no handle with mark true. -/
theorem step_unmarked {s s1 : session} {o : ptr_op} (hL : ∀ x ∈ s.handles, x.mark = false)
    (e : s.step o = some s1) : ∀ x ∈ s1.handles, x.mark = false := by
  cases o with
  | make sp t =>
    simp only [session.step] at e
    split at e
    · cases e
    · rename_i e2
      simp only [Option.some.injEq] at e
      subst e
      exact unmarked_append hL (from_header_unmarked e2)
  | clone k =>
    simp only [session.step] at e
    split at e
    · cases e
    · rename_i e2
      simp only [Option.some.injEq] at e
      subst e
      apply unmarked_append hL
      rw [copy_same e2]
      exact unmarked_getD hL k
  | move k =>
    simp only [session.step, Option.some.injEq] at e
    subst e
    exact unmarked_append (unmarked_clear hL k) (unmarked_getD hL k)
  | drop k =>
    simp only [session.step] at e
    split at e
    · cases e
    · simp only [Option.some.injEq] at e
      subst e
      exact unmarked_clear hL k
  | load b =>
    simp only [session.step] at e
    split at e
    · cases e
    · rename_i e2
      simp only [Option.some.injEq] at e
      subst e
      exact unmarked_append hL (load_unmarked e2)
  | store b k =>
    simp only [session.step] at e
    split at e
    · cases e
    · simp only [Option.some.injEq] at e
      subst e
      exact unmarked_clear hL k
  | exchange b k =>
    simp only [session.step] at e
    split at e
    · cases e
    · rename_i e2
      simp only [Option.some.injEq] at e
      subst e
      exact unmarked_append (unmarked_clear hL k) (exchange_unmarked e2)
  | compare_exchange_weak b e0 k =>
    simp only [session.step] at e
    split at e
    · cases e
    · rename_i e2
      simp only [Option.some.injEq] at e
      subst e
      exact unmarked_put e0 (unmarked_clear hL k)
        (cew_unmarked (unmarked_getD (unmarked_clear hL k) e0) e2)
  | mark b val =>
    simp only [session.step] at e
    split at e
    · cases e
    · simp only [Option.some.injEq] at e
      subst e
      exact hL

theorem run_unmarked : ∀ (ops : List ptr_op) {s s1 : session},
    (∀ x ∈ s.handles, x.mark = false) → s.run ops = some s1 →
    ∀ x ∈ s1.handles, x.mark = false
  | [], s, s1, hL, e => by
    simp only [session.run, Option.some.injEq] at e
    subst e
    exact hL
  | o :: ops, s, s1, hL, e => by
    simp only [session.run] at e
    split at e
    · cases e
    · rename_i s2 e2
      exact run_unmarked ops (step_unmarked hL e2) e

/-- No handle of the program has mark true: in every session, after any sequence of
`make_shared`, copies, moves, resets, `load`, `store`, `exchange`,
`compare_exchange_weak` and `mark`, every handle has mark false. -/
theorem handles_unmarked (n : Nat) (ops : List ptr_op) (s : session)
    (hrun : (session.init n).run ops = some s) : ∀ x ∈ s.handles, x.mark = false :=
  run_unmarked ops (by intro x hx; simp [session.init] at hx) hrun


/-- The memory of a session has well-formed lists. -/
theorem led_shape_ok {h : heap} {L : List shared_ptr} {dC dE : Nat → Int}
    (hJ : h.led L dC dE) : h.shape.ok := by
  constructor
  · intro i n hn j hj
    simp only [heap.shape, List.getElem?_map, Option.map_eq_some'] at hn
    obtain ⟨x, hx, rfl⟩ := hn
    have := hJ.nxt i x hx
    simp only [shared_ptr_header.view] at hj
    rw [this] at hj
    cases hj
  · intro b v hv j hj
    simp only [heap.shape, List.getElem?_map, Option.map_eq_some'] at hv
    obtain ⟨x, hx, rfl⟩ := hv
    simp only [heap.shape, List.length_map]
    exact hJ.closed_slots x (List.getElem?_mem hx) j hj

/-- C8: in every session (any sequence of `make_shared`, copies, moves, resets, `load`,
`store`, `exchange`, `compare_exchange_weak` and `mark` on `n` slots from the start), for
every slot `b` and every handle `k` that the session has then (null or not; a position
behind the handles is a null temporary): `store(handle k)` ends, the `load()` that
follows ends, and the handle it returns is equal to the stored one, in pointer and mark
(`operator==` gives true). The handles of a session all have mark false
(`handles_unmarked`): the constructors of `shared_ptr` set the mark to false or copy it
and nothing assigns it. -/
theorem store_load_equal (n : Nat) (ops : List ptr_op)
    (hops : ∀ o ∈ ops, o.slot_lt n = true) (b k : Nat) (hb : b < n) :
    ∃ s h1 res h2, (session.init n).run ops = some s ∧
      atomic_shared_ptr.store s.mem (.head b) (s.handle k) = some h1 ∧
      atomic_shared_ptr.load h1 (.head b) = some (res, h2) ∧ res = s.handle k ∧
      shared_ptr.eq res (s.handle k) = true := by
  have hlen : (session.init n).mem.head_buckets.length = n := by simp [session.init]
  obtain ⟨s, e, hJ, hl⟩ := run_counted ops (session.init n) (counted_init n)
    (by rw [hlen]; exact hops)
  have hm : (s.handle k).mark = false := unmarked_getD (handles_unmarked n ops s e) k
  have hv : s.mem.shape.valid_slot (.head b) := by
    show b < s.mem.shape.heads.length
    simp only [heap.shape, List.length_map]
    omega
  have hnew : ∀ j, (s.handle k).header = some j →
      j < s.mem.nodes.length ∧ ∀ i, slot_ref.head b = .next i → i < j := by
    intro j hj
    refine ⟨?_, fun i hi => (by cases hi)⟩
    rcases getD_mem_or_null s.handles k with h3 | h3
    · exact hJ.closed_handles _ h3 j hj
    · have : (s.handle k) = shared_ptr.null := h3
      rw [this] at hj
      cases hj
  obtain ⟨h1, res, h2, e1, e2, hh, hmk, heq⟩ :=
    store_load_shape s.mem (.head b) (s.handle k) (led_shape_ok hJ) hv hnew hm
  refine ⟨s, h1, res, h2, e, e1, e2, ?_, heq⟩
  cases res
  cases hs : s.handle k
  rw [hs] at hh hmk
  simp only at hh hmk
  rw [hh, hmk]

theorem store_load_equal_witness :
    (∀ o ∈ [ptr_op.make shared_ptr.null 0, ptr_op.clone 0], o.slot_lt 1 = true) ∧ 0 < 1 ∧
    ∃ s h1 res h2,
      (session.init 1).run [ptr_op.make shared_ptr.null 0, ptr_op.clone 0] = some s ∧
      atomic_shared_ptr.store s.mem (.head 0) (s.handle 1) = some h1 ∧
      atomic_shared_ptr.load h1 (.head 0) = some (res, h2) ∧ res = s.handle 1 ∧
      shared_ptr.eq res (s.handle 1) = true :=
  ⟨by decide, by decide,
    store_load_equal 1 [ptr_op.make shared_ptr.null 0, ptr_op.clone 0] (by decide) 0 1
      (by decide)⟩


theorem handle_count_nil (k : Nat) : handle_count [] k = 0 := rfl

theorem handle_count_cons (x : shared_ptr) (L : List shared_ptr) (k : Nat) :
    handle_count (x :: L) k = (if x.header = some k then 1 else 0) + handle_count L k := by
  simp [handle_count]

theorem handle_count_app (L1 L2 : List shared_ptr) (k : Nat) :
    handle_count (L1 ++ L2) k = handle_count L1 k + handle_count L2 k := by
  simp [handle_count]

theorem ptr_ind_nonneg (o : Option counted_ptr) (k : Nat) : 0 ≤ ptr_ind o k := by
  cases o with
  | none => simp [ptr_ind]
  | some v =>
    simp only [ptr_ind]
    split <;> decide

theorem stake_nonneg (τ : thread) (k : Nat) : 0 ≤ τ.stake k := by
  have := handle_count_nonneg (τ.handles ++ τ.pc.owned) k
  have := ptr_ind_nonneg τ.pc.pending k
  unfold thread.stake
  omega

/-- A thread without a stake in a cell has not taken the cell out of the slot: what it
adds to the external count is its reservation. -/
theorem credit_of_stake_zero {τ : thread} {k : Nat} (h : τ.stake k = 0) :
    τ.credit k = ptr_ind τ.pc.guard k := by
  have h1 := handle_count_nonneg (τ.handles ++ τ.pc.owned) k
  have h2 := ptr_ind_nonneg τ.pc.pending k
  unfold thread.stake at h
  have h3 : ptr_ind τ.pc.pending k = 0 := by omega
  have h4 : ptr_acc τ.pc.pending k = 0 := by
    cases hp : τ.pc.pending with
    | none => rfl
    | some v =>
      rw [hp] at h3
      simp only [ptr_ind] at h3
      simp only [ptr_acc]
      split
      · rename_i hv
        simp [hv] at h3
      · rfl
  unfold thread.credit
  omega

theorem sum_map_set_of {α : Type} (f : α → Int) {l : List α} {t : Nat} {a : α} (b : α)
    (h : l[t]? = some a) : ((l.set t b).map f).sum = (l.map f).sum + (f b - f a) := by
  rw [sum_map_set f l t a b h]
  omega

theorem sum_zero_all {α : Type} (f : α → Int) (hf : ∀ a, 0 ≤ f a) : ∀ (l : List α),
    (l.map f).sum = 0 → ∀ a ∈ l, f a = 0 := by
  intro l
  induction l with
  | nil => intro _ a ha; simp at ha
  | cons x l ih =>
    intro h a ha
    simp only [List.map_cons, List.sum_cons] at h
    have h1 := hf x
    have h2 := sum_map_nonneg f hf l
    rcases List.mem_cons.mp ha with h3 | h3
    · rw [h3]; omega
    · exact ih (by omega) a h3

theorem access_sum_of_slot_count_zero {hs : List counted_ptr} {c : Nat}
    (h : slot_count hs c = 0) : access_sum hs c = 0 := by
  have h1 := sum_zero_all (fun s : counted_ptr => if s.ptr = some c then (1 : Int) else 0)
    (fun _ => ind_nonneg _) hs h
  apply sum_map_zero
  intro a ha
  have h2 := h1 a ha
  by_cases hc : a.ptr = some c
  · simp [hc] at h2
  · simp [hc]

/-- The cell a thread has a stake in was not destroyed. -/
theorem live_of_stake {σ : conc} {τ : thread} {c : Nat} (hI : σ.inv) (hτ : τ ∈ σ.threads)
    (hc : c < σ.mem.nodes.length) (hs : 1 ≤ τ.stake c) :
    ∃ x, σ.mem.nodes[c]? = some x ∧ x.destroyed = 0 := by
  apply led_live hI.led hc
  have h1 := sum_map_ge (fun τ : thread => τ.stake c) (fun a => stake_nonneg a c) σ.threads τ hτ
  have h2 := slot_count_nonneg σ.mem.head_buckets c
  simp only [handle_count_nil]
  simp only at h1
  omega

/-- The cell in the slot was not destroyed. -/
theorem live_of_slot {σ : conc} {v : counted_ptr} {b c : Nat} (hI : σ.inv)
    (hv : σ.mem.head_buckets[b]? = some v) (hc : v.ptr = some c) :
    ∃ x, σ.mem.nodes[c]? = some x ∧ x.destroyed = 0 := by
  apply led_live hI.led (hI.led.closed_slots v (List.getElem?_mem hv) c hc)
  have h1 := sum_map_nonneg (fun τ : thread => τ.stake c) (fun a => stake_nonneg a c) σ.threads
  have h2 := slot_count_pos hv hc
  simp only [handle_count_nil]
  simp only at h1
  omega

/-- The cell a guard holds a reservation for was not destroyed. -/
theorem live_of_guard {σ : conc} {τ : thread} {v : counted_ptr} {c : Nat} (hI : σ.inv)
    (hτ : τ ∈ σ.threads) (hg : τ.pc.guard = some v) (hc : v.ptr = some c) :
    ∃ x, σ.mem.nodes[c]? = some x ∧ x.destroyed = 0 := by
  have hlt : c < σ.mem.nodes.length := (hI.closed τ hτ).guard v hg c hc
  have hx := List.getElem?_eq_getElem hlt
  refine ⟨_, hx, ?_⟩
  rcases hI.led.dead c _ hx with h1 | h1
  · exact h1.1
  · exfalso
    have hcnt := hI.led.cnt c _ hx
    have hext := hI.led.ext c _ hx
    simp only [handle_count_nil] at hcnt
    have h2 := sum_map_nonneg (fun τ : thread => τ.stake c) (fun a => stake_nonneg a c)
      σ.threads
    have h3 := slot_count_nonneg σ.mem.head_buckets c
    simp only at h2
    have h4 : (σ.threads.map (fun τ : thread => τ.stake c)).sum = 0 := by omega
    have h5 : slot_count σ.mem.head_buckets c = 0 := by omega
    have h6 := sum_zero_all (fun τ : thread => τ.stake c) (fun a => stake_nonneg a c)
      σ.threads h4
    have h7 : ∀ a ∈ σ.threads, 0 ≤ a.credit c := by
      intro a ha
      rw [credit_of_stake_zero (h6 a ha)]
      exact ptr_ind_nonneg _ _
    have h8 : τ.credit c = 1 := by
      rw [credit_of_stake_zero (h6 τ hτ), hg]
      simp [ptr_ind, hc]
    have h9 : 1 ≤ (σ.threads.map (fun τ : thread => τ.credit c)).sum := by
      have : ∀ (l : List thread), (∀ a ∈ l, 0 ≤ a.credit c) → τ ∈ l →
          1 ≤ (l.map (fun τ : thread => τ.credit c)).sum := by
        intro l
        induction l with
        | nil => intro _ hm; simp at hm
        | cons x l ih =>
          intro hall hm
          simp only [List.map_cons, List.sum_cons]
          have hx0 := hall x (List.mem_cons_self _ _)
          rcases List.mem_cons.mp hm with h | h
          · rw [← h, h8]
            have : 0 ≤ (l.map (fun τ : thread => τ.credit c)).sum := by
              clear ih
              induction l with
              | nil => simp
              | cons y l ih2 =>
                simp only [List.map_cons, List.sum_cons]
                have := hall y (List.mem_cons_of_mem _ (List.mem_cons_self _ _))
                have := ih2 (fun a ha => by
                  rcases List.mem_cons.mp ha with h | h
                  · rw [h]; exact hx0
                  · exact hall a (List.mem_cons_of_mem _ (List.mem_cons_of_mem _ h)))
                  (by rw [h]; exact List.mem_cons_self _ _)
                omega
            omega
          · have := ih (fun a ha => hall a (List.mem_cons_of_mem _ ha)) h
            omega
      exact this σ.threads h7 hτ
    have h10 := access_sum_of_slot_count_zero h5
    omega


theorem closed_mono {τ : thread} {m m1 : Nat} (h : τ.closed m) (hm : m ≤ m1) : τ.closed m1 :=
  ⟨fun s hs c hc => Nat.lt_of_lt_of_le (h.handles s hs c hc) hm,
   fun v hv c hc => Nat.lt_of_lt_of_le (h.guard v hv c hc) hm,
   fun v hv c hc => Nat.lt_of_lt_of_le (h.pending v hv c hc) hm, h.loop⟩

/-- The invariant after a step of thread `t` that changes what `t` adds to the counts by
as much as it changes the counts. -/
theorem inv_update {σ : conc} {t : Nat} {τ τ1 : thread} {h1 : heap} {dC1 dE1 : Nat → Int}
    (hI : σ.inv) (ht : σ.threads[t]? = some τ) (hled : h1.led [] dC1 dE1)
    (hd : ∀ k, k < h1.nodes.length →
      dC1 k = (σ.threads.map (fun τ => τ.stake k)).sum + (τ1.stake k - τ.stake k) ∧
      dE1 k = (σ.threads.map (fun τ => τ.credit k)).sum + (τ1.credit k - τ.credit k))
    (hslot : h1.head_buckets.length = 1) (hmono : σ.mem.nodes.length ≤ h1.nodes.length)
    (hcl : τ1.closed h1.nodes.length) :
    ({ mem := h1, threads := σ.threads.set t τ1 } : conc).inv := by
  refine ⟨?_, hslot, ?_⟩
  · apply led_congr hled
    intro k hk
    have h2 := hd k hk
    simp only
    rw [sum_map_set_of (fun τ : thread => τ.stake k) τ1 ht,
      sum_map_set_of (fun τ : thread => τ.credit k) τ1 ht]
    exact ⟨h2.1.symm, h2.2.symm⟩
  · intro τ2 h2
    rcases List.mem_or_eq_of_mem_set h2 with h3 | h3
    · exact closed_mono (hI.closed τ2 h3) hmono
    · rw [h3]; exact hcl

theorem stake_mk (hs : List shared_ptr) (pc : pcs) (k : Nat) :
    ({ handles := hs, pc := pc } : thread).stake k =
      handle_count hs k + handle_count pc.owned k + ptr_ind pc.pending k := by
  simp only [thread.stake, handle_count_app]

theorem credit_mk (hs : List shared_ptr) (pc : pcs) (k : Nat) :
    ({ handles := hs, pc := pc } : thread).credit k =
      ptr_ind pc.guard k - ptr_acc pc.pending k := rfl

theorem stake_finish (τ : thread) (k : rel_kont) (j : Nat) :
    (τ.finish k).stake j = handle_count τ.handles j + handle_count k.owned j := by
  cases k with
  | done_load res =>
    simp [thread.finish, thread.stake, pcs.owned, pcs.pending, ptr_ind, rel_kont.owned,
      handle_count_app, handle_count_nil]
  | cew_fail n =>
    simp [thread.finish, thread.stake, pcs.owned, pcs.pending, ptr_ind, rel_kont.owned,
      handle_count_app]
  | cew_true =>
    simp [thread.finish, thread.stake, pcs.owned, pcs.pending, ptr_ind, rel_kont.owned,
      handle_count_app, handle_count_nil]
  | cew_reacquire e n nv =>
    simp only [thread.finish, thread.stake, handle_count_app, rel_kont.owned]
    split <;> simp [pcs.owned, pcs.pending, ptr_ind, get_kont.owned, acq_kont.owned]

theorem credit_finish (τ : thread) (k : rel_kont) (j : Nat) : (τ.finish k).credit j = 0 := by
  cases k with
  | done_load res => simp [thread.finish, thread.credit, pcs.guard, pcs.pending, ptr_ind, ptr_acc]
  | cew_fail n => simp [thread.finish, thread.credit, pcs.guard, pcs.pending, ptr_ind, ptr_acc]
  | cew_true => simp [thread.finish, thread.credit, pcs.guard, pcs.pending, ptr_ind, ptr_acc]
  | cew_reacquire e n nv =>
    simp only [thread.finish, thread.credit]
    split
    · rename_i hnv
      simp [pcs.guard, pcs.pending, ptr_ind, ptr_acc, hnv]
    · simp [pcs.guard, pcs.pending, ptr_ind, ptr_acc]

theorem closed_finish {τ : thread} {k : rel_kont} {m : Nat}
    (h : ∀ s ∈ τ.handles ++ k.owned, ∀ c, s.header = some c → c < m) :
    (τ.finish k).closed m := by
  cases k with
  | done_load res =>
    refine ⟨?_, fun v hv => (by cases hv), fun v hv => (by cases hv),
      fun _ _ _ hp => (by cases hp)⟩
    simpa [thread.finish, pcs.owned, rel_kont.owned] using h
  | cew_fail n =>
    refine ⟨?_, fun v hv => (by cases hv), fun v hv => (by cases hv),
      fun _ _ _ hp => (by cases hp)⟩
    simpa [thread.finish, pcs.owned, rel_kont.owned] using h
  | cew_true =>
    refine ⟨?_, fun v hv => (by cases hv), fun v hv => (by cases hv),
      fun _ _ _ hp => (by cases hp)⟩
    simpa [thread.finish, pcs.owned, rel_kont.owned] using h
  | cew_reacquire e n nv =>
    by_cases hnv : nv.ptr = none
    · refine ⟨?_, ?_, ?_, fun _ _ _ hp => (by simp [thread.finish, hnv] at hp)⟩
      · simpa [thread.finish, hnv, pcs.owned, rel_kont.owned, get_kont.owned] using h
      · intro v hv c hc
        simp only [thread.finish, hnv, if_true, pcs.guard, Option.some.injEq] at hv
        rw [← hv, hnv] at hc
        cases hc
      · intro v hv
        simp [thread.finish, hnv, pcs.pending] at hv
    · refine ⟨?_, ?_, ?_, fun _ _ _ hp => (by simp [thread.finish, hnv] at hp)⟩
      · simpa [thread.finish, hnv, pcs.owned, rel_kont.owned, acq_kont.owned] using h
      · intro v hv
        simp [thread.finish, hnv, pcs.guard] at hv
      · intro v hv
        simp [thread.finish, hnv, pcs.pending] at hv

theorem stake_begin_release (τ : thread) (val : counted_ptr) (k : rel_kont) (j : Nat) :
    (τ.begin_release val k).stake j = handle_count τ.handles j + handle_count k.owned j := by
  unfold thread.begin_release
  split
  · exact stake_finish τ k j
  · simp [thread.stake, pcs.owned, pcs.pending, ptr_ind, handle_count_app]

theorem credit_begin_release (τ : thread) (val : counted_ptr) (k : rel_kont) (j : Nat) :
    (τ.begin_release val k).credit j = if val.ptr = some j then 1 else 0 := by
  unfold thread.begin_release
  split
  · rename_i hv
    rw [credit_finish]
    simp [hv]
  · simp [thread.credit, pcs.guard, pcs.pending, ptr_ind, ptr_acc]

theorem closed_begin_release {τ : thread} {val : counted_ptr} {k : rel_kont} {m : Nat}
    (h : ∀ s ∈ τ.handles ++ k.owned, ∀ c, s.header = some c → c < m)
    (hv : ∀ c, val.ptr = some c → c < m) : (τ.begin_release val k).closed m := by
  unfold thread.begin_release
  split
  · exact closed_finish h
  · refine ⟨?_, ?_, fun v hv => (by cases hv), ?_⟩
    · simpa [pcs.owned] using h
    · intro v hv2 c hc
      simp only [pcs.guard, Option.some.injEq] at hv2
      rw [← hv2] at hc
      exact hv c hc
    · intro v1 t1 k1 hp
      simp only [pcs.release.injEq] at hp
      rw [← hp.1, ← hp.2.1]

theorem next_owned (val : counted_ptr) (k : acq_kont) : (k.next val).owned = k.owned := by
  cases k <;> rfl

theorem next_guard (val : counted_ptr) (k : acq_kont) : (k.next val).guard = some val := by
  cases k <;> rfl

theorem next_pending (val : counted_ptr) (k : acq_kont) : (k.next val).pending = none := by
  cases k <;> rfl

theorem begin_acquire_owned (v : counted_ptr) (k : acq_kont) :
    (begin_acquire v k).owned = k.owned := by
  unfold begin_acquire
  split
  · exact next_owned v k
  · rfl

theorem begin_acquire_pending (v : counted_ptr) (k : acq_kont) :
    (begin_acquire v k).pending = none := by
  unfold begin_acquire
  split
  · exact next_pending v k
  · rfl

theorem begin_acquire_guard (v : counted_ptr) (k : acq_kont) (j : Nat) :
    ptr_ind (begin_acquire v k).guard j = 0 := by
  unfold begin_acquire
  split
  · rename_i hv
    rw [next_guard]
    simp [ptr_ind, hv]
  · rfl

theorem begin_acquire_guard_closed {v : counted_ptr} {k : acq_kont} {w : counted_ptr}
    (h : (begin_acquire v k).guard = some w) : w.ptr = none := by
  unfold begin_acquire at h
  split at h
  · rename_i hv
    rw [next_guard] at h
    cases h
    exact hv
  · cases h

/-- The slot of the memory. -/
theorem inv_slot {σ : conc} (hI : σ.inv) :
    ∃ v, σ.mem.head_buckets[0]? = some v ∧ σ.mem.p (.head 0) = some v := by
  have h0 : 0 < σ.mem.head_buckets.length := by rw [hI.slot]; decide
  exact ⟨_, List.getElem?_eq_getElem h0, List.getElem?_eq_getElem h0⟩


theorem handle_count_zero_of_closed {L : List shared_ptr} {m k : Nat}
    (h : ∀ s ∈ L, ∀ c, s.header = some c → c < m) (hk : m ≤ k) : handle_count L k = 0 := by
  apply sum_map_zero
  intro s hs
  by_cases hc : s.header = some k
  · have := h s hs k hc; omega
  · simp [hc]

/-- A thread adds nothing to the counts of a cell that does not exist yet. -/
theorem closed_stake_zero {τ : thread} {m k : Nat} (h : τ.closed m) (hk : m ≤ k) :
    τ.stake k = 0 ∧ τ.credit k = 0 := by
  have h1 := handle_count_zero_of_closed h.handles hk
  have h2 : ptr_ind τ.pc.pending k = 0 ∧ ptr_acc τ.pc.pending k = 0 := by
    cases hp : τ.pc.pending with
    | none => exact ⟨rfl, rfl⟩
    | some v =>
      have hne : ¬ v.ptr = some k := fun hc => by
        have := h.pending v hp k hc; omega
      simp [ptr_ind, ptr_acc, hne]
  have h3 : ptr_ind τ.pc.guard k = 0 := by
    cases hp : τ.pc.guard with
    | none => rfl
    | some v =>
      have hne : ¬ v.ptr = some k := fun hc => by
        have := h.guard v hp k hc; omega
      simp [ptr_ind, hne]
  unfold thread.stake thread.credit
  omega

/-- The ledger of a memory with one more cell, whose count is one. -/
theorem led_append_gen {h h2 : heap} {dC dE : Nat → Int} {c2 : shared_ptr_header}
    (hJ : h.led [] dC dE) (h0 : dC h.nodes.length = 0 ∧ dE h.nodes.length = 0)
    (hn : h2.nodes = h.nodes ++ [c2]) (hh : h2.head_buckets = h.head_buckets)
    (hc : c2.count = { external_counters := 0, count := 1 }) (hd : c2.destroyed = 0)
    (hx : c2.storage.next.ptr = none) :
    h2.led [] (fun k => dC k + if k = h.nodes.length then 1 else 0) dE := by
  have hS : slot_count h.head_buckets h.nodes.length = 0 := by
    apply sum_map_zero
    intro s hs
    by_cases hc : s.ptr = some h.nodes.length
    · have := hJ.closed_slots s hs _ hc; omega
    · simp [hc]
  have hA := access_sum_of_slot_count_zero hS
  have hlen : h2.nodes.length = h.nodes.length + 1 := by rw [hn]; simp
  have hget : ∀ k y, h2.nodes[k]? = some y →
      (k < h.nodes.length ∧ h.nodes[k]? = some y) ∨ (k = h.nodes.length ∧ y = c2) := by
    intro k y hy
    rw [hn] at hy
    by_cases hk : k < h.nodes.length
    · left
      rw [List.getElem?_append_left hk] at hy
      exact ⟨hk, hy⟩
    · right
      have hk2 : k < h2.nodes.length := by
        rw [← hn] at hy
        exact (List.getElem?_eq_some_iff.mp hy).1
      have hke : k = h.nodes.length := by omega
      subst hke
      rw [List.getElem?_append_right (Nat.le_refl _)] at hy
      simp only [Nat.sub_self, List.getElem?_cons_zero, Option.some.injEq] at hy
      exact ⟨rfl, hy.symm⟩
  constructor
  · intro k y hy
    rcases hget k y hy with ⟨_, h1⟩ | ⟨_, h1⟩
    · exact hJ.nxt k y h1
    · rw [h1]; exact hx
  · intro k y hy
    rw [hh]
    rcases hget k y hy with ⟨hk, h1⟩ | ⟨hk, h1⟩
    · have := hJ.cnt k y h1
      have hne : ¬ (k = h.nodes.length) := by omega
      simp only [hne, if_false]
      omega
    · subst hk
      rw [h1, hc, hS, h0.1]
      simp [handle_count_nil]
  · intro k y hy
    rw [hh]
    rcases hget k y hy with ⟨hk, h1⟩ | ⟨hk, h1⟩
    · exact hJ.ext k y h1
    · subst hk
      rw [h1, hc, hA, h0.2]
      rfl
  · intro k y hy
    rcases hget k y hy with ⟨_, h1⟩ | ⟨_, h1⟩
    · exact hJ.dead k y h1
    · rw [h1, hc]
      exact Or.inl ⟨hd, by simp⟩
  · intro s hs
    simp at hs
  · intro s hs c hc
    rw [hlen]
    rw [hh] at hs
    have := hJ.closed_slots s hs c hc
    omega

theorem sum_zero_of_all {α : Type} (f : α → Int) (l : List α) (h : ∀ a ∈ l, f a = 0) :
    (l.map f).sum = 0 := sum_map_zero f l h

theorem idle_closed {hs : List shared_ptr} {m : Nat}
    (h : ∀ s ∈ hs, ∀ c, s.header = some c → c < m) :
    ({ handles := hs, pc := .idle } : thread).closed m :=
  ⟨by simpa [pcs.owned] using h, fun v hv => (by cases hv), fun v hv => (by cases hv),
    fun _ _ _ hp => (by cases hp)⟩

theorem closed_begin_acquire {hs : List shared_ptr} {v : counted_ptr} {k : acq_kont} {m : Nat}
    (h : ∀ s ∈ hs ++ k.owned, ∀ c, s.header = some c → c < m) :
    ({ handles := hs, pc := begin_acquire v k } : thread).closed m := by
  refine ⟨?_, ?_, ?_, ?_⟩
  · show ∀ s ∈ hs ++ (begin_acquire v k).owned, _
    rw [begin_acquire_owned]
    exact h
  · intro w hw c hc
    rw [begin_acquire_guard_closed hw] at hc
    cases hc
  · intro w hw
    have : (begin_acquire v k).pending = some w := hw
    rw [begin_acquire_pending] at this
    cases this
  · intro v1 t1 k1 hp1
    have hp2 : begin_acquire v k = .release v1 t1 k1 := hp1
    unfold begin_acquire at hp2
    split at hp2
    · cases k <;> cases hp2
    · cases hp2

theorem conc_make {σ : conc} {t : Nat} {hs : List shared_ptr} {sp : shared_ptr} {t0 : Int}
    {h1 : heap} {τ1 : thread} (hI : σ.inv) (ht : σ.threads[t]? = some ⟨hs, .idle⟩)
    (e : thread.step σ.mem ⟨hs, .idle⟩ (.make sp t0) = some (h1, τ1)) :
    ({ mem := h1, threads := σ.threads.set t τ1 } : conc).inv := by
  obtain ⟨h2, c2, e2, hn, hh, hcnt, hd, hst⟩ := make_shared_node_cell σ.mem sp t0
  simp only [thread.step, e2, Option.some.injEq, Prod.mk.injEq] at e
  obtain ⟨rfl, rfl⟩ := e
  have hτ := List.getElem?_mem ht
  have hcl := hI.closed _ hτ
  have hz : (σ.threads.map (fun τ => τ.stake σ.mem.nodes.length)).sum = 0 ∧
      (σ.threads.map (fun τ => τ.credit σ.mem.nodes.length)).sum = 0 :=
    ⟨sum_map_zero _ _ (fun a ha => (closed_stake_zero (hI.closed a ha) (Nat.le_refl _)).1),
     sum_map_zero _ _ (fun a ha => (closed_stake_zero (hI.closed a ha) (Nat.le_refl _)).2)⟩
  have hled := led_append_gen hI.led hz hn hh hcnt hd (by rw [hst])
  have hlen : h2.nodes.length = σ.mem.nodes.length + 1 := by rw [hn]; simp
  apply inv_update hI ht hled
  · intro k _
    simp only [stake_mk, credit_mk, pcs.owned, pcs.pending, pcs.guard, handle_count_app,
      handle_count_cons, handle_count_nil, ptr_ind, ptr_acc]
    have : (some σ.mem.nodes.length = some k) ↔ k = σ.mem.nodes.length := by
      constructor
      · intro e; cases e; rfl
      · intro e; rw [e]
    simp only [this]
    constructor
    · split_ifs <;> omega
    · omega
  · rw [hh]; exact hI.slot
  · omega
  · apply idle_closed
    intro s hs2 c hc
    rw [hlen]
    rcases List.mem_append.mp hs2 with h3 | h3
    · have := hcl.handles s (by simpa [pcs.owned] using h3) c hc
      omega
    · simp only [List.mem_singleton] at h3
      rw [h3] at hc
      cases hc
      omega

theorem conc_drop {σ : conc} {t : Nat} {hs : List shared_ptr} {k : Nat}
    {h1 : heap} {τ1 : thread} (hI : σ.inv) (ht : σ.threads[t]? = some ⟨hs, .idle⟩)
    (e : thread.step σ.mem ⟨hs, .idle⟩ (.drop k) = some (h1, τ1)) :
    ({ mem := h1, threads := σ.threads.set t τ1 } : conc).inv := by
  have hτ := List.getElem?_mem ht
  have hcl := hI.closed _ hτ
  have hcl2 : ∀ s ∈ hs, ∀ c, s.header = some c → c < σ.mem.nodes.length := by
    simpa [pcs.owned] using hcl.handles
  have hlive : ∀ c, (hs.getD k shared_ptr.null).header = some c →
      ∃ x, σ.mem.nodes[c]? = some x ∧ x.destroyed = 0 := by
    intro c hc
    have h2 := handle_count_getD hc
    have hlt : c < σ.mem.nodes.length := by
      rcases getD_mem_or_null hs k with h3 | h3
      · exact hcl2 _ h3 c hc
      · rw [h3] at hc; cases hc
    apply live_of_stake hI hτ hlt
    simp only [stake_mk, pcs.owned, pcs.pending, ptr_ind, handle_count_nil]
    omega
  obtain ⟨h2, hm, hn, hled, hh2, hl2⟩ :=
    led_modify_opt (hs.getD k shared_ptr.null).header (-1) 0 hI.led hlive
  simp only [thread.step, drop_eval hm hn, Option.some.injEq, Prod.mk.injEq] at e
  obtain ⟨rfl, rfl⟩ := e
  apply inv_update hI ht hled
  · intro j _
    simp only [stake_mk, credit_mk, pcs.owned, pcs.pending, pcs.guard, handle_count_clear,
      handle_count_nil, ptr_ind, ptr_acc]
    constructor
    · split_ifs <;> omega
    · simp
  · rw [hh2]; exact hI.slot
  · omega
  · apply idle_closed
    rw [hl2]
    exact closed_clear hcl2

theorem conc_load {σ : conc} {t : Nat} {hs : List shared_ptr}
    {h1 : heap} {τ1 : thread} (hI : σ.inv) (ht : σ.threads[t]? = some ⟨hs, .idle⟩)
    (e : thread.step σ.mem ⟨hs, .idle⟩ .load = some (h1, τ1)) :
    ({ mem := h1, threads := σ.threads.set t τ1 } : conc).inv := by
  obtain ⟨v, hv, hp⟩ := inv_slot hI
  have hτ := List.getElem?_mem ht
  have hcl := hI.closed _ hτ
  simp only [thread.step, hp, Option.some.injEq, Prod.mk.injEq] at e
  obtain ⟨rfl, rfl⟩ := e
  apply inv_update hI ht hI.led
  · intro j _
    simp only [stake_mk, credit_mk, begin_acquire_owned, begin_acquire_pending,
      begin_acquire_guard]
    simp only [pcs.owned, pcs.pending, pcs.guard, acq_kont.owned, ptr_ind, ptr_acc]
    constructor <;> omega
  · exact hI.slot
  · exact Nat.le_refl _
  · apply closed_begin_acquire
    simpa [pcs.owned, acq_kont.owned] using hcl.handles


theorem handles_closed_of {σ : conc} {t : Nat} {hs : List shared_ptr} {pc : pcs} (hI : σ.inv)
    (ht : σ.threads[t]? = some ⟨hs, pc⟩) :
    ∀ s ∈ hs ++ pc.owned, ∀ c, s.header = some c → c < σ.mem.nodes.length :=
  (hI.closed _ (List.getElem?_mem ht)).handles

theorem getD_closed {hs : List shared_ptr} {m k : Nat}
    (h : ∀ s ∈ hs, ∀ c, s.header = some c → c < m) :
    ∀ c, (hs.getD k shared_ptr.null).header = some c → c < m := by
  intro c hc
  rcases getD_mem_or_null hs k with h3 | h3
  · exact h _ h3 c hc
  · rw [h3] at hc; cases hc

/-- The first step of `store` and of `exchange`: `p.exchange(...)`. -/
theorem conc_swap {σ : conc} {t : Nat} {hs : List shared_ptr} {k : Nat} {v : counted_ptr}
    {h1 : heap} (pc1 : pcs) (hI : σ.inv) (ht : σ.threads[t]? = some ⟨hs, .idle⟩)
    (hv : σ.mem.head_buckets[0]? = some v)
    (hpc : pc1.owned = [] ∧ pc1.guard = none ∧ pc1.pending = some v ∧
      ∀ v1 t1 k1, pc1 ≠ .release v1 t1 k1)
    (e : σ.mem.set_p (.head 0)
      ⟨0, (hs.getD k shared_ptr.null).mark, (hs.getD k shared_ptr.null).header⟩ = some h1) :
    ({ mem := h1, threads := σ.threads.set t ⟨hs.set k shared_ptr.null, pc1⟩ } : conc).inv := by
  have hcl : ∀ s ∈ hs, ∀ c, s.header = some c → c < σ.mem.nodes.length := by
    simpa [pcs.owned] using handles_closed_of hI ht
  obtain ⟨h2, e2, hled, _, hl2, hn2⟩ := led_set_head
    ⟨0, (hs.getD k shared_ptr.null).mark, (hs.getD k shared_ptr.null).header⟩ hI.led hv
    (getD_closed hcl)
  rw [e] at e2
  cases e2
  apply inv_update hI ht hled
  · intro j _
    simp only [stake_mk, credit_mk, hpc.1, hpc.2.1, hpc.2.2.1, handle_count_clear]
    simp only [pcs.owned, pcs.pending, pcs.guard, handle_count_nil, ptr_ind, ptr_acc]
    constructor
    · split_ifs <;> omega
    · split_ifs <;> omega
  · rw [hl2]; exact hI.slot
  · rw [hn2]
  · rw [hn2]
    refine ⟨?_, ?_, ?_, ?_⟩
    · show ∀ s ∈ hs.set k shared_ptr.null ++ pc1.owned, _
      rw [hpc.1, List.append_nil]
      exact closed_clear hcl
    · intro w hw
      have : pc1.guard = some w := hw
      rw [hpc.2.1] at this
      cases this
    · intro w hw c hc
      have : pc1.pending = some w := hw
      rw [hpc.2.2.1] at this
      cases this
      exact hI.led.closed_slots _ (List.getElem?_mem hv) c hc
    · intro v1 t1 k1 hp
      exact absurd hp (hpc.2.2.2 v1 t1 k1)

theorem conc_store {σ : conc} {t : Nat} {hs : List shared_ptr} {k : Nat}
    {h1 : heap} {τ1 : thread} (hI : σ.inv) (ht : σ.threads[t]? = some ⟨hs, .idle⟩)
    (e : thread.step σ.mem ⟨hs, .idle⟩ (.store k) = some (h1, τ1)) :
    ({ mem := h1, threads := σ.threads.set t τ1 } : conc).inv := by
  obtain ⟨v, hv, hp⟩ := inv_slot hI
  simp only [thread.step, hp] at e
  split at e
  · cases e
  · rename_i h2 e2
    simp only [Option.some.injEq, Prod.mk.injEq] at e
    obtain ⟨rfl, rfl⟩ := e
    exact conc_swap (.store_dec v) hI ht hv
      ⟨rfl, rfl, rfl, fun _ _ _ hp => (by cases hp)⟩
      e2

theorem conc_exchange {σ : conc} {t : Nat} {hs : List shared_ptr} {k : Nat}
    {h1 : heap} {τ1 : thread} (hI : σ.inv) (ht : σ.threads[t]? = some ⟨hs, .idle⟩)
    (e : thread.step σ.mem ⟨hs, .idle⟩ (.exchange k) = some (h1, τ1)) :
    ({ mem := h1, threads := σ.threads.set t τ1 } : conc).inv := by
  obtain ⟨v, hv, hp⟩ := inv_slot hI
  simp only [thread.step, hp] at e
  split at e
  · cases e
  · rename_i h2 e2
    simp only [Option.some.injEq, Prod.mk.injEq] at e
    obtain ⟨rfl, rfl⟩ := e
    exact conc_swap (.xchg_get v) hI ht hv
      ⟨rfl, rfl, rfl, fun _ _ _ hp => (by cases hp)⟩
      e2

theorem conc_cew {σ : conc} {t : Nat} {hs : List shared_ptr} {e0 k : Nat}
    {h1 : heap} {τ1 : thread} (hI : σ.inv) (ht : σ.threads[t]? = some ⟨hs, .idle⟩)
    (e : thread.step σ.mem ⟨hs, .idle⟩ (.compare_exchange_weak e0 k) = some (h1, τ1)) :
    ({ mem := h1, threads := σ.threads.set t τ1 } : conc).inv := by
  obtain ⟨v, hv, hp⟩ := inv_slot hI
  have hcl : ∀ s ∈ hs, ∀ c, s.header = some c → c < σ.mem.nodes.length := by
    simpa [pcs.owned] using handles_closed_of hI ht
  simp only [thread.step, hp, Option.some.injEq, Prod.mk.injEq] at e
  obtain ⟨rfl, rfl⟩ := e
  apply inv_update hI ht hI.led
  · intro j _
    simp only [stake_mk, credit_mk, begin_acquire_owned, begin_acquire_pending,
      begin_acquire_guard, handle_count_clear]
    simp only [pcs.owned, pcs.pending, pcs.guard, acq_kont.owned, ptr_ind, ptr_acc,
      handle_count_cons, handle_count_nil]
    constructor
    · split_ifs <;> omega
    · omega
  · exact hI.slot
  · exact Nat.le_refl _
  · apply closed_begin_acquire
    intro s hs2 c hc
    rcases List.mem_append.mp hs2 with h3 | h3
    · exact closed_clear hcl s h3 c hc
    · simp only [acq_kont.owned, List.mem_singleton] at h3
      rw [h3] at hc
      exact getD_closed hcl c hc

/-- A step of the loop of `acquire`. -/
theorem conc_acquire {σ : conc} {t : Nat} {hs : List shared_ptr} {val : counted_ptr}
    {k : acq_kont} {sp : Bool} {h1 : heap} {τ1 : thread} (hI : σ.inv)
    (ht : σ.threads[t]? = some ⟨hs, .acquire val k⟩)
    (e : thread.step σ.mem ⟨hs, .acquire val k⟩ (.go sp) = some (h1, τ1)) :
    ({ mem := h1, threads := σ.threads.set t τ1 } : conc).inv := by
  obtain ⟨v, hv, hp⟩ := inv_slot hI
  have hcl := handles_closed_of hI ht
  have hfail : ({ mem := σ.mem, threads := σ.threads.set t ⟨hs, .acquire v k⟩ } : conc).inv := by
    apply inv_update hI ht hI.led
    · intro j _
      simp only [stake_mk, credit_mk]
      simp only [pcs.owned, pcs.pending, pcs.guard, ptr_ind, ptr_acc]
      constructor <;> omega
    · exact hI.slot
    · exact Nat.le_refl _
    · exact ⟨hcl, fun w hw => (by cases hw), fun w hw => (by cases hw),
        fun _ _ _ hp => (by cases hp)⟩
  simp only [thread.step, weak_compare_exchange] at e
  cases sp with
  | true =>
    simp only [if_true, hp, Option.some.injEq, Prod.mk.injEq] at e
    obtain ⟨rfl, rfl⟩ := e
    exact hfail
  | false =>
    simp only [Bool.false_eq_true, if_false, atomic_compare_exchange, hp] at e
    by_cases hvv : v = val
    · subst hvv
      obtain ⟨h2, e2, hled, _, hl2, hn2⟩ := led_set_head
        { v with access_count := v.access_count + 1 } hI.led hv
        (fun c hc => hI.led.closed_slots _ (List.getElem?_mem hv) c hc)
      simp only [if_true, e2, Option.some.injEq, Prod.mk.injEq] at e
      obtain ⟨rfl, rfl⟩ := e
      apply inv_update hI ht hled
      · intro j _
        simp only [stake_mk, credit_mk, next_owned, next_guard, next_pending]
        simp only [pcs.owned, pcs.pending, pcs.guard, ptr_ind, ptr_acc]
        constructor
        · split_ifs <;> omega
        · split_ifs <;> omega
      · rw [hl2]; exact hI.slot
      · rw [hn2]
      · rw [hn2]
        refine ⟨?_, ?_, ?_, ?_⟩
        · show ∀ s ∈ hs ++ (k.next _).owned, _
          rw [next_owned]
          exact hcl
        · intro w hw c hc
          have : (k.next { v with access_count := v.access_count + 1 }).guard = some w := hw
          rw [next_guard] at this
          cases this
          exact hI.led.closed_slots _ (List.getElem?_mem hv) c hc
        · intro w hw
          have : (k.next { v with access_count := v.access_count + 1 }).pending = some w := hw
          rw [next_pending] at this
          cases this
        · intro v1 t1 k1 hp1
          have hp2 : k.next { v with access_count := v.access_count + 1 } =
              .release v1 t1 k1 := hp1
          cases k <;> cases hp2
    · simp only [hvv, if_false, Option.some.injEq, Prod.mk.injEq] at e
      obtain ⟨rfl, rfl⟩ := e
      exact hfail


theorem modify_opt_eval {h h1 : heap} {p : Option Nat} {a b : Int}
    (hm : ∀ i, p = some i → modify_count h i a b = some h1) (hn : p = none → h1 = h) :
    (match p with
      | none => some h
      | some i => modify_count h i a b) = some h1 := by
  cases p with
  | none => exact congrArg some (hn rfl).symm
  | some i => exact hm i rfl

theorem closed_of_append {L1 L2 : List shared_ptr} {m : Nat}
    (h : ∀ s ∈ L1 ++ L2, ∀ c, s.header = some c → c < m) :
    (∀ s ∈ L1, ∀ c, s.header = some c → c < m) ∧ (∀ s ∈ L2, ∀ c, s.header = some c → c < m) :=
  ⟨fun s hs => h s (List.mem_append_left _ hs), fun s hs => h s (List.mem_append_right _ hs)⟩

theorem closed_app {L1 L2 : List shared_ptr} {m : Nat}
    (h1 : ∀ s ∈ L1, ∀ c, s.header = some c → c < m)
    (h2 : ∀ s ∈ L2, ∀ c, s.header = some c → c < m) :
    ∀ s ∈ L1 ++ L2, ∀ c, s.header = some c → c < m := by
  intro s hs
  rcases List.mem_append.mp hs with h3 | h3
  · exact h1 s h3
  · exact h2 s h3

/-- The step `guard.get_shared_ptr()`. -/
theorem conc_get {σ : conc} {t : Nat} {hs : List shared_ptr} {val : counted_ptr}
    {k : get_kont} {sp : Bool} {h1 : heap} {τ1 : thread} (hI : σ.inv)
    (ht : σ.threads[t]? = some ⟨hs, .get val k⟩)
    (e : thread.step σ.mem ⟨hs, .get val k⟩ (.go sp) = some (h1, τ1)) :
    ({ mem := h1, threads := σ.threads.set t τ1 } : conc).inv := by
  have hτ := List.getElem?_mem ht
  have hcl := hI.closed _ hτ
  obtain ⟨hcl1, hcl2⟩ := closed_of_append hcl.handles
  have hg : ∀ c, val.ptr = some c → c < σ.mem.nodes.length := hcl.guard val rfl
  obtain ⟨h2, hm, hn, hled, hh2, hl2⟩ := led_modify_opt val.ptr 1 0 hI.led
    (fun c hc => live_of_guard hI hτ rfl hc)
  simp only [thread.step, from_header_eval hm hn] at e
  cases k with
  | load =>
    simp only [Option.some.injEq, Prod.mk.injEq] at e
    obtain ⟨rfl, rfl⟩ := e
    apply inv_update hI ht hled
    · intro j _
      simp only [stake_mk, credit_mk, stake_begin_release, credit_begin_release]
      simp only [pcs.owned, pcs.pending, pcs.guard, get_kont.owned, rel_kont.owned,
        handle_count_cons, handle_count_nil, ptr_ind, ptr_acc]
      constructor
      · split_ifs <;> omega
      · split_ifs <;> omega
    · rw [hh2]; exact hI.slot
    · omega
    · rw [hl2]
      apply closed_begin_release _ hg
      apply closed_app hcl1
      intro s hs2 c hc
      simp only [rel_kont.owned, List.mem_singleton] at hs2
      rw [hs2] at hc
      exact hg c hc
  | cew e0 n =>
    simp only [Option.some.injEq, Prod.mk.injEq] at e
    obtain ⟨rfl, rfl⟩ := e
    apply inv_update hI ht hled
    · intro j _
      simp only [stake_mk, credit_mk]
      simp only [pcs.owned, pcs.pending, pcs.guard, get_kont.owned,
        handle_count_cons, handle_count_nil, ptr_ind, ptr_acc]
      constructor
      · split_ifs <;> omega
      · split_ifs <;> omega
    · rw [hh2]; exact hI.slot
    · omega
    · rw [hl2]
      refine ⟨?_, ?_, fun w hw => (by cases hw), fun _ _ _ hp => (by cases hp)⟩
      · apply closed_app hcl1
        intro s hs2 c hc
        simp only [pcs.owned, List.mem_cons, List.mem_singleton, List.not_mem_nil,
          or_false] at hs2
        rcases hs2 with h3 | h3
        · exact hcl2 s (by rw [h3]; simp [pcs.owned, get_kont.owned]) c hc
        · rw [h3] at hc
          exact hg c hc
      · intro w hw c hc
        cases hw
        exact hg c hc

/-- The step that releases the old content of `expected`. -/
theorem conc_assign {σ : conc} {t : Nat} {hs : List shared_ptr} {val : counted_ptr}
    {e0 : Nat} {n e1 : shared_ptr} {sp : Bool} {h1 : heap} {τ1 : thread} (hI : σ.inv)
    (ht : σ.threads[t]? = some ⟨hs, .assign e0 n val e1⟩)
    (e : thread.step σ.mem ⟨hs, .assign e0 n val e1⟩ (.go sp) = some (h1, τ1)) :
    ({ mem := h1, threads := σ.threads.set t τ1 } : conc).inv := by
  have hτ := List.getElem?_mem ht
  have hcl := hI.closed _ hτ
  obtain ⟨hcl1, hcl2⟩ := closed_of_append hcl.handles
  have hg : ∀ c, val.ptr = some c → c < σ.mem.nodes.length := hcl.guard val rfl
  have hlive : ∀ c, (hs.getD e0 shared_ptr.null).header = some c →
      ∃ x, σ.mem.nodes[c]? = some x ∧ x.destroyed = 0 := by
    intro c hc
    have h2 := handle_count_getD hc
    apply live_of_stake hI hτ (getD_closed hcl1 c hc)
    simp only [stake_mk, pcs.owned, pcs.pending, ptr_ind, handle_count_cons, handle_count_nil]
    split_ifs <;> omega
  obtain ⟨h2, hm, hn, hled, hh2, hl2⟩ :=
    led_modify_opt (hs.getD e0 shared_ptr.null).header (-1) 0 hI.led hlive
  simp only [thread.step, drop_eval hm hn, Option.some.injEq, Prod.mk.injEq] at e
  obtain ⟨rfl, rfl⟩ := e
  apply inv_update hI ht hled
  · intro j _
    simp only [stake_mk, credit_mk, stake_begin_release, credit_begin_release,
      handle_count_put]
    simp only [pcs.owned, pcs.pending, pcs.guard, rel_kont.owned,
      handle_count_cons, handle_count_nil, ptr_ind, ptr_acc]
    constructor
    · split_ifs <;> omega
    · split_ifs <;> omega
  · rw [hh2]; exact hI.slot
  · omega
  · rw [hl2]
    apply closed_begin_release _ hg
    apply closed_app
    · exact closed_put hcl1 (fun c hc => hcl2 e1 (by simp [pcs.owned]) c hc)
    · intro s hs2 c hc
      simp only [rel_kont.owned, List.mem_singleton] at hs2
      exact hcl2 s (by rw [hs2]; simp [pcs.owned]) c hc

/-- The step `val.ptr->modify_count(0,-1)` of `release`. -/
theorem conc_unref {σ : conc} {t : Nat} {hs : List shared_ptr} {val : counted_ptr}
    {k : rel_kont} {sp : Bool} {h1 : heap} {τ1 : thread} (hI : σ.inv)
    (ht : σ.threads[t]? = some ⟨hs, .unref val k⟩)
    (e : thread.step σ.mem ⟨hs, .unref val k⟩ (.go sp) = some (h1, τ1)) :
    ({ mem := h1, threads := σ.threads.set t τ1 } : conc).inv := by
  have hτ := List.getElem?_mem ht
  have hcl := hI.closed _ hτ
  cases hv : val.ptr with
  | none => simp [thread.step, hv] at e
  | some i =>
    obtain ⟨x, hx, hl⟩ := live_of_guard hI hτ rfl hv
    obtain ⟨h2, e2, hled, hh2, hl2⟩ := led_modify 0 (-1) hI.led hx hl
    simp only [thread.step, hv, e2, Option.some.injEq, Prod.mk.injEq] at e
    obtain ⟨rfl, rfl⟩ := e
    apply inv_update hI ht hled
    · intro j _
      simp only [stake_mk, credit_mk, stake_finish, credit_finish]
      simp only [pcs.owned, pcs.pending, pcs.guard, ptr_ind, ptr_acc, hv, Option.some.injEq]
      constructor
      · omega
      · by_cases hji : j = i
        · subst hji; simp
        · have : ¬ (i = j) := fun h => hji h.symm
          simp [hji, this]
    · rw [hh2]; exact hI.slot
    · omega
    · rw [hl2]
      exact closed_finish hcl.handles

/-- The step that destroys the parameter `newptr` of a failed `compare_exchange_weak`. -/
theorem conc_dropnew {σ : conc} {t : Nat} {hs : List shared_ptr} {n : shared_ptr}
    {sp : Bool} {h1 : heap} {τ1 : thread} (hI : σ.inv)
    (ht : σ.threads[t]? = some ⟨hs, .dropnew n⟩)
    (e : thread.step σ.mem ⟨hs, .dropnew n⟩ (.go sp) = some (h1, τ1)) :
    ({ mem := h1, threads := σ.threads.set t τ1 } : conc).inv := by
  have hτ := List.getElem?_mem ht
  have hcl := hI.closed _ hτ
  obtain ⟨hcl1, hcl2⟩ := closed_of_append hcl.handles
  have hlive : ∀ c, n.header = some c →
      ∃ x, σ.mem.nodes[c]? = some x ∧ x.destroyed = 0 := by
    intro c hc
    apply live_of_stake hI hτ (hcl2 n (by simp [pcs.owned]) c hc)
    have := handle_count_nonneg hs c
    simp only [stake_mk, pcs.owned, pcs.pending, ptr_ind, handle_count_cons, handle_count_nil,
      hc, if_true]
    omega
  obtain ⟨h2, hm, hn, hled, hh2, hl2⟩ := led_modify_opt n.header (-1) 0 hI.led hlive
  simp only [thread.step, drop_eval hm hn, Option.some.injEq, Prod.mk.injEq] at e
  obtain ⟨rfl, rfl⟩ := e
  apply inv_update hI ht hled
  · intro j _
    simp only [stake_mk, credit_mk]
    simp only [pcs.owned, pcs.pending, pcs.guard,
      handle_count_cons, handle_count_nil, ptr_ind, ptr_acc]
    constructor
    · split_ifs <;> omega
    · omega
  · rw [hh2]; exact hI.slot
  · omega
  · rw [hl2]
    exact idle_closed hcl1


theorem live_of_pending {σ : conc} {τ : thread} {v : counted_ptr} {c : Nat} (hI : σ.inv)
    (hτ : τ ∈ σ.threads) (hg : τ.pc.pending = some v) (hc : v.ptr = some c) :
    ∃ x, σ.mem.nodes[c]? = some x ∧ x.destroyed = 0 := by
  apply live_of_stake hI hτ ((hI.closed _ hτ).pending v hg c hc)
  have := handle_count_nonneg (τ.handles ++ τ.pc.owned) c
  simp only [thread.stake, hg, ptr_ind, hc, if_true]
  omega

/-- The step `old.ptr->modify_count(-1,old.access_count)` of `store`. -/
theorem conc_store_dec {σ : conc} {t : Nat} {hs : List shared_ptr} {old : counted_ptr}
    {sp : Bool} {h1 : heap} {τ1 : thread} (hI : σ.inv)
    (ht : σ.threads[t]? = some ⟨hs, .store_dec old⟩)
    (e : thread.step σ.mem ⟨hs, .store_dec old⟩ (.go sp) = some (h1, τ1)) :
    ({ mem := h1, threads := σ.threads.set t τ1 } : conc).inv := by
  have hτ := List.getElem?_mem ht
  have hcl := hI.closed _ hτ
  obtain ⟨hcl1, hcl2⟩ := closed_of_append hcl.handles
  obtain ⟨h2, hm, hn, hled, hh2, hl2⟩ := led_modify_opt old.ptr (-1) old.access_count hI.led
    (fun c hc => live_of_pending hI hτ rfl hc)
  have he : h1 = h2 ∧ τ1 = (⟨hs, .idle⟩) := by
    cases hv : old.ptr with
    | none =>
      simp only [thread.step, hv, Option.some.injEq, Prod.mk.injEq] at e
      exact ⟨e.1.symm.trans (hn hv).symm, e.2.symm⟩
    | some i =>
      simp only [thread.step, hv, hm i hv, Option.some.injEq, Prod.mk.injEq] at e
      exact ⟨e.1.symm, e.2.symm⟩
  obtain ⟨rfl, rfl⟩ := he
  apply inv_update hI ht hled
  · intro j _
    simp only [stake_mk, credit_mk]
    simp only [pcs.owned, pcs.pending, pcs.guard, handle_count_nil, ptr_ind, ptr_acc]
    constructor
    · split_ifs <;> omega
    · split_ifs <;> omega
  · rw [hh2]; exact hI.slot
  · omega
  · rw [hl2]
    exact idle_closed hcl1

/-- The step `shared_ptr<T> res(old.ptr)` of `exchange`. -/
theorem conc_xchg_get {σ : conc} {t : Nat} {hs : List shared_ptr} {old : counted_ptr}
    {sp : Bool} {h1 : heap} {τ1 : thread} (hI : σ.inv)
    (ht : σ.threads[t]? = some ⟨hs, .xchg_get old⟩)
    (e : thread.step σ.mem ⟨hs, .xchg_get old⟩ (.go sp) = some (h1, τ1)) :
    ({ mem := h1, threads := σ.threads.set t τ1 } : conc).inv := by
  have hτ := List.getElem?_mem ht
  have hcl := hI.closed _ hτ
  obtain ⟨hcl1, hcl2⟩ := closed_of_append hcl.handles
  have hg : ∀ c, old.ptr = some c → c < σ.mem.nodes.length := hcl.pending old rfl
  obtain ⟨h2, hm, hn, hled, hh2, hl2⟩ := led_modify_opt old.ptr 1 0 hI.led
    (fun c hc => live_of_pending hI hτ rfl hc)
  simp only [thread.step, from_header_eval hm hn, Option.some.injEq, Prod.mk.injEq] at e
  obtain ⟨rfl, rfl⟩ := e
  apply inv_update hI ht hled
  · intro j _
    simp only [stake_mk, credit_mk]
    simp only [pcs.owned, pcs.pending, pcs.guard, handle_count_cons, handle_count_nil,
      ptr_ind, ptr_acc]
    constructor
    · split_ifs <;> omega
    · split_ifs <;> omega
  · rw [hh2]; exact hI.slot
  · omega
  · rw [hl2]
    refine ⟨?_, fun w hw => (by cases hw), ?_, fun _ _ _ hp => (by cases hp)⟩
    · apply closed_app hcl1
      intro s hs2 c hc
      simp only [pcs.owned, List.mem_singleton] at hs2
      rw [hs2] at hc
      exact hg c hc
    · intro w hw c hc
      cases hw
      exact hg c hc

/-- The step `old.ptr->modify_count(-1,old.access_count)` of `exchange`. -/
theorem conc_xchg_dec {σ : conc} {t : Nat} {hs : List shared_ptr} {old : counted_ptr}
    {res : shared_ptr} {sp : Bool} {h1 : heap} {τ1 : thread} (hI : σ.inv)
    (ht : σ.threads[t]? = some ⟨hs, .xchg_dec old res⟩)
    (e : thread.step σ.mem ⟨hs, .xchg_dec old res⟩ (.go sp) = some (h1, τ1)) :
    ({ mem := h1, threads := σ.threads.set t τ1 } : conc).inv := by
  have hτ := List.getElem?_mem ht
  have hcl := hI.closed _ hτ
  obtain ⟨h2, hm, hn, hled, hh2, hl2⟩ := led_modify_opt old.ptr (-1) old.access_count hI.led
    (fun c hc => live_of_pending hI hτ rfl hc)
  have he : h1 = h2 ∧ τ1 = (⟨hs ++ [res], .idle⟩) := by
    cases hv : old.ptr with
    | none =>
      simp only [thread.step, hv, Option.some.injEq, Prod.mk.injEq] at e
      exact ⟨e.1.symm.trans (hn hv).symm, e.2.symm⟩
    | some i =>
      simp only [thread.step, hv, hm i hv, Option.some.injEq, Prod.mk.injEq] at e
      exact ⟨e.1.symm, e.2.symm⟩
  obtain ⟨rfl, rfl⟩ := he
  apply inv_update hI ht hled
  · intro j _
    simp only [stake_mk, credit_mk, handle_count_append]
    simp only [pcs.owned, pcs.pending, pcs.guard, handle_count_cons, handle_count_nil,
      ptr_ind, ptr_acc]
    constructor
    · split_ifs <;> omega
    · split_ifs <;> omega
  · rw [hh2]; exact hI.slot
  · omega
  · rw [hl2]
    apply idle_closed
    exact hcl.handles

/-- The step `oldval.ptr->modify_count(-1,oldval.access_count)` of a successful
`compare_exchange_weak`. -/
theorem conc_cew_dec {σ : conc} {t : Nat} {hs : List shared_ptr} {val : counted_ptr}
    {sp : Bool} {h1 : heap} {τ1 : thread} (hI : σ.inv)
    (ht : σ.threads[t]? = some ⟨hs, .cew_dec val⟩)
    (e : thread.step σ.mem ⟨hs, .cew_dec val⟩ (.go sp) = some (h1, τ1)) :
    ({ mem := h1, threads := σ.threads.set t τ1 } : conc).inv := by
  have hτ := List.getElem?_mem ht
  have hcl := hI.closed _ hτ
  obtain ⟨hcl1, hcl2⟩ := closed_of_append hcl.handles
  have hg : ∀ c, val.ptr = some c → c < σ.mem.nodes.length := hcl.guard val rfl
  obtain ⟨h2, hm, hn, hled, hh2, hl2⟩ := led_modify_opt val.ptr (-1) val.access_count hI.led
    (fun c hc => live_of_pending hI hτ rfl hc)
  have he : h1 = h2 ∧ τ1 = (thread.begin_release ⟨hs, .cew_dec val⟩ val .cew_true) := by
    cases hv : val.ptr with
    | none =>
      simp only [thread.step, hv, Option.some.injEq, Prod.mk.injEq] at e
      exact ⟨e.1.symm.trans (hn hv).symm, e.2.symm⟩
    | some i =>
      simp only [thread.step, hv, hm i hv, Option.some.injEq, Prod.mk.injEq] at e
      exact ⟨e.1.symm, e.2.symm⟩
  obtain ⟨rfl, rfl⟩ := he
  apply inv_update hI ht hled
  · intro j _
    simp only [stake_mk, credit_mk, stake_begin_release, credit_begin_release]
    simp only [pcs.owned, pcs.pending, pcs.guard, rel_kont.owned, handle_count_nil,
      ptr_ind, ptr_acc]
    constructor
    · split_ifs <;> omega
    · split_ifs <;> omega
  · rw [hh2]; exact hI.slot
  · omega
  · rw [hl2]
    apply closed_begin_release _ hg
    apply closed_app hcl1
    intro s hs2
    simp [rel_kont.owned] at hs2


/-- A step that changes neither the memory nor what the thread adds to the counts. -/
theorem inv_local {σ : conc} {t : Nat} {τ τ1 : thread} (hI : σ.inv)
    (ht : σ.threads[t]? = some τ)
    (hs : ∀ k, τ1.stake k = τ.stake k ∧ τ1.credit k = τ.credit k)
    (hcl : τ1.closed σ.mem.nodes.length) :
    ({ mem := σ.mem, threads := σ.threads.set t τ1 } : conc).inv := by
  apply inv_update hI ht hI.led
  · intro k _
    rw [(hs k).1, (hs k).2]
    constructor <;> omega
  · exact hI.slot
  · exact Nat.le_refl _
  · exact hcl

/-- A step of the loop of `release`. -/
theorem conc_release {σ : conc} {t : Nat} {hs : List shared_ptr} {val target : counted_ptr}
    {k : rel_kont} {sp : Bool} {h1 : heap} {τ1 : thread} (hI : σ.inv)
    (ht : σ.threads[t]? = some ⟨hs, .release val target k⟩)
    (e : thread.step σ.mem ⟨hs, .release val target k⟩ (.go sp) = some (h1, τ1)) :
    ({ mem := h1, threads := σ.threads.set t τ1 } : conc).inv := by
  obtain ⟨v, hv, hp⟩ := inv_slot hI
  have hτ := List.getElem?_mem ht
  have hcl := hI.closed _ hτ
  have hloop : target.ptr = val.ptr := hcl.loop val target k rfl
  have hg : ∀ c, val.ptr = some c → c < σ.mem.nodes.length := hcl.guard val rfl
  have hfail : ∀ τ2 : thread,
      τ2 = (if v.ptr = val.ptr then ⟨hs, .release val v k⟩ else ⟨hs, .unref val k⟩) →
      ({ mem := σ.mem, threads := σ.threads.set t τ2 } : conc).inv := by
    intro τ2 h2
    subst h2
    apply inv_local hI ht
    · intro j
      split_ifs <;> exact ⟨rfl, rfl⟩
    · split_ifs with h3
      · exact ⟨hcl.handles, hcl.guard, fun w hw => (by cases hw),
          fun _ _ _ hp => (by cases hp; exact h3)⟩
      · exact ⟨hcl.handles, hcl.guard, fun w hw => (by cases hw),
          fun _ _ _ hp => (by cases hp)⟩
  simp only [thread.step, weak_compare_exchange] at e
  cases sp with
  | true =>
    simp only [if_true, hp] at e
    split_ifs at e with h3
    · simp only [Option.some.injEq, Prod.mk.injEq] at e
      obtain ⟨rfl, rfl⟩ := e
      exact hfail _ (by simp [h3])
    · simp only [Option.some.injEq, Prod.mk.injEq] at e
      obtain ⟨rfl, rfl⟩ := e
      exact hfail _ (by simp [h3])
  | false =>
    simp only [Bool.false_eq_true, if_false, atomic_compare_exchange, hp] at e
    by_cases hvv : v = target
    · subst hvv
      obtain ⟨h2, e2, hled, _, hl2, hn2⟩ := led_set_head
        { v with access_count := v.access_count - 1 } hI.led hv
        (fun c hc => hI.led.closed_slots _ (List.getElem?_mem hv) c hc)
      simp only [if_true, e2, Option.some.injEq, Prod.mk.injEq] at e
      obtain ⟨rfl, rfl⟩ := e
      apply inv_update hI ht hled
      · intro j _
        simp only [stake_mk, credit_mk, stake_finish, credit_finish]
        simp only [pcs.owned, pcs.pending, pcs.guard, ptr_ind, ptr_acc, ← hloop]
        constructor
        · split_ifs <;> omega
        · split_ifs <;> omega
      · rw [hl2]; exact hI.slot
      · rw [hn2]
      · rw [hn2]
        exact closed_finish hcl.handles
    · simp only [hvv, if_false] at e
      split_ifs at e with h3
      · simp only [Option.some.injEq, Prod.mk.injEq] at e
        obtain ⟨rfl, rfl⟩ := e
        exact hfail _ (by simp [h3])
      · simp only [Option.some.injEq, Prod.mk.injEq] at e
        obtain ⟨rfl, rfl⟩ := e
        exact hfail _ (by simp [h3])

/-- The step of `compare_exchange_weak` that tests `expected` and tries the
compare-exchange of the slot. -/
theorem conc_cew_test {σ : conc} {t : Nat} {hs : List shared_ptr} {val : counted_ptr}
    {e0 : Nat} {n : shared_ptr} {sp : Bool} {h1 : heap} {τ1 : thread} (hI : σ.inv)
    (ht : σ.threads[t]? = some ⟨hs, .cew_test e0 n val⟩)
    (e : thread.step σ.mem ⟨hs, .cew_test e0 n val⟩ (.go sp) = some (h1, τ1)) :
    ({ mem := h1, threads := σ.threads.set t τ1 } : conc).inv := by
  obtain ⟨v, hv, hp⟩ := inv_slot hI
  have hτ := List.getElem?_mem ht
  have hcl := hI.closed _ hτ
  obtain ⟨hcl1, hcl2⟩ := closed_of_append hcl.handles
  have hg : ∀ c, val.ptr = some c → c < σ.mem.nodes.length := hcl.guard val rfl
  have hget : ({ mem := σ.mem, threads := σ.threads.set t ⟨hs, .get val (.cew e0 n)⟩ } :
      conc).inv := by
    apply inv_local hI ht
    · intro j
      exact ⟨rfl, rfl⟩
    · exact ⟨hcl.handles, fun w hw => (by cases hw; exact hg), fun w hw => (by cases hw),
        fun _ _ _ hp => (by cases hp)⟩
  have hfail : ∀ τ2 : thread,
      τ2 = (if v.ptr = val.ptr then ⟨hs, .get val (.cew e0 n)⟩
        else thread.begin_release ⟨hs, .cew_test e0 n val⟩ val (.cew_reacquire e0 n v)) →
      ({ mem := σ.mem, threads := σ.threads.set t τ2 } : conc).inv := by
    intro τ2 h2
    subst h2
    split_ifs with h3
    · exact hget
    · apply inv_local hI ht
      · intro j
        simp only [stake_mk, credit_mk, stake_begin_release, credit_begin_release]
        simp only [pcs.owned, pcs.pending, pcs.guard, rel_kont.owned, ptr_ind, ptr_acc]
        constructor <;> omega
      · exact closed_begin_release hcl.handles hg
  simp only [thread.step, weak_compare_exchange] at e
  split_ifs at e with h0 h4
  · simp only [Option.some.injEq, Prod.mk.injEq] at e
    obtain ⟨rfl, rfl⟩ := e
    exact hget
  · simp only [hp] at e
    split_ifs at e with h3
    · simp only [Option.some.injEq, Prod.mk.injEq] at e
      obtain ⟨rfl, rfl⟩ := e
      exact hfail _ (by simp [h3])
    · simp only [Option.some.injEq, Prod.mk.injEq] at e
      obtain ⟨rfl, rfl⟩ := e
      exact hfail _ (by simp [h3])
  · simp only [atomic_compare_exchange, hp] at e
    by_cases hvv : v = val
    · subst hvv
      obtain ⟨h2, e2, hled, _, hl2, hn2⟩ := led_set_head
        ⟨0, n.mark, n.header⟩ hI.led hv
        (fun c hc => hcl2 n (by simp [pcs.owned]) c hc)
      simp only [if_true, e2, Option.some.injEq, Prod.mk.injEq] at e
      obtain ⟨rfl, rfl⟩ := e
      apply inv_update hI ht hled
      · intro j _
        simp only [stake_mk, credit_mk]
        simp only [pcs.owned, pcs.pending, pcs.guard, ptr_ind, ptr_acc, handle_count_cons,
          handle_count_nil]
        constructor
        · split_ifs <;> omega
        · split_ifs <;> omega
      · rw [hl2]; exact hI.slot
      · rw [hn2]
      · rw [hn2]
        refine ⟨?_, ?_, ?_, fun _ _ _ hp => (by cases hp)⟩
        · apply closed_app hcl1
          intro s hs2
          simp [pcs.owned] at hs2
        · intro w hw
          cases hw
          exact hg
        · intro w hw
          cases hw
          exact hg
    · simp only [hvv, if_false] at e
      split_ifs at e with h3
      · simp only [Option.some.injEq, Prod.mk.injEq] at e
        obtain ⟨rfl, rfl⟩ := e
        exact hfail _ (by simp [h3])
      · simp only [Option.some.injEq, Prod.mk.injEq] at e
        obtain ⟨rfl, rfl⟩ := e
        exact hfail _ (by simp [h3])


/-- Every step of a thread keeps the invariant. -/
theorem thread_step_inv {σ : conc} {t : Nat} {τ τ1 : thread} {a : act} {h1 : heap}
    (hI : σ.inv) (ht : σ.threads[t]? = some τ) (e : τ.step σ.mem a = some (h1, τ1)) :
    ({ mem := h1, threads := σ.threads.set t τ1 } : conc).inv := by
  obtain ⟨hs, pc⟩ := τ
  cases a with
  | make sp t0 =>
    cases pc with
    | idle => exact conc_make hI ht e
    | _ => simp [thread.step] at e
  | drop k =>
    cases pc with
    | idle => exact conc_drop hI ht e
    | _ => simp [thread.step] at e
  | load =>
    cases pc with
    | idle => exact conc_load hI ht e
    | _ => simp [thread.step] at e
  | store k =>
    cases pc with
    | idle => exact conc_store hI ht e
    | _ => simp [thread.step] at e
  | exchange k =>
    cases pc with
    | idle => exact conc_exchange hI ht e
    | _ => simp [thread.step] at e
  | compare_exchange_weak e0 k =>
    cases pc with
    | idle => exact conc_cew hI ht e
    | _ => simp [thread.step] at e
  | go sp =>
    cases pc with
    | idle => simp [thread.step] at e
    | acquire val k => exact conc_acquire hI ht e
    | get val k => exact conc_get hI ht e
    | assign e0 n val e1 => exact conc_assign hI ht e
    | release val target k => exact conc_release hI ht e
    | unref val k => exact conc_unref hI ht e
    | dropnew n => exact conc_dropnew hI ht e
    | store_dec old => exact conc_store_dec hI ht e
    | xchg_get old => exact conc_xchg_get hI ht e
    | xchg_dec old res => exact conc_xchg_dec hI ht e
    | cew_test e0 n val => exact conc_cew_test hI ht e
    | cew_dec val => exact conc_cew_dec hI ht e

theorem conc_step_inv {σ σ1 : conc} {t : Nat} {a : act} (hI : σ.inv)
    (e : σ.step t a = some σ1) : σ1.inv := by
  unfold conc.step at e
  cases ht : σ.threads[t]? with
  | none => simp [ht] at e
  | some τ =>
    cases e2 : τ.step σ.mem a with
    | none => simp [ht, e2] at e
    | some r =>
      obtain ⟨h1, τ1⟩ := r
      simp only [ht, e2, Option.some.injEq] at e
      subst e
      exact thread_step_inv hI ht e2

theorem conc_run_inv : ∀ (s : List (Nat × act)) {σ σ1 : conc}, σ.inv →
    σ.run s = some σ1 → σ1.inv
  | [], σ, σ1, hI, e => by
    simp only [conc.run, Option.some.injEq] at e
    subst e
    exact hI
  | (t, a) :: s, σ, σ1, hI, e => by
    simp only [conc.run] at e
    cases e2 : σ.step t a with
    | none => simp [e2] at e
    | some σ2 =>
      simp only [e2] at e
      exact conc_run_inv s (conc_step_inv hI e2) e

theorem conc_init_inv (n : Nat) : (conc.init n).inv := by
  refine ⟨⟨?_, ?_, ?_, ?_, ?_, ?_⟩, rfl, ?_⟩
  · intro k x hx; simp [conc.init, one_slot] at hx
  · intro k x hx; simp [conc.init, one_slot] at hx
  · intro k x hx; simp [conc.init, one_slot] at hx
  · intro k x hx; simp [conc.init, one_slot] at hx
  · intro s hs; simp at hs
  · intro s hs c hc
    simp only [conc.init, one_slot, List.mem_singleton] at hs
    rw [hs] at hc
    cases hc
  · intro τ hτ
    simp only [conc.init, List.mem_replicate] at hτ
    rw [hτ.2]
    apply idle_closed
    intro s hs
    simp at hs

/-- A cell with a handle of a thread: not destroyed, and its count is positive. -/
theorem count_of_stake {σ : conc} {τ : thread} {c : Nat} (hI : σ.inv) (hτ : τ ∈ σ.threads)
    (hc : c < σ.mem.nodes.length) (hs : 1 ≤ τ.stake c) :
    ∃ x, σ.mem.nodes[c]? = some x ∧ x.destroyed = 0 ∧ 1 ≤ x.count.count := by
  obtain ⟨x, hx, hd⟩ := live_of_stake hI hτ hc hs
  refine ⟨x, hx, hd, ?_⟩
  have hcnt := hI.led.cnt c x hx
  have h1 := sum_map_ge (fun τ : thread => τ.stake c) (fun a => stake_nonneg a c) σ.threads τ hτ
  have h2 := slot_count_nonneg σ.mem.head_buckets c
  simp only [handle_count_nil] at hcnt
  simp only at h1
  omega

/-- With the invariant, the step `guard.get_shared_ptr()` of a reader that holds a
reservation for cell `c` returns, and the cell then has a positive count. -/
theorem get_step_defined {σ : conc} {t : Nat} {hs : List shared_ptr} {val : counted_ptr}
    {c : Nat} (hI : σ.inv) (ht : σ.threads[t]? = some ⟨hs, .get val .load⟩)
    (hc : val.ptr = some c) (sp : Bool) :
    ∃ σ1, σ.step t (.go sp) = some σ1 ∧
      σ1.threads[t]? =
        some ⟨hs, .release val val (.done_load { header := some c, mark := false })⟩ ∧
      ∃ x1, σ1.mem.nodes[c]? = some x1 ∧ x1.destroyed = 0 ∧ 1 ≤ x1.count.count := by
  have hτ := List.getElem?_mem ht
  have hlt : t < σ.threads.length := (List.getElem?_eq_some_iff.mp ht).1
  obtain ⟨x, hx, hl⟩ := live_of_guard hI hτ (rfl : (pcs.get val .load).guard = some val) hc
  obtain ⟨h2, e2, hled, hh2, hl2⟩ := led_modify 1 0 hI.led hx hl
  have hne : ¬ (val.ptr = none) := by rw [hc]; simp
  have e3 : thread.step σ.mem ⟨hs, .get val .load⟩ (.go sp) =
      some (h2, ⟨hs, .release val val (.done_load { header := some c, mark := false })⟩) := by
    simp only [thread.step, shared_ptr.from_header, hc, e2, thread.begin_release]
    simp
  have hI1 := thread_step_inv hI ht e3
  have hg1 : (σ.threads.set t
      ⟨hs, .release val val (.done_load { header := some c, mark := false })⟩)[t]? =
      some ⟨hs, .release val val (.done_load { header := some c, mark := false })⟩ := by
    simp [hlt]
  have e4 : σ.step t (.go sp) = some ⟨h2, σ.threads.set t
      ⟨hs, .release val val (.done_load { header := some c, mark := false })⟩⟩ := by
    simp only [conc.step, ht, e3]
  refine ⟨_, e4, hg1, ?_⟩
  apply count_of_stake hI1 (List.getElem?_mem hg1)
  · show c < h2.nodes.length
    rw [hl2]
    exact (List.getElem?_eq_some_iff.mp hx).1
  · have := handle_count_nonneg hs c
    simp only [stake_mk, pcs.owned, rel_kont.owned, pcs.pending, ptr_ind, handle_count_cons,
      handle_count_nil, if_true]
    omega


/-- The invariant holds in every state that a schedule reaches from the start. -/
theorem reached_inv {n : Nat} {sched : List (Nat × act)} {σ : conc}
    (hrun : (conc.init n).run sched = some σ) : σ.inv :=
  conc_run_inv sched (conc_init_inv n) hrun

/-- C11: reservation safety of `load`. In every state that the atomic steps of any number
of threads, interleaved in any order (with weak compare-exchanges that may fail
spuriously), reach from an empty slot: if a thread is inside `load()` after the
compare-exchange of `acquire` has incremented the access count of the slot for cell `c`
and before its `modify_count(+1,0)` on the cell (in `get_shared_ptr()`), then cell `c` is
not destroyed; and that `modify_count(+1,0)` step returns and leaves the cell not
destroyed, with a positive count. -/
theorem reservation_safe (n : Nat) (sched : List (Nat × act)) (σ : conc)
    (hrun : (conc.init n).run sched = some σ) (t : Nat) (hs : List shared_ptr)
    (val : counted_ptr) (c : Nat)
    (ht : σ.threads[t]? = some ⟨hs, .get val .load⟩) (hc : val.ptr = some c) :
    (∃ x, σ.mem.nodes[c]? = some x ∧ x.destroyed = 0) ∧
    ∀ sp : Bool, ∃ σ1, σ.step t (.go sp) = some σ1 ∧
      ∃ x1, σ1.mem.nodes[c]? = some x1 ∧ x1.destroyed = 0 ∧ 1 ≤ x1.count.count := by
  have hI := reached_inv hrun
  refine ⟨live_of_guard hI (List.getElem?_mem ht) rfl hc, ?_⟩
  intro sp
  obtain ⟨σ1, e1, _, h1⟩ := get_step_defined hI ht hc sp
  exact ⟨σ1, e1, h1⟩

theorem reservation_safe_witness :
    (conc.init 2).run reader_schedule = some reader_reserved ∧
    (∃ x, reader_reserved.mem.nodes[0]? = some x ∧ x.destroyed = 0) ∧
    ∀ sp : Bool, ∃ σ1, reader_reserved.step 1 (.go sp) = some σ1 ∧
      ∃ x1, σ1.mem.nodes[0]? = some x1 ∧ x1.destroyed = 0 ∧ 1 ≤ x1.count.count :=
  ⟨by decide, reservation_safe 2 reader_schedule reader_reserved (by decide) 1 []
    ⟨1, false, some 0⟩ 0 (by decide) rfl⟩

/-- The schedule `reader_schedule`, evaluated: when the writer is through, the slot is
null and the pair of the cell is (0, 1), the reservation of the reader; after the reader
has its handle and has given up the reservation the pair is (1, 0); when the reader
resets its handle the pair is (0, 0) and the cell is destroyed. -/
theorem reader_schedule_evaluated :
    ((conc.init 2).run reader_schedule).map conc.summary =
      some ([{ access_count := 0, mark := false, ptr := none }], [(0, 1, 0)]) ∧
    ((conc.init 2).run (reader_schedule ++ reader_rest.take 3)).map conc.summary =
      some ([{ access_count := 0, mark := false, ptr := none }], [(1, 0, 0)]) ∧
    ((conc.init 2).run (reader_schedule ++ reader_rest)).map conc.summary =
      some ([{ access_count := 0, mark := false, ptr := none }], [(0, 0, 1)]) := by
  refine ⟨?_, ?_, ?_⟩
  · decide
  · decide
  · decide


end frd
